import Mathlib


/-! Reversi bitboard engine (`game/game.go`) and arbiter move check (`server/main.go`).

Shallow embedding of the Go sources.

* A `BitMap` (`[]uint64`) is a list of words; every word is a natural number below `2^64`.
  Operations that can overflow a `uint64` reduce modulo `2^64` explicitly.
* A Go run-time panic (index out of range, slice bounds out of range, negative shift count,
  explicit `panic(...)`) is modelled by `none`.
* `Boardlen`, `bitmapsz`, `unused_bits` and `discs` are natural numbers (the Go `int` values are
  non-negative and far below `2^63` for every board that can be allocated); positions and `Turn`
  are integers, as in the source, because `-1` (pass) and negative positions occur.
* A Go `string` is a Lean `String`, read through its list of characters. The strings that the
  engine parses are ASCII, where bytes and characters coincide; in a message of a client, which
  `str2move` indexes by byte, a character outside ASCII is no letter and no digit, and neither
  is any of its bytes.
-/

namespace Reversi

/-! ## Words -/

/-- Number of bits in a word: `INTSIZE = 64`. -/
def INTSIZE : Nat := 64

/-- Left shift of a `uint64`: `x << n`. -/
def shl64 (x n : Nat) : Nat := (x <<< n) % 2 ^ 64

/-- Subtraction of `uint64` values: `x - y` with wrap-around. -/
def sub64 (x y : Nat) : Nat := (x + 2 ^ 64 - y) % 2 ^ 64

/-- Bitwise complement of a `uint64`: `^x`. -/
def not64 (x : Nat) : Nat := x ^^^ (2 ^ 64 - 1)

/-- Mask `^((uint64(1) << k) - 1)`: ones everywhere except in the `k` low bits. -/
def highMask (k : Nat) : Nat := not64 (sub64 (shl64 1 k) 1)

/-- The constant `uint64(0x8000_0000_0000_0000)`. -/
def MSB : Nat := 0x8000000000000000

/-! ## Bitmaps -/

/-- A bitmap `[]uint64`. -/
abbrev BitMap := List Nat

/-- A position (`type Position int`); `-1` is pass. -/
abbrev Position := Int

/-- The board record of `game.go`. -/
structure Board where
  Turn : Int
  discs : Nat
  Boardlen : Nat
  bitmapsz : Nat
  unused_bits : Nat
  black : BitMap
  white : BitMap
  h_sentinel : BitMap
  v_sentinel : BitMap
  s_sentinel : BitMap
deriving DecidableEq

/-- The call `make(BitMap, n, n)`: `n` zero words. -/
def mkBitMap (n : Nat) : BitMap := List.replicate n 0

/-- The call `copy(c, a)` into a fresh `c := make(BitMap, n, n)`. -/
def copyInto (n : Nat) (a : BitMap) : BitMap := a.take n ++ List.replicate (n - a.length) 0

/-- The function `set_bit(a, pos)`: `a[pos / INTSIZE] |= MSB >> (pos % INTSIZE)`.
Go's `/` and `%` truncate toward zero; a negative or too large index panics, and so does a
negative shift count. -/
def set_bit (a : BitMap) (pos : Int) : Option BitMap :=
  let i := Int.tdiv pos 64
  let s := Int.tmod pos 64
  if 0 ≤ i ∧ i < a.length ∧ 0 ≤ s then
    some (a.set i.toNat (a.getD i.toNat 0 ||| (MSB >>> s.toNat)))
  else none

/-- The function `clear_bit(a, pos)`: `a[pos / INTSIZE] &= ^(MSB >> (pos % INTSIZE))`. -/
def clear_bit (a : BitMap) (pos : Int) : Option BitMap :=
  let i := Int.tdiv pos 64
  let s := Int.tmod pos 64
  if 0 ≤ i ∧ i < a.length ∧ 0 ≤ s then
    some (a.set i.toNat (a.getD i.toNat 0 &&& not64 (MSB >>> s.toNat)))
  else none

/-- The function `is_bit_on(bits, pos)`. -/
def is_bit_on (bits : BitMap) (pos : Int) : Option Bool :=
  let i := Int.tdiv pos 64
  let s := Int.tmod pos 64
  if 0 ≤ i ∧ i < bits.length ∧ 0 ≤ s then
    some (decide (bits.getD i.toNat 0 &&& (MSB >>> s.toNat) ≠ 0))
  else none

/-! ## Strings and numerals (`strconv`) -/

/-- Wrap-around of a Go `int` (64 bits, two's complement). -/
def wrap64 (x : Int) : Int := (x + 2 ^ 63) % 2 ^ 64 - 2 ^ 63

/-- The function `IsDigit` of `game.go`, on a byte. -/
def IsDigit (c : Char) : Bool := '0' ≤ c && c ≤ '9'

/-- The function `IsLetter` of `game.go`, on a byte. -/
def IsLetter (c : Char) : Bool := 'a' ≤ c && c ≤ 'z'

/-- Decimal digits of `n`, most significant first, pushed in front of `acc`; `fuel` bounds the
number of digits. -/
def digitsAux : Nat → Nat → List Char → List Char
  | 0, _, acc => acc
  | fuel + 1, n, acc =>
    if n / 10 = 0 then Char.ofNat (48 + n % 10) :: acc
    else digitsAux fuel (n / 10) (Char.ofNat (48 + n % 10) :: acc)

/-- Decimal numeral of a natural number. -/
def natDigits (n : Nat) : List Char := digitsAux (n + 1) n []

/-- The library function `strconv.Itoa`, as a list of characters. -/
def ItoaChars (i : Int) : List Char :=
  if i < 0 then '-' :: natDigits i.natAbs else natDigits i.toNat

/-- The library function `strconv.Itoa`. -/
def Itoa (i : Int) : String := String.mk (ItoaChars i)

/-- Value of a string of decimal digits. -/
def digitsValue (ds : List Char) : Nat := ds.foldl (fun v c => v * 10 + (c.toNat - 48)) 0

/-- The library function `strconv.Atoi` on a list of characters: the value and whether an error
is returned. An optional sign is followed by at least one digit and nothing else; a value that
does not fit an `int` is clamped and reported as an error; on a syntax error the value is `0`,
unless the digits before the offending character already overflow 64 bits. -/
def AtoiChars (s : List Char) : Int × Bool :=
  match s with
  | [] => (0, true)
  | c :: rest =>
    let neg := c == '-'
    let ds := if c == '-' || c == '+' then rest else s
    if ds.isEmpty then (0, true)
    else
      let pre := ds.takeWhile IsDigit
      let v := digitsValue pre
      let clamped : Int × Bool :=
        if neg then (if v > 2 ^ 63 then (-(2 ^ 63), true) else (-(v : Int), false))
        else (if v ≥ 2 ^ 63 then (2 ^ 63 - 1, true) else ((v : Int), false))
      if pre.length = ds.length then clamped
      else if v ≥ 2 ^ 64 then (clamped.1, true)
      else (0, true)

/-- The library function `strconv.Atoi`. -/
def Atoi (s : String) : Int × Bool := AtoiChars s.data

/-! ## Reading bitmaps (used to state the properties) -/

/-- Bit `p` of a bitmap: bit `63 - p % 64` of word `p / 64`, and `false` beyond the last word. -/
def bitAt (a : BitMap) (p : Nat) : Bool := (a.getD (p / 64) 0).testBit (63 - p % 64)

/-- Bit at an integer position; `false` at negative positions. -/
def bitZ (a : BitMap) (x : Int) : Bool := decide (0 ≤ x) && bitAt a x.toNat

/-- A bitmap made of `sz` words of 64 bits. -/
def Valid (sz : Nat) (a : BitMap) : Prop := a.length = sz ∧ ∀ i, a.getD i 0 < 2 ^ 64

/-- A bitmap of `sz` words with no bit set at a position `≥ n`. -/
def Clean (n sz : Nat) (a : BitMap) : Prop := Valid sz a ∧ ∀ p, n ≤ p → bitAt a p = false

/-- Cell `(r, c)` lies on the `N × N` board. -/
def onBoard (N : Nat) (r c : Int) : Prop := 0 ≤ r ∧ r < N ∧ 0 ≤ c ∧ c < N

instance (N : Nat) (r c : Int) : Decidable (onBoard N r c) :=
  inferInstanceAs (Decidable (0 ≤ r ∧ r < N ∧ 0 ≤ c ∧ c < N))

/-- Cell `(r, c)` lies on the board and `is_bit_on` finds its bit (position `r*N + c`) set. -/
def cellOn (N : Nat) (a : BitMap) (r c : Int) : Bool :=
  decide (onBoard N r c) && (is_bit_on a (r * N + c) == some true)

/-- Cell `(r, c)` lies on the board and its bit is set, read through `bitZ`. -/
def cellZ (N : Nat) (a : BitMap) (r c : Int) : Bool :=
  decide (onBoard N r c) && bitZ a (r * N + c)

/-- The eight directions `(dr, dc)`. -/
def dirs8 : List (Int × Int) :=
  [(1, 0), (-1, 0), (0, 1), (0, -1), (1, 1), (1, -1), (-1, 1), (-1, -1)]

/-- A run in direction `(dr, dc)`: the cells `(r + i*dr, c + i*dc)` for `i = 0..k` are on the
board and in `m`, and the cell after them is on the board and in `s`. -/
def IsRun (N : Nat) (m s : BitMap) (dr dc : Int) (k : Nat) (r c : Int) : Prop :=
  (∀ i : Nat, i ≤ k → cellZ N m (r + i * dr) (c + i * dc) = true) ∧
    cellZ N s (r + (k + 1) * dr) (c + (k + 1) * dc) = true

/-- From cell `(r, c)` in direction `(dr, dc)`: each of the next `k` cells is on the board and in
`op`, and the cell after them is on the board and in `my`. -/
def Brackets (N : Nat) (my op : BitMap) (r c dr dc : Int) (k : Nat) : Prop :=
  (∀ i : Nat, 1 ≤ i → i ≤ k → cellOn N op (r + i * dr) (c + i * dc) = true) ∧
    cellOn N my (r + (k + 1) * dr) (c + (k + 1) * dc) = true

/-- Cell `(r, c)` is not on the first or last row when the direction moves across rows, and not
on the first or last column when it moves across columns. -/
def Interior (N : Nat) (dr dc r c : Int) : Prop :=
  (dr ≠ 0 → 0 < r ∧ r + 1 < N) ∧ (dc ≠ 0 → 0 < c ∧ c + 1 < N)

/-- A shift of the board's bit vector by the offset `δ`: bit `x` of the result is bit `x + δ`
of the argument, for positions on the board, and the result has no bit elsewhere. -/
def ShiftOK (b : Board) (N : Nat) (shift : BitMap → Option BitMap) (δ : Int) : Prop :=
  ∀ a, Clean (N * N) b.bitmapsz a →
    ∃ r, shift a = some r ∧ Clean (N * N) b.bitmapsz r ∧
      ∀ x : Int, bitZ r x = (decide (0 ≤ x ∧ x < N * N) && bitZ a (x + δ))

/-- The dimensions that `NewBoard N` gives a board. -/
def Board.Sized (b : Board) (N : Nat) : Prop :=
  b.Boardlen = N ∧ b.bitmapsz = (N * N - 1) / 64 + 1 ∧ b.unused_bits = 64 * b.bitmapsz - N * N

namespace Board

/-- The method `OR`: word-wise `x[i] | y[i]` for `i < bitmapsz`. -/
def OR (b : Board) (x y : BitMap) : Option BitMap :=
  if b.bitmapsz ≤ x.length ∧ b.bitmapsz ≤ y.length then
    some ((List.range b.bitmapsz).map fun i => x.getD i 0 ||| y.getD i 0)
  else none

/-- The method `AND`: word-wise `x[i] & y[i]` for `i < bitmapsz`. -/
def AND (b : Board) (x y : BitMap) : Option BitMap :=
  if b.bitmapsz ≤ x.length ∧ b.bitmapsz ≤ y.length then
    some ((List.range b.bitmapsz).map fun i => x.getD i 0 &&& y.getD i 0)
  else none

/-- The method `NOT`: word-wise `^x[i]` for `i < bitmapsz`. -/
def NOT (b : Board) (x : BitMap) : Option BitMap :=
  if b.bitmapsz ≤ x.length then
    some ((List.range b.bitmapsz).map fun i => not64 (x.getD i 0))
  else none

/-- Carry loop of `SHR`, for `i` from `k` down to `1`:
`c[i] >>= n; c[i] |= (c[i-1] & ((1 << n) - 1)) << (INTSIZE - n)`. -/
def shr_loop (n : Nat) : Nat → BitMap → BitMap
  | 0, c => c
  | i + 1, c =>
    let ci := c.getD (i + 1) 0 >>> n
    let mask := sub64 (shl64 1 n) 1
    let data := shl64 (c.getD i 0 &&& mask) (64 - n)
    shr_loop n i (c.set (i + 1) (ci ||| data))

/-- Bit-shift part of `SHR` (everything after the word-granular move), for `n ≠ 0`. -/
def shr_bits (b : Board) (c : BitMap) (n : Nat) : Option BitMap :=
  if c.length = 0 then none
  else
    let c1 := shr_loop n (c.length - 1) c
    let c2 := c1.set 0 (c1.getD 0 0 >>> n)
    if b.unused_bits ≠ 0 then
      some (c2.set (c2.length - 1) (c2.getD (c2.length - 1) 0 &&& highMask b.unused_bits))
    else some c2

/-- The method `SHR(a, n)`. -/
def SHR (b : Board) (a : BitMap) (n : Nat) : Option BitMap :=
  let c := copyInto b.bitmapsz a
  if 64 ≤ n then
    let array_shift := n / 64
    let bit_shift := n % 64
    if c.length < array_shift then none
    else
      -- copy(c[array_shift:], c[:len(c)-array_shift])
      let c1 := c.take array_shift ++ c.take (c.length - array_shift)
      -- for i := 0; i < array_shift; i++ { c[i] = 0 }
      let c2 := List.replicate array_shift 0 ++ c1.drop array_shift
      if bit_shift = 0 then some c2 else shr_bits b c2 bit_shift
  else if n = 0 then none
  else shr_bits b c n

/-- Carry loop of `SHL`, for `i` from `i` up to `len(c) - 2` (`k` iterations left):
`c[i] <<= n; c[i] |= (c[i+1] & ^((1 << (INTSIZE-n)) - 1)) >> (INTSIZE - n)`. -/
def shl_loop (n : Nat) : Nat → Nat → BitMap → BitMap
  | 0, _, c => c
  | k + 1, i, c =>
    let ci := shl64 (c.getD i 0) n
    let mask := highMask (64 - n)
    let data := (c.getD (i + 1) 0 &&& mask) >>> (64 - n)
    shl_loop n k (i + 1) (c.set i (ci ||| data))

/-- Bit-shift part of `SHL` (everything after the word-granular move), for `n ≠ 0`. -/
def shl_bits (b : Board) (c : BitMap) (n : Nat) : Option BitMap :=
  if c.length = 0 then none
  else
    let c1 := shl_loop n (c.length - 1) 0 c
    let c2 :=
      if b.unused_bits ≠ 0 then
        c1.set (c1.length - 1) (c1.getD (c1.length - 1) 0 &&& highMask b.unused_bits)
      else c1
    some (c2.set (c2.length - 1) (shl64 (c2.getD (c2.length - 1) 0) n))

/-- The method `SHL(a, n)`. -/
def SHL (b : Board) (a : BitMap) (n : Nat) : Option BitMap :=
  let c := copyInto b.bitmapsz a
  if 64 ≤ n then
    let array_shift := n / 64
    let bit_shift := n % 64
    if c.length < array_shift then none
    else
      -- copy(c[:len(c)-array_shift], c[array_shift:])
      let c1 := c.drop array_shift ++ c.drop (c.length - array_shift)
      -- for i := len(c)-array_shift; i < len(c); i++ { c[i] = 0 }
      let c2 := c1.take (c.length - array_shift) ++ List.replicate array_shift 0
      if bit_shift = 0 then some c2 else shl_bits b c2 bit_shift
  else if n = 0 then none
  else shl_bits b c n

/-- The method `is_zero`. -/
def is_zero (_b : Board) (a : BitMap) : Bool := a.all fun w => w == 0

/-- The method `IsBlackTurn`. -/
def IsBlackTurn (b : Board) : Bool := b.Turn == 0

/-- The method `DiscNum`. -/
def DiscNum (b : Board) : Nat := b.discs

/-- The method `move2BitMap`. -/
def move2BitMap (b : Board) (mv : Position) : Option BitMap :=
  set_bit (mkBitMap b.bitmapsz) mv

/-- A Go loop `for i := 0; i < n; i++ { x = f(i, x) }` whose body may panic. -/
def forM : Nat → Nat → (Nat → α → Option α) → α → Option α
  | 0, _, _, x => some x
  | k + 1, i, f, x => (f i x).bind (forM k (i + 1) f)

/-- The method `mk_horizontal_sentinel`. -/
def mk_horizontal_sentinel (b : Board) : Option BitMap :=
  let bits := List.replicate b.bitmapsz (not64 0)
  forM b.Boardlen 0 (fun y bits =>
    (clear_bit bits ((y * b.Boardlen + 0 : Nat) : Int)).bind fun bits =>
      clear_bit bits ((y * b.Boardlen + b.Boardlen : Nat) - 1 : Int)) bits

/-- The method `mk_vertical_sentinel`. -/
def mk_vertical_sentinel (b : Board) : Option BitMap :=
  let bits := List.replicate b.bitmapsz (not64 0)
  forM b.Boardlen 0 (fun y bits =>
    (clear_bit bits ((0 * b.Boardlen + y : Nat) : Int)).bind fun bits =>
      clear_bit bits (((b.Boardlen : Int) - 1) * b.Boardlen + y)) bits

/-- The method `mk_sides_sentinel`. -/
def mk_sides_sentinel (b : Board) : Option BitMap :=
  let bits := List.replicate b.bitmapsz (not64 0)
  (forM b.Boardlen 0 (fun x bits =>
    (clear_bit bits ((x * b.Boardlen + 0 : Nat) : Int)).bind fun bits =>
      clear_bit bits ((x * b.Boardlen + b.Boardlen : Nat) - 1 : Int)) bits).bind fun bits =>
  forM b.Boardlen 0 (fun y bits =>
    (clear_bit bits ((0 * b.Boardlen + y : Nat) : Int)).bind fun bits =>
      clear_bit bits (((b.Boardlen : Int) - 1) * b.Boardlen + y)) bits

end Board

/-- The function `NewBoard(boardlen)`. -/
def NewBoard (boardlen : Nat) : Option Board :=
  let bitmapsz := (boardlen * boardlen - 1) / INTSIZE + 1
  let b : Board :=
    { Turn := 0
      discs := 0
      Boardlen := boardlen
      bitmapsz := bitmapsz
      unused_bits := INTSIZE * bitmapsz - boardlen * boardlen
      black := mkBitMap bitmapsz
      white := mkBitMap bitmapsz
      h_sentinel := []
      v_sentinel := []
      s_sentinel := [] }
  b.mk_horizontal_sentinel.bind fun h =>
  let b := { b with h_sentinel := h }
  b.mk_vertical_sentinel.bind fun v =>
  let b := { b with v_sentinel := v }
  b.mk_sides_sentinel.bind fun s =>
  some { b with s_sentinel := s }

/-- The board `b` has the dimensions and the sentinels that `NewBoard N` builds; its position
(`black`, `white`, `Turn`, `discs`) is free. -/
def Board.IsBoard (b : Board) (N : Nat) : Prop :=
  NewBoard N = some { b with
    Turn := 0, discs := 0, black := mkBitMap b.bitmapsz, white := mkBitMap b.bitmapsz }

instance (b : Board) (N : Nat) : Decidable (b.IsBoard N) :=
  inferInstanceAs (Decidable (NewBoard N = some _))

/-- A well-formed position on a board of size `N`: no disc beyond the board and no cell holding
both colours. -/
def Board.WF (b : Board) (N : Nat) : Prop :=
  b.IsBoard N ∧ Clean (N * N) b.bitmapsz b.black ∧ Clean (N * N) b.bitmapsz b.white ∧
    ∀ p, ¬ (bitAt b.black p = true ∧ bitAt b.white p = true)

/-- The 8×8 board as `NewBoard 8` builds it. -/
def emptyBoard8 : Board :=
  { Turn := 0, discs := 0, Boardlen := 8, bitmapsz := 1, unused_bits := 0,
    black := [0], white := [0],
    h_sentinel := [0x7e7e7e7e7e7e7e7e], v_sentinel := [0x00ffffffffffff00],
    s_sentinel := [0x007e7e7e7e7e7e00] }

/-- The 8×8 initial position: white on d4 (27) and e5 (36), black on e4 (28) and d5 (35),
black to move. -/
def initialBoard8 : Board :=
  { emptyBoard8 with discs := 4, black := [0x0000000810000000], white := [0x0000001008000000] }

/-- The bitmap of one colour: `black` when `isBlack`, `white` otherwise. -/
def Board.side (b : Board) (isBlack : Bool) : BitMap := if isBlack then b.black else b.white

/-- The bitmap of the side to move. -/
def Board.mover (b : Board) : BitMap := if b.Turn == 0 then b.black else b.white

/-- The bitmap of the side not to move. -/
def Board.opponent (b : Board) : BitMap := if b.Turn == 0 then b.white else b.black

namespace Board

/-- The loop `for i := 0; i < n; i++ { tmp = f(tmp) }` of the directional scans. -/
def iterM : Nat → (BitMap → Option BitMap) → BitMap → Option BitMap
  | 0, _, x => some x
  | k + 1, f, x => (f x).bind (iterM k f)

/-- One directional scan, the block repeated eight times in `LegalMovesBits` and `flip`:
`tmp = AND(mask, shift(seed)); for i := 0; i < Boardlen-3; i++ { tmp = OR(tmp, AND(mask, shift(tmp))) }`. -/
def scan (b : Board) (mask : BitMap) (shift : BitMap → Option BitMap) (seed : BitMap) :
    Option BitMap :=
  (shift seed).bind fun s =>
  (b.AND mask s).bind fun tmp =>
  iterM (b.Boardlen - 3)
    (fun tmp => (shift tmp).bind fun s => (b.AND mask s).bind fun m => b.OR tmp m) tmp

/-- The update `legals = OR(legals, AND(opens, shift(tmp)))`. -/
def collect (b : Board) (opens : BitMap) (shift : BitMap → Option BitMap)
    (legals tmp : BitMap) : Option BitMap :=
  (shift tmp).bind fun s => (b.AND opens s).bind fun m => b.OR legals m

/-- The method `LegalMovesBits(my_pos, op_pos)`. -/
def LegalMovesBits (b : Board) (my_pos op_pos : BitMap) : Option BitMap := do
  let some occupied := b.OR my_pos op_pos | none
  let some opens := b.NOT occupied | none
  let some mask_V := b.AND op_pos b.v_sentinel | none
  let some mask_H := b.AND op_pos b.h_sentinel | none
  let some mask_S := b.AND op_pos b.s_sentinel | none
  let shift_len_V := b.Boardlen
  let shift_len_H := 1
  let shift_len_DU := b.Boardlen - 1
  let shift_len_DD := b.Boardlen + 1
  let legals := mkBitMap b.bitmapsz
  -- UP
  let some tmp := b.scan mask_V (fun x => b.SHL x shift_len_V) my_pos | none
  let some legals := b.collect opens (fun x => b.SHL x shift_len_V) legals tmp | none
  -- DOWN
  let some tmp := b.scan mask_V (fun x => b.SHR x shift_len_V) my_pos | none
  let some legals := b.collect opens (fun x => b.SHR x shift_len_V) legals tmp | none
  -- RIGHT
  let some tmp := b.scan mask_H (fun x => b.SHR x shift_len_H) my_pos | none
  let some legals := b.collect opens (fun x => b.SHR x shift_len_H) legals tmp | none
  -- LEFT
  let some tmp := b.scan mask_H (fun x => b.SHL x shift_len_H) my_pos | none
  let some legals := b.collect opens (fun x => b.SHL x shift_len_H) legals tmp | none
  -- RIGHT UP
  let some tmp := b.scan mask_S (fun x => b.SHL x shift_len_DU) my_pos | none
  let some legals := b.collect opens (fun x => b.SHL x shift_len_DU) legals tmp | none
  -- LEFT DOWN
  let some tmp := b.scan mask_S (fun x => b.SHR x shift_len_DU) my_pos | none
  let some legals := b.collect opens (fun x => b.SHR x shift_len_DU) legals tmp | none
  -- RIGHT DOWN
  let some tmp := b.scan mask_S (fun x => b.SHR x shift_len_DD) my_pos | none
  let some legals := b.collect opens (fun x => b.SHR x shift_len_DD) legals tmp | none
  -- LEFT UP
  let some tmp := b.scan mask_S (fun x => b.SHL x shift_len_DD) my_pos | none
  let some legals := b.collect opens (fun x => b.SHL x shift_len_DD) legals tmp | none
  some legals

/-- The update of `flip`:
`if !is_zero(AND(my_pos, shift(tmp))) { flips = OR(flips, tmp) }`. -/
def bracket (b : Board) (my_pos : BitMap) (shift : BitMap → Option BitMap)
    (flips tmp : BitMap) : Option BitMap :=
  (shift tmp).bind fun s => (b.AND my_pos s).bind fun m =>
    if !b.is_zero m then b.OR flips tmp else some flips

/-- The method `flip(mv)`. -/
def flip (b : Board) (mv : Position) : Option BitMap := do
  let some move := b.move2BitMap mv | none
  let my_pos := copyInto b.bitmapsz (if b.IsBlackTurn then b.black else b.white)
  let op_pos := copyInto b.bitmapsz (if b.IsBlackTurn then b.white else b.black)
  let flips := mkBitMap b.bitmapsz
  let some mask_V := b.AND op_pos b.v_sentinel | none
  let some mask_H := b.AND op_pos b.h_sentinel | none
  let some mask_S := b.AND op_pos b.s_sentinel | none
  let shift_len_V := b.Boardlen
  let shift_len_H := 1
  let shift_len_DU := b.Boardlen - 1
  let shift_len_DD := b.Boardlen + 1
  -- UP
  let some tmp := b.scan mask_V (fun x => b.SHL x shift_len_V) move | none
  let some flips := b.bracket my_pos (fun x => b.SHL x shift_len_V) flips tmp | none
  -- DOWN
  let some tmp := b.scan mask_V (fun x => b.SHR x shift_len_V) move | none
  let some flips := b.bracket my_pos (fun x => b.SHR x shift_len_V) flips tmp | none
  -- RIGHT
  let some tmp := b.scan mask_H (fun x => b.SHR x shift_len_H) move | none
  let some flips := b.bracket my_pos (fun x => b.SHR x shift_len_H) flips tmp | none
  -- LEFT
  let some tmp := b.scan mask_H (fun x => b.SHL x shift_len_H) move | none
  let some flips := b.bracket my_pos (fun x => b.SHL x shift_len_H) flips tmp | none
  -- RIGHT UP
  let some tmp := b.scan mask_S (fun x => b.SHL x shift_len_DU) move | none
  let some flips := b.bracket my_pos (fun x => b.SHL x shift_len_DU) flips tmp | none
  -- LEFT DOWN
  let some tmp := b.scan mask_S (fun x => b.SHR x shift_len_DU) move | none
  let some flips := b.bracket my_pos (fun x => b.SHR x shift_len_DU) flips tmp | none
  -- RIGHT DOWN
  let some tmp := b.scan mask_S (fun x => b.SHR x shift_len_DD) move | none
  let some flips := b.bracket my_pos (fun x => b.SHR x shift_len_DD) flips tmp | none
  -- LEFT UP
  let some tmp := b.scan mask_S (fun x => b.SHL x shift_len_DD) move | none
  let some flips := b.bracket my_pos (fun x => b.SHL x shift_len_DD) flips tmp | none
  some flips

/-- The legal-move bitmap of the side to move, as computed at the head of `IsLegalMove` and
`LegalMoves`. -/
def moverLegals (b : Board) : Option BitMap :=
  if b.IsBlackTurn then b.LegalMovesBits b.black b.white
  else b.LegalMovesBits b.white b.black

/-- The method `IsLegalMove(mv)`. -/
def IsLegalMove (b : Board) (mv : Position) : Option Bool := do
  let some legals := b.moverLegals | none
  if mv ≠ -1 then
    let some move := b.move2BitMap mv | none
    let some hit := b.AND move legals | none
    if b.is_zero hit then some false else some true
  else
    if b.is_zero legals then some true else some false

/-- The method `LegalMoves()`: positions `x*INTSIZE + y` with bit `y` of word `x` set. -/
def LegalMoves (b : Board) : Option (List Position) := do
  let some legals := b.moverLegals | none
  if legals.length < b.bitmapsz then none
  else
    some ((List.range b.bitmapsz).flatMap fun x =>
      if legals.getD x 0 ≠ 0 then
        ((List.range INTSIZE).filter fun y => legals.getD x 0 &&& (MSB >>> y) ≠ 0).map
          fun y => ((x * INTSIZE + y : Nat) : Int)
      else [])

/-- The method `MoveUpdate(mv)`. -/
def MoveUpdate (b : Board) (mv : Position) : Option Board := do
  if mv ≠ -1 then
    let some move := b.move2BitMap mv | none
    let some flipped_discs := b.flip mv | none
    let some keep := b.NOT flipped_discs | none
    if b.IsBlackTurn then
      let some white := b.AND b.white keep | none
      let some black := b.OR b.black flipped_discs | none
      let some black := b.OR black move | none
      some { b with black := black, white := white, discs := b.discs + 1, Turn := 1 - b.Turn }
    else
      let some black := b.AND b.black keep | none
      let some white := b.OR b.white flipped_discs | none
      let some white := b.OR white move | none
      some { b with black := black, white := white, discs := b.discs + 1, Turn := 1 - b.Turn }
  else
    some { b with Turn := 1 - b.Turn }

/-- The method `duplicate`. -/
def duplicate (b : Board) : Board :=
  { b with black := copyInto b.bitmapsz b.black, white := copyInto b.bitmapsz b.white }

/-- The method `Move(mv)`: the update of `MoveUpdate` applied to a duplicate of the board. -/
def Move (b : Board) (mv : Position) : Option Board := b.duplicate.MoveUpdate mv

/-- The method `IsGameOver`. -/
def IsGameOver (b : Board) : Option Bool := do
  let some bits0 := b.LegalMovesBits b.black b.white | none
  if b.is_zero bits0 then
    let some bits1 := b.LegalMovesBits b.white b.black | none
    if b.is_zero bits1 then some true else some false
  else some false

end Board

/-- The function `PopCountUInt64`. -/
def PopCountUInt64 (i : Nat) : Nat :=
  let i := sub64 i ((i >>> 1) &&& 0x5555555555555555)
  let i := (((i >>> 2) &&& 0x3333333333333333) + (i &&& 0x3333333333333333)) % 2 ^ 64
  let i := (i + (i >>> 4)) % 2 ^ 64
  let i := i &&& 0x0f0f0f0f0f0f0f0f
  let i := (i * 0x0101010101010101) % 2 ^ 64
  i >>> 56

namespace Board

/-- The method `count_bits`. -/
def count_bits (_b : Board) (bits : BitMap) : Nat := (bits.map PopCountUInt64).sum

/-- The method `CountBlack`. -/
def CountBlack (b : Board) : Nat := b.count_bits b.black

/-- The method `CountWhite`. -/
def CountWhite (b : Board) : Nat := b.count_bits b.white

end Board

/-! ## Counting set bits (used to state and prove the properties) -/

/-- Number of set bits of a bitmap. -/
def countBits (a : BitMap) : Nat := (List.range (64 * a.length)).countP fun p => bitAt a p

/-- Number of set bits among the 8 low bits. -/
def pc8 (b : Nat) : Nat := (List.range 8).countP fun j => b.testBit j

/-- The constant made of `n` bytes equal to `c`. -/
def rep (c : Nat) : Nat → Nat
  | 0 => 0
  | n + 1 => 256 * rep c n + c

/-- First step of `PopCountUInt64`, with mask `m`: `i - ((i >> 1) & m)`. -/
def st1 (m x : Nat) : Nat := x - ((x >>> 1) &&& m)

/-- Second step of `PopCountUInt64`, with mask `m`: `((i >> 2) & m) + (i & m)`. -/
def st2 (m x : Nat) : Nat := ((x >>> 2) &&& m) + (x &&& m)

/-- Third and fourth steps of `PopCountUInt64`, with mask `m`: `(i + (i >> 4)) & m`. -/
def st3 (m x : Nat) : Nat := (x + (x >>> 4)) &&& m

/-- The bit counts of the `n` low bytes of `x`, one per byte. -/
def bytePop : Nat → Nat → Nat
  | 0, _ => 0
  | n + 1, x => 256 * bytePop n (x / 256) + pc8 (x % 256)

/-- The sum of the bit counts of the `n` low bytes of `x`. -/
def sumPop : Nat → Nat → Nat
  | 0, _ => 0
  | n + 1, x => pc8 (x % 256) + sumPop n (x / 256)

/-! ## SFEN -/

/-- The function `MakeInitialSFEN(boardlen)`; the arithmetic is that of Go's `int`, so the three
numbers wrap around at 64 bits. -/
def MakeInitialSFEN (boardlen : Nat) : String :=
  let n : Int := boardlen
  let sfen0 := Itoa (wrap64 (n * (Int.tdiv n 2 - 1) + (Int.tdiv n 2 - 1)))
  let sfen1 := "wb"
  let sfen2 := Itoa (wrap64 (n - 2))
  let sfen3 := "bw"
  let half := Int.tdiv (wrap64 (n + 1)) 2
  let sfen4 := Itoa (wrap64 (n * (half - 1) + half - 1))
  let sfen5 := " b"
  sfen0 ++ sfen1 ++ sfen2 ++ sfen3 ++ sfen4 ++ sfen5

/-- State of the parsing loop of `NewBoardSFEN`: the bitmaps, `pos`, `disc_count` and the part of
the string from index `i` on. -/
structure SfenState where
  black : BitMap
  white : BitMap
  pos : Int
  disc_count : Nat
  rest : List Char
deriving DecidableEq

/-- The loop `for pos < boardlen*boardlen && i < len(sfen)` of `NewBoardSFEN`; every iteration
consumes at least one character, so `fuel = len(sfen)` iterations are enough. -/
def sfenLoop (boardlen : Nat) : Nat → SfenState → Option SfenState
  | 0, st => some st
  | fuel + 1, st =>
    match st.rest with
    | [] => some st
    | c :: tl =>
      if st.pos < (boardlen : Int) * boardlen then
        if IsDigit c then
          let num := (AtoiChars (c :: tl.takeWhile IsDigit)).1
          sfenLoop boardlen fuel
            { st with pos := wrap64 (st.pos + num), rest := tl.dropWhile IsDigit }
        else if c = '/' then
          sfenLoop boardlen fuel { st with rest := tl }
        else if c = 'b' then
          match set_bit st.black st.pos with
          | none => none
          | some black =>
            sfenLoop boardlen fuel
              { st with black := black, pos := st.pos + 1, disc_count := st.disc_count + 1,
                        rest := tl }
        else if c = 'w' then
          match set_bit st.white st.pos with
          | none => none
          | some white =>
            sfenLoop boardlen fuel
              { st with white := white, pos := st.pos + 1, disc_count := st.disc_count + 1,
                        rest := tl }
        else
          sfenLoop boardlen fuel { st with rest := tl }
      else some st

/-- The scan for the side to move at the end of `NewBoardSFEN`: the first `b` or `w`. -/
def sfenTurn : List Char → Int → Int
  | [], turn => turn
  | c :: tl, turn => if c = 'b' then 0 else if c = 'w' then 1 else sfenTurn tl turn

/-- The function `NewBoardSFEN(boardlen, sfen)`. -/
def NewBoardSFEN (boardlen : Nat) (sfen : String) : Option Board := do
  let some b := NewBoard boardlen | none
  let some st := sfenLoop boardlen sfen.data.length
    { black := b.black, white := b.white, pos := 0, disc_count := 0, rest := sfen.data } | none
  let turn := if st.pos = (boardlen : Int) * boardlen then sfenTurn st.rest b.Turn else b.Turn
  some { b with black := st.black, white := st.white, Turn := turn, discs := st.disc_count }

namespace Board

/-- One iteration of the loop of `ToSFEN`, on the characters written so far and `space_count`. -/
def toSFENStep (b : Board) (pos : Nat) (acc : List Char × Nat) : Option (List Char × Nat) :=
  match is_bit_on b.black pos with
  | none => none
  | some true =>
    some ((if acc.2 ≠ 0 then acc.1 ++ ItoaChars acc.2 else acc.1) ++ ['b'], 0)
  | some false =>
    match is_bit_on b.white pos with
    | none => none
    | some true =>
      some ((if acc.2 ≠ 0 then acc.1 ++ ItoaChars acc.2 else acc.1) ++ ['w'], 0)
    | some false => some (acc.1, acc.2 + 1)

/-- The method `ToSFEN`. -/
def ToSFEN (b : Board) : Option String :=
  match forM (b.Boardlen * b.Boardlen) 0 b.toSFENStep ([], 0) with
  | none => none
  | some acc =>
    let sfen := if acc.2 ≠ 0 then acc.1 ++ ItoaChars acc.2 else acc.1
    some (String.mk (sfen ++ (if b.IsBlackTurn then [' ', 'b'] else [' ', 'w'])))

/-- The method `Position2Str(pos)`; a zero `Boardlen` is a division by zero. -/
def Position2Str (b : Board) (pos : Position) : Option String :=
  if b.Boardlen = 0 then none
  else
    let boardlen : Int := b.Boardlen
    let x := Itoa (Int.tdiv pos boardlen + 1)
    let yval := Int.tmod pos boardlen
    let digit0 := Int.tdiv yval 26
    let digit1 := Int.tmod yval 26
    let y := String.singleton (Char.ofNat ((97 + digit1) % 256).toNat)
    let y := if digit0 ≠ 0 then
        String.singleton (Char.ofNat ((97 + digit0 - 1) % 256).toNat) ++ y
      else y
    some (y ++ x)

end Board

/-- The characters that `ToSFEN` still writes when `k` cells are left, from position `p` on,
with `sc` empty cells pending, read through `bitAt`; `tail` is the side to move. -/
def encFrom (bl wh : BitMap) (tail : List Char) : Nat → Nat → Nat → List Char
  | 0, _, sc => (if sc ≠ 0 then natDigits sc else []) ++ tail
  | k + 1, p, sc =>
    if bitAt bl p then
      (if sc ≠ 0 then natDigits sc else []) ++ 'b' :: encFrom bl wh tail k (p + 1) 0
    else if bitAt wh p then
      (if sc ≠ 0 then natDigits sc else []) ++ 'w' :: encFrom bl wh tail k (p + 1) 0
    else encFrom bl wh tail k (p + 1) (sc + 1)

/-! ## The arbiter's move check (`server/main.go`) -/

/-- The game state codes (`GameStateCode`). -/
inductive GameStateCode where
  | Playing | BlackWin | WhiteWin | BlackIllegalMove | WhiteIllegalMove
  | BlackTimeout | WhiteTimeout | BlackDisconnected | WhiteDisconnected | Draw
deriving DecidableEq

/-- The record `GameState`: the code `s` and the detail `m`. -/
structure GameState where
  s : GameStateCode
  m : String
deriving DecidableEq

/-- The fields of `Game` that the arbiter step reads and writes: the recorded moves, the state
and the board. -/
structure Game where
  Moves : List String
  State : GameState
  Board : Board
deriving DecidableEq

/-- The predicate `unicode.IsSpace` used by `strings.TrimSpace`. -/
def isSpace (c : Char) : Bool :=
  let v := c.toNat
  (9 ≤ v && v ≤ 13) || v == 0x20 || v == 0x85 || v == 0xA0 || v == 0x1680 ||
    (0x2000 ≤ v && v ≤ 0x200A) || v == 0x2028 || v == 0x2029 || v == 0x202F || v == 0x205F ||
    v == 0x3000

/-- The library function `strings.TrimSpace`. -/
def TrimSpace (s : List Char) : List Char :=
  ((s.dropWhile isSpace).reverse.dropWhile isSpace).reverse

/-- The constant `unicode.MaxRune`. -/
def MaxRune : Int := 0x10FFFF

/-- The constant `unicode.UpperLower`: the delta of a range in which upper and lower case
alternate. -/
def UpperLower : Int := MaxRune + 1

/-- An entry of the table `unicode.CaseRanges`: the range `Lo .. Hi` of code points and its delta
for `LowerCase`. -/
structure CaseRange where
  Lo : Nat
  Hi : Nat
  Delta : Int

/-- The table `unicode.CaseRanges` of the Go library (Unicode 15.0.0) as `unicode.ToLower` reads
it: in ascending order, the ranges above ASCII whose delta for `LowerCase` is not 0, with that
delta. Every other code point is its own lower case. -/
def CaseRanges : List CaseRange :=
  [CaseRange.mk 0x00C0 0x00D6 32, CaseRange.mk 0x00D8 0x00DE 32,
   CaseRange.mk 0x0100 0x012F UpperLower, CaseRange.mk 0x0130 0x0130 (-199),
   CaseRange.mk 0x0132 0x0137 UpperLower, CaseRange.mk 0x0139 0x0148 UpperLower,
   CaseRange.mk 0x014A 0x0177 UpperLower, CaseRange.mk 0x0178 0x0178 (-121),
   CaseRange.mk 0x0179 0x017E UpperLower, CaseRange.mk 0x0181 0x0181 210,
   CaseRange.mk 0x0182 0x0185 UpperLower, CaseRange.mk 0x0186 0x0186 206,
   CaseRange.mk 0x0187 0x0188 UpperLower, CaseRange.mk 0x0189 0x018A 205,
   CaseRange.mk 0x018B 0x018C UpperLower, CaseRange.mk 0x018E 0x018E 79,
   CaseRange.mk 0x018F 0x018F 202, CaseRange.mk 0x0190 0x0190 203,
   CaseRange.mk 0x0191 0x0192 UpperLower, CaseRange.mk 0x0193 0x0193 205,
   CaseRange.mk 0x0194 0x0194 207, CaseRange.mk 0x0196 0x0196 211, CaseRange.mk 0x0197 0x0197 209,
   CaseRange.mk 0x0198 0x0199 UpperLower, CaseRange.mk 0x019C 0x019C 211,
   CaseRange.mk 0x019D 0x019D 213, CaseRange.mk 0x019F 0x019F 214,
   CaseRange.mk 0x01A0 0x01A5 UpperLower, CaseRange.mk 0x01A6 0x01A6 218,
   CaseRange.mk 0x01A7 0x01A8 UpperLower, CaseRange.mk 0x01A9 0x01A9 218,
   CaseRange.mk 0x01AC 0x01AD UpperLower, CaseRange.mk 0x01AE 0x01AE 218,
   CaseRange.mk 0x01AF 0x01B0 UpperLower, CaseRange.mk 0x01B1 0x01B2 217,
   CaseRange.mk 0x01B3 0x01B6 UpperLower, CaseRange.mk 0x01B7 0x01B7 219,
   CaseRange.mk 0x01B8 0x01B9 UpperLower, CaseRange.mk 0x01BC 0x01BD UpperLower,
   CaseRange.mk 0x01C4 0x01C4 2, CaseRange.mk 0x01C5 0x01C5 1, CaseRange.mk 0x01C7 0x01C7 2,
   CaseRange.mk 0x01C8 0x01C8 1, CaseRange.mk 0x01CA 0x01CA 2, CaseRange.mk 0x01CB 0x01CB 1,
   CaseRange.mk 0x01CD 0x01DC UpperLower, CaseRange.mk 0x01DE 0x01EF UpperLower,
   CaseRange.mk 0x01F1 0x01F1 2, CaseRange.mk 0x01F2 0x01F2 1,
   CaseRange.mk 0x01F4 0x01F5 UpperLower, CaseRange.mk 0x01F6 0x01F6 (-97),
   CaseRange.mk 0x01F7 0x01F7 (-56), CaseRange.mk 0x01F8 0x021F UpperLower,
   CaseRange.mk 0x0220 0x0220 (-130), CaseRange.mk 0x0222 0x0233 UpperLower,
   CaseRange.mk 0x023A 0x023A 10795, CaseRange.mk 0x023B 0x023C UpperLower,
   CaseRange.mk 0x023D 0x023D (-163), CaseRange.mk 0x023E 0x023E 10792,
   CaseRange.mk 0x0241 0x0242 UpperLower, CaseRange.mk 0x0243 0x0243 (-195),
   CaseRange.mk 0x0244 0x0244 69, CaseRange.mk 0x0245 0x0245 71,
   CaseRange.mk 0x0246 0x024F UpperLower, CaseRange.mk 0x0370 0x0373 UpperLower,
   CaseRange.mk 0x0376 0x0377 UpperLower, CaseRange.mk 0x037F 0x037F 116,
   CaseRange.mk 0x0386 0x0386 38, CaseRange.mk 0x0388 0x038A 37, CaseRange.mk 0x038C 0x038C 64,
   CaseRange.mk 0x038E 0x038F 63, CaseRange.mk 0x0391 0x03A1 32, CaseRange.mk 0x03A3 0x03AB 32,
   CaseRange.mk 0x03CF 0x03CF 8, CaseRange.mk 0x03D8 0x03EF UpperLower,
   CaseRange.mk 0x03F4 0x03F4 (-60), CaseRange.mk 0x03F7 0x03F8 UpperLower,
   CaseRange.mk 0x03F9 0x03F9 (-7), CaseRange.mk 0x03FA 0x03FB UpperLower,
   CaseRange.mk 0x03FD 0x03FF (-130), CaseRange.mk 0x0400 0x040F 80, CaseRange.mk 0x0410 0x042F 32,
   CaseRange.mk 0x0460 0x0481 UpperLower, CaseRange.mk 0x048A 0x04BF UpperLower,
   CaseRange.mk 0x04C0 0x04C0 15, CaseRange.mk 0x04C1 0x04CE UpperLower,
   CaseRange.mk 0x04D0 0x052F UpperLower, CaseRange.mk 0x0531 0x0556 48,
   CaseRange.mk 0x10A0 0x10C5 7264, CaseRange.mk 0x10C7 0x10C7 7264,
   CaseRange.mk 0x10CD 0x10CD 7264, CaseRange.mk 0x13A0 0x13EF 38864, CaseRange.mk 0x13F0 0x13F5 8,
   CaseRange.mk 0x1C90 0x1CBA (-3008), CaseRange.mk 0x1CBD 0x1CBF (-3008),
   CaseRange.mk 0x1E00 0x1E95 UpperLower, CaseRange.mk 0x1E9E 0x1E9E (-7615),
   CaseRange.mk 0x1EA0 0x1EFF UpperLower, CaseRange.mk 0x1F08 0x1F0F (-8),
   CaseRange.mk 0x1F18 0x1F1D (-8), CaseRange.mk 0x1F28 0x1F2F (-8),
   CaseRange.mk 0x1F38 0x1F3F (-8), CaseRange.mk 0x1F48 0x1F4D (-8),
   CaseRange.mk 0x1F59 0x1F59 (-8), CaseRange.mk 0x1F5B 0x1F5B (-8),
   CaseRange.mk 0x1F5D 0x1F5D (-8), CaseRange.mk 0x1F5F 0x1F5F (-8),
   CaseRange.mk 0x1F68 0x1F6F (-8), CaseRange.mk 0x1F88 0x1F8F (-8),
   CaseRange.mk 0x1F98 0x1F9F (-8), CaseRange.mk 0x1FA8 0x1FAF (-8),
   CaseRange.mk 0x1FB8 0x1FB9 (-8), CaseRange.mk 0x1FBA 0x1FBB (-74),
   CaseRange.mk 0x1FBC 0x1FBC (-9), CaseRange.mk 0x1FC8 0x1FCB (-86),
   CaseRange.mk 0x1FCC 0x1FCC (-9), CaseRange.mk 0x1FD8 0x1FD9 (-8),
   CaseRange.mk 0x1FDA 0x1FDB (-100), CaseRange.mk 0x1FE8 0x1FE9 (-8),
   CaseRange.mk 0x1FEA 0x1FEB (-112), CaseRange.mk 0x1FEC 0x1FEC (-7),
   CaseRange.mk 0x1FF8 0x1FF9 (-128), CaseRange.mk 0x1FFA 0x1FFB (-126),
   CaseRange.mk 0x1FFC 0x1FFC (-9), CaseRange.mk 0x2126 0x2126 (-7517),
   CaseRange.mk 0x212A 0x212A (-8383), CaseRange.mk 0x212B 0x212B (-8262),
   CaseRange.mk 0x2132 0x2132 28, CaseRange.mk 0x2160 0x216F 16,
   CaseRange.mk 0x2183 0x2184 UpperLower, CaseRange.mk 0x24B6 0x24CF 26,
   CaseRange.mk 0x2C00 0x2C2F 48, CaseRange.mk 0x2C60 0x2C61 UpperLower,
   CaseRange.mk 0x2C62 0x2C62 (-10743), CaseRange.mk 0x2C63 0x2C63 (-3814),
   CaseRange.mk 0x2C64 0x2C64 (-10727), CaseRange.mk 0x2C67 0x2C6C UpperLower,
   CaseRange.mk 0x2C6D 0x2C6D (-10780), CaseRange.mk 0x2C6E 0x2C6E (-10749),
   CaseRange.mk 0x2C6F 0x2C6F (-10783), CaseRange.mk 0x2C70 0x2C70 (-10782),
   CaseRange.mk 0x2C72 0x2C73 UpperLower, CaseRange.mk 0x2C75 0x2C76 UpperLower,
   CaseRange.mk 0x2C7E 0x2C7F (-10815), CaseRange.mk 0x2C80 0x2CE3 UpperLower,
   CaseRange.mk 0x2CEB 0x2CEE UpperLower, CaseRange.mk 0x2CF2 0x2CF3 UpperLower,
   CaseRange.mk 0xA640 0xA66D UpperLower, CaseRange.mk 0xA680 0xA69B UpperLower,
   CaseRange.mk 0xA722 0xA72F UpperLower, CaseRange.mk 0xA732 0xA76F UpperLower,
   CaseRange.mk 0xA779 0xA77C UpperLower, CaseRange.mk 0xA77D 0xA77D (-35332),
   CaseRange.mk 0xA77E 0xA787 UpperLower, CaseRange.mk 0xA78B 0xA78C UpperLower,
   CaseRange.mk 0xA78D 0xA78D (-42280), CaseRange.mk 0xA790 0xA793 UpperLower,
   CaseRange.mk 0xA796 0xA7A9 UpperLower, CaseRange.mk 0xA7AA 0xA7AA (-42308),
   CaseRange.mk 0xA7AB 0xA7AB (-42319), CaseRange.mk 0xA7AC 0xA7AC (-42315),
   CaseRange.mk 0xA7AD 0xA7AD (-42305), CaseRange.mk 0xA7AE 0xA7AE (-42308),
   CaseRange.mk 0xA7B0 0xA7B0 (-42258), CaseRange.mk 0xA7B1 0xA7B1 (-42282),
   CaseRange.mk 0xA7B2 0xA7B2 (-42261), CaseRange.mk 0xA7B3 0xA7B3 928,
   CaseRange.mk 0xA7B4 0xA7C3 UpperLower, CaseRange.mk 0xA7C4 0xA7C4 (-48),
   CaseRange.mk 0xA7C5 0xA7C5 (-42307), CaseRange.mk 0xA7C6 0xA7C6 (-35384),
   CaseRange.mk 0xA7C7 0xA7CA UpperLower, CaseRange.mk 0xA7D0 0xA7D1 UpperLower,
   CaseRange.mk 0xA7D6 0xA7D9 UpperLower, CaseRange.mk 0xA7F5 0xA7F6 UpperLower,
   CaseRange.mk 0xFF21 0xFF3A 32, CaseRange.mk 0x10400 0x10427 40, CaseRange.mk 0x104B0 0x104D3 40,
   CaseRange.mk 0x10570 0x1057A 39, CaseRange.mk 0x1057C 0x1058A 39,
   CaseRange.mk 0x1058C 0x10592 39, CaseRange.mk 0x10594 0x10595 39,
   CaseRange.mk 0x10C80 0x10CB2 64, CaseRange.mk 0x118A0 0x118BF 32,
   CaseRange.mk 0x16E40 0x16E5F 32, CaseRange.mk 0x1E900 0x1E921 34]

/-- The library function `unicode.to` for `LowerCase`: the range that holds `r` gives the result,
`r` plus the delta, or `Lo + ((r - Lo) &^ 1 | 1)` in a range of alternating cases; a code point in
no range is returned as it is. -/
def unicodeTo (r : Nat) : List CaseRange → Nat
  | [] => r
  | cr :: rest =>
    if cr.Lo ≤ r ∧ r ≤ cr.Hi then
      if cr.Delta > MaxRune then cr.Lo + ((r - cr.Lo) / 2 * 2 ||| 1)
      else (r + cr.Delta).toNat
    else unicodeTo r rest

/-- The library function `unicode.ToLower` on a code point. -/
def unicodeToLower (r : Nat) : Nat :=
  if r ≤ 0x7F then (if 65 ≤ r ∧ r ≤ 90 then r + 32 else r)
  else unicodeTo r CaseRanges

/-- The library function `unicode.ToLower` on a character. -/
def toLowerChar (c : Char) : Char := Char.ofNat (unicodeToLower c.toNat)

/-- The library function `strings.ToLower`: every character is mapped by
`unicode.ToLower`. -/
def ToLower (s : List Char) : List Char := s.map toLowerChar

/-- The function `letter2int`: `int(c - byte('a'))`, in byte arithmetic. -/
def letter2int (c : Char) : Int := ((c.toNat + 256 - 97) % 256 : Nat)

/-- The method `str2move(msg)`: the position, the move string and the error, if any. The
position `(x-1) * Boardlen + y` is computed in Go's `int`, so it wraps around at 64 bits. -/
def str2move (boardlen : Nat) (msg : String) : Int × String × Option String :=
  let move := ToLower (TrimSpace msg.data)
  let length := (String.mk move).utf8ByteSize
  if length < 2 then (0, "", some "empty move")
  else if String.mk move = "pass" then (-1, "pass", none)
  else
    match move with
    | c0 :: c1 :: rest =>
      if !IsLetter c0 then (0, String.mk move, some "wrong format move")
      else
        let yx : Int × (Int × Bool) :=
          if IsLetter c1 then (letter2int c0 * 26 + letter2int c1, AtoiChars rest)
          else (letter2int c0, AtoiChars (c1 :: rest))
        if yx.2.2 then (0, String.mk move, some "strconv.Atoi: parsing error")
        else (wrap64 ((yx.2.1 - 1) * boardlen + yx.1), String.mk move, none)
    | _ => (0, String.mk move, some "wrong format move")

namespace Game

/-- The method `check_and_move(pos)`: the game after the call and whether the error
`illegal move` is returned. -/
def check_and_move (g : Game) (pos : Int) : Option (Game × Bool) := do
  let some legal := g.Board.IsLegalMove pos | none
  if legal then
    let some b := g.Board.MoveUpdate pos | none
    some ({ g with Board := b }, false)
  else some (g, true)

/-- The method `check_and_move_old(pos)`, the earlier version kept in the source: it looks the
position up in the list returned by `LegalMoves`. -/
def check_and_move_old (g : Game) (pos : Int) : Option (Game × Bool) := do
  let some lms := g.Board.LegalMoves | none
  if lms.length = 0 then
    if pos = -1 then
      let some b := g.Board.MoveUpdate pos | none
      some ({ g with Board := b }, false)
    else some (g, true)
  else if lms.contains pos then
    let some b := g.Board.MoveUpdate pos | none
    some ({ g with Board := b }, false)
  else some (g, true)

/-- The state set when the player to move loses by an illegal move. -/
def illegalState (g : Game) (msg : String) : GameState :=
  { s := if g.Board.IsBlackTurn then GameStateCode.BlackIllegalMove
         else GameStateCode.WhiteIllegalMove,
    m := msg }

/-- The function `send_req_get_resp` from the point where the reply has been read: `none` is a
read failure, `some msg` is the `Message` field of the decoded reply. -/
def send_req_get_resp (g : Game) (reply : Option String) : Option Game :=
  match reply with
  | none =>
    some { g with State := { g.State with
      s := if g.Board.IsBlackTurn then GameStateCode.BlackTimeout
           else GameStateCode.WhiteTimeout } }
  | some msg =>
    match str2move g.Board.Boardlen msg with
    | (_, _, some _) => some { g with State := g.illegalState msg }
    | (pos, mv, none) =>
      let g := { g with Moves := g.Moves ++ [mv] }
      match g.check_and_move pos with
      | none => none
      | some (g, true) => some { g with State := g.illegalState msg }
      | some (g, false) =>
        match g.Board.IsGameOver with
        | none => none
        | some false => some g
        | some true =>
          let n_black := g.Board.CountBlack
          let n_white := g.Board.CountWhite
          let code :=
            if n_black > n_white then GameStateCode.BlackWin
            else if n_black = n_white then GameStateCode.Draw
            else GameStateCode.WhiteWin
          some { g with State :=
            { s := code, m := Itoa n_black ++ "/" ++ Itoa n_white } }

end Game

/-- A game on the 8×8 initial position, no move recorded, state `Playing`. -/
def initialGame8 : Game :=
  { Moves := [], State := { s := GameStateCode.Playing, m := "" }, Board := initialBoard8 }

end Reversi


namespace Reversi

/-! ## The server (`server/main.go`): state strings, replies, sessions, lobby, pairing -/

/-- The value `int(s)` of a state code (`iota` order of the constants). -/
def GameStateCode.toNat : GameStateCode → Nat
  | .Playing => 0
  | .BlackWin => 1
  | .WhiteWin => 2
  | .BlackIllegalMove => 3
  | .WhiteIllegalMove => 4
  | .BlackTimeout => 5
  | .WhiteTimeout => 6
  | .BlackDisconnected => 7
  | .WhiteDisconnected => 8
  | .Draw => 9

/-- The table `msg_list` of `gamestate2str`. -/
def msg_list : List String :=
  ["playing", "black win", "white win", "black illegal move", "white illegal move",
   "black timeout", "white timeout", "black disconnected", "white disconnected", "draw"]

/-- The function `gamestate2str`; an index outside `msg_list` would be a run-time panic. -/
def gamestate2str (g : Game) : Option String :=
  match msg_list.get? g.State.s.toNat with
  | none => none
  | some name =>
    if g.State.s = GameStateCode.BlackWin ∨ g.State.s = GameStateCode.WhiteWin ∨
        g.State.s = GameStateCode.Draw then
      some (name ++ " " ++ g.State.m)
    else if g.State.s = GameStateCode.BlackIllegalMove ∨
        g.State.s = GameStateCode.WhiteIllegalMove then
      some (name ++ " \"" ++ g.State.m ++ "\"")
    else some name

/-- The method `is_gameover`. -/
def Game.is_gameover (g : Game) : Bool := g.State.s ≠ GameStateCode.Playing

/-- The function `mk_game`, for the fields of `Game` that are modelled. -/
def mk_game (b : Board) : Game :=
  { Moves := [], State := { s := GameStateCode.Playing, m := "" }, Board := b }

/-- The record `UserMessage`. -/
structure UserMessage where
  Message : String
deriving DecidableEq

/-- What the library call `json.Unmarshal(line, &r)` does with a line, `r` being a zero
`UserMessage` (an input of the model, the line is decoded by the library):
* `syntaxError`: the line is not valid JSON; an error is returned and `r` is left untouched;
* `typeError`: the line is valid JSON but a value does not fit its field; an error is returned,
  and `r` holds what was stored;
* `ok`: no error, `r` holds what was stored (`Message` stays empty when no key matches). -/
inductive Unmarshal where
  | syntaxError
  | typeError (r : UserMessage)
  | ok (r : UserMessage)
deriving DecidableEq

/-- The `UserMessage` after `json.Unmarshal`. -/
def Unmarshal.value : Unmarshal → UserMessage
  | .syntaxError => { Message := "" }
  | .typeError r => r
  | .ok r => r

/-- Whether `json.Unmarshal` returns an error. -/
def Unmarshal.err : Unmarshal → Bool
  | .syntaxError => true
  | .typeError _ => true
  | .ok _ => false

/-- What `ReadlineTO` returns: an error (the deadline passed, or any other failure of the
connection), or a line, given with what `json.Unmarshal` does with it. -/
inductive ReadResult where
  | timeout
  | ioError
  | line (raw : String) (u : Unmarshal)
deriving DecidableEq

/-- The function `json2msg`: the decoded message, the error of `json.Unmarshal` is dropped. -/
def json2msg (u : Unmarshal) : UserMessage := u.value

/-- The function `send_req_get_resp` from the result of `ReadlineTO` on. -/
def Game.send_req_get_resp_read (g : Game) (r : ReadResult) : Option Game :=
  match r with
  | .timeout => g.send_req_get_resp none
  | .ioError => g.send_req_get_resp none
  | .line _ u => g.send_req_get_resp (some (json2msg u).Message)

/-- The loop of `do_game`, run on the reads of the two players in the order in which they are
made: it stops when the game is over; when the reads are used up, the game as played so far is
returned. -/
def do_game_loop : List ReadResult → Game → Option Game
  | [], g => some g
  | r :: rs, g =>
    match g.send_req_get_resp_read r with
    | none => none
    | some g => if g.is_gameover then some g else do_game_loop rs g

/-- Upper-casing of one character as far as a comparison with an ASCII word can observe it: the
ASCII small letters and the two other characters whose upper case is an ASCII letter (U+0131,
U+017F); every other character is kept. -/
def toUpperChar (c : Char) : Char :=
  if 'a' ≤ c ∧ c ≤ 'z' then Char.ofNat (c.toNat - 32)
  else if c.toNat = 0x0131 then 'I'
  else if c.toNat = 0x017F then 'S'
  else c

/-- The library function `strings.ToUpper`. -/
def ToUpper (s : List Char) : List Char := s.map toUpperChar

/-- The constants of `UserState`. -/
inductive UserState where
  | logout | login | chaperone | ready | playing
deriving DecidableEq

/-- The fields of `User` that the session logic reads and writes. A session is identified by its
`Userid`, the key under which it sits in the lobby. -/
structure User where
  Userid : String
  Chaperone_time : Int
  State : UserState
deriving DecidableEq

/-- The record `Lobby`: the sessions of `queue`, in the order in which a `range` over the map
visits them. -/
abbrev Lobby := List User

/-- The statement `delete(l.queue, userid)`. -/
def Lobby.delete (l : Lobby) (userid : String) : Lobby := l.filter fun v => v.Userid ≠ userid

/-- A write to a field of the session `u`, seen from the lobby, which holds a pointer to it. -/
def Lobby.store (l : Lobby) (u : User) : Lobby :=
  l.map fun v => if v.Userid = u.Userid then u else v

/-- The method `Logout`: the session and the lobby after the call. -/
def User.Logout (u : User) (l : Lobby) : User × Lobby :=
  ({ u with State := UserState.logout }, l.delete u.Userid)

/-- The loop of `send_result`, from the read number `i` on, with the counter `n_wrong_msg`;
`fuel` bounds the number of iterations. -/
def send_result_loop (u : User) (l : Lobby) (reads : Nat → ReadResult) :
    Nat → Nat → Nat → Option (User × Lobby)
  | 0, _, _ => none
  | fuel + 1, i, n_wrong_msg =>
    match reads i with
    | .timeout => some (u.Logout l)
    | .ioError => some (u.Logout l)
    | .line _ um =>
      if um.err then some (u.Logout l)
      else if String.mk (ToUpper um.value.Message.data) = "RESULTOK" then
        some ({ u with State := UserState.login }, l.store { u with State := UserState.login })
      else if n_wrong_msg = 0 then send_result_loop u l reads fuel (i + 1) (n_wrong_msg + 1)
      else some (u.Logout l)

/-- The function `send_result`, after `RESULT` has been written: `reads i` is what the read
number `i` returns. The loop ends within two iterations. -/
def send_result (u : User) (_g : Game) (l : Lobby) (reads : Nat → ReadResult) :
    Option (User × Lobby) :=
  send_result_loop u l reads 2 0 0

/-- The function `do_game` without the database record and the ratings: the game is played on
the reads `plays`, then each player goes through `send_result` (the two calls run side by side
in the source; they write to different sessions). The result is `none` when the code fails at
run time or when `plays` ends before the game does. -/
def do_game (u0 u1 : User) (l : Lobby) (boardlen : Nat) (plays : List ReadResult)
    (res0 res1 : Nat → ReadResult) : Option (Game × User × User × Lobby) := do
  let some b := NewBoardSFEN boardlen (MakeInitialSFEN boardlen) | none
  let some g := do_game_loop plays (mk_game b) | none
  if !g.is_gameover then none
  else
    let some (u0, l) := send_result u0 g l res0 | none
    let some (u1, l) := send_result u1 g l res1 | none
    some (g, u0, u1, l)

/-- The pairs `(rusers[i], rusers[i+1])` for `i = 0, 2, 4, ...` that the pairing loop turns into
games; both sessions are set to `playing`. -/
def start_games : List User → List (User × User)
  | u0 :: u1 :: rest =>
    ({ u0 with State := UserState.playing }, { u1 with State := UserState.playing }) ::
      start_games rest
  | _ => []

/-- The sessions that play in the games started, in the order of the games. -/
def game_players (games : List (User × User)) : List User := games.flatMap fun p => [p.1, p.2]

/-- One turn of the main loop of `main`, without the log: the lobby is scanned (a session in
state `login` goes to `chaperone`, the sessions in state `ready` are collected), and when more
than one is ready they are paired. `sort` is the call of `sort.Slice` and `shuffle` the call of
`rand.Shuffle` on the first `num_rusers` sessions. Returns the lobby, the sessions handed to
`do_chaperone` and the games started. -/
def pairing_tick (sort shuffle : List User → List User) (l : Lobby) :
    Lobby × List User × List (User × User) :=
  let chaperoned := (l.filter fun u => u.State = UserState.login).map
    fun u => { u with State := UserState.chaperone }
  let rusers := l.filter fun u => u.State = UserState.ready
  let l := l.map fun u =>
    if u.State = UserState.login then { u with State := UserState.chaperone } else u
  let num_rusers := rusers.length
  if num_rusers > 1 then
    let sorted := if num_rusers % 2 = 1 then sort rusers else rusers
    let num_rusers := if num_rusers % 2 = 1 then num_rusers - 1 else num_rusers
    let shuffled := shuffle (sorted.take num_rusers) ++ sorted.drop num_rusers
    let games := start_games (shuffled.take num_rusers)
    let paired : List String := (shuffled.take num_rusers).map fun u => u.Userid
    (l.map fun u => if u.Userid ∈ paired then { u with State := UserState.playing } else u,
      chaperoned, games)
  else (l, chaperoned, [])

/-- Insertion of a session into a list sorted by `Chaperone_time`. -/
def insertByTime (u : User) : List User → List User
  | [] => [u]
  | v :: vs => if u.Chaperone_time < v.Chaperone_time then u :: v :: vs
               else v :: insertByTime u vs

/-- A sort by `Chaperone_time`, one of the outcomes that `sort.Slice` can have. -/
def sortByTime : List User → List User
  | [] => []
  | u :: us => insertByTime u (sortByTime us)

/-- An 8×8 position in which black has no move and white has one: white on a1, black on b1,
black to move. -/
def passBoard8 : Board :=
  { emptyBoard8 with discs := 2, black := [0x4000000000000000], white := [0x8000000000000000] }

/-- A game on `passBoard8`, no move recorded, state `Playing`. -/
def passGame8 : Game :=
  { Moves := [], State := { s := GameStateCode.Playing, m := "" }, Board := passBoard8 }

/-- An 8×8 position one move from the end: black on a1, white on b1, black to move; after
black plays c1 no white disc is left. -/
def endBoard8 : Board :=
  { emptyBoard8 with discs := 2, black := [0x8000000000000000], white := [0x4000000000000000] }

/-- A game on `endBoard8`, no move recorded, state `Playing`. -/
def endGame8 : Game :=
  { Moves := [], State := { s := GameStateCode.Playing, m := "" }, Board := endBoard8 }

/-- How `send_result` takes a read: `ok` is a line that decodes without error to `RESULTOK` (in
any letter case), `other` a line that decodes without error to another message, `fail` a read
error or a line on which `json.Unmarshal` returns an error. -/
inductive ReplyKind where
  | ok | other | fail
deriving DecidableEq

/-- The kind of a read, for `send_result`. -/
def ReadResult.kind : ReadResult → ReplyKind
  | .timeout => ReplyKind.fail
  | .ioError => ReplyKind.fail
  | .line _ um =>
    if um.err then ReplyKind.fail
    else if String.mk (ToUpper um.value.Message.data) = "RESULTOK" then ReplyKind.ok
    else ReplyKind.other

/-- Two sessions in a game, for the examples. -/
def userA : User := { Userid := "alice", Chaperone_time := 10, State := UserState.playing }

/-- The second session of the examples. -/
def userB : User := { Userid := "bob", Chaperone_time := 20, State := UserState.playing }

/-- A third session, waiting in state `ready`. -/
def userC : User := { Userid := "carol", Chaperone_time := 30, State := UserState.ready }

/-- A lobby with three sessions in state `ready` (ready times 30, 10, 20) and one in state
`login`. -/
def lobby4 : Lobby :=
  [userC, { userA with State := UserState.ready }, { userB with State := UserState.ready },
   { Userid := "dave", Chaperone_time := 0, State := UserState.login }]

/-- The reply `RESULTOK`, decoded without error. -/
def replyResultOK : ReadResult :=
  ReadResult.line "\x7b\"Message\":\"RESULTOK\"\x7d\n" (Unmarshal.ok { Message := "RESULTOK" })

/-- A reply that is not valid JSON: the bare text of a move. -/
def replyBare : ReadResult := ReadResult.line "e4\n" Unmarshal.syntaxError

/-- The reply of a move that `str2move` does not parse, decoded without error. -/
def replyBadMove : ReadResult :=
  ReadResult.line "\x7b\"Message\":\"zz\"\x7d\n" (Unmarshal.ok { Message := "zz" })

end Reversi


namespace Reversi

/-! ## The server (`server/main.go`): login, views of a game, ratings, line reader, requests -/

/-- The record `Login`. -/
structure Login where
  Message : String
  Userid : String
  Password : String
deriving DecidableEq

/-- What the library call `json.Unmarshal(line, &l)` does with a line, `l` being a zero `Login`
(an input of the model): a syntax error leaves `l` untouched, a type error returns an error with
what was stored, `ok` returns no error. -/
inductive LoginUnmarshal where
  | syntaxError
  | typeError (l : Login)
  | ok (l : Login)
deriving DecidableEq

/-- The `Login` after `json.Unmarshal`. -/
def LoginUnmarshal.value : LoginUnmarshal → Login
  | .syntaxError => { Message := "", Userid := "", Password := "" }
  | .typeError l => l
  | .ok l => l

/-- Whether `json.Unmarshal` returns an error. -/
def LoginUnmarshal.err : LoginUnmarshal → Bool
  | .syntaxError => true
  | .typeError _ => true
  | .ok _ => false

/-- What `ReadlineTO(10000)` returns in `do_login_add_to_lobby`: the deadline passed, another
error (given with its text), or a line, given with what `json.Unmarshal` does with it. -/
inductive LoginRead where
  | timeout
  | ioError (err : String)
  | line (raw : String) (u : LoginUnmarshal)
deriving DecidableEq

/-- The function `create_user`, for the fields of `User` that are modelled. -/
def create_user (userid : String) : User :=
  { Userid := userid, Chaperone_time := 0, State := UserState.logout }

/-- The lookup `l.queue[userid]`. -/
def Lobby.lookup (l : Lobby) (userid : String) : Option User :=
  l.find? fun v => v.Userid = userid

/-- The statement `lb.queue[u.Userid] = u`. -/
def Lobby.assign (l : Lobby) (u : User) : Lobby := l.delete u.Userid ++ [u]

/-- The function `do_login_add_to_lobby`: the session, the error (its text) if any, and the
lobby after the call. -/
def do_login_add_to_lobby (r : LoginRead) (lb : Lobby) : User × Option String × Lobby :=
  let u := create_user ""
  match r with
  | .timeout => (u, some "login timeout", lb)
  | .ioError err => (u, some err, lb)
  | .line _ um =>
    if um.err then (u, some "broken login message", lb)
    else
      let l := um.value
      if l.Message ≠ "LOGIN" ∨ l.Userid.utf8ByteSize = 0 ∨ l.Password.utf8ByteSize = 0 then
        (u, some "failed login attempt", lb)
      else
        let u := { u with Userid := l.Userid, State := UserState.login }
        if (lb.lookup u.Userid).isSome then
          ({ u with State := UserState.logout }, some "duplicate login", lb)
        else (u, none, lb.assign u)

/-- The fields of `GameMessage` that are filled from the modelled fields of `Game`. -/
structure GameMessage where
  Message : String
  Turn : String
  Position : String
  Moves : List String
  BoardSize : Nat
  State : String
deriving DecidableEq

/-- The expression `[]string{"black", "white"}[b.Turn]`; an index out of range is a run-time
panic. -/
def turn_name (b : Board) : Option String :=
  if b.Turn < 0 then none else ["black", "white"].get? b.Turn.toNat

/-- The function `game2play`, up to the call of `str2json`: the message handed to
`json.Marshal`. -/
def game2play (g : Game) : Option GameMessage := do
  let b := g.Board
  let some turn := turn_name b | none
  let moves := if g.Moves.length ≠ 0 then (g.Moves.get? (g.Moves.length - 1)).toList else []
  let some position := b.ToSFEN | none
  let some state := gamestate2str g | none
  some { Message := "PLAY", Turn := turn, Position := position, Moves := moves,
         BoardSize := b.Boardlen, State := state }

/-- The function `game2result`, up to the call of `str2json`. -/
def game2result (g : Game) : Option GameMessage := do
  let b := g.Board
  let some turn := turn_name b | none
  let some position := b.ToSFEN | none
  let some state := gamestate2str g | none
  some { Message := "RESULT", Turn := turn, Position := position, Moves := g.Moves,
         BoardSize := b.Boardlen, State := state }

/-- The fields of `UserStatistics` that `do_game` updates. The rating is a `float64` in the
source; here it lives in a field `F` (the arithmetic is exact), and the counters are Go `int`s. -/
structure UserStatistics (F : Type) where
  rating : F
  n_win : Int
  n_loss : Int
  n_draw : Int

/-- The block `update statistics and ratings` of `do_game`: the statistics of `u0` (black) and
`u1` (white) after a game that ended in state `s`; `pow` is `math.Pow`. -/
def update_ratings {F : Type} [Field F] (pow : F → F → F) (s : GameStateCode)
    (u0 u1 : UserStatistics F) : UserStatistics F × UserStatistics F :=
  if s = GameStateCode.BlackWin then
    let K : F := 32
    let W : F := 1 / (pow 10 ((u0.rating - u1.rating) / 400) + 1)
    ({ u0 with rating := u0.rating + K * W, n_win := wrap64 (u0.n_win + 1) },
     { u1 with rating := u1.rating - K * W, n_loss := wrap64 (u1.n_loss + 1) })
  else if s = GameStateCode.WhiteWin then
    let K : F := 32
    let W : F := 1 / (pow 10 ((u1.rating - u0.rating) / 400) + 1)
    ({ u0 with rating := u0.rating - K * W, n_loss := wrap64 (u0.n_loss + 1) },
     { u1 with rating := u1.rating + K * W, n_win := wrap64 (u1.n_win + 1) })
  else (u0, u1)

/-- The record `BufferTO` without the connection: `buf` (bytes as numbers), `off`, `bufsize`. -/
structure BufferTO where
  buf : List Nat
  off : Nat
  bufsize : Nat
deriving DecidableEq

/-- The connection as the reader sees it: `data` are the bytes that arrive before the deadlines
pass, `sizes` says how many of them each call of `Read` delivers at most. -/
structure Conn where
  data : List Nat
  sizes : List Nat
deriving DecidableEq

/-- The function `NewReaderTO(conn, bufsz)`. -/
def NewReaderTO (bufsz : Nat) : BufferTO :=
  { buf := List.replicate bufsz 0, off := 0, bufsize := bufsz }

/-- The call `conn.Read(p)` on a slice `p` of length `room`: the bytes stored at the head of
`p` and the connection after the call, or `none` when `Read` returns an error (nothing arrives
before the deadline). A call without error delivers at least one byte and at most `room`; on an
empty slice it delivers nothing. -/
def Conn.Read (c : Conn) (room : Nat) : Option (List Nat × Conn) :=
  if room = 0 then some ([], c)
  else if c.data = [] then none
  else
    let cnt := max 1 (min (c.sizes.headD 1) (min room c.data.length))
    some (c.data.take cnt, { data := c.data.drop cnt, sizes := c.sizes.tail })

/-- The library function `bytes.IndexByte`; `none` stands for `-1`. -/
def IndexByte : List Nat → Nat → Option Nat
  | [], _ => none
  | c :: s, delim => if c = delim then some 0 else (IndexByte s delim).map fun i => i + 1

/-- The built-in `copy(dst, src)`: the slice `dst` after the call. -/
def copyBytes (dst src : List Nat) : List Nat := src.take dst.length ++ dst.drop src.length

/-- The block of `ReadBytesTO` that runs when the buffer is full: a buffer twice as long gets
the bytes of the old one. The length `bufsize*2` is a Go `int`; `make` panics when it is not in
range. -/
def BufferTO.grow (bt : BufferTO) : Option BufferTO :=
  if bt.off = bt.bufsize then
    if 2 ^ 63 ≤ bt.bufsize * 2 then none
    else
      some { bt with buf := copyBytes (List.replicate (bt.bufsize * 2) 0) bt.buf,
                     bufsize := bt.bufsize * 2 }
  else some bt

/-- The method `ReadBytesTO(delim, timeout_msec)`; `fuel` bounds the number of iterations of
its loop. The result is `none` when the fuel runs out or the code panics; otherwise the line
(`none` when `Read` returned an error), the buffer and the connection after the call. -/
def ReadBytesTO (delim : Nat) :
    Nat → BufferTO → Conn → Option (Option (List Nat) × BufferTO × Conn)
  | 0, _, _ => none
  | fuel + 1, bt, c =>
    if bt.buf.length < bt.off then none
    else
      match IndexByte (bt.buf.take bt.off) delim with
      | none =>
        match bt.grow with
        | none => none
        | some bt =>
          match c.Read (bt.buf.length - bt.off) with
          | none => some (none, { bt with buf := List.replicate bt.bufsize 0, off := 0 }, c)
          | some (bytes, c) =>
            ReadBytesTO delim fuel
              { bt with buf := bt.buf.take bt.off ++ copyBytes (bt.buf.drop bt.off) bytes,
                        off := bt.off + bytes.length } c
      | some i =>
        let line := copyBytes (List.replicate (i + 1) 0) (bt.buf.take (i + 1))
        some (some line,
          { bt with buf := copyBytes bt.buf ((bt.buf.take bt.off).drop (i + 1)),
                    off := bt.off - i - 1 }, c)

/-- Successive calls of `ReadBytesTO`: `k` calls, each with `fuel` iterations at most; the lines
returned, in order, and the buffer and the connection after the last call. A call that returns
an error ends the sequence. -/
def read_lines (delim fuel : Nat) :
    Nat → BufferTO → Conn → Option (List (List Nat) × BufferTO × Conn)
  | 0, bt, c => some ([], bt, c)
  | k + 1, bt, c =>
    match ReadBytesTO delim fuel bt c with
    | none => none
    | some (none, bt, c) => some ([], bt, c)
    | some (some line, bt, c) =>
      match read_lines delim fuel k bt c with
      | none => none
      | some (lines, bt, c) => some (line :: lines, bt, c)

/-- The buffer is as long as `bufsize` says, which is at least one, and `off` lies within it. -/
def BufferTO.OK (bt : BufferTO) : Prop :=
  bt.buf.length = bt.bufsize ∧ bt.off ≤ bt.bufsize ∧ 1 ≤ bt.bufsize

/-- The bytes received and not yet returned: `buf[:off]`. -/
def BufferTO.buffered (bt : BufferTO) : List Nat := bt.buf.take bt.off

/-- The loop of `do_game` with the requests it makes: each iteration asks `u0`, stops if the
game is over, asks `u1`, stops if the game is over. `plays` are the reads in the order in which
they are made. Returns the requests made, each with the player asked and the game as it was
when the request was sent, and the game at the end (`none` when the step fails at run time);
when the reads are used up the game as played so far is returned. -/
def do_game_requests (u0 u1 : User) :
    List ReadResult → Game → List (User × Game) × Option Game
  | [], g => ([], some g)
  | [r0], g =>
    ([(u0, g)], g.send_req_get_resp_read r0)
  | r0 :: r1 :: rs, g =>
    match g.send_req_get_resp_read r0 with
    | none => ([(u0, g)], none)
    | some g1 =>
      if g1.is_gameover then ([(u0, g)], some g1)
      else
        match g1.send_req_get_resp_read r1 with
        | none => ([(u0, g), (u1, g1)], none)
        | some g2 =>
          if g2.is_gameover then ([(u0, g), (u1, g1)], some g2)
          else
            let rest := do_game_requests u0 u1 rs g2
            ((u0, g) :: (u1, g1) :: rest.1, rest.2)

/-- The reply that a read hands to the arbiter step: `none` for a read failure, otherwise the
`Message` that `json2msg` returns. -/
def ReadResult.reply : ReadResult → Option String
  | .timeout => none
  | .ioError => none
  | .line _ u => some (json2msg u).Message

/-- The property of the requests of `do_game` that the loop maintains, for a loop entered with
the game `g`: the requests go to `u0` and `u1` in turn, black is to move at the requests to
`u0` and white at those to `u1`, the recorded moves only grow, and a timeout or an illegal move
is charged to the colour of the player asked last. -/
def RequestsOK (u0 u1 : User) (g : Game) (res : List (User × Game) × Option Game) : Prop :=
  (∀ i u gi, res.1.get? i = some (u, gi) →
    u = (if i % 2 = 0 then u0 else u1) ∧ gi.Board.Turn = (if i % 2 = 0 then 0 else 1) ∧
      gi.State.s = GameStateCode.Playing) ∧
  (∀ e ∈ res.1, g.Moves <+: e.2.Moves) ∧
  res.1.Pairwise (fun a b => a.2.Moves <+: b.2.Moves) ∧
  ∀ g2, res.2 = some g2 →
    g.Moves <+: g2.Moves ∧ (∀ e ∈ res.1, e.2.Moves <+: g2.Moves) ∧
    (g2.State.s ∈ [GameStateCode.BlackTimeout, GameStateCode.BlackIllegalMove] →
      res.1.length % 2 = 1) ∧
    (g2.State.s ∈ [GameStateCode.WhiteTimeout, GameStateCode.WhiteIllegalMove] →
      res.1.length % 2 = 0 ∧ res.1 ≠ [])

/-- A bound on the number of replies that a game can still see: two for every empty cell, and
one more when the side to move can only pass. -/
def potential (N : Nat) (b : Board) : Nat :=
  2 * (N * N - (countBits b.black + countBits b.white)) +
    (if b.IsLegalMove (-1) = some true then 1 else 0)

/-- One legal reply: the position `pos` is legal on `b` and `MoveUpdate` gives `b2`. -/
def LegalStep (b b2 : Board) : Prop :=
  ∃ pos, b.IsLegalMove pos = some true ∧ b.MoveUpdate pos = some b2

/-- The board `b` is reached from `b0` by legal replies. -/
def Reachable (b0 b : Board) : Prop := Relation.ReflTransGen LegalStep b0 b

/-- Every read in `plays` is a reply that decodes without error to a message which `str2move`
parses to a position that is legal on the board of the game at the time of the read, as long
as the game goes on. -/
def LegalReplies : List ReadResult → Game → Prop
  | [], _ => True
  | r :: rs, g =>
    (∃ raw msg, r = ReadResult.line raw (Unmarshal.ok { Message := msg }) ∧
      (str2move g.Board.Boardlen msg).2.2 = none ∧
      g.Board.IsLegalMove (str2move g.Board.Boardlen msg).1 = some true) ∧
    ∀ g2, g.send_req_get_resp_read r = some g2 → g2.is_gameover = false → LegalReplies rs g2

/-- The 8×8 position after black's first move f5 (37), which flips e5: white to move. -/
def boardAfterF5 : Board :=
  { emptyBoard8 with Turn := 1, discs := 5, black := [0x000000081C000000],
                     white := [0x0000001000000000] }

/-- The game after black's first move f5. -/
def gameAfterF5 : Game :=
  { Moves := ["f5"], State := { s := GameStateCode.Playing, m := "" }, Board := boardAfterF5 }

/-- The board that `NewBoard 10` builds: 100 cells in two words, 28 unused bits. -/
def newBoard10 : Board :=
  { Turn := 0, discs := 0, Boardlen := 10, bitmapsz := 2, unused_bits := 28,
    black := [0, 0], white := [0, 0],
    h_sentinel := [0x7f9fe7f9fe7f9fe7, 0xf9fe7f9fefffffff],
    v_sentinel := [0x003fffffffffffff, 0xffffffc00fffffff],
    s_sentinel := [0x001fe7f9fe7f9fe7, 0xf9fe7f800fffffff] }

/-- What holds of a board of size `N` as `NewBoard` and `NewBoardSFEN` build it: the dimensions;
`black` and `white` have no bit at a position `≥ N*N`; the three sentinels have every bit of
the last word at a position `≥ N*N` set; below `N*N`, `h_sentinel` has the bit of position `p`
set exactly when the column `p % N` is neither `0` nor `N-1`, `v_sentinel` exactly when the row
`p / N` is neither `0` nor `N-1`; and `s_sentinel` is the bitwise AND of the two. -/
def Board.Built (b : Board) (N : Nat) : Prop :=
  b.Sized N ∧ Clean (N * N) b.bitmapsz b.black ∧ Clean (N * N) b.bitmapsz b.white ∧
  Valid b.bitmapsz b.h_sentinel ∧ Valid b.bitmapsz b.v_sentinel ∧ Valid b.bitmapsz b.s_sentinel ∧
  (∀ q, N * N ≤ q → q < 64 * b.bitmapsz →
    bitAt b.h_sentinel q = true ∧ bitAt b.v_sentinel q = true ∧ bitAt b.s_sentinel q = true) ∧
  (∀ p, p < N * N →
    (bitAt b.h_sentinel p = true ↔ p % N ≠ 0 ∧ p % N ≠ N - 1) ∧
    (bitAt b.v_sentinel p = true ↔ p / N ≠ 0 ∧ p / N ≠ N - 1)) ∧
  ∀ q, bitAt b.s_sentinel q = (bitAt b.h_sentinel q && bitAt b.v_sentinel q)

/-- A board with the dimensions of `NewBoard 27`, for the examples of `Position2Str`. -/
def board27 : Board := { emptyBoard8 with Boardlen := 27 }

end Reversi


namespace Reversi

/-! ## Words: bit-level facts -/

theorem MSB_shiftRight (s : Nat) (hs : s < 64) : MSB >>> s = 2 ^ (63 - s) := by
  have h : MSB = 2 ^ 63 := by decide
  rw [h, Nat.shiftRight_eq_div_pow, Nat.pow_div (by omega) (by decide)]

theorem and_two_pow_ne_zero (w i : Nat) : decide (w &&& 2 ^ i ≠ 0) = w.testBit i := by
  rw [Nat.and_two_pow]
  cases h : w.testBit i
  · simp
  · simp [Nat.pos_pow_of_pos]

theorem testBit_not64 (w t : Nat) (hw : w < 2 ^ 64) :
    (not64 w).testBit t = (decide (t < 64) && !w.testBit t) := by
  unfold not64
  rw [Nat.testBit_xor, Nat.testBit_two_pow_sub_one]
  by_cases ht : t < 64
  · simp [ht]
  · have : w.testBit t = false :=
      Nat.testBit_lt_two_pow (lt_of_lt_of_le hw (Nat.pow_le_pow_right (by decide) (by omega)))
    simp [ht, this]

theorem not64_lt (w : Nat) (hw : w < 2 ^ 64) : not64 w < 2 ^ 64 :=
  Nat.xor_lt_two_pow hw (by decide)

theorem testBit_shl64 (x n t : Nat) :
    (shl64 x n).testBit t = (decide (t < 64) && (decide (n ≤ t) && x.testBit (t - n))) := by
  unfold shl64
  rw [Nat.testBit_mod_two_pow, Nat.testBit_shiftLeft]

theorem shl64_lt (x n : Nat) : shl64 x n < 2 ^ 64 := Nat.mod_lt _ (by decide)

theorem lowMask_eq (n : Nat) (hn : n < 64) : sub64 (shl64 1 n) 1 = 2 ^ n - 1 := by
  unfold sub64 shl64
  rw [Nat.one_shiftLeft]
  have h1 : 2 ^ n < 2 ^ 64 := Nat.pow_lt_pow_right (by decide) hn
  have h2 : 0 < 2 ^ n := Nat.pos_pow_of_pos _ (by decide)
  rw [Nat.mod_eq_of_lt h1]
  have : 2 ^ n + 2 ^ 64 - 1 = (2 ^ n - 1) + 2 ^ 64 := by omega
  rw [this, Nat.add_mod_right, Nat.mod_eq_of_lt (by omega)]

theorem highMask_lt (k : Nat) : highMask k < 2 ^ 64 :=
  not64_lt _ (Nat.mod_lt _ (by decide))

theorem testBit_highMask (k t : Nat) (hk : k < 64) :
    (highMask k).testBit t = (decide (t < 64) && decide (k ≤ t)) := by
  unfold highMask
  rw [lowMask_eq k hk, testBit_not64, Nat.testBit_two_pow_sub_one]
  · by_cases h : t < k
    · simp [h]
    · simp [h]; omega
  · have : 2 ^ k < 2 ^ 64 := Nat.pow_lt_pow_right (by decide) hk
    omega

/-! ## Bitmaps: bit-level facts of the primitive operations -/

theorem getD_set_eq (l : List Nat) (i j v : Nat) :
    (l.set i v).getD j 0 = if i = j ∧ i < l.length then v else l.getD j 0 := by
  simp only [List.getD_eq_getElem?_getD, List.getElem?_set]
  by_cases h : i = j
  · subst h
    by_cases h2 : i < l.length
    · simp [h2]
    · simp [h2, List.getElem?_eq_none (Nat.le_of_not_lt h2)]
  · simp [h]

theorem getD_map_range (f : Nat → Nat) (n j : Nat) :
    ((List.range n).map f).getD j 0 = if j < n then f j else 0 := by
  simp only [List.getD_eq_getElem?_getD, List.getElem?_map]
  by_cases h : j < n
  · simp [h, List.getElem?_range h]
  · simp [h, @List.getElem?_eq_none _ (List.range n) j (by simpa using Nat.le_of_not_lt h)]

theorem bitAt_of_le_length (a : BitMap) (p : Nat) (h : 64 * a.length ≤ p) : bitAt a p = false := by
  unfold bitAt
  rw [List.getD_eq_default _ _ (by omega)]
  simp

theorem Valid.bitAt_of_le {sz : Nat} {a : BitMap} (h : Valid sz a) (p : Nat) (hp : 64 * sz ≤ p) :
    bitAt a p = false := bitAt_of_le_length a p (by rw [h.1]; exact hp)

theorem valid_set {sz : Nat} {a : BitMap} (h : Valid sz a) (i v : Nat) (hv : v < 2 ^ 64) :
    Valid sz (a.set i v) := by
  refine ⟨by rw [List.length_set]; exact h.1, fun j => ?_⟩
  rw [getD_set_eq]
  split
  · exact hv
  · exact h.2 j

theorem valid_map_range (f : Nat → Nat) (n : Nat) (hf : ∀ i, f i < 2 ^ 64) :
    Valid n ((List.range n).map f) := by
  refine ⟨by simp, fun j => ?_⟩
  rw [getD_map_range]
  split
  · exact hf j
  · decide

theorem valid_mkBitMap (n : Nat) : Valid n (mkBitMap n) := by
  refine ⟨by simp [mkBitMap], fun j => ?_⟩
  simp only [mkBitMap, List.getD_eq_getElem?_getD, List.getElem?_replicate]
  split <;> simp

theorem bitAt_mkBitMap (n p : Nat) : bitAt (mkBitMap n) p = false := by
  simp only [bitAt, mkBitMap, List.getD_eq_getElem?_getD, List.getElem?_replicate]
  split <;> simp

theorem copyInto_eq {sz : Nat} {a : BitMap} (h : Valid sz a) : copyInto sz a = a := by
  unfold copyInto
  rw [h.1, List.take_of_length_le (by rw [h.1])]
  simp

theorem bitAt_map_range (f : Nat → Nat) (n p : Nat) :
    bitAt ((List.range n).map f) p = (decide (p < 64 * n) && (f (p / 64)).testBit (63 - p % 64)) := by
  unfold bitAt
  rw [getD_map_range]
  by_cases h : p / 64 < n
  · have : p < 64 * n := by omega
    simp [h, this]
  · have : ¬ p < 64 * n := by omega
    simp [h, this]

theorem AND_spec (b : Board) {x y : BitMap} (hx : Valid b.bitmapsz x) (hy : Valid b.bitmapsz y) :
    ∃ r, b.AND x y = some r ∧ Valid b.bitmapsz r ∧ ∀ p, bitAt r p = (bitAt x p && bitAt y p) := by
  refine ⟨(List.range b.bitmapsz).map fun i => x.getD i 0 &&& y.getD i 0, ?_,
    valid_map_range _ _ fun i => Nat.and_lt_two_pow _ (hy.2 i), fun p => ?_⟩
  · unfold Board.AND
    rw [if_pos ⟨hx.1.ge, hy.1.ge⟩]
  rw [bitAt_map_range, Nat.testBit_and]
  by_cases h : p < 64 * b.bitmapsz
  · simp [h, bitAt]
  · simp [h, hx.bitAt_of_le p (by omega)]

theorem OR_spec (b : Board) {x y : BitMap} (hx : Valid b.bitmapsz x) (hy : Valid b.bitmapsz y) :
    ∃ r, b.OR x y = some r ∧ Valid b.bitmapsz r ∧ ∀ p, bitAt r p = (bitAt x p || bitAt y p) := by
  refine ⟨(List.range b.bitmapsz).map fun i => x.getD i 0 ||| y.getD i 0, ?_,
    valid_map_range _ _ fun i => Nat.or_lt_two_pow (hx.2 i) (hy.2 i), fun p => ?_⟩
  · unfold Board.OR
    rw [if_pos ⟨hx.1.ge, hy.1.ge⟩]
  rw [bitAt_map_range, Nat.testBit_or]
  by_cases h : p < 64 * b.bitmapsz
  · simp [h, bitAt]
  · simp [h, hx.bitAt_of_le p (by omega), hy.bitAt_of_le p (by omega)]

theorem NOT_spec (b : Board) {x : BitMap} (hx : Valid b.bitmapsz x) :
    ∃ r, b.NOT x = some r ∧ Valid b.bitmapsz r ∧
      ∀ p, bitAt r p = (decide (p < 64 * b.bitmapsz) && !bitAt x p) := by
  refine ⟨(List.range b.bitmapsz).map fun i => not64 (x.getD i 0), ?_,
    valid_map_range _ _ fun i => not64_lt _ (hx.2 i), fun p => ?_⟩
  · unfold Board.NOT
    rw [if_pos hx.1.ge]
  rw [bitAt_map_range, testBit_not64 _ _ (hx.2 _)]
  by_cases h : p < 64 * b.bitmapsz
  · have : 63 - p % 64 < 64 := by omega
    simp [h, bitAt, this]
  · simp [h]

theorem tdiv_natCast (p : Nat) : Int.tdiv (p : Int) 64 = ((p / 64 : Nat) : Int) := rfl

theorem tmod_natCast (p : Nat) : Int.tmod (p : Int) 64 = ((p % 64 : Nat) : Int) := rfl

theorem is_bit_on_natCast (a : BitMap) (p : Nat) :
    is_bit_on a (p : Int) = if p / 64 < a.length then some (bitAt a p) else none := by
  unfold is_bit_on
  simp only [tdiv_natCast, tmod_natCast, Int.toNat_ofNat]
  by_cases h : p / 64 < a.length
  · have h1 : (0 : Int) ≤ ((p / 64 : Nat) : Int) ∧ ((p / 64 : Nat) : Int) < (a.length : Int) ∧
        (0 : Int) ≤ ((p % 64 : Nat) : Int) := ⟨by omega, by omega, by omega⟩
    rw [if_pos h1, if_pos h]
    simp only [MSB_shiftRight _ (Nat.mod_lt p (by decide : 0 < 64))]
    exact congrArg some (and_two_pow_ne_zero _ _)
  · have h1 : ¬ ((0 : Int) ≤ ((p / 64 : Nat) : Int) ∧ ((p / 64 : Nat) : Int) < (a.length : Int) ∧
        (0 : Int) ≤ ((p % 64 : Nat) : Int)) := by omega
    rw [if_neg h1, if_neg h]

theorem is_bit_on_neg (a : BitMap) (x : Int) (hx : x < 0) : is_bit_on a x = none := by
  unfold is_bit_on
  have h1 : ¬ ((0 : Int) ≤ Int.tdiv x 64 ∧ Int.tdiv x 64 < (a.length : Int) ∧
      (0 : Int) ≤ Int.tmod x 64) := by
    intro h
    have := Int.tmod_add_tdiv x 64
    omega
  simp only [if_neg h1]

theorem set_bit_natCast {sz : Nat} {a : BitMap} (ha : Valid sz a) (p : Nat) (hp : p < 64 * sz) :
    ∃ r, set_bit a (p : Int) = some r ∧ Valid sz r ∧
      ∀ q, bitAt r q = (bitAt a q || decide (q = p)) := by
  have hlen : p / 64 < a.length := by rw [ha.1]; omega
  have h1 : (0 : Int) ≤ ((p / 64 : Nat) : Int) ∧ ((p / 64 : Nat) : Int) < (a.length : Int) ∧
      (0 : Int) ≤ ((p % 64 : Nat) : Int) := ⟨by omega, by omega, by omega⟩
  have hs : p % 64 < 64 := Nat.mod_lt _ (by decide)
  refine ⟨a.set (p / 64) (a.getD (p / 64) 0 ||| (MSB >>> (p % 64))), ?_,
    valid_set ha _ _ ?_, fun q => ?_⟩
  · unfold set_bit
    simp only [tdiv_natCast, tmod_natCast, Int.toNat_ofNat]
    rw [if_pos h1]
  · rw [MSB_shiftRight _ hs]
    exact Nat.or_lt_two_pow (ha.2 _) (Nat.pow_lt_pow_right (by decide) (by omega))
  · unfold bitAt
    rw [getD_set_eq, MSB_shiftRight _ hs]
    by_cases hq : p / 64 = q / 64
    · rw [if_pos ⟨hq, hlen⟩, Nat.testBit_or, Nat.testBit_two_pow, hq]
      congr 1
      by_cases h2 : q = p
      · subst h2; simp
      · have : ¬ (63 - p % 64 = 63 - q % 64) := by omega
        simp [h2, this]
    · have h2 : ¬ (q = p) := by rintro rfl; exact hq rfl
      rw [if_neg (fun h => hq h.1)]
      simp [h2]

theorem clear_bit_natCast {sz : Nat} {a : BitMap} (ha : Valid sz a) (p : Nat) (hp : p < 64 * sz) :
    ∃ r, clear_bit a (p : Int) = some r ∧ Valid sz r ∧
      ∀ q, bitAt r q = (bitAt a q && !decide (q = p)) := by
  have hlen : p / 64 < a.length := by rw [ha.1]; omega
  have h1 : (0 : Int) ≤ ((p / 64 : Nat) : Int) ∧ ((p / 64 : Nat) : Int) < (a.length : Int) ∧
      (0 : Int) ≤ ((p % 64 : Nat) : Int) := ⟨by omega, by omega, by omega⟩
  have hs : p % 64 < 64 := Nat.mod_lt _ (by decide)
  have hpow : 2 ^ (63 - p % 64) < 2 ^ 64 := Nat.pow_lt_pow_right (by decide) (by omega)
  refine ⟨a.set (p / 64) (a.getD (p / 64) 0 &&& not64 (MSB >>> (p % 64))), ?_,
    valid_set ha _ _ ?_, fun q => ?_⟩
  · unfold clear_bit
    simp only [tdiv_natCast, tmod_natCast, Int.toNat_ofNat]
    rw [if_pos h1]
  · rw [MSB_shiftRight _ hs]
    exact Nat.and_lt_two_pow _ (not64_lt _ hpow)
  · unfold bitAt
    rw [getD_set_eq, MSB_shiftRight _ hs]
    by_cases hq : p / 64 = q / 64
    · rw [if_pos ⟨hq, hlen⟩, Nat.testBit_and, testBit_not64 _ _ hpow, Nat.testBit_two_pow, hq]
      congr 1
      have h64 : 63 - q % 64 < 64 := by omega
      by_cases h2 : q = p
      · subst h2; simp
      · have : ¬ (63 - p % 64 = 63 - q % 64) := by omega
        simp [h2, this, h64]
    · have h2 : ¬ (q = p) := by rintro rfl; exact hq rfl
      rw [if_neg (fun h => hq h.1)]
      simp [h2]

end Reversi


namespace Reversi

/-! ## Shifts -/

theorem bitAt_eq (c : BitMap) (p j t : Nat) (h1 : p / 64 = j) (h2 : 63 - p % 64 = t) :
    bitAt c p = (c.getD j 0).testBit t := by
  subst h1 h2; rfl

theorem testBit_word_ge {sz : Nat} {c : BitMap} (hc : Valid sz c) (j t : Nat) (ht : 64 ≤ t) :
    (c.getD j 0).testBit t = false :=
  Nat.testBit_lt_two_pow (lt_of_lt_of_le (hc.2 j) (Nat.pow_le_pow_right (by decide) ht))

theorem shiftRight_lt (x n : Nat) (h : x < 2 ^ 64) : x >>> n < 2 ^ 64 := by
  rw [Nat.shiftRight_eq_div_pow]
  exact lt_of_le_of_lt (Nat.div_le_self _ _) h

theorem shr_loop_spec (n : Nat) : ∀ (k : Nat) (c : BitMap), k < c.length →
    (Board.shr_loop n k c).length = c.length ∧
    ∀ i, (Board.shr_loop n k c).getD i 0 =
      if 1 ≤ i ∧ i ≤ k then
        (c.getD i 0 >>> n) ||| shl64 (c.getD (i - 1) 0 &&& sub64 (shl64 1 n) 1) (64 - n)
      else c.getD i 0 := by
  intro k
  induction k with
  | zero =>
    intro c _
    refine ⟨rfl, fun i => ?_⟩
    have : ¬ (1 ≤ i ∧ i ≤ 0) := by omega
    rw [if_neg this]; rfl
  | succ k ih =>
    intro c hk
    have hlen := List.length_set c (k + 1)
      ((c.getD (k + 1) 0 >>> n) ||| shl64 (c.getD k 0 &&& sub64 (shl64 1 n) 1) (64 - n))
    obtain ⟨h1, h2⟩ := ih (c.set (k + 1)
      ((c.getD (k + 1) 0 >>> n) ||| shl64 (c.getD k 0 &&& sub64 (shl64 1 n) 1) (64 - n)))
      (by rw [hlen]; omega)
    refine ⟨by rw [Board.shr_loop, h1, hlen], fun i => ?_⟩
    rw [Board.shr_loop, h2 i]
    simp only [getD_set_eq]
    by_cases hi : 1 ≤ i ∧ i ≤ k
    · have a1 : ¬ (k + 1 = i ∧ k + 1 < c.length) := by omega
      have a2 : ¬ (k + 1 = i - 1 ∧ k + 1 < c.length) := by omega
      have a3 : 1 ≤ i ∧ i ≤ k + 1 := by omega
      rw [if_pos hi, if_neg a1, if_neg a2, if_pos a3]
    · rw [if_neg hi]
      by_cases hi2 : k + 1 = i
      · subst hi2
        have a3 : 1 ≤ k + 1 ∧ k + 1 ≤ k + 1 := by omega
        rw [if_pos ⟨rfl, hk⟩, if_pos a3]
        rfl
      · have a1 : ¬ (k + 1 = i ∧ k + 1 < c.length) := by omega
        have a3 : ¬ (1 ≤ i ∧ i ≤ k + 1) := by omega
        rw [if_neg a1, if_neg a3]

theorem shr_bits_spec (b : Board) {c : BitMap} (hc : Valid b.bitmapsz c) (n : Nat)
    (hn0 : 0 < n) (hn : n < 64) (hsz : 0 < b.bitmapsz) (hu : b.unused_bits < 64) :
    ∃ r, b.shr_bits c n = some r ∧ Valid b.bitmapsz r ∧
      ∀ p, bitAt r p =
        (decide (n ≤ p ∧ p < 64 * b.bitmapsz - b.unused_bits) && bitAt c (p - n)) := by
  have hlen : c.length = b.bitmapsz := hc.1
  obtain ⟨l1, w1⟩ := shr_loop_spec n (c.length - 1) c (by omega)
  -- the words after the loop and after `c[0] >>= n`
  have hv1 : Valid b.bitmapsz (Board.shr_loop n (c.length - 1) c) := by
    refine ⟨by rw [l1, hlen], fun i => ?_⟩
    rw [w1]
    split
    · exact Nat.or_lt_two_pow (shiftRight_lt _ _ (hc.2 _)) (shl64_lt _ _)
    · exact hc.2 _
  have hv2 : Valid b.bitmapsz ((Board.shr_loop n (c.length - 1) c).set 0
      ((Board.shr_loop n (c.length - 1) c).getD 0 0 >>> n)) :=
    valid_set hv1 _ _ (shiftRight_lt _ _ (hv1.2 _))
  have hb2 : ∀ p, bitAt ((Board.shr_loop n (c.length - 1) c).set 0
      ((Board.shr_loop n (c.length - 1) c).getD 0 0 >>> n)) p =
      (decide (n ≤ p ∧ p < 64 * b.bitmapsz) && bitAt c (p - n)) := by
    intro p
    by_cases hp : p < 64 * b.bitmapsz
    swap
    · rw [hv2.bitAt_of_le p (by omega)]
      have : ¬ (n ≤ p ∧ p < 64 * b.bitmapsz) := by omega
      simp [this]
    unfold bitAt
    rw [getD_set_eq, w1, w1]
    have h00 : ¬ (1 ≤ 0 ∧ 0 ≤ c.length - 1) := by omega
    rw [if_neg h00]
    by_cases hj : p % 64 < n
    · -- the bit comes from the previous word, or from nowhere
      by_cases hi : p / 64 = 0
      · have a1 : (0 = p / 64 ∧ 0 < (Board.shr_loop n (c.length - 1) c).length) := by
          rw [l1]; omega
        have a2 : ¬ (n ≤ p ∧ p < 64 * b.bitmapsz) := by omega
        rw [if_pos a1, Nat.testBit_shiftRight, testBit_word_ge hc _ _ (by omega)]
        simp [a2]
      · have a1 : ¬ (0 = p / 64 ∧ 0 < (Board.shr_loop n (c.length - 1) c).length) := by omega
        have a2 : 1 ≤ p / 64 ∧ p / 64 ≤ c.length - 1 := by omega
        have a3 : n ≤ p ∧ p < 64 * b.bitmapsz := by omega
        rw [if_neg a1, if_pos a2, Nat.testBit_or, Nat.testBit_shiftRight,
          testBit_word_ge hc _ _ (by omega), testBit_shl64, Nat.testBit_and, lowMask_eq n hn,
          Nat.testBit_two_pow_sub_one]
        have e1 : (p - n) / 64 = p / 64 - 1 := by omega
        have e2 : 63 - (p - n) % 64 = 63 - p % 64 - (64 - n) := by omega
        rw [e1, e2]
        have b1 : 63 - p % 64 < 64 := by omega
        have b2 : 64 - n ≤ 63 - p % 64 := by omega
        have b3 : 63 - p % 64 - (64 - n) < n := by omega
        simp [a3, b1, b2, b3]
    · -- the bit comes from the same word
      have e1 : (p - n) / 64 = p / 64 := by omega
      have e2 : 63 - (p - n) % 64 = n + (63 - p % 64) := by omega
      have a3 : n ≤ p ∧ p < 64 * b.bitmapsz := by omega
      have b2 : ¬ (64 - n ≤ 63 - p % 64) := by omega
      rw [e1, e2]
      by_cases hi : p / 64 = 0
      · have a1 : (0 = p / 64 ∧ 0 < (Board.shr_loop n (c.length - 1) c).length) := by
          rw [l1]; omega
        rw [if_pos a1, Nat.testBit_shiftRight, hi]
        simp [a3]
      · have a1 : ¬ (0 = p / 64 ∧ 0 < (Board.shr_loop n (c.length - 1) c).length) := by omega
        have a2 : 1 ≤ p / 64 ∧ p / 64 ≤ c.length - 1 := by omega
        rw [if_neg a1, if_pos a2, Nat.testBit_or, Nat.testBit_shiftRight, testBit_shl64]
        simp [a3, b2]
  by_cases hu0 : b.unused_bits = 0
  · refine ⟨_, ?_, hv2, fun p => ?_⟩
    · unfold Board.shr_bits
      rw [if_neg (by omega), if_neg (by simpa using hu0)]
    · rw [hb2, hu0]; rfl
  · generalize hc2 : (Board.shr_loop n (c.length - 1) c).set 0
      ((Board.shr_loop n (c.length - 1) c).getD 0 0 >>> n) = c2 at hv2 hb2
    refine ⟨c2.set (c2.length - 1) (c2.getD (c2.length - 1) 0 &&& highMask b.unused_bits), ?_,
      valid_set hv2 _ _ (Nat.and_lt_two_pow _ (highMask_lt _)), fun p => ?_⟩
    · unfold Board.shr_bits
      rw [if_neg (by omega), if_pos hu0]
      simp only [hc2]
    · have hl2 := hv2.1
      by_cases hp : p / 64 = b.bitmapsz - 1
      · have hb := hb2 p
        unfold bitAt at hb ⊢
        rw [getD_set_eq, if_pos ⟨by rw [hl2]; omega, by rw [hl2]; omega⟩, hl2, ← hp,
          Nat.testBit_and, hb, testBit_highMask _ _ hu]
        have b1 : 63 - p % 64 < 64 := by omega
        by_cases hq : p < 64 * b.bitmapsz - b.unused_bits
        · have : b.unused_bits ≤ 63 - p % 64 := by omega
          have a3 : p < 64 * b.bitmapsz := by omega
          simp [hq, this, b1, a3]
        · have : ¬ (b.unused_bits ≤ 63 - p % 64) := by omega
          simp [hq, this]
      · have hb := hb2 p
        unfold bitAt at hb ⊢
        rw [getD_set_eq, if_neg (by rw [hl2]; omega), hb]
        by_cases hq : p < 64 * b.bitmapsz
        · have : p < 64 * b.bitmapsz - b.unused_bits := by omega
          simp [hq, this]
        · have : ¬ (p < 64 * b.bitmapsz - b.unused_bits) := by omega
          simp [hq, this]

theorem shr_words_spec {sz : Nat} {c : BitMap} (hc : Valid sz c) (s : Nat) (hs : s ≤ sz) :
    Valid sz (List.replicate s 0 ++ (c.take s ++ c.take (c.length - s)).drop s) ∧
    ∀ p, bitAt (List.replicate s 0 ++ (c.take s ++ c.take (c.length - s)).drop s) p =
      (decide (64 * s ≤ p ∧ p < 64 * sz) && bitAt c (p - 64 * s)) := by
  have hlen : c.length = sz := hc.1
  have e : (c.take s ++ c.take (c.length - s)).drop s = c.take (c.length - s) :=
    List.drop_left' (by rw [List.length_take]; omega)
  rw [e]
  have hw : ∀ i, (List.replicate s 0 ++ c.take (c.length - s)).getD i 0 =
      if s ≤ i ∧ i < sz then c.getD (i - s) 0 else 0 := by
    intro i
    simp only [List.getD_eq_getElem?_getD, List.getElem?_append, List.length_replicate,
      List.getElem?_replicate, List.getElem?_take]
    by_cases h1 : i < s
    · have : ¬ (s ≤ i ∧ i < sz) := by omega
      simp [h1, this]
    · by_cases h2 : i < sz
      · have a1 : i - s < c.length - s := by omega
        simp [h1, h2, a1, Nat.le_of_not_lt h1]
      · have a1 : ¬ (i - s < c.length - s) := by omega
        simp [h1, h2, a1]
  refine ⟨⟨by simp; omega, fun i => ?_⟩, fun p => ?_⟩
  · rw [hw]
    split
    · exact hc.2 _
    · decide
  · unfold bitAt
    rw [hw]
    by_cases h : 64 * s ≤ p ∧ p < 64 * sz
    · have a1 : s ≤ p / 64 ∧ p / 64 < sz := by omega
      have e1 : (p - 64 * s) / 64 = p / 64 - s := by omega
      have e2 : (p - 64 * s) % 64 = p % 64 := by omega
      rw [if_pos a1, e1, e2]
      simp [h]
    · have a1 : ¬ (s ≤ p / 64 ∧ p / 64 < sz) := by omega
      rw [if_neg a1]
      simp [h]

theorem SHR_spec (b : Board) {a : BitMap} (ha : Valid b.bitmapsz a) (n : Nat)
    (hn0 : 0 < n) (hn : n / 64 ≤ b.bitmapsz) (hsz : 0 < b.bitmapsz) (hu : b.unused_bits < 64)
    (hmul : n % 64 ≠ 0 ∨ b.unused_bits = 0) :
    ∃ r, b.SHR a n = some r ∧ Valid b.bitmapsz r ∧
      ∀ p, bitAt r p =
        (decide (n ≤ p ∧ p < 64 * b.bitmapsz - b.unused_bits) && bitAt a (p - n)) := by
  have hlen : a.length = b.bitmapsz := ha.1
  unfold Board.SHR
  rw [copyInto_eq ha]
  by_cases h64 : 64 ≤ n
  · obtain ⟨hv, hb⟩ := shr_words_spec ha (n / 64) hn
    simp only [if_pos h64, if_neg (show ¬ a.length < n / 64 by omega)]
    by_cases hbit : n % 64 = 0
    · have hu0 : b.unused_bits = 0 := by
        rcases hmul with h | h
        · exact absurd hbit h
        · exact h
      refine ⟨_, by rw [if_pos hbit], hv, fun p => ?_⟩
      rw [hb, hu0]
      have e : 64 * (n / 64) = n := by omega
      rw [e]; rfl
    · obtain ⟨r, hr, hvr, hbr⟩ := shr_bits_spec b hv (n % 64) (by omega)
        (Nat.mod_lt _ (by decide)) hsz hu
      refine ⟨r, by rw [if_neg hbit]; exact hr, hvr, fun p => ?_⟩
      rw [hbr, hb]
      by_cases h : n ≤ p ∧ p < 64 * b.bitmapsz - b.unused_bits
      · have a1 : n % 64 ≤ p ∧ p < 64 * b.bitmapsz - b.unused_bits := by omega
        have a2 : 64 * (n / 64) ≤ p - n % 64 ∧ p - n % 64 < 64 * b.bitmapsz := by omega
        have e : p - n % 64 - 64 * (n / 64) = p - n := by omega
        simp [h, a1, a2, e]
      · by_cases a1 : n % 64 ≤ p ∧ p < 64 * b.bitmapsz - b.unused_bits
        · have a2 : ¬ (64 * (n / 64) ≤ p - n % 64 ∧ p - n % 64 < 64 * b.bitmapsz) := by omega
          have a3 : ¬ n ≤ p := by omega
          simp [a3, a1, a2]
        · simp [h, a1]
  · obtain ⟨r, hr, hvr, hbr⟩ := shr_bits_spec b ha n hn0 (by omega) hsz hu
    refine ⟨r, ?_, hvr, hbr⟩
    rw [if_neg h64, if_neg (by omega)]
    exact hr

theorem shl_loop_spec (n : Nat) : ∀ (k i : Nat) (c : BitMap), i + k ≤ c.length →
    (Board.shl_loop n k i c).length = c.length ∧
    ∀ j, (Board.shl_loop n k i c).getD j 0 =
      if i ≤ j ∧ j < i + k then
        shl64 (c.getD j 0) n ||| ((c.getD (j + 1) 0 &&& highMask (64 - n)) >>> (64 - n))
      else c.getD j 0 := by
  intro k
  induction k with
  | zero =>
    intro i c _
    refine ⟨rfl, fun j => ?_⟩
    have : ¬ (i ≤ j ∧ j < i + 0) := by omega
    rw [if_neg this]; rfl
  | succ k ih =>
    intro i c hk
    have hlen := List.length_set c i
      (shl64 (c.getD i 0) n ||| ((c.getD (i + 1) 0 &&& highMask (64 - n)) >>> (64 - n)))
    obtain ⟨h1, h2⟩ := ih (i + 1) (c.set i
      (shl64 (c.getD i 0) n ||| ((c.getD (i + 1) 0 &&& highMask (64 - n)) >>> (64 - n))))
      (by rw [hlen]; omega)
    refine ⟨by rw [Board.shl_loop, h1, hlen], fun j => ?_⟩
    rw [Board.shl_loop, h2 j]
    simp only [getD_set_eq]
    by_cases hj : i + 1 ≤ j ∧ j < i + 1 + k
    · have a1 : ¬ (i = j ∧ i < c.length) := by omega
      have a2 : ¬ (i = j + 1 ∧ i < c.length) := by omega
      have a3 : i ≤ j ∧ j < i + (k + 1) := by omega
      rw [if_pos hj, if_neg a1, if_neg a2, if_pos a3]
    · rw [if_neg hj]
      by_cases hj2 : i = j
      · subst hj2
        have a3 : i ≤ i ∧ i < i + (k + 1) := by omega
        rw [if_pos ⟨rfl, by omega⟩, if_pos a3]
      · have a1 : ¬ (i = j ∧ i < c.length) := by omega
        have a3 : ¬ (i ≤ j ∧ j < i + (k + 1)) := by omega
        rw [if_neg a1, if_neg a3]

theorem shl_bits_spec (b : Board) {c : BitMap} (hc : Valid b.bitmapsz c) (n : Nat)
    (hn0 : 0 < n) (hn : n < 64) (hsz : 0 < b.bitmapsz) (hu : b.unused_bits < 64)
    (hclean : ∀ q, 64 * b.bitmapsz - b.unused_bits ≤ q → bitAt c q = false) :
    ∃ r, b.shl_bits c n = some r ∧ Valid b.bitmapsz r ∧ ∀ p, bitAt r p = bitAt c (p + n) := by
  have hlen : c.length = b.bitmapsz := hc.1
  obtain ⟨l1, w1⟩ := shl_loop_spec n (c.length - 1) 0 c (by omega)
  have hv1 : Valid b.bitmapsz (Board.shl_loop n (c.length - 1) 0 c) := by
    refine ⟨by rw [l1, hlen], fun i => ?_⟩
    rw [w1]
    split
    · exact Nat.or_lt_two_pow (shl64_lt _ _)
        (shiftRight_lt _ _ (Nat.and_lt_two_pow _ (highMask_lt _)))
    · exact hc.2 _
  generalize hc1 : Board.shl_loop n (c.length - 1) 0 c = c1 at l1 w1 hv1
  -- the last word before its final shift
  obtain ⟨c2, hc2, hv2, hl2, hw2⟩ : ∃ c2 : BitMap,
      (if b.unused_bits ≠ 0 then
        c1.set (c1.length - 1) (c1.getD (c1.length - 1) 0 &&& highMask b.unused_bits)
       else c1) = c2 ∧ Valid b.bitmapsz c2 ∧
      (∀ t, (c2.getD (b.bitmapsz - 1) 0).testBit t =
        ((c.getD (b.bitmapsz - 1) 0).testBit t &&
          decide (64 * (b.bitmapsz - 1) + (63 - t) < 64 * b.bitmapsz - b.unused_bits))) ∧
      (∀ j, j ≠ b.bitmapsz - 1 → c2.getD j 0 = c1.getD j 0) := by
    have hlast : c1.getD (b.bitmapsz - 1) 0 = c.getD (b.bitmapsz - 1) 0 := by
      rw [w1, if_neg (by omega)]
    by_cases hu0 : b.unused_bits = 0
    · refine ⟨c1, by rw [if_neg (by simpa using hu0)], hv1, fun t => ?_, fun j _ => rfl⟩
      rw [hlast]
      by_cases ht : t < 64
      · have : 64 * (b.bitmapsz - 1) + (63 - t) < 64 * b.bitmapsz - b.unused_bits := by omega
        simp [this]
      · rw [testBit_word_ge hc _ _ (by omega)]; rfl
    · refine ⟨_, by rw [if_pos hu0], valid_set hv1 _ _ (Nat.and_lt_two_pow _ (highMask_lt _)),
        fun t => ?_, fun j hj => ?_⟩
      · rw [getD_set_eq, if_pos ⟨by rw [l1]; omega, by rw [l1]; omega⟩, l1, hlen, hlast,
          Nat.testBit_and, testBit_highMask _ _ hu]
        by_cases ht : t < 64
        · by_cases h2 : b.unused_bits ≤ t
          · have : 64 * (b.bitmapsz - 1) + (63 - t) < 64 * b.bitmapsz - b.unused_bits := by
              omega
            simp [ht, h2, this]
          · have : ¬ 64 * (b.bitmapsz - 1) + (63 - t) < 64 * b.bitmapsz - b.unused_bits := by
              omega
            simp [ht, h2, this]
        · rw [testBit_word_ge hc _ _ (by omega)]; simp
      · rw [getD_set_eq, if_neg (by rw [l1]; omega)]
  refine ⟨c2.set (c2.length - 1) (shl64 (c2.getD (c2.length - 1) 0) n), ?_,
    valid_set hv2 _ _ (shl64_lt _ _), fun p => ?_⟩
  · unfold Board.shl_bits
    rw [if_neg (by omega)]
    simp only [hc1, hc2]
  · have hl2' := hv2.1
    by_cases hp : p / 64 < b.bitmapsz
    swap
    · rw [(valid_set hv2 _ _ (shl64_lt _ _)).bitAt_of_le p (by omega), hc.bitAt_of_le _ (by omega)]
    have hτ : 63 - p % 64 < 64 := by omega
    by_cases hlastw : p / 64 = b.bitmapsz - 1
    · -- last word
      rw [bitAt_eq _ p (b.bitmapsz - 1) (63 - p % 64) hlastw rfl, getD_set_eq,
        if_pos ⟨by rw [hl2'], by rw [hl2']; omega⟩, hl2', testBit_shl64, hl2]
      by_cases hc' : n ≤ 63 - p % 64
      · have e1 : (p + n) / 64 = b.bitmapsz - 1 := by omega
        have e2 : 63 - (p + n) % 64 = 63 - p % 64 - n := by omega
        rw [bitAt_eq c (p + n) _ _ e1 e2]
        by_cases hq : 64 * (b.bitmapsz - 1) + (63 - (63 - p % 64 - n)) <
            64 * b.bitmapsz - b.unused_bits
        · simp [hτ, hc', hq]
        · have := hclean (p + n) (by omega)
          rw [bitAt_eq c (p + n) _ _ e1 e2] at this
          rw [this]
          simp
      · rw [hc.bitAt_of_le _ (by omega)]
        simp [hc']
    · -- a word that receives the carry of its successor
      have hj : p / 64 < c.length - 1 := by omega
      rw [bitAt_eq _ p (p / 64) (63 - p % 64) rfl rfl, getD_set_eq,
        if_neg (by rw [hl2']; omega), hw2 _ hlastw, w1, if_pos ⟨by omega, by omega⟩,
        Nat.testBit_or, testBit_shl64, Nat.testBit_shiftRight, Nat.testBit_and,
        testBit_highMask _ _ (by omega)]
      by_cases hc' : n ≤ 63 - p % 64
      · have e1 : (p + n) / 64 = p / 64 := by omega
        have e2 : 63 - (p + n) % 64 = 63 - p % 64 - n := by omega
        have a1 : ¬ (64 - n + (63 - p % 64) < 64) := by omega
        rw [bitAt_eq c (p + n) _ _ e1 e2]
        simp [hτ, hc', a1]
      · have e1 : (p + n) / 64 = p / 64 + 1 := by omega
        have e2 : 63 - (p + n) % 64 = 64 - n + (63 - p % 64) := by omega
        have a1 : 64 - n + (63 - p % 64) < 64 := by omega
        rw [bitAt_eq c (p + n) _ _ e1 e2]
        simp [hc', a1]

theorem shl_words_spec {sz : Nat} {c : BitMap} (hc : Valid sz c) (s : Nat) (hs : s ≤ sz) :
    Valid sz ((c.drop s ++ c.drop (c.length - s)).take (c.length - s) ++ List.replicate s 0) ∧
    ∀ p, bitAt ((c.drop s ++ c.drop (c.length - s)).take (c.length - s) ++ List.replicate s 0) p =
      bitAt c (p + 64 * s) := by
  have hlen : c.length = sz := hc.1
  have e : (c.drop s ++ c.drop (c.length - s)).take (c.length - s) = c.drop s :=
    List.take_left' (by rw [List.length_drop])
  rw [e]
  have hw : ∀ i, (c.drop s ++ List.replicate s 0).getD i 0 = c.getD (i + s) 0 := by
    intro i
    simp only [List.getD_eq_getElem?_getD, List.getElem?_append, List.length_drop,
      List.getElem?_replicate, List.getElem?_drop]
    by_cases h1 : i < c.length - s
    · simp [h1, Nat.add_comm]
    · rw [@List.getElem?_eq_none _ c (i + s) (by omega)]
      simp only [h1, if_false]
      split <;> rfl
  refine ⟨⟨by simp; omega, fun i => ?_⟩, fun p => ?_⟩
  · rw [hw]; exact hc.2 _
  · unfold bitAt
    rw [hw]
    have e1 : (p + 64 * s) / 64 = p / 64 + s := by omega
    have e2 : (p + 64 * s) % 64 = p % 64 := by omega
    rw [e1, e2]

theorem SHL_spec (b : Board) {a : BitMap} (ha : Valid b.bitmapsz a) (n : Nat)
    (hn0 : 0 < n) (hn : n / 64 ≤ b.bitmapsz) (hsz : 0 < b.bitmapsz) (hu : b.unused_bits < 64)
    (hclean : ∀ q, 64 * b.bitmapsz - b.unused_bits ≤ q → bitAt a q = false) :
    ∃ r, b.SHL a n = some r ∧ Valid b.bitmapsz r ∧ ∀ p, bitAt r p = bitAt a (p + n) := by
  have hlen : a.length = b.bitmapsz := ha.1
  unfold Board.SHL
  rw [copyInto_eq ha]
  by_cases h64 : 64 ≤ n
  · obtain ⟨hv, hb⟩ := shl_words_spec ha (n / 64) hn
    simp only [if_pos h64, if_neg (show ¬ a.length < n / 64 by omega)]
    by_cases hbit : n % 64 = 0
    · refine ⟨_, by rw [if_pos hbit], hv, fun p => ?_⟩
      rw [hb]
      have e : 64 * (n / 64) = n := by omega
      rw [e]
    · obtain ⟨r, hr, hvr, hbr⟩ := shl_bits_spec b hv (n % 64) (by omega)
        (Nat.mod_lt _ (by decide)) hsz hu (fun q hq => by rw [hb]; exact hclean _ (by omega))
      refine ⟨r, by rw [if_neg hbit]; exact hr, hvr, fun p => ?_⟩
      rw [hbr, hb]
      have e : p + n % 64 + 64 * (n / 64) = p + n := by omega
      rw [e]
  · obtain ⟨r, hr, hvr, hbr⟩ := shl_bits_spec b ha n hn0 (by omega) hsz hu hclean
    refine ⟨r, ?_, hvr, hbr⟩
    rw [if_neg h64, if_neg (by omega)]
    exact hr

end Reversi


namespace Reversi

/-! ## Board dimensions and sentinels -/

theorem Board.Sized.sq_le {b : Board} {N : Nat} (h : b.Sized N) (hN : 1 ≤ N) :
    N * N ≤ 64 * b.bitmapsz ∧ b.unused_bits < 64 ∧ 0 < b.bitmapsz ∧
      64 * b.bitmapsz - b.unused_bits = N * N := by
  obtain ⟨_, h2, h3⟩ := h
  have : 1 ≤ N * N := Nat.mul_le_mul hN hN
  omega

theorem coord_unique (N r c r' c' : Nat) (hc : c < N) (hc' : c' < N)
    (h : r * N + c = r' * N + c') : r = r' ∧ c = c' := by
  have hN : 0 < N := by omega
  have h1 : (c + r * N) / N = r := by
    rw [Nat.add_mul_div_right _ _ hN, Nat.div_eq_of_lt hc, Nat.zero_add]
  have h2 : (c' + r' * N) / N = r' := by
    rw [Nat.add_mul_div_right _ _ hN, Nat.div_eq_of_lt hc', Nat.zero_add]
  have h3 : c + r * N = c' + r' * N := by omega
  rw [h3, h2] at h1
  subst h1
  exact ⟨rfl, by omega⟩

theorem coord_lt (N r c : Nat) (hr : r < N) (hc : c < N) : r * N + c < N * N := by
  have : (r + 1) * N ≤ N * N := Nat.mul_le_mul_right N hr
  have : (r + 1) * N = r * N + N := Nat.succ_mul r N
  omega

theorem bitAt_ones (sz p : Nat) :
    bitAt (List.replicate sz (not64 0)) p = decide (p < 64 * sz) := by
  unfold bitAt
  simp only [List.getD_eq_getElem?_getD, List.getElem?_replicate]
  by_cases h : p / 64 < sz
  · have h2 : p < 64 * sz := by omega
    have h3 : 63 - p % 64 < 64 := by omega
    simp [h, h2, testBit_not64 0 _ (by decide), h3]
  · have h2 : ¬ p < 64 * sz := by omega
    simp [h, h2]

theorem valid_ones (sz : Nat) : Valid sz (List.replicate sz (not64 0)) := by
  refine ⟨by simp, fun i => ?_⟩
  simp only [List.getD_eq_getElem?_getD, List.getElem?_replicate]
  split
  · exact not64_lt 0 (by decide)
  · decide

/-- The clearing loops of the sentinel builders: two bits are cleared per iteration. -/
theorem forM_clear_spec (sz : Nat) (g0 g1 : Nat → Int) (P0 P1 : Nat → Nat) :
    ∀ (n i : Nat) (bits : BitMap), Valid sz bits →
      (∀ y, i ≤ y → y < i + n → g0 y = (P0 y : Int) ∧ P0 y < 64 * sz ∧
        g1 y = (P1 y : Int) ∧ P1 y < 64 * sz) →
      ∃ r, Board.forM n i (fun y bits => (clear_bit bits (g0 y)).bind fun bits =>
            clear_bit bits (g1 y)) bits = some r ∧ Valid sz r ∧
        ∀ q, (bitAt r q = true ↔
          bitAt bits q = true ∧ ∀ y, i ≤ y → y < i + n → q ≠ P0 y ∧ q ≠ P1 y) := by
  intro n
  induction n with
  | zero =>
    intro i bits hv _
    refine ⟨bits, rfl, hv, fun q => ⟨fun h => ⟨h, fun y h1 h2 => by omega⟩, fun h => h.1⟩⟩
  | succ n ih =>
    intro i bits hv hg
    obtain ⟨e0, l0, e1, l1⟩ := hg i (le_refl _) (by omega)
    obtain ⟨r0, hr0, hv0, hb0⟩ := clear_bit_natCast hv (P0 i) l0
    obtain ⟨r1, hr1, hv1, hb1⟩ := clear_bit_natCast hv0 (P1 i) l1
    obtain ⟨r, hr, hvr, hbr⟩ := ih (i + 1) r1 hv1 (fun y h1 h2 => hg y (by omega) (by omega))
    refine ⟨r, ?_, hvr, fun q => ?_⟩
    · simp only [Board.forM, e0, e1, hr0, hr1, Option.bind_some, Option.some_bind]
      exact hr
    · rw [hbr, hb1, hb0]
      simp only [Bool.and_eq_true, Bool.not_eq_true', decide_eq_false_iff_not]
      constructor
      · rintro ⟨⟨⟨h1, h2⟩, h3⟩, h4⟩
        refine ⟨h1, fun y hy1 hy2 => ?_⟩
        by_cases hy : y = i
        · subst hy; exact ⟨h2, h3⟩
        · exact h4 y (by omega) (by omega)
      · rintro ⟨h1, h2⟩
        exact ⟨⟨⟨h1, (h2 i (le_refl _) (by omega)).1⟩, (h2 i (le_refl _) (by omega)).2⟩,
          fun y hy1 hy2 => h2 y (by omega) (by omega)⟩

theorem row_ends_bound (N y : Nat) (hy : y < N) :
    y * N + 0 < N * N ∧ y * N + N - 1 < N * N ∧ 0 * N + y < N * N ∧ (N - 1) * N + y < N * N := by
  have h1 := coord_lt N y 0 hy (by omega)
  have h2 := coord_lt N y (N - 1) hy (by omega)
  have h3 := coord_lt N 0 y (by omega) hy
  have h4 := coord_lt N (N - 1) y (by omega) hy
  omega

theorem mk_horizontal_sentinel_spec (b : Board) (hN : 1 ≤ b.Boardlen)
    (hsz : b.Boardlen * b.Boardlen ≤ 64 * b.bitmapsz) :
    ∃ h, b.mk_horizontal_sentinel = some h ∧ Valid b.bitmapsz h ∧
      ∀ r c, r < b.Boardlen → c < b.Boardlen →
        (bitAt h (r * b.Boardlen + c) = true ↔ c ≠ 0 ∧ c ≠ b.Boardlen - 1) := by
  obtain ⟨h, h1, h2, h3⟩ := forM_clear_spec b.bitmapsz
    (fun y => ((y * b.Boardlen + 0 : Nat) : Int))
    (fun y => ((y * b.Boardlen + b.Boardlen : Nat) - 1 : Int))
    (fun y => y * b.Boardlen + 0) (fun y => y * b.Boardlen + b.Boardlen - 1)
    b.Boardlen 0 _ (valid_ones b.bitmapsz) (fun y _ hy => by
      have := row_ends_bound b.Boardlen y (by omega)
      have h1 : 1 ≤ y * b.Boardlen + b.Boardlen := by omega
      refine ⟨rfl, ?_, ?_, ?_⟩
      · show y * b.Boardlen + 0 < 64 * b.bitmapsz
        omega
      · show ((y * b.Boardlen + b.Boardlen : Nat) : Int) - 1 =
          ((y * b.Boardlen + b.Boardlen - 1 : Nat) : Int)
        omega
      · show y * b.Boardlen + b.Boardlen - 1 < 64 * b.bitmapsz
        omega)
  refine ⟨h, h1, h2, fun r c hr hc => ?_⟩
  rw [h3, bitAt_ones]
  have hlt := coord_lt _ r c hr hc
  constructor
  · rintro ⟨_, hy⟩
    have := hy r (by omega) (by omega)
    omega
  · rintro ⟨hc0, hc1⟩
    refine ⟨by simpa using (by omega : r * b.Boardlen + c < 64 * b.bitmapsz), fun y _ hy => ⟨?_, ?_⟩⟩
    · intro e
      exact hc0 (coord_unique _ _ _ _ _ hc (by omega) e).2
    · intro e
      have e' : r * b.Boardlen + c = y * b.Boardlen + (b.Boardlen - 1) := by omega
      exact hc1 (coord_unique _ _ _ _ _ hc (by omega) e').2

theorem mk_vertical_sentinel_spec (b : Board) (hN : 1 ≤ b.Boardlen)
    (hsz : b.Boardlen * b.Boardlen ≤ 64 * b.bitmapsz) :
    ∃ h, b.mk_vertical_sentinel = some h ∧ Valid b.bitmapsz h ∧
      ∀ r c, r < b.Boardlen → c < b.Boardlen →
        (bitAt h (r * b.Boardlen + c) = true ↔ r ≠ 0 ∧ r ≠ b.Boardlen - 1) := by
  obtain ⟨h, h1, h2, h3⟩ := forM_clear_spec b.bitmapsz
    (fun y => ((0 * b.Boardlen + y : Nat) : Int))
    (fun y => (((b.Boardlen : Int) - 1) * b.Boardlen + y))
    (fun y => 0 * b.Boardlen + y) (fun y => (b.Boardlen - 1) * b.Boardlen + y)
    b.Boardlen 0 _ (valid_ones b.bitmapsz) (fun y _ hy => by
      have := row_ends_bound b.Boardlen y (by omega)
      refine ⟨rfl, ?_, ?_, ?_⟩
      · show 0 * b.Boardlen + y < 64 * b.bitmapsz
        omega
      · show ((b.Boardlen : Int) - 1) * b.Boardlen + y =
          (((b.Boardlen - 1) * b.Boardlen + y : Nat) : Int)
        push_cast [Nat.cast_sub hN]
        ring
      · show (b.Boardlen - 1) * b.Boardlen + y < 64 * b.bitmapsz
        omega)
  refine ⟨h, h1, h2, fun r c hr hc => ?_⟩
  rw [h3, bitAt_ones]
  have hlt := coord_lt _ r c hr hc
  constructor
  · rintro ⟨_, hy⟩
    have := hy c (by omega) (by omega)
    constructor
    · rintro rfl
      omega
    · rintro rfl
      omega
  · rintro ⟨hr0, hr1⟩
    refine ⟨by simpa using (by omega : r * b.Boardlen + c < 64 * b.bitmapsz), fun y _ hy => ⟨?_, ?_⟩⟩
    · intro e
      exact hr0 (coord_unique _ _ _ _ _ hc (by omega) e).1
    · intro e
      exact hr1 (coord_unique _ _ _ _ _ hc (by omega) e).1

theorem mk_sides_sentinel_spec (b : Board) (hN : 1 ≤ b.Boardlen)
    (hsz : b.Boardlen * b.Boardlen ≤ 64 * b.bitmapsz) :
    ∃ h, b.mk_sides_sentinel = some h ∧ Valid b.bitmapsz h ∧
      ∀ r c, r < b.Boardlen → c < b.Boardlen →
        (bitAt h (r * b.Boardlen + c) = true ↔
          (r ≠ 0 ∧ r ≠ b.Boardlen - 1) ∧ (c ≠ 0 ∧ c ≠ b.Boardlen - 1)) := by
  obtain ⟨h0, e0, v0, b0⟩ := forM_clear_spec b.bitmapsz
    (fun y => ((y * b.Boardlen + 0 : Nat) : Int))
    (fun y => ((y * b.Boardlen + b.Boardlen : Nat) - 1 : Int))
    (fun y => y * b.Boardlen + 0) (fun y => y * b.Boardlen + b.Boardlen - 1)
    b.Boardlen 0 _ (valid_ones b.bitmapsz) (fun y _ hy => by
      have := row_ends_bound b.Boardlen y (by omega)
      have h1 : 1 ≤ y * b.Boardlen + b.Boardlen := by omega
      refine ⟨rfl, ?_, ?_, ?_⟩
      · show y * b.Boardlen + 0 < 64 * b.bitmapsz
        omega
      · show ((y * b.Boardlen + b.Boardlen : Nat) : Int) - 1 =
          ((y * b.Boardlen + b.Boardlen - 1 : Nat) : Int)
        omega
      · show y * b.Boardlen + b.Boardlen - 1 < 64 * b.bitmapsz
        omega)
  obtain ⟨h, h1, h2, h3⟩ := forM_clear_spec b.bitmapsz
    (fun y => ((0 * b.Boardlen + y : Nat) : Int))
    (fun y => (((b.Boardlen : Int) - 1) * b.Boardlen + y))
    (fun y => 0 * b.Boardlen + y) (fun y => (b.Boardlen - 1) * b.Boardlen + y)
    b.Boardlen 0 h0 v0 (fun y _ hy => by
      have := row_ends_bound b.Boardlen y (by omega)
      refine ⟨rfl, ?_, ?_, ?_⟩
      · show 0 * b.Boardlen + y < 64 * b.bitmapsz
        omega
      · show ((b.Boardlen : Int) - 1) * b.Boardlen + y =
          (((b.Boardlen - 1) * b.Boardlen + y : Nat) : Int)
        push_cast [Nat.cast_sub hN]
        ring
      · show (b.Boardlen - 1) * b.Boardlen + y < 64 * b.bitmapsz
        omega)
  refine ⟨h, ?_, h2, fun r c hr hc => ?_⟩
  · unfold Board.mk_sides_sentinel
    simp only [e0, Option.bind_some, Option.some_bind]
    exact h1
  rw [h3, b0, bitAt_ones]
  have hlt := coord_lt _ r c hr hc
  constructor
  · rintro ⟨⟨_, hx⟩, hy⟩
    have hx' := hx r (by omega) (by omega)
    have hy' := hy c (by omega) (by omega)
    refine ⟨⟨?_, ?_⟩, by omega⟩
    · rintro rfl
      omega
    · rintro rfl
      omega
  · rintro ⟨⟨hr0, hr1⟩, hc0, hc1⟩
    refine ⟨⟨by simpa using (by omega : r * b.Boardlen + c < 64 * b.bitmapsz),
      fun y _ hy => ⟨?_, ?_⟩⟩, fun y _ hy => ⟨?_, ?_⟩⟩
    · intro e
      exact hc0 (coord_unique _ _ _ _ _ hc (by omega) e).2
    · intro e
      have e' : r * b.Boardlen + c = y * b.Boardlen + (b.Boardlen - 1) := by omega
      exact hc1 (coord_unique _ _ _ _ _ hc (by omega) e').2
    · intro e
      exact hr0 (coord_unique _ _ _ _ _ hc (by omega) e).1
    · intro e
      exact hr1 (coord_unique _ _ _ _ _ hc (by omega) e).1

/-- What `NewBoard N` builds: the dimensions, an empty position with black to move, and the three
sentinels (interior columns, interior rows, interior cells). -/
theorem NewBoard_spec (N : Nat) (hN : 1 ≤ N) :
    ∃ b, NewBoard N = some b ∧ b.Sized N ∧ b.Turn = 0 ∧ b.discs = 0 ∧
      b.black = mkBitMap b.bitmapsz ∧ b.white = mkBitMap b.bitmapsz ∧
      Valid b.bitmapsz b.h_sentinel ∧ Valid b.bitmapsz b.v_sentinel ∧
      Valid b.bitmapsz b.s_sentinel ∧
      ∀ r c, r < N → c < N →
        (bitAt b.h_sentinel (r * N + c) = true ↔ c ≠ 0 ∧ c ≠ N - 1) ∧
        (bitAt b.v_sentinel (r * N + c) = true ↔ r ≠ 0 ∧ r ≠ N - 1) ∧
        (bitAt b.s_sentinel (r * N + c) = true ↔ (r ≠ 0 ∧ r ≠ N - 1) ∧ (c ≠ 0 ∧ c ≠ N - 1)) := by
  have hsq : 1 ≤ N * N := Nat.mul_le_mul hN hN
  have hsz : N * N ≤ 64 * ((N * N - 1) / INTSIZE + 1) := by
    unfold INTSIZE; omega
  unfold NewBoard
  obtain ⟨h, eh, vh, bh⟩ := mk_horizontal_sentinel_spec
    { Turn := 0, discs := 0, Boardlen := N, bitmapsz := (N * N - 1) / INTSIZE + 1,
      unused_bits := INTSIZE * ((N * N - 1) / INTSIZE + 1) - N * N,
      black := mkBitMap ((N * N - 1) / INTSIZE + 1), white := mkBitMap ((N * N - 1) / INTSIZE + 1),
      h_sentinel := [], v_sentinel := [], s_sentinel := [] } hN hsz
  obtain ⟨v, ev, vv, bv⟩ := mk_vertical_sentinel_spec
    { Turn := 0, discs := 0, Boardlen := N, bitmapsz := (N * N - 1) / INTSIZE + 1,
      unused_bits := INTSIZE * ((N * N - 1) / INTSIZE + 1) - N * N,
      black := mkBitMap ((N * N - 1) / INTSIZE + 1), white := mkBitMap ((N * N - 1) / INTSIZE + 1),
      h_sentinel := h, v_sentinel := [], s_sentinel := [] } hN hsz
  obtain ⟨s, es, vs, bs⟩ := mk_sides_sentinel_spec
    { Turn := 0, discs := 0, Boardlen := N, bitmapsz := (N * N - 1) / INTSIZE + 1,
      unused_bits := INTSIZE * ((N * N - 1) / INTSIZE + 1) - N * N,
      black := mkBitMap ((N * N - 1) / INTSIZE + 1), white := mkBitMap ((N * N - 1) / INTSIZE + 1),
      h_sentinel := h, v_sentinel := v, s_sentinel := [] } hN hsz
  refine ⟨Board.mk 0 0 N ((N * N - 1) / INTSIZE + 1)
      (INTSIZE * ((N * N - 1) / INTSIZE + 1) - N * N) (mkBitMap ((N * N - 1) / INTSIZE + 1))
      (mkBitMap ((N * N - 1) / INTSIZE + 1)) h v s,
    ?_, ⟨rfl, rfl, rfl⟩, rfl, rfl, rfl, rfl, vh, vv, vs, fun r c hr hc =>
    ⟨bh r c hr hc, bv r c hr hc, bs r c hr hc⟩⟩
  simp only [eh, ev, es, Option.bind_some, Option.some_bind]

end Reversi


namespace Reversi

/-! ## Integer positions -/

theorem bitZ_natCast (a : BitMap) (p : Nat) : bitZ a (p : Int) = bitAt a p := by
  simp [bitZ]

theorem bitZ_neg (a : BitMap) (x : Int) (hx : x < 0) : bitZ a x = false := by
  have : ¬ (0 ≤ x) := by omega
  simp [bitZ, this]

theorem bitZ_eq (a : BitMap) (x : Int) (hx : 0 ≤ x) : bitZ a x = bitAt a x.toNat := by
  simp [bitZ, hx]

theorem Clean.bitZ_ge {n sz : Nat} {a : BitMap} (h : Clean n sz a) (x : Int) (hx : (n : Int) ≤ x) :
    bitZ a x = false := by
  rw [bitZ_eq a x (by omega)]
  exact h.2 _ (by omega)

theorem Clean.bitZ_lt {n sz : Nat} {a : BitMap} (h : Clean n sz a) (x : Int)
    (hx : bitZ a x = true) : 0 ≤ x ∧ x < n := by
  constructor
  · by_contra hn
    rw [bitZ_neg a x (by omega)] at hx
    exact Bool.noConfusion hx
  · by_contra hn
    rw [h.bitZ_ge x (by omega)] at hx
    exact Bool.noConfusion hx

theorem bitZ_ext_bitAt {r : BitMap} {f : Int → Bool}
    (h : ∀ p : Nat, bitAt r p = f p) (hneg : ∀ x : Int, x < 0 → f x = false) (x : Int) :
    bitZ r x = f x := by
  by_cases hx : 0 ≤ x
  · rw [bitZ_eq r x hx, h]
    congr 1
    omega
  · rw [bitZ_neg r x (by omega), hneg x (by omega)]

theorem AND_z (b : Board) {x y : BitMap} (hx : Valid b.bitmapsz x) (hy : Valid b.bitmapsz y) :
    ∃ r, b.AND x y = some r ∧ Valid b.bitmapsz r ∧ ∀ z, bitZ r z = (bitZ x z && bitZ y z) := by
  obtain ⟨r, h1, h2, h3⟩ := AND_spec b hx hy
  refine ⟨r, h1, h2, fun z => ?_⟩
  by_cases hz : 0 ≤ z
  · simp [bitZ, hz, h3]
  · simp [bitZ, hz]

theorem OR_z (b : Board) {x y : BitMap} (hx : Valid b.bitmapsz x) (hy : Valid b.bitmapsz y) :
    ∃ r, b.OR x y = some r ∧ Valid b.bitmapsz r ∧ ∀ z, bitZ r z = (bitZ x z || bitZ y z) := by
  obtain ⟨r, h1, h2, h3⟩ := OR_spec b hx hy
  refine ⟨r, h1, h2, fun z => ?_⟩
  by_cases hz : 0 ≤ z
  · simp [bitZ, hz, h3]
  · simp [bitZ, hz]

theorem NOT_z (b : Board) {x : BitMap} (hx : Valid b.bitmapsz x) :
    ∃ r, b.NOT x = some r ∧ Valid b.bitmapsz r ∧
      ∀ z, bitZ r z = (decide (0 ≤ z ∧ z < 64 * b.bitmapsz) && !bitZ x z) := by
  obtain ⟨r, h1, h2, h3⟩ := NOT_spec b hx
  refine ⟨r, h1, h2, fun z => ?_⟩
  by_cases hz : 0 ≤ z
  · have e : (z.toNat < 64 * b.bitmapsz) ↔ (z < 64 * (b.bitmapsz : Int)) := by omega
    simp [bitZ, hz, h3, e]
  · simp [bitZ, hz]

theorem clean_of_bitZ {n sz : Nat} {r : BitMap} (hv : Valid sz r)
    (h : ∀ x : Int, bitZ r x = true → x < n) : Clean n sz r := by
  refine ⟨hv, fun p hp => ?_⟩
  by_contra hne
  have h1 : bitZ r (p : Int) = true := by
    rw [bitZ_natCast]; simpa using hne
  have := h _ h1
  omega

theorem SHL_shiftOK (b : Board) (N : Nat) (hS : b.Sized N) (hN : 1 ≤ N) (k : Nat)
    (hk0 : 0 < k) (hk : k ≤ N * N) : ShiftOK b N (fun x => b.SHL x k) (k : Int) := by
  obtain ⟨g1, g2, g3, g4⟩ := hS.sq_le hN
  intro a ha
  obtain ⟨r, h1, h2, h3⟩ := SHL_spec b ha.1 k hk0 (by omega) g3 g2
    (fun q hq => ha.2 q (by omega))
  have hb : ∀ x : Int, bitZ r x = (decide (0 ≤ x ∧ x < N * N) && bitZ a (x + k)) := by
    intro x
    by_cases hx : 0 ≤ x
    · rw [bitZ_eq r x hx, h3, bitZ_eq a (x + k) (by omega)]
      have e : (x + (k : Int)).toNat = x.toNat + k := by omega
      rw [e]
      by_cases hx2 : x < N * N
      · simp [hx, hx2]
      · have : bitAt a (x.toNat + k) = false := ha.2 _ (by
          have : (N * N : Int) = ((N * N : Nat) : Int) := by push_cast; rfl
          omega)
        simp [hx2, this]
    · rw [bitZ_neg r x (by omega)]
      simp [hx]
  refine ⟨r, h1, clean_of_bitZ h2 (fun x hx => ?_), hb⟩
  rw [hb] at hx
  simp only [Bool.and_eq_true, decide_eq_true_eq] at hx
  have := hx.1.2
  exact_mod_cast this

theorem SHR_shiftOK (b : Board) (N : Nat) (hS : b.Sized N) (hN : 1 ≤ N) (k : Nat)
    (hk0 : 0 < k) (hk : k ≤ N * N) (hmul : k % 64 ≠ 0 ∨ b.unused_bits = 0) :
    ShiftOK b N (fun x => b.SHR x k) (-(k : Int)) := by
  obtain ⟨g1, g2, g3, g4⟩ := hS.sq_le hN
  intro a ha
  obtain ⟨r, h1, h2, h3⟩ := SHR_spec b ha.1 k hk0 (by omega) g3 g2 hmul
  have hNN : (N * N : Int) = ((N * N : Nat) : Int) := by push_cast; rfl
  have hb : ∀ x : Int, bitZ r x = (decide (0 ≤ x ∧ x < N * N) && bitZ a (x + -(k : Int))) := by
    intro x
    by_cases hx : 0 ≤ x
    · rw [bitZ_eq r x hx, h3, g4]
      by_cases hkx : (k : Int) ≤ x
      · rw [bitZ_eq a (x + -(k : Int)) (by omega)]
        have e : (x + -(k : Int)).toNat = x.toNat - k := by omega
        rw [e]
        by_cases hx2 : x < N * N
        · have : k ≤ x.toNat ∧ x.toNat < N * N := by omega
          simp [hx, hx2, this]
        · have : ¬ (k ≤ x.toNat ∧ x.toNat < N * N) := by omega
          simp [hx2, this]
      · rw [bitZ_neg a _ (by omega)]
        have : ¬ (k ≤ x.toNat ∧ x.toNat < N * N) := by omega
        simp [this]
    · rw [bitZ_neg r x (by omega)]
      simp [hx]
  refine ⟨r, h1, clean_of_bitZ h2 (fun x hx => ?_), hb⟩
  rw [hb] at hx
  simp only [Bool.and_eq_true, decide_eq_true_eq] at hx
  have := hx.1.2
  exact_mod_cast this

end Reversi


namespace Reversi

/-! ## Coordinates -/

theorem int_coord_unique (N : Nat) (r c r' c' : Int) (hc : 0 ≤ c ∧ c < N) (hc' : 0 ≤ c' ∧ c' < N)
    (h : r * N + c = r' * N + c') : r = r' ∧ c = c' := by
  have hN : (0 : Int) < N := by omega
  have e1 : (c + r * N) % (N : Int) = c := by
    rw [Int.add_mul_emod_self, Int.emod_eq_of_lt hc.1 hc.2]
  have e2 : (c' + r' * N) % (N : Int) = c' := by
    rw [Int.add_mul_emod_self, Int.emod_eq_of_lt hc'.1 hc'.2]
  have e3 : c + r * N = c' + r' * N := by omega
  rw [e3, e2] at e1
  subst e1
  refine ⟨?_, rfl⟩
  have : r * N = r' * N := by omega
  exact Int.eq_of_mul_eq_mul_right (by omega) this

theorem onBoard_pos {N : Nat} {r c : Int} (h : onBoard N r c) :
    0 ≤ r * N + c ∧ r * N + c < N * N := by
  obtain ⟨h1, h2, h3, h4⟩ := h
  have hN : (0 : Int) ≤ N := by omega
  have a1 : 0 ≤ r * N := Int.mul_nonneg h1 hN
  have a2 : (r + 1) * N ≤ N * N := Int.mul_le_mul_of_nonneg_right (by omega) hN
  have a3 : (r + 1) * N = r * N + N := by ring
  omega

theorem coord_exists (N : Nat) (x : Int) (h0 : 0 ≤ x) (h1 : x < N * N) :
    ∃ r c : Int, onBoard N r c ∧ x = r * N + c := by
  have hN : (0 : Int) < N := by
    by_contra hn
    have : (N : Int) = 0 := by omega
    rw [this] at h1
    omega
  refine ⟨x / N, x % N, ⟨Int.ediv_nonneg h0 (by omega), ?_, Int.emod_nonneg _ (by omega),
    Int.emod_lt_of_pos _ hN⟩, ?_⟩
  · exact Int.ediv_lt_of_lt_mul hN h1
  · have := Int.emod_add_ediv x N
    have e : (N : Int) * (x / N) = x / N * N := by ring
    omega

theorem cellZ_iff (N : Nat) (a : BitMap) (r c : Int) :
    cellZ N a r c = true ↔ onBoard N r c ∧ bitZ a (r * N + c) = true := by
  simp [cellZ]

theorem cellZ_of_onBoard {N : Nat} (a : BitMap) {r c : Int} (h : onBoard N r c) :
    cellZ N a r c = bitZ a (r * N + c) := by
  simp [cellZ, h]

/-- A set bit of a clean bitmap sits at a cell of the board. -/
theorem Clean.exists_cell {N sz : Nat} {a : BitMap} (ha : Clean (N * N) sz a) (x : Int)
    (hx : bitZ a x = true) : ∃ r c : Int, x = r * N + c ∧ cellZ N a r c = true := by
  obtain ⟨h0, h1⟩ := ha.bitZ_lt x hx
  obtain ⟨r, c, hrc, e⟩ := coord_exists N x h0 (by exact_mod_cast h1)
  exact ⟨r, c, e, by rw [cellZ_of_onBoard a hrc, ← e]; exact hx⟩

/-! ## Runs -/

theorem isRun_zero (N : Nat) (m s : BitMap) (dr dc r c : Int) :
    IsRun N m s dr dc 0 r c ↔ cellZ N m r c = true ∧ cellZ N s (r + dr) (c + dc) = true := by
  unfold IsRun
  constructor
  · rintro ⟨h1, h2⟩
    have := h1 0 (le_refl _)
    simp only [Nat.cast_zero, zero_mul, add_zero, zero_add, one_mul] at this h2
    exact ⟨this, h2⟩
  · rintro ⟨h1, h2⟩
    refine ⟨fun i hi => ?_, ?_⟩
    · have : i = 0 := by omega
      subst this
      simpa using h1
    · simpa using h2

theorem isRun_succ (N : Nat) (m s : BitMap) (dr dc : Int) (k : Nat) (r c : Int) :
    IsRun N m s dr dc (k + 1) r c ↔
      cellZ N m r c = true ∧ IsRun N m s dr dc k (r + dr) (c + dc) := by
  unfold IsRun
  have e1 : ∀ i : Nat, r + dr + (i : Int) * dr = r + ((i + 1 : Nat) : Int) * dr := by
    intro i; push_cast; ring
  have e2 : ∀ i : Nat, c + dc + (i : Int) * dc = c + ((i + 1 : Nat) : Int) * dc := by
    intro i; push_cast; ring
  have e3 : r + dr + ((k : Int) + 1) * dr = r + (((k + 1 : Nat) : Int) + 1) * dr := by
    push_cast; ring
  have e4 : c + dc + ((k : Int) + 1) * dc = c + (((k + 1 : Nat) : Int) + 1) * dc := by
    push_cast; ring
  constructor
  · rintro ⟨h1, h2⟩
    refine ⟨by simpa using h1 0 (by omega), fun i hi => ?_, ?_⟩
    · rw [e1, e2]; exact h1 (i + 1) (by omega)
    · rw [e3, e4]; exact h2
  · rintro ⟨h0, h1, h2⟩
    refine ⟨fun i hi => ?_, ?_⟩
    · cases i with
      | zero => simpa using h0
      | succ j =>
        rw [← e1, ← e2]; exact h1 j (by omega)
    · rw [← e3, ← e4]; exact h2

/-- One step from an interior cell stays on the board, at linear offset `dr*N + dc`. -/
theorem step_onBoard {N : Nat} {dr dc r c : Int} (hrc : onBoard N r c)
    (hdr : dr = -1 ∨ dr = 0 ∨ dr = 1) (hdc : dc = -1 ∨ dc = 0 ∨ dc = 1)
    (hint : Interior N dr dc r c) :
    onBoard N (r + dr) (c + dc) ∧ (r + dr) * N + (c + dc) = r * N + c + (dr * N + dc) := by
  obtain ⟨h1, h2, h3, h4⟩ := hrc
  refine ⟨?_, by ring⟩
  unfold Interior at hint
  unfold onBoard
  rcases hdr with h | h | h <;> rcases hdc with h' | h' | h' <;> subst h <;> subst h' <;>
    simp at hint <;> omega

end Reversi


namespace Reversi

/-! ## The directional scan -/

/-- One iteration of the scan loop: `tmp = OR(tmp, AND(mask, shift(tmp)))`. -/
theorem scan_step_spec (b : Board) (N : Nat) (shift : BitMap → Option BitMap) (δ : Int)
    (hsh : ShiftOK b N shift δ) {M t : BitMap} (hM : Clean (N * N) b.bitmapsz M)
    (ht : Clean (N * N) b.bitmapsz t) :
    ∃ t', ((shift t).bind fun s => (b.AND M s).bind fun m => b.OR t m) = some t' ∧
      Clean (N * N) b.bitmapsz t' ∧
      ∀ x, bitZ t' x = (bitZ t x || (bitZ M x && bitZ t (x + δ))) := by
  obtain ⟨s, hs, cs, bs⟩ := hsh t ht
  obtain ⟨m, hm, vm, bm⟩ := AND_z b hM.1 cs.1
  obtain ⟨t', ht', vt', bt'⟩ := OR_z b ht.1 vm
  have hb : ∀ x, bitZ t' x = (bitZ t x || (bitZ M x && bitZ t (x + δ))) := by
    intro x
    rw [bt', bm, bs]
    by_cases hx : 0 ≤ x ∧ x < N * N
    · simp [hx]
    · have : bitZ M x = false := by
        by_cases h0 : 0 ≤ x
        · exact hM.bitZ_ge x (by push_cast; omega)
        · exact bitZ_neg M x (by omega)
      simp [this]
  refine ⟨t', by simp only [hs, hm, Option.bind_some, Option.some_bind]; exact ht',
    clean_of_bitZ vt' (fun x hx => ?_), hb⟩
  rw [hb] at hx
  simp only [Bool.or_eq_true, Bool.and_eq_true] at hx
  rcases hx with h | h
  · exact (ht.bitZ_lt x h).2
  · exact (hM.bitZ_lt x h.1).2

theorem scan_spec (b : Board) (N : Nat) (hB : b.Boardlen = N)
    (shift : BitMap → Option BitMap) (δ : Int) (hsh : ShiftOK b N shift δ)
    (dr dc : Int) (hδ : δ = dr * N + dc)
    (hdr : dr = -1 ∨ dr = 0 ∨ dr = 1) (hdc : dc = -1 ∨ dc = 0 ∨ dc = 1)
    {M seed : BitMap} (hM : Clean (N * N) b.bitmapsz M) (hseed : Clean (N * N) b.bitmapsz seed)
    (hint : ∀ r c, cellZ N M r c = true → Interior N dr dc r c) :
    ∃ tmp, b.scan M shift seed = some tmp ∧ Clean (N * N) b.bitmapsz tmp ∧
      (∀ x, bitZ tmp x = true → bitZ M x = true) ∧
      ∀ r c, onBoard N r c →
        (bitZ tmp (r * N + c) = true ↔ ∃ k, k ≤ N - 3 ∧ IsRun N M seed dr dc k r c) := by
  -- reading a clean bitmap one step further along the direction, from a cell of the mask
  have hnext : ∀ (t : BitMap), Clean (N * N) b.bitmapsz t → ∀ r c, onBoard N r c →
      bitZ M (r * N + c) = true →
      bitZ t (r * N + c + δ) = cellZ N t (r + dr) (c + dc) := by
    intro t _ r c hrc hm
    have hi := hint r c (by rw [cellZ_of_onBoard M hrc]; exact hm)
    obtain ⟨h1, h2⟩ := step_onBoard hrc hdr hdc hi
    rw [cellZ_of_onBoard t h1, h2, hδ]
  -- the loop, started from a bitmap that holds the runs of length at most `j0`
  have hloop : ∀ (n j0 : Nat) (t : BitMap), Clean (N * N) b.bitmapsz t →
      (∀ x, bitZ t x = true → bitZ M x = true) →
      (∀ r c, onBoard N r c →
        (bitZ t (r * N + c) = true ↔ ∃ k, k ≤ j0 ∧ IsRun N M seed dr dc k r c)) →
      ∃ tmp, Board.iterM n (fun tmp => (shift tmp).bind fun s =>
          (b.AND M s).bind fun m => b.OR tmp m) t = some tmp ∧
        Clean (N * N) b.bitmapsz tmp ∧ (∀ x, bitZ tmp x = true → bitZ M x = true) ∧
        ∀ r c, onBoard N r c →
          (bitZ tmp (r * N + c) = true ↔ ∃ k, k ≤ j0 + n ∧ IsRun N M seed dr dc k r c) := by
    intro n
    induction n with
    | zero =>
      intro j0 t ht hsub hbits
      exact ⟨t, rfl, ht, hsub, hbits⟩
    | succ n ih =>
      intro j0 t ht hsub hbits
      obtain ⟨t', e', c', b'⟩ := scan_step_spec b N shift δ hsh hM ht
      obtain ⟨tmp, e, ctmp, stmp, btmp⟩ := ih (j0 + 1) t' c'
        (fun x hx => by
          rw [b'] at hx
          simp only [Bool.or_eq_true, Bool.and_eq_true] at hx
          rcases hx with h | h
          · exact hsub x h
          · exact h.1)
        (fun r c hrc => by
          rw [b']
          simp only [Bool.or_eq_true, Bool.and_eq_true]
          constructor
          · rintro (h | ⟨hm, h⟩)
            · obtain ⟨k, hk, hr⟩ := (hbits r c hrc).1 h
              exact ⟨k, by omega, hr⟩
            · rw [hnext t ht r c hrc hm, cellZ_iff] at h
              obtain ⟨k, hk, hr⟩ := (hbits _ _ h.1).1 h.2
              exact ⟨k + 1, by omega, (isRun_succ ..).2
                ⟨by rw [cellZ_of_onBoard M hrc]; exact hm, hr⟩⟩
          · rintro ⟨k, hk, hr⟩
            cases k with
            | zero => exact Or.inl ((hbits r c hrc).2 ⟨0, by omega, hr⟩)
            | succ k =>
              obtain ⟨h0, h1⟩ := (isRun_succ ..).1 hr
              have hm : bitZ M (r * N + c) = true := by
                rw [← cellZ_of_onBoard M hrc]; exact h0
              refine Or.inr ⟨hm, ?_⟩
              have hon : onBoard N (r + dr) (c + dc) := by
                have := h1.1 0 (by omega)
                simp only [Nat.cast_zero, zero_mul, add_zero] at this
                exact ((cellZ_iff ..).1 this).1
              rw [hnext t ht r c hrc hm, cellZ_iff]
              exact ⟨hon, (hbits _ _ hon).2 ⟨k, by omega, h1⟩⟩)
      refine ⟨tmp, ?_, ctmp, stmp, fun r c hrc => ?_⟩
      · simp only [Board.iterM]
        rw [e']
        exact e
      · rw [btmp r c hrc]
        have : j0 + 1 + n = j0 + (n + 1) := by omega
        rw [this]
  -- the seed step: `tmp = AND(mask, shift(seed))`
  obtain ⟨s, hs, cs, bs⟩ := hsh seed hseed
  obtain ⟨t0, h0, v0, b0⟩ := AND_z b hM.1 cs.1
  have c0 : Clean (N * N) b.bitmapsz t0 := clean_of_bitZ v0 (fun x hx => by
    rw [b0] at hx
    simp only [Bool.and_eq_true] at hx
    exact (hM.bitZ_lt x hx.1).2)
  obtain ⟨tmp, e, ctmp, stmp, btmp⟩ := hloop (N - 3) 0 t0 c0
    (fun x hx => by
      rw [b0] at hx
      simp only [Bool.and_eq_true] at hx
      exact hx.1)
    (fun r c hrc => by
      rw [b0, bs]
      obtain ⟨p0, p1⟩ := onBoard_pos hrc
      simp only [Bool.and_eq_true, decide_eq_true_eq]
      constructor
      · rintro ⟨hm, _, h⟩
        rw [hnext seed hseed r c hrc hm] at h
        exact ⟨0, le_refl _, (isRun_zero ..).2 ⟨by rw [cellZ_of_onBoard M hrc]; exact hm, h⟩⟩
      · rintro ⟨k, hk, hr⟩
        have hk0 : k = 0 := by omega
        subst hk0
        obtain ⟨h1, h2⟩ := (isRun_zero ..).1 hr
        have hm : bitZ M (r * N + c) = true := by
          rw [← cellZ_of_onBoard M hrc]; exact h1
        exact ⟨hm, ⟨p0, p1⟩, by rw [hnext seed hseed r c hrc hm]; exact h2⟩)
  refine ⟨tmp, ?_, ctmp, stmp, fun r c hrc => ?_⟩
  · unfold Board.scan
    simp only [hs, h0, Option.bind_some, Option.some_bind, hB]
    exact e
  · rw [btmp r c hrc]
    simp

end Reversi


namespace Reversi

/-! ## From scans to bracketed runs -/

theorem is_bit_on_eq_bitZ (a : BitMap) (x : Int) :
    (is_bit_on a x = some true) ↔ bitZ a x = true := by
  by_cases hx : 0 ≤ x
  · obtain ⟨p, rfl⟩ := Int.eq_ofNat_of_zero_le hx
    rw [is_bit_on_natCast, bitZ_natCast]
    by_cases hp : p / 64 < a.length
    · simp [hp]
    · rw [if_neg hp, bitAt_of_le_length a p (by omega)]
      simp
  · rw [is_bit_on_neg a x (by omega), bitZ_neg a x (by omega)]
    simp

theorem cellOn_eq_cellZ (a : BitMap) (N : Nat) (r c : Int) :
    cellOn N a r c = cellZ N a r c := by
  unfold cellOn cellZ
  congr 1
  rw [Bool.eq_iff_iff]
  simp only [beq_iff_eq]
  exact is_bit_on_eq_bitZ a _

theorem interior_neg {N : Nat} {dr dc r c : Int} (h : Interior N dr dc r c) :
    Interior N (-dr) (-dc) r c := by
  unfold Interior at h ⊢
  exact ⟨fun h1 => h.1 (fun h2 => h1 (by omega)), fun h1 => h.2 (fun h2 => h1 (by omega))⟩

/-- Reading a bitmap that lies inside the mask one step before a cell: the linear predecessor is
the geometric one. -/
theorem bitZ_shift_iff (N : Nat) (δ dr dc : Int) (hδ : δ = dr * N + dc)
    (hdr : dr = -1 ∨ dr = 0 ∨ dr = 1) (hdc : dc = -1 ∨ dc = 0 ∨ dc = 1)
    {sz : Nat} {M t : BitMap} (ht : Clean (N * N) sz t)
    (hsub : ∀ x, bitZ t x = true → bitZ M x = true)
    (hint : ∀ r c, cellZ N M r c = true → Interior N dr dc r c)
    (r c : Int) (hrc : onBoard N r c) :
    bitZ t (r * N + c + δ) = true ↔ cellZ N t (r + dr) (c + dc) = true := by
  have e : (r + dr) * N + (c + dc) = r * N + c + δ := by rw [hδ]; ring
  constructor
  · intro h
    obtain ⟨r', c', e', h'⟩ := ht.exists_cell _ h
    have hon' := ((cellZ_iff ..).1 h').1
    have hM' : cellZ N M r' c' = true := by
      rw [cellZ_of_onBoard M hon']
      exact hsub _ (by rw [← cellZ_of_onBoard t hon']; exact h')
    obtain ⟨b1, b2⟩ := @step_onBoard N (-dr) (-dc) r' c' hon' (by omega) (by omega)
      (interior_neg (hint _ _ hM'))
    have e2 : (r' + -dr) * N + (c' + -dc) = r * N + c := by
      rw [b2, ← e', hδ]; ring
    obtain ⟨u1, u2⟩ := int_coord_unique N _ _ _ _ ⟨b1.2.2.1, b1.2.2.2⟩ ⟨hrc.2.2.1, hrc.2.2.2⟩ e2
    have : r' = r + dr := by omega
    subst this
    have : c' = c + dc := by omega
    subst this
    exact h'
  · intro h
    rw [cellZ_iff, e] at h
    exact h.2

/-- Runs through the masked opponent cells are exactly the bracketed runs of the rules. -/
theorem run_iff_brackets (N : Nat) (dr dc : Int)
    (hdr : dr = -1 ∨ dr = 0 ∨ dr = 1) (hdc : dc = -1 ∨ dc = 0 ∨ dc = 1)
    (hne : dr ≠ 0 ∨ dc ≠ 0) {M my op : BitMap}
    (hM : ∀ r c, onBoard N r c →
      (bitZ M (r * N + c) = true ↔ bitZ op (r * N + c) = true ∧ Interior N dr dc r c))
    (r c : Int) (hrc : onBoard N r c) :
    (∃ k, k ≤ N - 3 ∧ IsRun N M my dr dc k (r + dr) (c + dc)) ↔
      ∃ K, 1 ≤ K ∧ Brackets N my op r c dr dc K := by
  have e1 : ∀ i : Nat, r + dr + (i : Int) * dr = r + ((i + 1 : Nat) : Int) * dr := by
    intro i; push_cast; ring
  have e2 : ∀ i : Nat, c + dc + (i : Int) * dc = c + ((i + 1 : Nat) : Int) * dc := by
    intro i; push_cast; ring
  constructor
  · rintro ⟨k, _, h1, h2⟩
    refine ⟨k + 1, by omega, fun i hi1 hi2 => ?_, ?_⟩
    · obtain ⟨j, rfl⟩ : ∃ j, i = j + 1 := ⟨i - 1, by omega⟩
      have := h1 j (by omega)
      rw [e1, e2, cellZ_iff] at this
      rw [cellOn_eq_cellZ op, cellZ_iff]
      exact ⟨this.1, ((hM _ _ this.1).1 this.2).1⟩
    · rw [cellOn_eq_cellZ my]
      have e3 : r + dr + ((k : Int) + 1) * dr = r + (((k + 1 : Nat) : Int) + 1) * dr := by
        push_cast; ring
      have e4 : c + dc + ((k : Int) + 1) * dc = c + (((k + 1 : Nat) : Int) + 1) * dc := by
        push_cast; ring
      rw [← e3, ← e4]; exact h2
  · rintro ⟨K, hK, h1, h2⟩
    obtain ⟨k, rfl⟩ : ∃ k, K = k + 1 := ⟨K - 1, by omega⟩
    have h2' := h2
    rw [cellOn_eq_cellZ my, cellZ_iff] at h2
    obtain ⟨⟨q1, q2, q3, q4⟩, _⟩ := h2
    obtain ⟨p1, p2, p3, p4⟩ := hrc
    have hk : k ≤ N - 3 := by
      push_cast at q1 q2 q3 q4
      rcases hdr with h | h | h <;> rcases hdc with h' | h' | h' <;> subst h <;> subst h' <;>
        simp at hne <;> omega
    refine ⟨k, hk, fun i hi => ?_, ?_⟩
    · have := h1 (i + 1) (by omega) (by omega)
      rw [cellOn_eq_cellZ op, cellZ_iff] at this
      rw [e1, e2, cellZ_iff]
      refine ⟨this.1, (hM _ _ this.1).2 ⟨this.2, ?_⟩⟩
      obtain ⟨⟨o1, o2, o3, o4⟩, _⟩ := this
      unfold Interior
      push_cast at q1 q2 q3 q4 o1 o2 o3 o4 ⊢
      rcases hdr with h | h | h <;> rcases hdc with h' | h' | h' <;> subst h <;> subst h' <;>
        simp at hne ⊢ <;> omega
    · have e3 : r + dr + ((k : Int) + 1) * dr = r + (((k + 1 : Nat) : Int) + 1) * dr := by
        push_cast; ring
      have e4 : c + dc + ((k : Int) + 1) * dc = c + (((k + 1 : Nat) : Int) + 1) * dc := by
        push_cast; ring
      rw [e3, e4, ← cellOn_eq_cellZ my]
      exact h2'

end Reversi


namespace Reversi

/-! ## The board built by `NewBoard` -/

theorem NewBoard_isBoard {N : Nat} {b : Board} (hN : 1 ≤ N) (h : NewBoard N = some b) :
    b.IsBoard N := by
  obtain ⟨b0, h0, _, h2, h3, h4, h5, _⟩ := NewBoard_spec N hN
  rw [h0] at h
  cases h
  unfold Board.IsBoard
  rw [h0]
  congr 1
  cases b
  simp_all

/-- Dimensions and sentinels of a board of size `N`, in cell coordinates. -/
theorem Board.IsBoard.facts {b : Board} {N : Nat} (h : b.IsBoard N) (hN : 1 ≤ N) :
    b.Sized N ∧ Valid b.bitmapsz b.h_sentinel ∧ Valid b.bitmapsz b.v_sentinel ∧
      Valid b.bitmapsz b.s_sentinel ∧
      ∀ r c, onBoard N r c →
        (bitZ b.h_sentinel (r * N + c) = true ↔ (0 < c ∧ c + 1 < N)) ∧
        (bitZ b.v_sentinel (r * N + c) = true ↔ (0 < r ∧ r + 1 < N)) ∧
        (bitZ b.s_sentinel (r * N + c) = true ↔ (0 < r ∧ r + 1 < N) ∧ (0 < c ∧ c + 1 < N)) := by
  obtain ⟨b0, h0, hs, _, _, _, _, vh, vv, vs, hbits⟩ := NewBoard_spec N hN
  unfold Board.IsBoard at h
  rw [h0] at h
  cases h
  refine ⟨hs, vh, vv, vs, fun r c hrc => ?_⟩
  obtain ⟨h1, h2, h3, h4⟩ := hrc
  obtain ⟨r', rfl⟩ := Int.eq_ofNat_of_zero_le h1
  obtain ⟨c', rfl⟩ := Int.eq_ofNat_of_zero_le h3
  have e : ((r' : Int) * N + c') = ((r' * N + c' : Nat) : Int) := by push_cast; rfl
  obtain ⟨a1, a2, a3⟩ := hbits r' c' (by omega) (by omega)
  rw [e, bitZ_natCast, bitZ_natCast, bitZ_natCast]
  refine ⟨?_, ?_, ?_⟩
  · rw [a1]; omega
  · rw [a2]; omega
  · rw [a3]; omega

theorem shift_amounts {b : Board} {N : Nat} (hS : b.Sized N) (hN : 2 ≤ N) (hev : N % 2 = 0) :
    ShiftOK b N (fun x => b.SHL x N) ((1 : Int) * N + 0) ∧
    ShiftOK b N (fun x => b.SHR x N) ((-1 : Int) * N + 0) ∧
    ShiftOK b N (fun x => b.SHR x 1) ((0 : Int) * N + -1) ∧
    ShiftOK b N (fun x => b.SHL x 1) ((0 : Int) * N + 1) ∧
    ShiftOK b N (fun x => b.SHL x (N - 1)) ((1 : Int) * N + -1) ∧
    ShiftOK b N (fun x => b.SHR x (N - 1)) ((-1 : Int) * N + 1) ∧
    ShiftOK b N (fun x => b.SHR x (N + 1)) ((-1 : Int) * N + -1) ∧
    ShiftOK b N (fun x => b.SHL x (N + 1)) ((1 : Int) * N + 1) := by
  have h2 : 2 * N ≤ N * N := Nat.mul_le_mul_right N hN
  obtain ⟨g1, g2, g3, g4⟩ := hS.sq_le (by omega)
  -- a shift by a multiple of 64 only happens when `N` is one, and then no bit is unused
  have hu : N % 64 = 0 → b.unused_bits = 0 := by
    intro h
    obtain ⟨q, hq⟩ : ∃ q, N = 64 * q := ⟨N / 64, by omega⟩
    have : N * N = 64 * (q * N) := by rw [hq]; ring
    omega
  have c1 : ((1 : Int) * N + 0) = ((N : Nat) : Int) := by ring
  have c2 : ((-1 : Int) * N + 0) = -((N : Nat) : Int) := by ring
  have c3 : ((0 : Int) * N + -1) = -((1 : Nat) : Int) := by push_cast; ring
  have c4 : ((0 : Int) * N + 1) = ((1 : Nat) : Int) := by push_cast; ring
  have c5 : ((1 : Int) * N + -1) = ((N - 1 : Nat) : Int) := by
    push_cast [Nat.cast_sub (by omega : 1 ≤ N)]; ring
  have c6 : ((-1 : Int) * N + 1) = -((N - 1 : Nat) : Int) := by
    push_cast [Nat.cast_sub (by omega : 1 ≤ N)]; ring
  have c7 : ((-1 : Int) * N + -1) = -((N + 1 : Nat) : Int) := by push_cast; ring
  have c8 : ((1 : Int) * N + 1) = ((N + 1 : Nat) : Int) := by push_cast; ring
  rw [c1, c2, c3, c4, c5, c6, c7, c8]
  refine ⟨SHL_shiftOK b N hS (by omega) N (by omega) (by omega),
    SHR_shiftOK b N hS (by omega) N (by omega) (by omega) ?_,
    SHR_shiftOK b N hS (by omega) 1 (by omega) (by omega) (Or.inl (by decide)),
    SHL_shiftOK b N hS (by omega) 1 (by omega) (by omega),
    SHL_shiftOK b N hS (by omega) (N - 1) (by omega) (by omega),
    SHR_shiftOK b N hS (by omega) (N - 1) (by omega) (by omega) (Or.inl (by omega)),
    SHR_shiftOK b N hS (by omega) (N + 1) (by omega) (by omega) (Or.inl (by omega)),
    SHL_shiftOK b N hS (by omega) (N + 1) (by omega) (by omega)⟩
  by_cases h : N % 64 = 0
  · exact Or.inr (hu h)
  · exact Or.inl h

end Reversi


namespace Reversi

/-! ## Legal-move generation -/

/-- The mask of one direction: opponent cells that are interior for that direction. -/
theorem mask_spec (b : Board) (N : Nat) (P : Int → Int → Prop) {op sent : BitMap}
    (hop : Clean (N * N) b.bitmapsz op) (hsent : Valid b.bitmapsz sent)
    (hsentb : ∀ r c, onBoard N r c → (bitZ sent (r * N + c) = true ↔ P r c)) :
    ∃ M, b.AND op sent = some M ∧ Clean (N * N) b.bitmapsz M ∧
      (∀ r c, cellZ N M r c = true → P r c) ∧
      ∀ r c, onBoard N r c →
        (bitZ M (r * N + c) = true ↔ bitZ op (r * N + c) = true ∧ P r c) := by
  obtain ⟨M, h1, h2, h3⟩ := AND_z b hop.1 hsent
  have hb : ∀ r c, onBoard N r c →
      (bitZ M (r * N + c) = true ↔ bitZ op (r * N + c) = true ∧ P r c) := by
    intro r c hrc
    rw [h3, Bool.and_eq_true, hsentb r c hrc]
  refine ⟨M, h1, clean_of_bitZ h2 (fun x hx => ?_), fun r c h => ?_, hb⟩
  · rw [h3, Bool.and_eq_true] at hx
    exact (hop.bitZ_lt x hx.1).2
  · rw [cellZ_iff] at h
    exact ((hb r c h.1).1 h.2).2

/-- One direction of `LegalMovesBits`: the scan followed by the update of `legals`. -/
theorem legal_dir_spec (b : Board) (N : Nat) (hB : b.Boardlen = N)
    (shift : BitMap → Option BitMap) (δ : Int) (hsh : ShiftOK b N shift δ)
    (dr dc : Int) (hδ : δ = dr * N + dc)
    (hdr : dr = -1 ∨ dr = 0 ∨ dr = 1) (hdc : dc = -1 ∨ dc = 0 ∨ dc = 1) (hne : dr ≠ 0 ∨ dc ≠ 0)
    {M my op opens legals : BitMap} (ds : List (Int × Int)) (P : Int → Int → Prop)
    (hP : ∀ r c, P r c ↔ Interior N dr dc r c)
    (hMask : Clean (N * N) b.bitmapsz M ∧ (∀ r c, cellZ N M r c = true → P r c) ∧
      ∀ r c, onBoard N r c →
        (bitZ M (r * N + c) = true ↔ bitZ op (r * N + c) = true ∧ P r c))
    (hmy : Clean (N * N) b.bitmapsz my) (hopens : Valid b.bitmapsz opens)
    (hl : Clean (N * N) b.bitmapsz legals)
    (hlb : ∀ r c, onBoard N r c → (bitZ legals (r * N + c) = true ↔
      bitZ opens (r * N + c) = true ∧ ∃ d ∈ ds, ∃ K, 1 ≤ K ∧ Brackets N my op r c d.1 d.2 K)) :
    ∃ tmp l', b.scan M shift my = some tmp ∧ b.collect opens shift legals tmp = some l' ∧
      Clean (N * N) b.bitmapsz l' ∧
      ∀ r c, onBoard N r c → (bitZ l' (r * N + c) = true ↔
        bitZ opens (r * N + c) = true ∧
          ∃ d ∈ (dr, dc) :: ds, ∃ K, 1 ≤ K ∧ Brackets N my op r c d.1 d.2 K) := by
  obtain ⟨hM, hMint', hMb'⟩ := hMask
  have hMint : ∀ r c, cellZ N M r c = true → Interior N dr dc r c :=
    fun r c h => (hP r c).1 (hMint' r c h)
  have hMb : ∀ r c, onBoard N r c →
      (bitZ M (r * N + c) = true ↔ bitZ op (r * N + c) = true ∧ Interior N dr dc r c) :=
    fun r c h => by rw [hMb' r c h, hP r c]
  obtain ⟨tmp, e1, ct, st, bt⟩ := scan_spec b N hB shift δ hsh dr dc hδ hdr hdc hM hmy hMint
  obtain ⟨s, e2, cs, bs⟩ := hsh tmp ct
  obtain ⟨m, e3, vm, bm⟩ := AND_z b hopens cs.1
  obtain ⟨l', e4, vl, bl⟩ := OR_z b hl.1 vm
  refine ⟨tmp, l', e1, ?_, clean_of_bitZ vl (fun x hx => ?_), fun r c hrc => ?_⟩
  · unfold Board.collect
    simp only [e2, e3, Option.bind_some, Option.some_bind]
    exact e4
  · rw [bl, bm, Bool.or_eq_true, Bool.and_eq_true] at hx
    rcases hx with h | h
    · exact (hl.bitZ_lt x h).2
    · exact (cs.bitZ_lt x h.2).2
  · obtain ⟨p0, p1⟩ := onBoard_pos hrc
    rw [bl, bm, bs, Bool.or_eq_true, Bool.and_eq_true, Bool.and_eq_true, hlb r c hrc,
      bitZ_shift_iff N δ dr dc hδ hdr hdc ct st hMint r c hrc]
    simp only [decide_eq_true_eq, List.mem_cons, exists_eq_or_imp]
    have hrun : cellZ N tmp (r + dr) (c + dc) = true ↔
        ∃ K, 1 ≤ K ∧ Brackets N my op r c dr dc K := by
      rw [← run_iff_brackets N dr dc hdr hdc hne hMb r c hrc, cellZ_iff]
      constructor
      · rintro ⟨h1, h2⟩
        exact (bt _ _ h1).1 h2
      · rintro ⟨k, hk, hr⟩
        have hon : onBoard N (r + dr) (c + dc) := by
          have := hr.1 0 (by omega)
          simp only [Nat.cast_zero, zero_mul, add_zero] at this
          exact ((cellZ_iff ..).1 this).1
        exact ⟨hon, (bt _ _ hon).2 ⟨k, hk, hr⟩⟩
    rw [hrun]
    constructor
    · rintro (⟨h1, h2⟩ | ⟨h1, _, h2⟩)
      · exact ⟨h1, Or.inr h2⟩
      · exact ⟨h1, Or.inl h2⟩
    · rintro ⟨h1, h2 | h2⟩
      · exact Or.inr ⟨h1, ⟨p0, p1⟩, h2⟩
      · exact Or.inl ⟨h1, h2⟩

theorem dirs8_perm (d : Int × Int) :
    d ∈ [((1 : Int), (1 : Int)), (-1, -1), (-1, 1), (1, -1), (0, 1), (0, -1), (-1, 0), (1, 0)] ↔
      d ∈ dirs8 := by
  simp only [dirs8, List.mem_cons, List.mem_singleton, List.not_mem_nil, or_false]
  tauto

/-- The legal-move bitmap, cell by cell. -/
theorem LegalMovesBits_cells (b : Board) (N : Nat) (hI : b.IsBoard N) (hN : 4 ≤ N)
    (hev : N % 2 = 0) (my op : BitMap) (hmy : Clean (N * N) b.bitmapsz my)
    (hop : Clean (N * N) b.bitmapsz op) :
    ∃ legals, b.LegalMovesBits my op = some legals ∧ Clean (N * N) b.bitmapsz legals ∧
      ∀ r c, onBoard N r c → (bitZ legals (r * N + c) = true ↔
        (bitZ my (r * N + c) = false ∧ bitZ op (r * N + c) = false) ∧
          ∃ d ∈ dirs8, ∃ K, 1 ≤ K ∧ Brackets N my op r c d.1 d.2 K) := by
  obtain ⟨hS, vh, vv, vs, hsent⟩ := hI.facts (by omega)
  obtain ⟨g1, g2, g3, g4⟩ := hS.sq_le (by omega)
  obtain ⟨s1, s2, s3, s4, s5, s6, s7, s8⟩ := shift_amounts hS (by omega) hev
  have hB : b.Boardlen = N := hS.1
  obtain ⟨occ, eocc, vocc, bocc⟩ := OR_z b hmy.1 hop.1
  obtain ⟨opens, eopens, vopens, bopens⟩ := NOT_z b vocc
  obtain ⟨mV, eV, hV⟩ := mask_spec b N (fun r _ => 0 < r ∧ r + 1 < N) hop vv
    (fun r c h => (hsent r c h).2.1)
  obtain ⟨mH, eH, hH⟩ := mask_spec b N (fun _ c => 0 < c ∧ c + 1 < N) hop vh
    (fun r c h => (hsent r c h).1)
  obtain ⟨mS, eS, hS'⟩ := mask_spec b N (fun r c => (0 < r ∧ r + 1 < N) ∧ (0 < c ∧ c + 1 < N))
    hop vs (fun r c h => (hsent r c h).2.2)
  have l0 : Clean (N * N) b.bitmapsz (mkBitMap b.bitmapsz) :=
    ⟨valid_mkBitMap _, fun p _ => bitAt_mkBitMap _ p⟩
  have b0 : ∀ r c, onBoard N r c → (bitZ (mkBitMap b.bitmapsz) (r * N + c) = true ↔
      bitZ opens (r * N + c) = true ∧
        ∃ d ∈ ([] : List (Int × Int)), ∃ K, 1 ≤ K ∧ Brackets N my op r c d.1 d.2 K) := by
    intro r c hrc
    obtain ⟨p0, _⟩ := onBoard_pos hrc
    rw [bitZ_eq _ _ p0, bitAt_mkBitMap]
    simp
  obtain ⟨t1, l1, a1, c1, k1, b1⟩ := legal_dir_spec b N hB _ _ s1 1 0 rfl (by omega) (by omega)
    (by omega) [] _ (fun r c => by simp [Interior]) hV hmy vopens l0 b0
  obtain ⟨t2, l2, a2, c2, k2, b2⟩ := legal_dir_spec b N hB _ _ s2 (-1) 0 rfl (by omega) (by omega)
    (by omega) _ _ (fun r c => by simp [Interior]) hV hmy vopens k1 b1
  obtain ⟨t3, l3, a3, c3, k3, b3⟩ := legal_dir_spec b N hB _ _ s3 0 (-1) rfl (by omega) (by omega)
    (by omega) _ _ (fun r c => by simp [Interior]) hH hmy vopens k2 b2
  obtain ⟨t4, l4, a4, c4, k4, b4⟩ := legal_dir_spec b N hB _ _ s4 0 1 rfl (by omega) (by omega)
    (by omega) _ _ (fun r c => by simp [Interior]) hH hmy vopens k3 b3
  obtain ⟨t5, l5, a5, c5, k5, b5⟩ := legal_dir_spec b N hB _ _ s5 1 (-1) rfl (by omega) (by omega)
    (by omega) _ _ (fun r c => by simp [Interior]) hS' hmy vopens k4 b4
  obtain ⟨t6, l6, a6, c6, k6, b6⟩ := legal_dir_spec b N hB _ _ s6 (-1) 1 rfl (by omega) (by omega)
    (by omega) _ _ (fun r c => by simp [Interior]) hS' hmy vopens k5 b5
  obtain ⟨t7, l7, a7, c7, k7, b7⟩ := legal_dir_spec b N hB _ _ s7 (-1) (-1) rfl (by omega)
    (by omega) (by omega) _ _ (fun r c => by simp [Interior]) hS' hmy vopens k6 b6
  obtain ⟨t8, l8, a8, c8, k8, b8⟩ := legal_dir_spec b N hB _ _ s8 1 1 rfl (by omega) (by omega)
    (by omega) _ _ (fun r c => by simp [Interior]) hS' hmy vopens k7 b7
  refine ⟨l8, ?_, k8, fun r c hrc => ?_⟩
  · unfold Board.LegalMovesBits
    simp only [eocc, eopens, eV, eH, eS, hB, a1, c1, a2, c2, a3, c3, a4, c4, a5, c5, a6, c6,
      a7, c7, a8, c8]
  · obtain ⟨p0, p1⟩ := onBoard_pos hrc
    rw [b8 r c hrc, bopens, bocc]
    have hlt : r * N + c < 64 * (b.bitmapsz : Int) := by
      have : (N * N : Int) = ((N * N : Nat) : Int) := by push_cast; rfl
      omega
    simp only [dirs8_perm, Bool.and_eq_true, decide_eq_true_eq, Bool.not_eq_true',
      Bool.or_eq_false_iff]
    constructor
    · rintro ⟨⟨_, h⟩, h2⟩
      exact ⟨h, h2⟩
    · rintro ⟨h, h2⟩
      exact ⟨⟨⟨p0, hlt⟩, h⟩, h2⟩

end Reversi


namespace Reversi

/-! ## Flip computation -/

theorem is_zero_iff {sz : Nat} (b : Board) {a : BitMap} (ha : Valid sz a) :
    b.is_zero a = true ↔ ∀ x, bitZ a x = false := by
  unfold Board.is_zero
  rw [List.all_eq_true]
  constructor
  · intro h x
    by_cases hx : 0 ≤ x
    · rw [bitZ_eq a x hx]
      unfold bitAt
      by_cases hi : x.toNat / 64 < a.length
      · have := h (a.getD (x.toNat / 64) 0) (by
          rw [List.getD_eq_getElem _ _ hi]; exact List.getElem_mem _)
        rw [beq_iff_eq] at this
        rw [this]; simp
      · rw [List.getD_eq_default _ _ (by omega)]; simp
    · exact bitZ_neg a x (by omega)
  · intro h w hw
    rw [beq_iff_eq]
    obtain ⟨i, hi, rfl⟩ := List.getElem_of_mem hw
    apply Nat.eq_of_testBit_eq
    intro t
    rw [Nat.zero_testBit]
    by_cases ht : t < 64
    · have := h ((64 * i + (63 - t) : Nat) : Int)
      rw [bitZ_natCast] at this
      rw [bitAt_eq a (64 * i + (63 - t)) i t (by omega) (by omega),
        List.getD_eq_getElem _ _ hi] at this
      exact this
    · have := ha.2 i
      rw [List.getD_eq_getElem _ _ hi] at this
      exact Nat.testBit_lt_two_pow (lt_of_lt_of_le this (Nat.pow_le_pow_right (by decide) (by omega)))

theorem is_zero_false_iff {sz : Nat} (b : Board) {a : BitMap} (ha : Valid sz a) :
    (!b.is_zero a) = true ↔ ∃ x, bitZ a x = true := by
  rw [Bool.not_eq_true', ← Bool.not_eq_true, is_zero_iff b ha]
  push_neg
  simp

/-- The bracketed runs of length `K`, read through the mask of the direction: every cell strictly
between two cells of the board is interior. -/
theorem brackets_iff_masked (N : Nat) (dr dc : Int)
    (hdr : dr = -1 ∨ dr = 0 ∨ dr = 1) (hdc : dc = -1 ∨ dc = 0 ∨ dc = 1)
    (hne : dr ≠ 0 ∨ dc ≠ 0) {M my op : BitMap}
    (hM : ∀ r c, onBoard N r c →
      (bitZ M (r * N + c) = true ↔ bitZ op (r * N + c) = true ∧ Interior N dr dc r c))
    (r c : Int) (hrc : onBoard N r c) (K : Nat) (hK : 1 ≤ K) :
    Brackets N my op r c dr dc K ↔
      K ≤ N - 2 ∧ (∀ i : Nat, 1 ≤ i → i ≤ K → cellZ N M (r + i * dr) (c + i * dc) = true) ∧
        cellZ N my (r + (K + 1) * dr) (c + (K + 1) * dc) = true := by
  unfold Brackets
  rw [cellOn_eq_cellZ my]
  constructor
  · rintro ⟨h1, h2⟩
    have h2' := h2
    rw [cellZ_iff] at h2
    obtain ⟨⟨q1, q2, q3, q4⟩, _⟩ := h2
    obtain ⟨p1, p2, p3, p4⟩ := hrc
    refine ⟨?_, fun i hi1 hi2 => ?_, h2'⟩
    · rcases hdr with h | h | h <;> rcases hdc with h' | h' | h' <;> subst h <;> subst h' <;>
        simp at hne <;> omega
    · have := h1 i hi1 hi2
      rw [cellOn_eq_cellZ op, cellZ_iff] at this
      rw [cellZ_iff]
      refine ⟨this.1, (hM _ _ this.1).2 ⟨this.2, ?_⟩⟩
      obtain ⟨⟨o1, o2, o3, o4⟩, _⟩ := this
      unfold Interior
      rcases hdr with h | h | h <;> rcases hdc with h' | h' | h' <;> subst h <;> subst h' <;>
        simp at hne ⊢ <;> omega
  · rintro ⟨_, h1, h2⟩
    refine ⟨fun i hi1 hi2 => ?_, h2⟩
    have := h1 i hi1 hi2
    rw [cellZ_iff] at this
    rw [cellOn_eq_cellZ op, cellZ_iff]
    exact ⟨this.1, ((hM _ _ this.1).1 this.2).1⟩

/-- A run of the scan seeded with the single cell `(rm, cm)`: it ends next to that cell. -/
theorem isRun_to_cell (N : Nat) {M move : BitMap} (er ec rm cm : Int) (hm : onBoard N rm cm)
    (hmove : ∀ x, bitZ move x = true ↔ x = rm * N + cm) (k : Nat) (r c : Int) :
    IsRun N M move (-er) (-ec) k r c ↔
      (r = rm + ((k : Int) + 1) * er ∧ c = cm + ((k : Int) + 1) * ec) ∧
        ∀ i : Nat, 1 ≤ i → i ≤ k + 1 → cellZ N M (rm + i * er) (cm + i * ec) = true := by
  unfold IsRun
  have hcell : ∀ r' c' : Int, cellZ N move r' c' = true ↔ r' = rm ∧ c' = cm := by
    intro r' c'
    rw [cellZ_iff, hmove]
    constructor
    · rintro ⟨h1, h2⟩
      exact int_coord_unique N _ _ _ _ ⟨h1.2.2.1, h1.2.2.2⟩ ⟨hm.2.2.1, hm.2.2.2⟩ h2
    · rintro ⟨rfl, rfl⟩
      exact ⟨hm, rfl⟩
  rw [hcell]
  constructor
  · rintro ⟨h1, h2, h3⟩
    have hr : r = rm + ((k : Int) + 1) * er := by linarith
    have hc : c = cm + ((k : Int) + 1) * ec := by linarith
    refine ⟨⟨hr, hc⟩, fun i hi1 hi2 => ?_⟩
    have := h1 (k + 1 - i) (by omega)
    have e1 : r + ((k + 1 - i : Nat) : Int) * -er = rm + (i : Int) * er := by
      rw [hr]; push_cast [Nat.cast_sub hi2]; ring
    have e2 : c + ((k + 1 - i : Nat) : Int) * -ec = cm + (i : Int) * ec := by
      rw [hc]; push_cast [Nat.cast_sub hi2]; ring
    rw [e1, e2] at this
    exact this
  · rintro ⟨⟨hr, hc⟩, h1⟩
    refine ⟨fun i hi => ?_, by rw [hr]; ring, by rw [hc]; ring⟩
    have := h1 (k + 1 - i) (by omega) (by omega)
    have e1 : rm + ((k + 1 - i : Nat) : Int) * er = r + (i : Int) * -er := by
      rw [hr]; push_cast [Nat.cast_sub (by omega : i ≤ k + 1)]; ring
    have e2 : cm + ((k + 1 - i : Nat) : Int) * ec = c + (i : Int) * -ec := by
      rw [hc]; push_cast [Nat.cast_sub (by omega : i ≤ k + 1)]; ring
    rw [e1, e2] at this
    exact this

end Reversi


namespace Reversi

theorem interior_neg_iff (N : Nat) (dr dc r c : Int) :
    Interior N (-dr) (-dc) r c ↔ Interior N dr dc r c := by
  constructor
  · intro h
    have := interior_neg h
    simpa using this
  · exact interior_neg

/-- One direction of `flip`: the scan from the move, followed by the conditional update of
`flips`. The scan runs against the direction `(er, ec)` in which the run leaves the move. -/
theorem flip_dir_spec (b : Board) (N : Nat) (hB : b.Boardlen = N) (hN : 4 ≤ N)
    (shift : BitMap → Option BitMap) (δ : Int) (hsh : ShiftOK b N shift δ)
    (er ec : Int) (hδ : δ = (-er) * N + (-ec))
    (her : er = -1 ∨ er = 0 ∨ er = 1) (hec : ec = -1 ∨ ec = 0 ∨ ec = 1) (hne : er ≠ 0 ∨ ec ≠ 0)
    {M my op flips move : BitMap} (ds : List (Int × Int)) (P : Int → Int → Prop)
    (hP : ∀ r c, P r c ↔ Interior N er ec r c)
    (hMask : Clean (N * N) b.bitmapsz M ∧ (∀ r c, cellZ N M r c = true → P r c) ∧
      ∀ r c, onBoard N r c →
        (bitZ M (r * N + c) = true ↔ bitZ op (r * N + c) = true ∧ P r c))
    (hmy : Clean (N * N) b.bitmapsz my)
    (hdisj : ∀ x, ¬ (bitZ my x = true ∧ bitZ op x = true))
    (rm cm : Int) (hm : onBoard N rm cm)
    (hmove : Clean (N * N) b.bitmapsz move) (hmoveb : ∀ x, bitZ move x = true ↔ x = rm * N + cm)
    (hf : Clean (N * N) b.bitmapsz flips)
    (hfb : ∀ r c, onBoard N r c → (bitZ flips (r * N + c) = true ↔
      ∃ d ∈ ds, ∃ K, 1 ≤ K ∧ Brackets N my op rm cm d.1 d.2 K ∧
        ∃ j : Nat, 1 ≤ j ∧ j ≤ K ∧ r = rm + j * d.1 ∧ c = cm + j * d.2)) :
    ∃ tmp f', b.scan M shift move = some tmp ∧ b.bracket my shift flips tmp = some f' ∧
      Clean (N * N) b.bitmapsz f' ∧
      ∀ r c, onBoard N r c → (bitZ f' (r * N + c) = true ↔
        ∃ d ∈ (er, ec) :: ds, ∃ K, 1 ≤ K ∧ Brackets N my op rm cm d.1 d.2 K ∧
          ∃ j : Nat, 1 ≤ j ∧ j ≤ K ∧ r = rm + j * d.1 ∧ c = cm + j * d.2) := by
  obtain ⟨hM, hMint', hMb'⟩ := hMask
  have hMintE : ∀ r c, cellZ N M r c = true → Interior N er ec r c :=
    fun r c h => (hP r c).1 (hMint' r c h)
  have hMint : ∀ r c, cellZ N M r c = true → Interior N (-er) (-ec) r c :=
    fun r c h => (interior_neg_iff N er ec r c).2 (hMintE r c h)
  have hMb : ∀ r c, onBoard N r c →
      (bitZ M (r * N + c) = true ↔ bitZ op (r * N + c) = true ∧ Interior N er ec r c) :=
    fun r c h => by rw [hMb' r c h, hP r c]
  obtain ⟨tmp, e1, ct, st, bt⟩ := scan_spec b N hB shift δ hsh (-er) (-ec) hδ (by omega)
    (by omega) hM hmove hMint
  -- the cells of `tmp`
  have htmp : ∀ r c, onBoard N r c → (bitZ tmp (r * N + c) = true ↔
      ∃ j : Nat, (1 ≤ j ∧ j ≤ N - 2) ∧ (r = rm + j * er ∧ c = cm + j * ec) ∧
        ∀ i : Nat, 1 ≤ i → i ≤ j → cellZ N M (rm + i * er) (cm + i * ec) = true) := by
    intro r c hrc
    rw [bt r c hrc]
    constructor
    · rintro ⟨k, hk, hr⟩
      obtain ⟨h1, h2⟩ := (isRun_to_cell N er ec rm cm hm hmoveb k r c).1 hr
      refine ⟨k + 1, ⟨by omega, by omega⟩, ?_, h2⟩
      push_cast
      exact h1
    · rintro ⟨j, ⟨hj1, hj2⟩, h1, h2⟩
      obtain ⟨k, rfl⟩ : ∃ k, j = k + 1 := ⟨j - 1, by omega⟩
      refine ⟨k, by omega, (isRun_to_cell N er ec rm cm hm hmoveb k r c).2 ⟨?_, h2⟩⟩
      push_cast at h1
      exact h1
  obtain ⟨s, e2, cs, bs⟩ := hsh tmp ct
  obtain ⟨m', e3, vm, bm⟩ := AND_z b hmy.1 cs.1
  -- the test `!is_zero(AND(my_pos, shift(tmp)))`
  have hcond : (!b.is_zero m') = true ↔
      ∃ K : Nat, (1 ≤ K ∧ K ≤ N - 2) ∧
        (∀ i : Nat, 1 ≤ i → i ≤ K → cellZ N M (rm + i * er) (cm + i * ec) = true) ∧
        cellZ N my (rm + (K + 1) * er) (cm + (K + 1) * ec) = true := by
    rw [is_zero_false_iff b vm]
    constructor
    · rintro ⟨x, hx⟩
      rw [bm, bs, Bool.and_eq_true, Bool.and_eq_true] at hx
      obtain ⟨hx1, _, hx3⟩ := hx
      obtain ⟨r', c', rfl, hc'⟩ := hmy.exists_cell x hx1
      have hon' := ((cellZ_iff ..).1 hc').1
      rw [bitZ_shift_iff N δ (-er) (-ec) hδ (by omega) (by omega) ct st hMint r' c' hon',
        cellZ_iff] at hx3
      obtain ⟨j, hj, ⟨h1, h2⟩, h3⟩ := (htmp _ _ hx3.1).1 hx3.2
      refine ⟨j, hj, h3, ?_⟩
      have a1 : rm + ((j : Int) + 1) * er = r' := by linarith
      have a2 : cm + ((j : Int) + 1) * ec = c' := by linarith
      rw [a1, a2]
      exact hc'
    · rintro ⟨K, hK, h1, h2⟩
      have h2' := (cellZ_iff ..).1 h2
      refine ⟨(rm + (K + 1) * er) * N + (cm + (K + 1) * ec), ?_⟩
      obtain ⟨p0, p1⟩ := onBoard_pos h2'.1
      rw [bm, bs, Bool.and_eq_true, Bool.and_eq_true]
      refine ⟨h2'.2, by simpa using ⟨p0, p1⟩, ?_⟩
      rw [bitZ_shift_iff N δ (-er) (-ec) hδ (by omega) (by omega) ct st hMint _ _ h2'.1,
        cellZ_iff]
      have hK' := h1 K hK.1 (le_refl _)
      have hon := ((cellZ_iff ..).1 hK').1
      have a1 : rm + ((K : Int) + 1) * er + -er = rm + K * er := by ring
      have a2 : cm + ((K : Int) + 1) * ec + -ec = cm + K * ec := by ring
      rw [a1, a2]
      exact ⟨hon, (htmp _ _ hon).2 ⟨K, hK, ⟨rfl, rfl⟩, h1⟩⟩
  -- the new cells of `flips`
  have hnew : ∀ r c, onBoard N r c →
      (((!b.is_zero m') = true ∧ bitZ tmp (r * N + c) = true) ↔
        ∃ K, 1 ≤ K ∧ Brackets N my op rm cm er ec K ∧
          ∃ j : Nat, 1 ≤ j ∧ j ≤ K ∧ r = rm + j * er ∧ c = cm + j * ec) := by
    intro r c hrc
    rw [hcond, htmp r c hrc]
    constructor
    · rintro ⟨⟨K, hK, h1, h2⟩, j, hj, hrc', h3⟩
      refine ⟨K, hK.1, (brackets_iff_masked N er ec her hec hne hMb rm cm hm K hK.1).2
        ⟨hK.2, h1, h2⟩, j, hj.1, ?_, hrc'⟩
      by_contra hlt
      have hM' := h3 (K + 1) (by omega) (by omega)
      rw [cellZ_iff] at hM' h2
      have e : ((K + 1 : Nat) : Int) = (K : Int) + 1 := by push_cast; rfl
      rw [e] at hM'
      exact hdisj _ ⟨h2.2, ((hMb _ _ hM'.1).1 hM'.2).1⟩
    · rintro ⟨K, hK, hbr, j, hj1, hj2, hrc'⟩
      obtain ⟨a1, a2, a3⟩ := (brackets_iff_masked N er ec her hec hne hMb rm cm hm K hK).1 hbr
      exact ⟨⟨K, ⟨hK, a1⟩, a2, a3⟩, j, ⟨hj1, by omega⟩, hrc',
        fun i hi1 hi2 => a2 i hi1 (by omega)⟩
  by_cases hz : (!b.is_zero m') = true
  · obtain ⟨f', e4, vf, bf⟩ := OR_z b hf.1 ct.1
    refine ⟨tmp, f', e1, ?_, clean_of_bitZ vf (fun x hx => ?_), fun r c hrc => ?_⟩
    · unfold Board.bracket
      simp only [e2, e3, Option.bind_some, Option.some_bind, hz, if_true]
      exact e4
    · rw [bf, Bool.or_eq_true] at hx
      rcases hx with h | h
      · exact (hf.bitZ_lt x h).2
      · exact (ct.bitZ_lt x h).2
    · rw [bf, Bool.or_eq_true, hfb r c hrc]
      simp only [List.mem_cons, exists_eq_or_imp]
      rw [← hnew r c hrc]
      constructor
      · rintro (h | h)
        · exact Or.inr h
        · exact Or.inl ⟨hz, h⟩
      · rintro (h | h)
        · exact Or.inr h.2
        · exact Or.inl h
  · refine ⟨tmp, flips, e1, ?_, hf, fun r c hrc => ?_⟩
    · unfold Board.bracket
      simp only [e2, e3, Option.bind_some, Option.some_bind, hz]
      rfl
    · rw [hfb r c hrc]
      simp only [List.mem_cons, exists_eq_or_imp]
      rw [← hnew r c hrc]
      constructor
      · intro h
        exact Or.inr h
      · rintro (h | h)
        · exact absurd h.1 hz
        · exact h

end Reversi


namespace Reversi

theorem Board.WF.mover_clean {b : Board} {N : Nat} (h : b.WF N) :
    Clean (N * N) b.bitmapsz b.mover ∧ Clean (N * N) b.bitmapsz b.opponent ∧
      ∀ x, ¬ (bitZ b.mover x = true ∧ bitZ b.opponent x = true) := by
  obtain ⟨_, hb, hw, hd⟩ := h
  have hd' : ∀ x, ¬ (bitZ b.black x = true ∧ bitZ b.white x = true) := by
    intro x ⟨h1, h2⟩
    have hx : 0 ≤ x := by
      by_contra hn
      rw [bitZ_neg _ x (by omega)] at h1
      exact Bool.noConfusion h1
    rw [bitZ_eq _ x hx] at h1 h2
    exact hd _ ⟨h1, h2⟩
  unfold Board.mover Board.opponent
  by_cases ht : (b.Turn == 0) = true
  · simp only [ht, if_true]
    exact ⟨hb, hw, hd'⟩
  · simp only [ht]
    exact ⟨hw, hb, fun x h => hd' x ⟨h.2, h.1⟩⟩

theorem dirs8_perm_flip (d : Int × Int) :
    d ∈ [((-1 : Int), (-1 : Int)), (1, 1), (1, -1), (-1, 1), (0, -1), (0, 1), (1, 0), (-1, 0)] ↔
      d ∈ dirs8 := by
  simp only [dirs8, List.mem_cons, List.mem_singleton, List.not_mem_nil, or_false]
  tauto

/-- The flip bitmap of a move at cell `(rm, cm)`, cell by cell. -/
theorem flip_cells (b : Board) (N : Nat) (hW : b.WF N) (hN : 4 ≤ N) (hev : N % 2 = 0)
    (rm cm : Int) (hm : onBoard N rm cm) :
    ∃ flips, b.flip (rm * N + cm) = some flips ∧ Clean (N * N) b.bitmapsz flips ∧
      ∀ r c, onBoard N r c → (bitZ flips (r * N + c) = true ↔
        ∃ d ∈ dirs8, ∃ K, 1 ≤ K ∧ Brackets N b.mover b.opponent rm cm d.1 d.2 K ∧
          ∃ j : Nat, 1 ≤ j ∧ j ≤ K ∧ r = rm + j * d.1 ∧ c = cm + j * d.2) := by
  obtain ⟨hmy, hop, hdisj⟩ := hW.mover_clean
  obtain ⟨hS, vh, vv, vs, hsent⟩ := hW.1.facts (by omega)
  obtain ⟨g1, g2, g3, g4⟩ := hS.sq_le (by omega)
  obtain ⟨s1, s2, s3, s4, s5, s6, s7, s8⟩ := shift_amounts hS (by omega) hev
  have hB : b.Boardlen = N := hS.1
  -- the move bitmap
  obtain ⟨p0, p1⟩ := onBoard_pos hm
  obtain ⟨m, hmeq⟩ := Int.eq_ofNat_of_zero_le p0
  have hmlt : m < N * N := by
    have : (N * N : Int) = ((N * N : Nat) : Int) := by push_cast; rfl
    omega
  obtain ⟨move, emove, vmove, bmove⟩ := set_bit_natCast (valid_mkBitMap b.bitmapsz) m (by omega)
  have hmoveb : ∀ x, bitZ move x = true ↔ x = rm * N + cm := by
    intro x
    rw [hmeq]
    by_cases hx : 0 ≤ x
    · obtain ⟨q, rfl⟩ := Int.eq_ofNat_of_zero_le hx
      rw [bitZ_natCast, bmove, bitAt_mkBitMap]
      simp
    · rw [bitZ_neg _ x (by omega)]
      constructor
      · intro h; exact Bool.noConfusion h
      · intro h; omega
  have cmove : Clean (N * N) b.bitmapsz move := clean_of_bitZ vmove (fun x hx => by
    rw [hmoveb] at hx
    rw [hx]
    exact_mod_cast p1)
  obtain ⟨mV, eV, hV⟩ := mask_spec b N (fun r _ => 0 < r ∧ r + 1 < N) hop vv
    (fun r c h => (hsent r c h).2.1)
  obtain ⟨mH, eH, hH⟩ := mask_spec b N (fun _ c => 0 < c ∧ c + 1 < N) hop vh
    (fun r c h => (hsent r c h).1)
  obtain ⟨mS, eS, hS'⟩ := mask_spec b N (fun r c => (0 < r ∧ r + 1 < N) ∧ (0 < c ∧ c + 1 < N))
    hop vs (fun r c h => (hsent r c h).2.2)
  have l0 : Clean (N * N) b.bitmapsz (mkBitMap b.bitmapsz) :=
    ⟨valid_mkBitMap _, fun p _ => bitAt_mkBitMap _ p⟩
  have b0 : ∀ r c, onBoard N r c → (bitZ (mkBitMap b.bitmapsz) (r * N + c) = true ↔
      ∃ d ∈ ([] : List (Int × Int)), ∃ K, 1 ≤ K ∧ Brackets N b.mover b.opponent rm cm d.1 d.2 K ∧
        ∃ j : Nat, 1 ≤ j ∧ j ≤ K ∧ r = rm + j * d.1 ∧ c = cm + j * d.2) := by
    intro r c hrc
    obtain ⟨q0, _⟩ := onBoard_pos hrc
    rw [bitZ_eq _ _ q0, bitAt_mkBitMap]
    simp
  obtain ⟨t1, l1, a1, c1, k1, b1⟩ := flip_dir_spec b N hB hN _ _ s1 (-1) 0 (by ring) (by omega)
    (by omega) (by omega) [] _ (fun r c => by simp [Interior]) hV hmy hdisj rm cm hm cmove
    hmoveb l0 b0
  obtain ⟨t2, l2, a2, c2, k2, b2⟩ := flip_dir_spec b N hB hN _ _ s2 1 0 (by ring) (by omega)
    (by omega) (by omega) _ _ (fun r c => by simp [Interior]) hV hmy hdisj rm cm hm cmove
    hmoveb k1 b1
  obtain ⟨t3, l3, a3, c3, k3, b3⟩ := flip_dir_spec b N hB hN _ _ s3 0 1 (by ring) (by omega)
    (by omega) (by omega) _ _ (fun r c => by simp [Interior]) hH hmy hdisj rm cm hm cmove
    hmoveb k2 b2
  obtain ⟨t4, l4, a4, c4, k4, b4⟩ := flip_dir_spec b N hB hN _ _ s4 0 (-1) (by ring) (by omega)
    (by omega) (by omega) _ _ (fun r c => by simp [Interior]) hH hmy hdisj rm cm hm cmove
    hmoveb k3 b3
  obtain ⟨t5, l5, a5, c5, k5, b5⟩ := flip_dir_spec b N hB hN _ _ s5 (-1) 1 (by ring) (by omega)
    (by omega) (by omega) _ _ (fun r c => by simp [Interior]) hS' hmy hdisj rm cm hm cmove
    hmoveb k4 b4
  obtain ⟨t6, l6, a6, c6, k6, b6⟩ := flip_dir_spec b N hB hN _ _ s6 1 (-1) (by ring) (by omega)
    (by omega) (by omega) _ _ (fun r c => by simp [Interior]) hS' hmy hdisj rm cm hm cmove
    hmoveb k5 b5
  obtain ⟨t7, l7, a7, c7, k7, b7⟩ := flip_dir_spec b N hB hN _ _ s7 1 1 (by ring) (by omega)
    (by omega) (by omega) _ _ (fun r c => by simp [Interior]) hS' hmy hdisj rm cm hm cmove
    hmoveb k6 b6
  obtain ⟨t8, l8, a8, c8, k8, b8⟩ := flip_dir_spec b N hB hN _ _ s8 (-1) (-1) (by ring)
    (by omega) (by omega) (by omega) _ _ (fun r c => by simp [Interior]) hS' hmy hdisj rm cm hm
    cmove hmoveb k7 b7
  refine ⟨l8, ?_, k8, fun r c hrc => ?_⟩
  · have em : b.move2BitMap (rm * N + cm) = some move := by
      unfold Board.move2BitMap
      rw [hmeq]; exact emove
    have emy : copyInto b.bitmapsz (if b.IsBlackTurn = true then b.black else b.white) =
        b.mover := by
      rw [show (if b.IsBlackTurn = true then b.black else b.white) = b.mover from rfl]
      exact copyInto_eq hmy.1
    have eop : copyInto b.bitmapsz (if b.IsBlackTurn = true then b.white else b.black) =
        b.opponent := by
      rw [show (if b.IsBlackTurn = true then b.white else b.black) = b.opponent from rfl]
      exact copyInto_eq hop.1
    unfold Board.flip
    simp only [em, emy, eop, eV, eH, eS, hB, a1, c1, a2, c2, a3, c3, a4, c4, a5, c5, a6, c6,
      a7, c7, a8, c8]
  · rw [b8 r c hrc]
    simp only [dirs8_perm_flip]

end Reversi


namespace Reversi

/-! ## Positions and cells -/

theorem pos_coords (N : Nat) (p : Int) (h0 : 0 ≤ p) (h1 : p < N * N) :
    onBoard N (p / N) (p % N) ∧ p / N * N + p % N = p := by
  have hN : (0 : Int) < N := by
    by_contra hn
    have : (N : Int) = 0 := by omega
    rw [this] at h1
    omega
  refine ⟨⟨Int.ediv_nonneg h0 (by omega), Int.ediv_lt_of_lt_mul hN h1,
    Int.emod_nonneg _ (by omega), Int.emod_lt_of_pos _ hN⟩, ?_⟩
  have := Int.emod_add_ediv p N
  have e : (N : Int) * (p / N) = p / N * N := by ring
  omega

theorem is_bit_on_ne_iff (a : BitMap) (x : Int) :
    is_bit_on a x ≠ some true ↔ bitZ a x = false := by
  rw [Ne, is_bit_on_eq_bitZ]
  simp

/-- Checkable conditions for a bitmap of `sz` words without a bit at position `≥ n`. -/
theorem clean_of_check {n sz : Nat} {a : BitMap} (h1 : a.length = sz)
    (h2 : ∀ w ∈ a, w < 2 ^ 64) (h3 : ∀ p < 64 * sz, n ≤ p → bitAt a p = false) :
    Clean n sz a := by
  refine ⟨⟨h1, fun i => ?_⟩, fun p hp => ?_⟩
  · by_cases hi : i < a.length
    · rw [List.getD_eq_getElem _ _ hi]
      exact h2 _ (List.getElem_mem _)
    · rw [List.getD_eq_default _ _ (by omega)]
      decide
  · by_cases hlt : p < 64 * sz
    · exact h3 p hlt hp
    · exact bitAt_of_le_length a p (by rw [h1]; omega)

/-- Checkable conditions for a well-formed position. -/
theorem wf_of_check {b : Board} {N : Nat} (h0 : b.IsBoard N)
    (h1 : b.black.length = b.bitmapsz ∧ b.white.length = b.bitmapsz)
    (h2 : (∀ w ∈ b.black, w < 2 ^ 64) ∧ (∀ w ∈ b.white, w < 2 ^ 64))
    (h3 : ∀ p < 64 * b.bitmapsz, (N * N ≤ p → bitAt b.black p = false ∧ bitAt b.white p = false) ∧
      ¬ (bitAt b.black p = true ∧ bitAt b.white p = true)) : b.WF N := by
  refine ⟨h0, clean_of_check h1.1 h2.1 (fun p hp h => ((h3 p hp).1 h).1),
    clean_of_check h1.2 h2.2 (fun p hp h => ((h3 p hp).1 h).2), fun p => ?_⟩
  by_cases hlt : p < 64 * b.bitmapsz
  · exact (h3 p hlt).2
  · rintro ⟨h, _⟩
    rw [bitAt_of_le_length _ p (by rw [h1.1]; omega)] at h
    exact Bool.noConfusion h

/-- The flip bitmap of a move at position `m`, position by position. -/
theorem flip_pos (b : Board) (N : Nat) (hW : b.WF N) (hN : 4 ≤ N) (hev : N % 2 = 0)
    (m : Int) (hm : 0 ≤ m ∧ m < N * N) :
    ∃ flips, b.flip m = some flips ∧ Clean (N * N) b.bitmapsz flips ∧
      (∀ q : Int, bitZ flips q = true ↔
        ∃ d ∈ dirs8, ∃ k, 1 ≤ k ∧ Brackets N b.mover b.opponent (m / N) (m % N) d.1 d.2 k ∧
          ∃ j : Nat, 1 ≤ j ∧ j ≤ k ∧ q = (m / N + j * d.1) * N + (m % N + j * d.2)) ∧
      (∀ q : Int, bitZ flips q = true → bitZ b.opponent q = true) := by
  obtain ⟨hon, e⟩ := pos_coords N m hm.1 hm.2
  obtain ⟨flips, h1, h2, h3⟩ := flip_cells b N hW hN hev _ _ hon
  rw [e] at h1
  have hiff : ∀ q : Int, bitZ flips q = true ↔
      ∃ d ∈ dirs8, ∃ k, 1 ≤ k ∧ Brackets N b.mover b.opponent (m / N) (m % N) d.1 d.2 k ∧
        ∃ j : Nat, 1 ≤ j ∧ j ≤ k ∧ q = (m / N + j * d.1) * N + (m % N + j * d.2) := by
    intro q
    constructor
    · intro h
      obtain ⟨q0, q1⟩ := h2.bitZ_lt q h
      obtain ⟨honq, eq⟩ := pos_coords N q q0 (by exact_mod_cast q1)
      rw [← eq] at h
      obtain ⟨d, hd, k, hk, hbr, j, hj1, hj2, hr, hc⟩ := (h3 _ _ honq).1 h
      exact ⟨d, hd, k, hk, hbr, j, hj1, hj2, by rw [← hr, ← hc, eq]⟩
    · rintro ⟨d, hd, k, hk, hbr, j, hj1, hj2, rfl⟩
      have hcell := hbr.1 j hj1 hj2
      rw [cellOn_eq_cellZ, cellZ_iff] at hcell
      exact (h3 _ _ hcell.1).2 ⟨d, hd, k, hk, hbr, j, hj1, hj2, rfl, rfl⟩
  refine ⟨flips, h1, h2, hiff, fun q hq => ?_⟩
  obtain ⟨d, _, k, _, hbr, j, hj1, hj2, rfl⟩ := (hiff q).1 hq
  have hcell := hbr.1 j hj1 hj2
  rw [cellOn_eq_cellZ, cellZ_iff] at hcell
  exact hcell.2

end Reversi


namespace Reversi

/-! ## Move legality -/

theorem moverLegals_eq (b : Board) : b.moverLegals = b.LegalMovesBits b.mover b.opponent := by
  unfold Board.moverLegals Board.mover Board.opponent Board.IsBlackTurn
  by_cases h : (b.Turn == 0) = true
  · simp only [h, if_true]
  · simp only [h]
    rfl

/-- The legal-move bitmap of the side to move on a well-formed position. -/
theorem moverLegals_spec (b : Board) (N : Nat) (hW : b.WF N) (hN : 4 ≤ N) (hev : N % 2 = 0) :
    ∃ legals, b.LegalMovesBits b.mover b.opponent = some legals ∧
      Clean (N * N) b.bitmapsz legals ∧
      ∀ p : Int, (bitZ legals p = true ↔
        (0 ≤ p ∧ p < N * N) ∧ (bitZ b.mover p = false ∧ bitZ b.opponent p = false) ∧
          ∃ d ∈ dirs8, ∃ k, 1 ≤ k ∧ Brackets N b.mover b.opponent (p / N) (p % N) d.1 d.2 k) := by
  obtain ⟨hmy, hop, _⟩ := hW.mover_clean
  obtain ⟨legals, h1, h2, h3⟩ := LegalMovesBits_cells b N hW.1 hN hev _ _ hmy hop
  refine ⟨legals, h1, h2, fun p => ?_⟩
  by_cases hp : 0 ≤ p ∧ p < N * N
  · obtain ⟨hon, e⟩ := pos_coords N p hp.1 hp.2
    have := h3 _ _ hon
    rw [e] at this
    rw [this]
    simp [hp]
  · constructor
    · intro h
      have := h2.bitZ_lt p h
      exact absurd ⟨this.1, by exact_mod_cast this.2⟩ hp
    · intro h
      exact absurd h.1 hp

/-- What `IsLegalMove` answers, in terms of the legal-move bitmap `legals` of the side to move:
pass is legal iff `legals` is zero, and a position on the board is legal iff its bit is set. -/
theorem IsLegalMove_words (b : Board) (N : Nat) (hW : b.WF N) (hN : 4 ≤ N) (hev : N % 2 = 0)
    {legals : BitMap} (hl : b.LegalMovesBits b.mover b.opponent = some legals) :
    b.IsLegalMove (-1) = some (b.is_zero legals) ∧
      ∀ m : Int, 0 ≤ m → m < 64 * (b.bitmapsz : Int) →
        b.IsLegalMove m = some (bitZ legals m) := by
  obtain ⟨legals0, h1, h2, _⟩ := moverLegals_spec b N hW hN hev
  rw [h1] at hl
  cases hl
  obtain ⟨hS, _⟩ := hW.1.facts (by omega)
  obtain ⟨g1, g2, g3, g4⟩ := hS.sq_le (by omega)
  have hml : b.moverLegals = some legals := by rw [moverLegals_eq]; exact h1
  constructor
  · unfold Board.IsLegalMove
    simp only [hml]
    by_cases hz : b.is_zero legals = true
    · simp [hz]
    · simp [hz]
  · intro m hm0 hm1
    obtain ⟨p, rfl⟩ := Int.eq_ofNat_of_zero_le hm0
    have hp : p < 64 * b.bitmapsz := by exact_mod_cast hm1
    obtain ⟨move, emove, vmove, bmove⟩ := set_bit_natCast (valid_mkBitMap b.bitmapsz) p
      (by omega)
    obtain ⟨hit, ehit, vhit, bhit⟩ := AND_z b vmove h2.1
    have em : b.move2BitMap (p : Int) = some move := emove
    have hne : (p : Int) ≠ -1 := by omega
    unfold Board.IsLegalMove
    simp only [hml, em, ehit, hne, ne_eq, not_false_eq_true, if_true]
    by_cases hb : bitZ legals (p : Int) = true
    · have : b.is_zero hit = false := by
        rw [← Bool.not_eq_true, is_zero_iff b vhit]
        intro h
        have := h (p : Int)
        rw [bhit, hb, bitZ_natCast, bmove] at this
        simp at this
      simp [this, hb]
    · have : b.is_zero hit = true := by
        rw [is_zero_iff b vhit]
        intro x
        rw [bhit]
        by_cases hx : 0 ≤ x
        · obtain ⟨q, rfl⟩ := Int.eq_ofNat_of_zero_le hx
          rw [bitZ_natCast, bmove, bitAt_mkBitMap]
          by_cases hq : q = p
          · subst hq
            simpa using hb
          · simp [hq]
        · rw [bitZ_neg move x (by omega)]
          rfl
      simp only [Bool.not_eq_true] at hb
      simp [this, hb]

/-- What `IsLegalMove` answers for pass and for the positions of the board. -/
theorem IsLegalMove_spec (b : Board) (N : Nat) (hW : b.WF N) (hN : 4 ≤ N) (hev : N % 2 = 0)
    {legals : BitMap} (hl : b.LegalMovesBits b.mover b.opponent = some legals) :
    b.IsLegalMove (-1) = some (b.is_zero legals) ∧
      ∀ m : Int, 0 ≤ m → m < N * N → b.IsLegalMove m = some (bitZ legals m) := by
  obtain ⟨h1, h2⟩ := IsLegalMove_words b N hW hN hev hl
  obtain ⟨hS, _⟩ := hW.1.facts (by omega)
  obtain ⟨g1, g2, g3, g4⟩ := hS.sq_le (by omega)
  refine ⟨h1, fun m hm0 hm1 => h2 m hm0 ?_⟩
  have e : (N * N : Int) = ((N * N : Nat) : Int) := by push_cast; rfl
  omega

end Reversi


namespace Reversi

/-! ## Applying a move -/

theorem MoveUpdate_pass (b : Board) : b.MoveUpdate (-1) = some { b with Turn := 1 - b.Turn } := by
  unfold Board.MoveUpdate
  simp

/-- The effect of `MoveUpdate m` for a position `m` of the board, bit by bit. -/
theorem MoveUpdate_spec (b : Board) (N : Nat) (hW : b.WF N) (hN : 4 ≤ N) (hev : N % 2 = 0)
    (m : Int) (hm : 0 ≤ m ∧ m < N * N) :
    ∃ F b', b.flip m = some F ∧ b.MoveUpdate m = some b' ∧
      b'.Turn = 1 - b.Turn ∧ b'.discs = b.discs + 1 ∧ b'.IsBoard N ∧
      b'.bitmapsz = b.bitmapsz ∧
      Valid b.bitmapsz (b'.side b.IsBlackTurn) ∧ Valid b.bitmapsz (b'.side (!b.IsBlackTurn)) ∧
      ∀ q : Int,
        bitZ (b'.side b.IsBlackTurn) q = (bitZ b.mover q || bitZ F q || decide (q = m)) ∧
        bitZ (b'.side (!b.IsBlackTurn)) q = (bitZ b.opponent q && !bitZ F q) := by
  obtain ⟨hmy, hop, _⟩ := hW.mover_clean
  obtain ⟨F, hF, cF, _, _⟩ := flip_pos b N hW hN hev m hm
  obtain ⟨hS, _⟩ := hW.1.facts (by omega)
  obtain ⟨g1, g2, g3, g4⟩ := hS.sq_le (by omega)
  obtain ⟨p, hp⟩ := Int.eq_ofNat_of_zero_le hm.1
  have hplt : p < N * N := by
    have := hm.2
    rw [hp] at this
    exact_mod_cast this
  obtain ⟨move, emove, vmove, bmove⟩ := set_bit_natCast (valid_mkBitMap b.bitmapsz) p
    (by omega)
  have em : b.move2BitMap m = some move := by rw [hp]; exact emove
  have hmoveb : ∀ q : Int, bitZ move q = decide (q = m) := by
    intro q
    rw [hp]
    by_cases hq : 0 ≤ q
    · obtain ⟨q', rfl⟩ := Int.eq_ofNat_of_zero_le hq
      rw [bitZ_natCast, bmove, bitAt_mkBitMap]
      simp
    · rw [bitZ_neg _ q (by omega)]
      have : ¬ (q = (p : Int)) := by omega
      simp [this]
  obtain ⟨keep, ekeep, vkeep, bkeep⟩ := NOT_z b cF.1
  obtain ⟨opp', eopp, vopp, bopp⟩ := AND_z b hop.1 vkeep
  obtain ⟨mv1, emv1, vmv1, bmv1⟩ := OR_z b hmy.1 cF.1
  obtain ⟨mv2, emv2, vmv2, bmv2⟩ := OR_z b vmv1 vmove
  have hne : m ≠ -1 := by omega
  have hoppb : ∀ q : Int, bitZ opp' q = (bitZ b.opponent q && !bitZ F q) := by
    intro q
    rw [bopp, bkeep]
    by_cases hq : 0 ≤ q ∧ q < 64 * (b.bitmapsz : Int)
    · simp [hq]
    · have : bitZ b.opponent q = false := by
        by_contra hne'
        have := hop.bitZ_lt q (by simpa using hne')
        have e : (N * N : Int) = ((N * N : Nat) : Int) := by push_cast; rfl
        omega
      simp [this]
  have hmvb : ∀ q : Int, bitZ mv2 q = (bitZ b.mover q || bitZ F q || decide (q = m)) := by
    intro q
    rw [bmv2, bmv1, hmoveb]
  by_cases ht : b.IsBlackTurn = true
  · have hmover : b.mover = b.black := by
      unfold Board.mover; unfold Board.IsBlackTurn at ht; simp [ht]
    have hopp : b.opponent = b.white := by
      unfold Board.opponent; unfold Board.IsBlackTurn at ht; simp [ht]
    rw [hmover] at emv1
    rw [hopp] at eopp
    refine ⟨F, { b with black := mv2, white := opp', discs := b.discs + 1, Turn := 1 - b.Turn },
      hF, ?_, rfl, rfl, hW.1, rfl, ?_, ?_, fun q => ⟨?_, ?_⟩⟩
    · unfold Board.MoveUpdate
      simp only [em, hF, ekeep, eopp, emv1, emv2, ht, hne, ne_eq, not_false_eq_true, if_true]
    · simp only [Board.side, ht, if_true]; exact vmv2
    · simp only [Board.side, ht, Bool.not_true]; exact vopp
    · simp only [Board.side, ht, if_true]; exact hmvb q
    · simp only [Board.side, ht, Bool.not_true]; exact hoppb q
  · have ht' : b.IsBlackTurn = false := by simpa using ht
    have hmover : b.mover = b.white := by
      unfold Board.mover; unfold Board.IsBlackTurn at ht'; simp [ht']
    have hopp : b.opponent = b.black := by
      unfold Board.opponent; unfold Board.IsBlackTurn at ht'; simp [ht']
    rw [hmover] at emv1
    rw [hopp] at eopp
    refine ⟨F, { b with black := opp', white := mv2, discs := b.discs + 1, Turn := 1 - b.Turn },
      hF, ?_, rfl, rfl, hW.1, rfl, ?_, ?_, fun q => ⟨?_, ?_⟩⟩
    · unfold Board.MoveUpdate
      simp only [em, hF, ekeep, eopp, emv1, emv2, ht', hne, ne_eq, not_false_eq_true, if_true]
      rfl
    · simp only [Board.side, ht']; exact vmv2
    · simp only [Board.side, ht', Bool.not_false, if_true]; exact vopp
    · simp only [Board.side, ht']; exact hmvb q
    · simp only [Board.side, ht', Bool.not_false, if_true]; exact hoppb q

end Reversi


namespace Reversi

/-! ## Listing the legal moves -/

theorem legalMoves_list (legals : BitMap) : ∀ n : Nat,
    ((List.range n).flatMap fun x =>
      if legals.getD x 0 ≠ 0 then
        ((List.range INTSIZE).filter fun y => legals.getD x 0 &&& (MSB >>> y) ≠ 0).map
          fun y => ((x * INTSIZE + y : Nat) : Int)
      else []) =
    ((List.range (64 * n)).filter fun p => bitAt legals p).map fun (p : Nat) => (p : Int) := by
  intro n
  induction n with
  | zero => rfl
  | succ n ih =>
    rw [List.range_succ, List.flatMap_append, ih, List.flatMap_singleton,
      show 64 * (n + 1) = 64 * n + 64 from by ring, List.range_add, List.filter_append,
      List.map_append, List.filter_map, List.map_map]
    congr 1
    have hf : (List.range INTSIZE).filter (fun y => decide (legals.getD n 0 &&& (MSB >>> y) ≠ 0)) =
        (List.range 64).filter ((fun p => bitAt legals p) ∘ fun x => 64 * n + x) := by
      apply List.filter_congr
      intro y hy
      have hy' : y < 64 := by simpa [INTSIZE] using hy
      simp only [Function.comp]
      rw [MSB_shiftRight y hy', and_two_pow_ne_zero]
      exact (bitAt_eq legals (64 * n + y) n (63 - y) (by omega) (by omega)).symm
    have hm : ∀ l : List Nat, l.map (fun y => ((n * INTSIZE + y : Nat) : Int)) =
        l.map ((fun p : Nat => (p : Int)) ∘ fun x => 64 * n + x) := by
      intro l
      apply List.map_congr_left
      intro y _
      simp only [Function.comp, INTSIZE]
      congr 1
      ring
    by_cases hw : legals.getD n 0 ≠ 0
    · rw [if_pos hw, hf, hm]
    · rw [if_neg hw, ← hm, ← hf]
      have hw0 : legals.getD n 0 = 0 := by simpa using hw
      rw [hw0]
      simp

/-- The method `LegalMoves` lists, in ascending order, the positions whose bit is set in the
legal-move bitmap of the side to move. -/
theorem LegalMoves_spec (b : Board) {legals : BitMap}
    (hl : b.LegalMovesBits b.mover b.opponent = some legals) (hv : Valid b.bitmapsz legals) :
    b.LegalMoves =
      some (((List.range (64 * b.bitmapsz)).filter fun p => bitAt legals p).map
        fun (p : Nat) => (p : Int)) := by
  unfold Board.LegalMoves
  rw [moverLegals_eq, hl]
  simp only [hv.1, lt_irrefl, if_false]
  rw [legalMoves_list]

theorem filter_bitAt_nil {sz : Nat} {a : BitMap} (b : Board) (ha : Valid sz a)
    (hz : b.is_zero a = true) (n : Nat) :
    (List.range n).filter (fun p => bitAt a p) = [] := by
  rw [List.filter_eq_nil_iff]
  intro p _
  have := (is_zero_iff b ha).1 hz (p : Int)
  rw [bitZ_natCast] at this
  simp [this]

theorem IsGameOver_turn (b : Board) (t : Int) :
    ({ b with Turn := t } : Board).IsGameOver = b.IsGameOver := rfl

theorem IsGameOver_spec (b : Board) (N : Nat) (hW : b.WF N) (hN : 4 ≤ N) (hev : N % 2 = 0) :
    ∃ l0 l1, b.LegalMovesBits b.black b.white = some l0 ∧
      b.LegalMovesBits b.white b.black = some l1 ∧
      Clean (N * N) b.bitmapsz l0 ∧ Clean (N * N) b.bitmapsz l1 ∧
      b.IsGameOver = some (b.is_zero l0 && b.is_zero l1) := by
  obtain ⟨l0, h0, c0, _⟩ := LegalMovesBits_cells b N hW.1 hN hev _ _ hW.2.1 hW.2.2.1
  obtain ⟨l1, h1, c1, _⟩ := LegalMovesBits_cells b N hW.1 hN hev _ _ hW.2.2.1 hW.2.1
  refine ⟨l0, l1, h0, h1, c0, c1, ?_⟩
  unfold Board.IsGameOver
  simp only [h0, h1]
  cases b.is_zero l0 <;> cases b.is_zero l1 <;> rfl

/-- Outside the words of the bitmap, `set_bit` fails: the index is out of range, or the shift
count is negative. -/
theorem set_bit_out_of_range (a : BitMap) (pos : Int)
    (h : 64 * (a.length : Int) ≤ pos ∨ pos < 0) : set_bit a pos = none := by
  unfold set_bit
  have h1 : ¬ ((0 : Int) ≤ Int.tdiv pos 64 ∧ Int.tdiv pos 64 < (a.length : Int) ∧
      (0 : Int) ≤ Int.tmod pos 64) := by
    intro hc
    have h2 := Int.tmod_add_tdiv pos 64
    have h3 := Int.tmod_lt_of_pos pos (by decide : (0 : Int) < 64)
    omega
  simp only [if_neg h1]

/-- Outside the words of the bitmap, and for negative positions other than pass, `IsLegalMove`
fails in `set_bit`. -/
theorem IsLegalMove_out_of_range (b : Board) (pos : Int)
    (h : 64 * (b.bitmapsz : Int) ≤ pos ∨ pos < -1) : b.IsLegalMove pos = none := by
  have hm : b.move2BitMap pos = none := by
    unfold Board.move2BitMap
    apply set_bit_out_of_range
    simp only [mkBitMap, List.length_replicate]
    omega
  have hne : pos ≠ -1 := by omega
  unfold Board.IsLegalMove
  cases b.moverLegals with
  | none => rfl
  | some legals => simp [hm, hne]

end Reversi


namespace Reversi

/-! ## `PopCountUInt64` counts the set bits -/

set_option maxRecDepth 100000 in
theorem byte_facts : ∀ b < 256, ((b >>> 1) &&& 0x55) ≤ b ∧
    st2 0x33 (st1 0x55 b) % 16 ≤ 4 ∧ st2 0x33 (st1 0x55 b) / 16 ≤ 4 ∧
    st3 0x0f (st2 0x33 (st1 0x55 b)) = pc8 b ∧ pc8 b ≤ 8 := by
  decide

theorem and_split (a b c d : Nat) (hb : b < 256) (hd : d < 256) :
    (256 * a + b) &&& (256 * c + d) = 256 * (a &&& c) + (b &&& d) := by
  have h256 : (256 : Nat) = 2 ^ 8 := by norm_num
  have hbd : b &&& d < 2 ^ 8 := Nat.and_lt_two_pow _ (by rw [← h256]; exact hd)
  rw [h256] at hb hd ⊢
  apply Nat.eq_of_testBit_eq
  intro j
  rw [Nat.testBit_and, Nat.testBit_mul_pow_two_add _ hb, Nat.testBit_mul_pow_two_add _ hd,
    Nat.testBit_mul_pow_two_add _ hbd]
  by_cases hj : j < 8
  · simp [hj]
  · simp [hj]

theorem shift_and_split (s a b M μ : Nat) (hb : b < 256) (hs : s ≤ 8) (hμ : μ < 2 ^ (8 - s)) :
    ((256 * a + b) >>> s) &&& (256 * M + μ) = 256 * ((a >>> s) &&& M) + ((b >>> s) &&& μ) := by
  have h256 : (256 : Nat) = 2 ^ 8 := by norm_num
  have hμ8 : μ < 2 ^ 8 := lt_of_lt_of_le hμ (Nat.pow_le_pow_right (by decide) (by omega))
  have hbμ : (b >>> s) &&& μ < 2 ^ 8 := Nat.and_lt_two_pow _ hμ8
  rw [h256] at hb ⊢
  apply Nat.eq_of_testBit_eq
  intro j
  rw [Nat.testBit_and, Nat.testBit_shiftRight, Nat.testBit_mul_pow_two_add _ hb,
    Nat.testBit_mul_pow_two_add _ hμ8, Nat.testBit_mul_pow_two_add _ hbμ]
  by_cases hj : j < 8
  · by_cases hjs : s + j < 8
    · simp [hj, hjs, Nat.testBit_shiftRight]
    · have hμj : μ.testBit j = false :=
        Nat.testBit_lt_two_pow (lt_of_lt_of_le hμ (Nat.pow_le_pow_right (by decide) (by omega)))
      simp [hj, hμj]
  · have hjs : ¬ (s + j < 8) := by omega
    have e : s + j - 8 = s + (j - 8) := by omega
    simp [hj, hjs, Nat.testBit_shiftRight, e]

theorem shiftRight_and_le (x s m : Nat) : (x >>> s) &&& m ≤ x :=
  le_trans Nat.and_le_left (by rw [Nat.shiftRight_eq_div_pow]; exact Nat.div_le_self _ _)

theorem st1_split (M a b : Nat) (hb : b < 256) :
    st1 (256 * M + 0x55) (256 * a + b) = 256 * st1 M a + st1 0x55 b := by
  unfold st1
  rw [shift_and_split 1 a b M 0x55 hb (by decide) (by decide)]
  have h1 := shiftRight_and_le a 1 M
  have h2 := (byte_facts b hb).1
  omega

theorem st2_split (M a b : Nat) (hb : b < 256) :
    st2 (256 * M + 0x33) (256 * a + b) = 256 * st2 M a + st2 0x33 b := by
  unfold st2
  rw [shift_and_split 2 a b M 0x33 hb (by decide) (by decide),
    and_split a b M 0x33 hb (by decide)]
  omega

theorem st3_split (M a b : Nat) (ha : a % 16 ≤ 4) (hb1 : b % 16 ≤ 4) (hb2 : b / 16 ≤ 4) :
    st3 (256 * M + 0x0f) (256 * a + b) = 256 * st3 M a + st3 0x0f b := by
  unfold st3
  have e1 : (256 * a + b) >>> 4 = 16 * a + b / 16 := by
    rw [Nat.shiftRight_eq_div_pow]; omega
  have e2 : a >>> 4 = a / 16 := by rw [Nat.shiftRight_eq_div_pow]
  have e3 : b >>> 4 = b / 16 := by rw [Nat.shiftRight_eq_div_pow]
  have e4 : 256 * a + b + (16 * a + b / 16) =
      256 * (a + a / 16) + (16 * (a % 16) + b + b / 16) := by omega
  rw [e1, e2, e3, e4, and_split _ _ _ _ (by omega) (by decide)]
  congr 1
  have h15 : (0x0f : Nat) = 2 ^ 4 - 1 := by norm_num
  rw [h15, Nat.and_pow_two_sub_one_eq_mod, Nat.and_pow_two_sub_one_eq_mod]
  omega

theorem steps_bytes : ∀ (n x : Nat), x < 256 ^ n →
    st3 (rep 0x0f n) (st2 (rep 0x33 n) (st1 (rep 0x55 n) x)) = bytePop n x ∧
      st2 (rep 0x33 n) (st1 (rep 0x55 n) x) % 16 ≤ 4 := by
  intro n
  induction n with
  | zero =>
    intro x hx
    have : x = 0 := by simpa using hx
    subst this
    decide
  | succ n ih =>
    intro x hx
    have hx' : x / 256 < 256 ^ n := by
      rw [Nat.div_lt_iff_lt_mul (by decide)]
      rw [pow_succ] at hx
      exact hx
    have hb : x % 256 < 256 := Nat.mod_lt _ (by decide)
    obtain ⟨ih1, ih2⟩ := ih (x / 256) hx'
    obtain ⟨_, f2, f3, f4, _⟩ := byte_facts (x % 256) hb
    have hs1 : st1 0x55 (x % 256) < 256 := by
      unfold st1; omega
    have hs2 : st2 0x33 (st1 0x55 (x % 256)) < 256 := by omega
    have ex : x = 256 * (x / 256) + x % 256 := by omega
    have e1 : st1 (rep 0x55 (n + 1)) x =
        256 * st1 (rep 0x55 n) (x / 256) + st1 0x55 (x % 256) := by
      conv_lhs => rw [ex]
      exact st1_split _ _ _ hb
    have e2 : st2 (rep 0x33 (n + 1)) (st1 (rep 0x55 (n + 1)) x) =
        256 * st2 (rep 0x33 n) (st1 (rep 0x55 n) (x / 256)) + st2 0x33 (st1 0x55 (x % 256)) := by
      rw [e1]
      exact st2_split _ _ _ hs1
    refine ⟨?_, ?_⟩
    · rw [e2]
      show st3 (256 * rep 0x0f n + 0x0f) _ = _
      rw [st3_split _ _ _ ih2 f2 f3, ih1, f4]
      rfl
    · rw [e2]
      omega

theorem rep_consts : rep 0x55 8 = 0x5555555555555555 ∧ rep 0x33 8 = 0x3333333333333333 ∧
    rep 0x0f 8 = 0x0f0f0f0f0f0f0f0f := by decide

theorem pc8_le (b : Nat) : pc8 (b % 256) ≤ 8 := (byte_facts _ (Nat.mod_lt _ (by decide))).2.2.2.2

theorem mul_ones_top (k0 k1 k2 k3 k4 k5 k6 k7 : Nat) (c0 : k0 ≤ 8) (c1 : k1 ≤ 8) (c2 : k2 ≤ 8)
    (c3 : k3 ≤ 8) (c4 : k4 ≤ 8) (c5 : k5 ≤ 8) (c6 : k6 ≤ 8) (c7 : k7 ≤ 8) :
    (256 * (256 * (256 * (256 * (256 * (256 * (256 * k7 + k6) + k5) + k4) + k3) + k2) + k1) + k0) *
      72340172838076673 % 18446744073709551616 / 72057594037927936 =
    k0 + (k1 + (k2 + (k3 + (k4 + (k5 + (k6 + k7)))))) := by
  have hSe : k0 + (k1 + (k2 + (k3 + (k4 + (k5 + (k6 + k7)))))) =
      k0 + k1 + k2 + k3 + k4 + k5 + k6 + k7 := by omega
  have hSb : k0 + k1 + k2 + k3 + k4 + k5 + k6 + k7 ≤ 64 := by omega
  have hLb : k0 + 256 * (k0 + k1) + 65536 * (k0 + k1 + k2) +
      16777216 * (k0 + k1 + k2 + k3) + 4294967296 * (k0 + k1 + k2 + k3 + k4) +
      1099511627776 * (k0 + k1 + k2 + k3 + k4 + k5) +
      281474976710656 * (k0 + k1 + k2 + k3 + k4 + k5 + k6) < 72057594037927936 := by omega
  have hP : (256 * (256 * (256 * (256 * (256 * (256 * (256 * k7 + k6) + k5) + k4) + k3) + k2) +
      k1) + k0) * 72340172838076673 =
      (k0 + 256 * (k0 + k1) + 65536 * (k0 + k1 + k2) +
      16777216 * (k0 + k1 + k2 + k3) + 4294967296 * (k0 + k1 + k2 + k3 + k4) +
      1099511627776 * (k0 + k1 + k2 + k3 + k4 + k5) +
      281474976710656 * (k0 + k1 + k2 + k3 + k4 + k5 + k6)) +
        72057594037927936 * (k0 + k1 + k2 + k3 + k4 + k5 + k6 + k7) +
        18446744073709551616 * (k1 + k2 + k3 + k4 + k5 + k6 + k7 +
      256 * (k2 + k3 + k4 + k5 + k6 + k7) + 65536 * (k3 + k4 + k5 + k6 + k7) +
      16777216 * (k4 + k5 + k6 + k7) + 4294967296 * (k5 + k6 + k7) +
      1099511627776 * (k6 + k7) + 281474976710656 * k7) := by
    ring
  rw [hP, hSe]
  clear hP hSe c0 c1 c2 c3 c4 c5 c6 c7
  generalize k0 + k1 + k2 + k3 + k4 + k5 + k6 + k7 = S at hSb ⊢
  generalize k0 + 256 * (k0 + k1) + 65536 * (k0 + k1 + k2) +
      16777216 * (k0 + k1 + k2 + k3) + 4294967296 * (k0 + k1 + k2 + k3 + k4) +
      1099511627776 * (k0 + k1 + k2 + k3 + k4 + k5) +
      281474976710656 * (k0 + k1 + k2 + k3 + k4 + k5 + k6) = L at hLb ⊢
  rw [Nat.add_mul_mod_self_left,
    Nat.mod_eq_of_lt (by omega : L + 72057594037927936 * S < 18446744073709551616),
    Nat.add_mul_div_left _ _ (by decide : 0 < 72057594037927936), Nat.div_eq_of_lt hLb]
  omega

/-- For a 64-bit word, `PopCountUInt64` is the sum of the bit counts of its eight bytes. -/
theorem PopCountUInt64_eq_sumPop (w : Nat) (hw : w < 2 ^ 64) : PopCountUInt64 w = sumPop 8 w := by
  obtain ⟨r1, r2, r3⟩ := rep_consts
  have h := (steps_bytes 8 w (by norm_num at hw ⊢; exact hw)).1
  rw [r1, r2, r3] at h
  unfold PopCountUInt64
  have hle : (w >>> 1) &&& 0x5555555555555555 ≤ w := shiftRight_and_le w 1 _
  have e1 : sub64 w ((w >>> 1) &&& 0x5555555555555555) = st1 0x5555555555555555 w := by
    unfold sub64 st1
    norm_num at hw ⊢
    omega
  have hb1 : st1 0x5555555555555555 w ≤ w := by unfold st1; omega
  have e2 : (((st1 0x5555555555555555 w >>> 2) &&& 0x3333333333333333) +
      (st1 0x5555555555555555 w &&& 0x3333333333333333)) % 2 ^ 64 =
      st2 0x3333333333333333 (st1 0x5555555555555555 w) := by
    unfold st2
    apply Nat.mod_eq_of_lt
    have a1 : (st1 0x5555555555555555 w >>> 2) &&& 0x3333333333333333 ≤ 0x3333333333333333 :=
      Nat.and_le_right
    have a2 : st1 0x5555555555555555 w &&& 0x3333333333333333 ≤ 0x3333333333333333 :=
      Nat.and_le_right
    norm_num at a1 a2 ⊢
    omega
  have hb2 : st2 0x3333333333333333 (st1 0x5555555555555555 w) ≤ 0x6666666666666666 := by
    unfold st2
    have a1 : (st1 0x5555555555555555 w >>> 2) &&& 0x3333333333333333 ≤ 0x3333333333333333 :=
      Nat.and_le_right
    have a2 : st1 0x5555555555555555 w &&& 0x3333333333333333 ≤ 0x3333333333333333 :=
      Nat.and_le_right
    omega
  have e3 : ((st2 0x3333333333333333 (st1 0x5555555555555555 w) +
      (st2 0x3333333333333333 (st1 0x5555555555555555 w) >>> 4)) % 2 ^ 64) &&&
        0x0f0f0f0f0f0f0f0f =
      st3 0x0f0f0f0f0f0f0f0f (st2 0x3333333333333333 (st1 0x5555555555555555 w)) := by
    unfold st3
    congr 1
    apply Nat.mod_eq_of_lt
    have a1 : st2 0x3333333333333333 (st1 0x5555555555555555 w) >>> 4 ≤
        st2 0x3333333333333333 (st1 0x5555555555555555 w) := by
      rw [Nat.shiftRight_eq_div_pow]; exact Nat.div_le_self _ _
    norm_num at hb2 ⊢
    omega
  simp only [e1, e2, e3, h]
  rw [Nat.shiftRight_eq_div_pow]
  simp only [bytePop, sumPop]
  have c0 := pc8_le w
  have c1 := pc8_le (w / 256)
  have c2 := pc8_le (w / 256 / 256)
  have c3 := pc8_le (w / 256 / 256 / 256)
  have c4 := pc8_le (w / 256 / 256 / 256 / 256)
  have c5 := pc8_le (w / 256 / 256 / 256 / 256 / 256)
  have c6 := pc8_le (w / 256 / 256 / 256 / 256 / 256 / 256)
  have c7 := pc8_le (w / 256 / 256 / 256 / 256 / 256 / 256 / 256)
  generalize pc8 (w % 256) = k0 at c0 ⊢
  generalize pc8 (w / 256 % 256) = k1 at c1 ⊢
  generalize pc8 (w / 256 / 256 % 256) = k2 at c2 ⊢
  generalize pc8 (w / 256 / 256 / 256 % 256) = k3 at c3 ⊢
  generalize pc8 (w / 256 / 256 / 256 / 256 % 256) = k4 at c4 ⊢
  generalize pc8 (w / 256 / 256 / 256 / 256 / 256 % 256) = k5 at c5 ⊢
  generalize pc8 (w / 256 / 256 / 256 / 256 / 256 / 256 % 256) = k6 at c6 ⊢
  generalize pc8 (w / 256 / 256 / 256 / 256 / 256 / 256 / 256 % 256) = k7 at c7 ⊢
  norm_num
  exact mul_ones_top k0 k1 k2 k3 k4 k5 k6 k7 c0 c1 c2 c3 c4 c5 c6 c7

end Reversi


namespace Reversi

/-! ## Counting the set bits of a bitmap -/

theorem countP_range_succ (f : Nat → Bool) (n : Nat) :
    (List.range (n + 1)).countP f = (List.range n).countP f + (if f n then 1 else 0) := by
  rw [List.range_succ, List.countP_append]
  simp [List.countP_cons]

theorem countP_range_add (f : Nat → Bool) (m n : Nat) :
    (List.range (m + n)).countP f =
      (List.range m).countP f + (List.range n).countP fun j => f (m + j) := by
  induction n with
  | zero => simp
  | succ n ih =>
    rw [← Nat.add_assoc, countP_range_succ, ih, countP_range_succ]
    omega

theorem countP_range_reflect (f : Nat → Bool) (n : Nat) :
    ((List.range n).countP fun j => f (n - 1 - j)) = (List.range n).countP f := by
  induction n generalizing f with
  | zero => rfl
  | succ n ih =>
    have h1 := countP_range_add (fun j => f (n - j)) 1 n
    rw [Nat.add_comm 1 n] at h1
    have h0 : ((List.range (n + 1)).countP fun j => f (n + 1 - 1 - j)) =
        (List.range (n + 1)).countP fun j => f (n - j) := rfl
    have h2 : ((List.range n).countP fun j => f (n - (1 + j))) =
        (List.range n).countP fun j => f (n - 1 - j) := by
      apply List.countP_congr
      intro j _
      have : n - (1 + j) = n - 1 - j := by omega
      simp only [this]
    have h3 : ((List.range 1).countP fun j => f (n - j)) = if f n then 1 else 0 := by
      simp [List.range_succ, List.countP_cons]
    rw [h0, h1, countP_range_succ f n, h2, ih f, h3]
    omega

theorem countP_testBit_bytes : ∀ (n x : Nat),
    ((List.range (8 * n)).countP fun j => x.testBit j) = sumPop n x := by
  intro n
  induction n with
  | zero => intro x; rfl
  | succ n ih =>
    intro x
    have e : 8 * (n + 1) = 8 + 8 * n := by ring
    rw [e, countP_range_add, sumPop, ← ih (x / 256)]
    congr 1
    · unfold pc8
      apply List.countP_congr
      intro j hj
      have hj8 : j < 8 := List.mem_range.1 hj
      have h256 : (256 : Nat) = 2 ^ 8 := by norm_num
      rw [h256, Nat.testBit_mod_two_pow]
      simp [hj8]
    · apply List.countP_congr
      intro j _
      have h256 : (256 : Nat) = 2 ^ 8 := by norm_num
      rw [h256, ← Nat.shiftRight_eq_div_pow, Nat.testBit_shiftRight]

/-- For a 64-bit word, `PopCountUInt64` is its number of set bits. -/
theorem PopCountUInt64_spec (w : Nat) (hw : w < 2 ^ 64) :
    PopCountUInt64 w = (List.range 64).countP fun j => w.testBit (63 - j) := by
  rw [PopCountUInt64_eq_sumPop w hw, ← countP_testBit_bytes 8 w]
  exact (countP_range_reflect (fun j => w.testBit j) 64).symm

theorem countBits_cons (w : Nat) (a : BitMap) :
    countBits (w :: a) = ((List.range 64).countP fun j => w.testBit (63 - j)) + countBits a := by
  unfold countBits
  have e : 64 * (w :: a).length = 64 + 64 * a.length := by
    simp only [List.length_cons]; ring
  have hA : ((List.range 64).countP fun p => bitAt (w :: a) p) =
      (List.range 64).countP fun j => w.testBit (63 - j) := by
    apply List.countP_congr
    intro j hj
    have hj64 : j < 64 := List.mem_range.1 hj
    have h1 : j / 64 = 0 := by omega
    have h2 : j % 64 = j := by omega
    simp [bitAt, h1, h2]
  have hB : ((List.range (64 * a.length)).countP fun j => bitAt (w :: a) (64 + j)) =
      (List.range (64 * a.length)).countP fun p => bitAt a p := by
    apply List.countP_congr
    intro j _
    have h1 : (64 + j) / 64 = j / 64 + 1 := by omega
    have h2 : (64 + j) % 64 = j % 64 := by omega
    simp [bitAt, h1, h2]
  rw [e, countP_range_add, hA, hB]

/-- The method `count_bits` returns the number of set bits of a bitmap of 64-bit words. -/
theorem count_bits_eq (b : Board) (a : BitMap) (h : ∀ w ∈ a, w < 2 ^ 64) :
    b.count_bits a = countBits a := by
  unfold Board.count_bits
  induction a with
  | nil => rfl
  | cons w a ih =>
    rw [countBits_cons, List.map_cons, List.sum_cons,
      PopCountUInt64_spec w (h w (List.mem_cons_self _ _)),
      ih (fun v hv => h v (List.mem_cons_of_mem _ hv))]

theorem Valid.mem_lt {sz : Nat} {a : BitMap} (h : Valid sz a) : ∀ w ∈ a, w < 2 ^ 64 := by
  intro w hw
  obtain ⟨i, hi, rfl⟩ := List.getElem_of_mem hw
  have := h.2 i
  rwa [List.getD_eq_getElem _ _ hi] at this

/-- Counting with a pointwise balance. -/
theorem countP_balance (f g f' g' h : Nat → Bool) (L : List Nat)
    (hb : ∀ p ∈ L, (if f' p then 1 else 0) + (if g' p then 1 else 0) =
      (if f p then 1 else 0) + (if g p then 1 else 0) + (if h p then 1 else 0)) :
    L.countP f' + L.countP g' = L.countP f + L.countP g + L.countP h := by
  induction L with
  | nil => rfl
  | cons x L ih =>
    have h1 := hb x (List.mem_cons_self _ _)
    have h2 := ih (fun p hp => hb p (List.mem_cons_of_mem _ hp))
    simp only [List.countP_cons]
    omega

theorem countP_range_eq (m n : Nat) (h : m < n) :
    ((List.range n).countP fun p => decide (p = m)) = 1 := by
  induction n with
  | zero => omega
  | succ n ih =>
    rw [countP_range_succ]
    by_cases hm : m = n
    · subst hm
      have : ((List.range m).countP fun p => decide (p = m)) = 0 := by
        rw [List.countP_eq_zero]
        intro p hp
        have := List.mem_range.1 hp
        simp; omega
      simp [this]
    · have hne : ¬ (n = m) := fun h => hm h.symm
      rw [ih (by omega)]
      simp [hne]

end Reversi


namespace Reversi

/-! ## The position after a legal move -/

theorem duplicate_eq (b : Board) (h1 : Valid b.bitmapsz b.black) (h2 : Valid b.bitmapsz b.white) :
    b.duplicate = b := by
  unfold Board.duplicate
  rw [copyInto_eq h1, copyInto_eq h2]

theorem countBits_range {sz : Nat} {a : BitMap} (h : Valid sz a) :
    countBits a = (List.range (64 * sz)).countP fun p => bitAt a p := by
  unfold countBits
  rw [h.1]

theorem side_mover (b : Board) : b.side b.IsBlackTurn = b.mover := rfl

theorem side_opponent (b : Board) : b.side (!b.IsBlackTurn) = b.opponent := by
  unfold Board.side Board.opponent Board.IsBlackTurn
  cases (b.Turn == 0) <;> rfl

/-- A legal move is pass, or an empty cell of the board whose bit is in the legal-move bitmap. -/
theorem legal_cases (b : Board) (N : Nat) (hW : b.WF N) (hN : 4 ≤ N) (hev : N % 2 = 0)
    (m : Int) (hl : b.IsLegalMove m = some true) :
    m = -1 ∨ ((0 ≤ m ∧ m < N * N) ∧ bitZ b.mover m = false ∧ bitZ b.opponent m = false) := by
  obtain ⟨legals, h1, h2, h3⟩ := moverLegals_spec b N hW hN hev
  obtain ⟨_, hpos⟩ := IsLegalMove_words b N hW hN hev h1
  by_cases hm1 : m = -1
  · exact Or.inl hm1
  · right
    by_cases hr : 0 ≤ m ∧ m < 64 * (b.bitmapsz : Int)
    · rw [hpos m hr.1 hr.2, Option.some.injEq] at hl
      obtain ⟨g1, g2, _⟩ := (h3 m).1 hl
      exact ⟨g1, g2⟩
    · rw [IsLegalMove_out_of_range b m (by omega)] at hl
      exact Option.noConfusion hl

/-- The position after a move at an empty cell `m` of the board: well formed, with one disc
more. -/
theorem move_invariant (b : Board) (N : Nat) (hW : b.WF N) (hN : 4 ≤ N) (hev : N % 2 = 0)
    (m : Int) (hm : 0 ≤ m ∧ m < N * N)
    (hopen : bitZ b.mover m = false ∧ bitZ b.opponent m = false) :
    ∃ b', b.MoveUpdate m = some b' ∧ b'.WF N ∧ b'.Turn = 1 - b.Turn ∧
      b'.discs = b.discs + 1 ∧
      countBits b'.black + countBits b'.white = countBits b.black + countBits b.white + 1 := by
  obtain ⟨hmy, hop, hdis⟩ := hW.mover_clean
  obtain ⟨F, hF, cF, _, hsub⟩ := flip_pos b N hW hN hev m hm
  obtain ⟨F', b', hF', hb', hT, hD, hI, hsz, vM, vO, hbits⟩ := MoveUpdate_spec b N hW hN hev m hm
  rw [hF] at hF'
  cases hF'
  obtain ⟨hS, _⟩ := hW.1.facts (by omega)
  obtain ⟨g1, g2, g3, g4⟩ := hS.sq_le (by omega)
  obtain ⟨p, hp⟩ := Int.eq_ofNat_of_zero_le hm.1
  subst hp
  have hplt : p < N * N := by exact_mod_cast hm.2
  have hM : ∀ q : Nat, bitAt (b'.side b.IsBlackTurn) q =
      (bitAt b.mover q || bitAt F q || decide (q = p)) := by
    intro q
    have := (hbits (q : Int)).1
    simp only [bitZ_natCast] at this
    rw [this]
    congr 1
    simp
  have hO : ∀ q : Nat, bitAt (b'.side (!b.IsBlackTurn)) q = (bitAt b.opponent q && !bitAt F q) := by
    intro q
    have := (hbits (q : Int)).2
    simp only [bitZ_natCast] at this
    exact this
  have hsub' : ∀ q : Nat, bitAt F q = true → bitAt b.opponent q = true := by
    intro q hq
    have := hsub (q : Int)
    simp only [bitZ_natCast] at this
    exact this hq
  have hdis' : ∀ q : Nat, ¬ (bitAt b.mover q = true ∧ bitAt b.opponent q = true) := by
    intro q
    have := hdis (q : Int)
    simp only [bitZ_natCast] at this
    exact this
  have hopen' : bitAt b.mover p = false ∧ bitAt b.opponent p = false := by
    simpa only [bitZ_natCast] using hopen
  have cM : Clean (N * N) b.bitmapsz (b'.side b.IsBlackTurn) := by
    refine ⟨vM, fun q hq => ?_⟩
    rw [hM, hmy.2 q hq, cF.2 q hq]
    have : ¬ (q = p) := by omega
    simp [this]
  have cO : Clean (N * N) b.bitmapsz (b'.side (!b.IsBlackTurn)) := by
    refine ⟨vO, fun q hq => ?_⟩
    rw [hO, hop.2 q hq]
    rfl
  have hdisj : ∀ q : Nat, ¬ (bitAt (b'.side b.IsBlackTurn) q = true ∧
      bitAt (b'.side (!b.IsBlackTurn)) q = true) := by
    intro q
    rw [hM, hO]
    rintro ⟨h1, h2⟩
    simp only [Bool.or_eq_true, Bool.and_eq_true, Bool.not_eq_true', decide_eq_true_eq] at h1 h2
    rcases h1 with (h1 | h1) | h1
    · exact hdis' q ⟨h1, h2.1⟩
    · rw [h1] at h2
      exact Bool.noConfusion h2.2
    · subst h1
      rw [hopen'.2] at h2
      exact Bool.noConfusion h2.1
  have hcount : countBits (b'.side b.IsBlackTurn) + countBits (b'.side (!b.IsBlackTurn)) =
      countBits b.mover + countBits b.opponent + 1 := by
    rw [countBits_range vM, countBits_range vO, countBits_range hmy.1, countBits_range hop.1,
      ← countP_range_eq p (64 * b.bitmapsz) (by omega)]
    apply countP_balance
    intro q _
    rw [hM, hO]
    by_cases hq : q = p
    · subst hq
      have hFq : bitAt F q = false := by
        by_contra hne
        have := hsub' q (by simpa using hne)
        rw [hopen'.2] at this
        exact Bool.noConfusion this
      simp [hopen'.1, hopen'.2, hFq]
    · by_cases hFq : bitAt F q = true
      · have h1 := hsub' q hFq
        have h2 : bitAt b.mover q = false := by
          by_contra hne
          exact hdis' q ⟨by simpa using hne, h1⟩
        simp [hFq, h1, h2, hq]
      · have hFq' : bitAt F q = false := by simpa using hFq
        simp [hFq', hq]
  have hszb : b'.bitmapsz = b.bitmapsz := hsz
  refine ⟨b', hb', ?_, hT, hD, ?_⟩
  · by_cases ht : b.IsBlackTurn = true
    · simp only [Board.side, ht, if_true, Bool.not_true] at cM cO hdisj
      exact ⟨hI, by rw [hszb]; exact cM, by rw [hszb]; exact cO, hdisj⟩
    · have ht' : b.IsBlackTurn = false := by simpa using ht
      simp only [Board.side, ht', Bool.not_false, if_true] at cM cO hdisj
      exact ⟨hI, by rw [hszb]; exact cO, by rw [hszb]; exact cM, fun q h => hdisj q ⟨h.2, h.1⟩⟩
  · rw [← side_mover, ← side_opponent] at hcount
    by_cases ht : b.IsBlackTurn = true
    · simp only [Board.side, ht, if_true, Bool.not_true] at hcount
      simpa using hcount
    · have ht' : b.IsBlackTurn = false := by simpa using ht
      simp only [Board.side, ht', Bool.not_false, if_true] at hcount
      simp at hcount
      omega

/-- The position after a legal move: `MoveUpdate` and `Move` give the same well-formed position,
whose disc count is still the number of set bits. -/
theorem legal_move_invariant (b : Board) (N : Nat) (hW : b.WF N) (hN : 4 ≤ N) (hev : N % 2 = 0)
    (hd : b.discs = countBits b.black + countBits b.white)
    (m : Int) (hl : b.IsLegalMove m = some true) :
    ∃ b', b.MoveUpdate m = some b' ∧ b.Move m = some b' ∧ b'.WF N ∧
      b'.discs = countBits b'.black + countBits b'.white := by
  have hdup : b.Move m = b.MoveUpdate m := by
    unfold Board.Move
    rw [duplicate_eq b hW.2.1.1 hW.2.2.1.1]
  rcases legal_cases b N hW hN hev m hl with h | ⟨hm, hopen⟩
  · subst h
    refine ⟨{ b with Turn := 1 - b.Turn }, MoveUpdate_pass b, ?_, ?_, hd⟩
    · rw [hdup]; exact MoveUpdate_pass b
    · exact ⟨hW.1, hW.2.1, hW.2.2.1, hW.2.2.2⟩
  · obtain ⟨b', h1, h2, _, h4, h5⟩ := move_invariant b N hW hN hev m hm hopen
    refine ⟨b', h1, by rw [hdup]; exact h1, h2, ?_⟩
    omega

end Reversi


namespace Reversi

/-! ## Decimal numerals -/

theorem digit_char : ∀ d < 10, IsDigit (Char.ofNat (48 + d)) = true ∧
    (Char.ofNat (48 + d)).toNat - 48 = d := by
  decide

theorem digitsAux_acc : ∀ (fuel n : Nat) (acc : List Char),
    digitsAux fuel n acc = digitsAux fuel n [] ++ acc := by
  intro fuel
  induction fuel with
  | zero => intro n acc; rfl
  | succ fuel ih =>
    intro n acc
    unfold digitsAux
    by_cases h : n / 10 = 0
    · simp [h]
    · simp only [h, if_false]
      rw [ih (n / 10) (_ :: acc), ih (n / 10) [_]]
      simp

theorem digitsAux_digits : ∀ (fuel n : Nat), ∀ c ∈ digitsAux fuel n [], IsDigit c = true := by
  intro fuel
  induction fuel with
  | zero => intro n c hc; simp [digitsAux] at hc
  | succ fuel ih =>
    intro n c hc
    unfold digitsAux at hc
    have hd := (digit_char (n % 10) (Nat.mod_lt _ (by decide))).1
    by_cases h : n / 10 = 0
    · simp only [h, if_true, List.mem_singleton] at hc
      rw [hc]; exact hd
    · simp only [h, if_false] at hc
      rw [digitsAux_acc] at hc
      rcases List.mem_append.1 hc with hc | hc
      · exact ih _ c hc
      · rw [List.mem_singleton] at hc
        rw [hc]; exact hd

theorem digitsAux_ne_nil (fuel n : Nat) : digitsAux (fuel + 1) n [] ≠ [] := by
  unfold digitsAux
  by_cases h : n / 10 = 0
  · simp [h]
  · simp only [h, if_false]
    rw [digitsAux_acc]
    simp

theorem digitsValue_snoc (ds : List Char) (c : Char) :
    digitsValue (ds ++ [c]) = digitsValue ds * 10 + (c.toNat - 48) := by
  unfold digitsValue
  rw [List.foldl_append]
  rfl

theorem digitsAux_value : ∀ (fuel n : Nat), n < fuel → digitsValue (digitsAux fuel n []) = n := by
  intro fuel
  induction fuel with
  | zero => intro n h; omega
  | succ fuel ih =>
    intro n hn
    unfold digitsAux
    have hd := (digit_char (n % 10) (Nat.mod_lt _ (by decide))).2
    by_cases h : n / 10 = 0
    · simp only [h, if_true]
      have := digitsValue_snoc [] (Char.ofNat (48 + n % 10))
      simp only [List.nil_append] at this
      rw [this, hd]
      have : digitsValue [] = 0 := rfl
      omega
    · simp only [h, if_false]
      rw [digitsAux_acc, digitsValue_snoc, ih (n / 10) (by omega), hd]
      omega

theorem natDigits_digits (n : Nat) : ∀ c ∈ natDigits n, IsDigit c = true :=
  digitsAux_digits _ _

theorem natDigits_ne_nil (n : Nat) : natDigits n ≠ [] := digitsAux_ne_nil _ _

theorem natDigits_value (n : Nat) : digitsValue (natDigits n) = n :=
  digitsAux_value _ _ (Nat.lt_succ_self n)

theorem ItoaChars_natCast (n : Nat) : ItoaChars (n : Int) = natDigits n := by
  unfold ItoaChars
  have : ¬ ((n : Int) < 0) := by omega
  simp [this]

theorem takeWhile_all {p : Char → Bool} : ∀ (ds r : List Char), (∀ c ∈ ds, p c = true) →
    (∀ c ∈ r.head?, p c = false) →
    (ds ++ r).takeWhile p = ds ∧ (ds ++ r).dropWhile p = r := by
  intro ds
  induction ds with
  | nil =>
    intro r _ hr
    cases r with
    | nil => exact ⟨rfl, rfl⟩
    | cons c r =>
      have := hr c (by simp)
      simp [List.takeWhile_cons, List.dropWhile_cons, this]
  | cons d ds ih =>
    intro r hd hr
    have h1 := hd d (List.mem_cons_self _ _)
    obtain ⟨h2, h3⟩ := ih r (fun c hc => hd c (List.mem_cons_of_mem _ hc)) hr
    simp [List.takeWhile_cons, List.dropWhile_cons, h1, h2, h3]

theorem isDigit_ne_sign (c : Char) (h : IsDigit c = true) : c ≠ '-' ∧ c ≠ '+' := by
  unfold IsDigit at h
  simp only [Bool.and_eq_true, decide_eq_true_eq] at h
  constructor
  · intro e; rw [e] at h; exact absurd h.1 (by decide)
  · intro e; rw [e] at h; exact absurd h.1 (by decide)

/-- The library function `strconv.Atoi` reads back the numeral of a number that fits an `int`. -/
theorem AtoiChars_natDigits (n : Nat) (hn : n < 2 ^ 63) :
    AtoiChars (natDigits n) = ((n : Int), false) := by
  have hne := natDigits_ne_nil n
  have hdig := natDigits_digits n
  have hval := natDigits_value n
  generalize natDigits n = s at hne hdig hval
  cases s with
  | nil => exact absurd rfl hne
  | cons c rest =>
    have hc := hdig c (List.mem_cons_self _ _)
    obtain ⟨hs1, hs2⟩ := isDigit_ne_sign c hc
    have htw : (c :: rest).takeWhile IsDigit = c :: rest := by
      have := (takeWhile_all (c :: rest) [] hdig (by simp)).1
      simpa using this
    have hge : ¬ (n ≥ 2 ^ 63) := by omega
    have hor : ¬ (c = '-' ∨ c = '+') := fun h => h.elim hs1 hs2
    have hge2 : ¬ (9223372036854775808 ≤ n) := by norm_num at hge ⊢; omega
    unfold AtoiChars
    simp only [beq_iff_eq, hs1, hs2, Bool.or_eq_true, or_self, if_false, htw, hval,
      List.isEmpty_cons, Bool.false_eq_true, decide_False]
    simp [hge2]

theorem wrap64_of_range (x : Int) (h0 : -(2 ^ 63) ≤ x) (h1 : x < 2 ^ 63) : wrap64 x = x := by
  unfold wrap64
  have : (x + 2 ^ 63) % 2 ^ 64 = x + 2 ^ 63 := Int.emod_eq_of_lt (by omega) (by omega)
  omega

/-! ## The parsing loop of `NewBoardSFEN`, step by step -/

theorem sfenLoop_stop (N fuel : Nat) (st : SfenState) (h : ¬ (st.pos < (N : Int) * N)) :
    sfenLoop N fuel st = some st := by
  cases fuel with
  | zero => rfl
  | succ fuel =>
    unfold sfenLoop
    cases hr : st.rest with
    | nil => rfl
    | cons c tl => simp only [h, if_false]

theorem sfenLoop_digits (N fuel : Nat) (st : SfenState) (n : Nat) (r : List Char)
    (hst : st.rest = natDigits n ++ r) (hr : ∀ c ∈ r.head?, IsDigit c = false)
    (hpos : st.pos < (N : Int) * N) (hn : n < 2 ^ 63) :
    sfenLoop N (fuel + 1) st =
      sfenLoop N fuel { st with pos := wrap64 (st.pos + n), rest := r } := by
  have hne := natDigits_ne_nil n
  have hdig := natDigits_digits n
  have hat := AtoiChars_natDigits n hn
  generalize natDigits n = s at hne hdig hat hst
  cases s with
  | nil => exact absurd rfl hne
  | cons c ds =>
    have hc := hdig c (List.mem_cons_self _ _)
    obtain ⟨h1, h2⟩ := takeWhile_all ds r (fun x hx => hdig x (List.mem_cons_of_mem _ hx)) hr
    conv_lhs => unfold sfenLoop
    rw [hst]
    simp only [List.cons_append, hpos, if_true, hc, h1, h2, hat]

theorem isDigit_b : IsDigit 'b' = false ∧ IsDigit 'w' = false ∧ IsDigit ' ' = false := by decide

theorem sfenLoop_black (N fuel : Nat) (st : SfenState) (r : List Char) (black : BitMap)
    (hst : st.rest = 'b' :: r) (hpos : st.pos < (N : Int) * N)
    (hset : set_bit st.black st.pos = some black) :
    sfenLoop N (fuel + 1) st =
      sfenLoop N fuel { st with black := black, pos := st.pos + 1,
                                disc_count := st.disc_count + 1, rest := r } := by
  conv_lhs => unfold sfenLoop
  rw [hst]
  have h1 : ¬ ('b' = '/') := by decide
  simp only [hpos, if_true, isDigit_b.1, Bool.false_eq_true, if_false, h1, hset]

theorem sfenLoop_white (N fuel : Nat) (st : SfenState) (r : List Char) (white : BitMap)
    (hst : st.rest = 'w' :: r) (hpos : st.pos < (N : Int) * N)
    (hset : set_bit st.white st.pos = some white) :
    sfenLoop N (fuel + 1) st =
      sfenLoop N fuel { st with white := white, pos := st.pos + 1,
                                disc_count := st.disc_count + 1, rest := r } := by
  conv_lhs => unfold sfenLoop
  rw [hst]
  have h1 : ¬ ('w' = '/') := by decide
  have h2 : ¬ ('w' = 'b') := by decide
  simp only [hpos, if_true, isDigit_b.2.1, Bool.false_eq_true, if_false, h1, h2, hset]

end Reversi


namespace Reversi

/-! ## The initial position -/

/-- Arithmetic of the initial position on a board of even size `N = 2 * (k + 2)`. -/
theorem init_arith (N : Nat) (hN : 4 ≤ N) (hev : N % 2 = 0) :
    ∃ k, N = 2 * (k + 2) ∧ N / 2 = k + 2 ∧ (N + 1) / 2 = k + 2 ∧
      N * (N / 2 - 1) + (N / 2 - 1) = (k + 1) * N + (k + 1) ∧
      ((k + 1) * N + (k + 1)) + 2 + (N - 2) + 2 + ((k + 1) * N + (k + 1)) = N * N := by
  obtain ⟨k, hk⟩ : ∃ k, N = 2 * (k + 2) := ⟨N / 2 - 2, by omega⟩
  have h1 : N / 2 = k + 2 := by omega
  have h2 : (N + 1) / 2 = k + 2 := by omega
  refine ⟨k, hk, h1, h2, ?_, ?_⟩
  · rw [h1]
    have : k + 2 - 1 = k + 1 := by omega
    rw [this]
    ring
  · have : N - 2 = 2 * k + 2 := by omega
    rw [this, hk]
    ring

/-- A natural number below `2^63` is its own value as a Go `int`. -/
theorem wrap64_natCast (n : Nat) (h : n < 2 ^ 63) : wrap64 (n : Int) = (n : Int) := by
  have a1 : -(2 ^ 63) ≤ (n : Int) := by omega
  have a2 : (n : Int) < 2 ^ 63 := by omega
  rw [wrap64_of_range _ a1 a2]

/-- The characters of `MakeInitialSFEN N`, for even `N ≥ 4`: three numerals around `wb` and
`bw`, then ` b`. -/
theorem MakeInitialSFEN_data (N : Nat) (hN : 4 ≤ N) (hev : N % 2 = 0) (h63 : N * N < 2 ^ 63) :
    (MakeInitialSFEN N).data =
      natDigits ((N / 2 - 1) * N + (N / 2 - 1)) ++ ('w' :: 'b' ::
        (natDigits (N - 2) ++ ('b' :: 'w' ::
          (natDigits ((N / 2 - 1) * N + (N / 2 - 1)) ++ [' ', 'b'])))) := by
  obtain ⟨k, hk, h1, h2, h3, h4⟩ := init_arith N hN hev
  have hk1 : N / 2 - 1 = k + 1 := by clear h63; omega
  have hN1 : N + 1 ≤ N * N := by clear h63; nlinarith
  have hv : (N / 2 - 1) * N + (N / 2 - 1) ≤ N * N := by
    clear h63
    rw [hk1]
    omega
  have r1 : wrap64 ((N : Int) + 1) = (N : Int) + 1 := by
    have e : (N : Int) + 1 = ((N + 1 : Nat) : Int) := by push_cast; rfl
    rw [e]
    exact wrap64_natCast _ (lt_of_le_of_lt hN1 h63)
  have r2 := wrap64_natCast _ (lt_of_le_of_lt hv h63)
  have r3 := wrap64_natCast (N - 2) (lt_of_le_of_lt ((Nat.sub_le N 2).trans
    ((Nat.le_succ N).trans hN1)) h63)
  have t1 : Int.tdiv (N : Int) 2 = ((N / 2 : Nat) : Int) := rfl
  have t2 : Int.tdiv ((N : Int) + 1) 2 = (((N + 1) / 2 : Nat) : Int) := rfl
  have e0 : (N : Int) * (Int.tdiv (N : Int) 2 - 1) + (Int.tdiv (N : Int) 2 - 1) =
      (((N / 2 - 1) * N + (N / 2 - 1) : Nat) : Int) := by
    rw [hk1, t1, h1]
    push_cast
    ring
  have e4 : (N : Int) * (Int.tdiv ((N : Int) + 1) 2 - 1) + Int.tdiv ((N : Int) + 1) 2 - 1 =
      (((N / 2 - 1) * N + (N / 2 - 1) : Nat) : Int) := by
    rw [hk1, t2, h2]
    push_cast
    ring
  have e2 : (N : Int) - 2 = ((N - 2 : Nat) : Int) := by
    clear h63 hN1 hv r1 r2 r3 e0 e4
    omega
  unfold MakeInitialSFEN
  simp only [r1, e0, e4, e2, r2, r3, Itoa, ItoaChars_natCast, String.data_append]
  simp

/-- The parsing loop of `NewBoardSFEN` on a string `n0 wb (N-2) bw n0 _b` whose counts sum to
`N*N`: four discs are placed and the loop stops at `pos = N*N`, in front of ` b`. -/
theorem initial_loop_aux (N n0 M sz : Nat) (hN : 4 ≤ N) (hpos : 0 < n0)
    (h4 : n0 + 2 + (N - 2) + 2 + n0 = M) (h63 : M < 2 ^ 63) (hsz : M ≤ 64 * sz)
    (hNN : (M : Int) = (N : Int) * N) :
    ∃ bl wh, sfenLoop N
        (natDigits n0 ++ ('w' :: 'b' :: (natDigits (N - 2) ++ ('b' :: 'w' ::
          (natDigits n0 ++ [' ', 'b']))))).length
        { black := mkBitMap sz, white := mkBitMap sz, pos := 0, disc_count := 0,
          rest := natDigits n0 ++ ('w' :: 'b' :: (natDigits (N - 2) ++ ('b' :: 'w' ::
            (natDigits n0 ++ [' ', 'b'])))) } =
        some { black := bl, white := wh, pos := (N : Int) * N, disc_count := 4,
               rest := [' ', 'b'] } ∧
      Valid sz bl ∧ Valid sz wh ∧
      (∀ q, bitAt bl q = (decide (q = n0 + 1) || decide (q = n0 + N))) ∧
      (∀ q, bitAt wh q = (decide (q = n0) || decide (q = n0 + N + 1))) := by
  -- the discs
  obtain ⟨wh1, ew1, vw1, bw1⟩ := set_bit_natCast (valid_mkBitMap sz) n0 (by omega)
  obtain ⟨bl1, eb1, vb1, bb1⟩ := set_bit_natCast (valid_mkBitMap sz) (n0 + 1) (by omega)
  obtain ⟨bl2, eb2, vb2, bb2⟩ := set_bit_natCast vb1 (n0 + N) (by omega)
  obtain ⟨wh2, ew2, vw2, bw2⟩ := set_bit_natCast vw1 (n0 + N + 1) (by omega)
  refine ⟨bl2, wh2, ?_, vb2, vw2, fun q => ?_, fun q => ?_⟩
  · -- the fuel is enough for seven iterations
    have l0 := List.length_pos.2 (natDigits_ne_nil n0)
    have l1 := List.length_pos.2 (natDigits_ne_nil (N - 2))
    obtain ⟨f, hf⟩ : ∃ f, (natDigits n0 ++ ('w' :: 'b' :: (natDigits (N - 2) ++ ('b' :: 'w' ::
        (natDigits n0 ++ [' ', 'b']))))).length = f + 7 := by
      refine ⟨2 * (natDigits n0).length + (natDigits (N - 2)).length - 1, ?_⟩
      simp only [List.length_append, List.length_cons, List.length_nil]
      omega
    rw [hf]
    clear hf l0 l1 bb1 bb2 bw1 bw2 vb1 vb2 vw1 vw2
    have r0 : -(2 ^ 63 : Int) ≤ (0 : Int) + (n0 : Nat) ∧ (0 : Int) + (n0 : Nat) < 2 ^ 63 :=
      ⟨by omega, by omega⟩
    have r1 : -(2 ^ 63 : Int) ≤ ((n0 : Int) + 1 + 1) + ((N - 2 : Nat) : Int) ∧
        ((n0 : Int) + 1 + 1) + ((N - 2 : Nat) : Int) < 2 ^ 63 := ⟨by omega, by omega⟩
    have r2 : -(2 ^ 63 : Int) ≤ (((n0 + N : Nat) : Int) + 1 + 1) + (n0 : Nat) ∧
        (((n0 + N : Nat) : Int) + 1 + 1) + (n0 : Nat) < 2 ^ 63 := ⟨by omega, by omega⟩
    have w0 : wrap64 ((0 : Int) + (n0 : Nat)) = (n0 : Int) := by
      rw [wrap64_of_range _ r0.1 r0.2]
      omega
    have w1 : wrap64 (((n0 : Int) + 1 + 1) + ((N - 2 : Nat) : Int)) = ((n0 + N : Nat) : Int) := by
      rw [wrap64_of_range _ r1.1 r1.2]
      omega
    have w2 : wrap64 ((((n0 + N : Nat) : Int) + 1 + 1) + (n0 : Nat)) = (N : Int) * N := by
      rw [wrap64_of_range _ r2.1 r2.2]
      omega
    have c1 : ((n0 : Int) + 1) = ((n0 + 1 : Nat) : Int) := by push_cast; rfl
    have c2 : (((n0 + N : Nat) : Int) + 1) = ((n0 + N + 1 : Nat) : Int) := by push_cast; rfl
    have p0 : (0 : Int) < (N : Int) * N := by omega
    have p1 : (n0 : Int) < (N : Int) * N := by omega
    have p2 : (n0 : Int) + 1 < (N : Int) * N := by omega
    have p3 : (n0 : Int) + 1 + 1 < (N : Int) * N := by omega
    have p4 : ((n0 + N : Nat) : Int) < (N : Int) * N := by omega
    have p5 : ((n0 + N : Nat) : Int) + 1 < (N : Int) * N := by omega
    have p6 : ((n0 + N : Nat) : Int) + 1 + 1 < (N : Int) * N := by omega
    have hn0 : n0 < 2 ^ 63 := by omega
    have hn2 : N - 2 < 2 ^ 63 := by omega
    have d1 : ∀ c ∈ ('w' :: 'b' :: (natDigits (N - 2) ++ ('b' :: 'w' ::
        (natDigits n0 ++ [' ', 'b'])))).head?, IsDigit c = false := by simp [isDigit_b]
    have d2 : ∀ c ∈ ('b' :: 'w' :: (natDigits n0 ++ [' ', 'b'])).head?, IsDigit c = false := by
      simp [isDigit_b]
    have d3 : ∀ c ∈ [' ', 'b'].head?, IsDigit c = false := by simp [isDigit_b]
    rw [sfenLoop_digits N (f + 6) ⟨mkBitMap sz, mkBitMap sz, 0, 0, _⟩ n0 _ rfl d1 p0 hn0]
    show sfenLoop N (f + 6) ⟨mkBitMap sz, mkBitMap sz, wrap64 ((0 : Int) + (n0 : Nat)), 0, _⟩ = _
    rw [w0]
    rw [sfenLoop_white N (f + 5) ⟨mkBitMap sz, mkBitMap sz, (n0 : Int), 0, _⟩ _ wh1 rfl p1 ew1]
    show sfenLoop N (f + 5) ⟨mkBitMap sz, wh1, (n0 : Int) + 1, 1, _⟩ = _
    rw [sfenLoop_black N (f + 4) ⟨mkBitMap sz, wh1, (n0 : Int) + 1, 1, _⟩ _ bl1 rfl p2
      (by show set_bit (mkBitMap sz) ((n0 : Int) + 1) = _; rw [c1]; exact eb1)]
    show sfenLoop N (f + 4) ⟨bl1, wh1, (n0 : Int) + 1 + 1, 2, _⟩ = _
    rw [sfenLoop_digits N (f + 3) ⟨bl1, wh1, (n0 : Int) + 1 + 1, 2, _⟩ (N - 2) _ rfl d2 p3 hn2]
    show sfenLoop N (f + 3) ⟨bl1, wh1, wrap64 (((n0 : Int) + 1 + 1) + ((N - 2 : Nat) : Int)), 2, _⟩
      = _
    rw [w1]
    rw [sfenLoop_black N (f + 2) ⟨bl1, wh1, ((n0 + N : Nat) : Int), 2, _⟩ _ bl2 rfl p4 eb2]
    show sfenLoop N (f + 2) ⟨bl2, wh1, ((n0 + N : Nat) : Int) + 1, 3, _⟩ = _
    rw [sfenLoop_white N (f + 1) ⟨bl2, wh1, ((n0 + N : Nat) : Int) + 1, 3, _⟩ _ wh2 rfl p5
      (by show set_bit wh1 (((n0 + N : Nat) : Int) + 1) = _; rw [c2]; exact ew2)]
    show sfenLoop N (f + 1) ⟨bl2, wh2, ((n0 + N : Nat) : Int) + 1 + 1, 4, _⟩ = _
    rw [sfenLoop_digits N f ⟨bl2, wh2, ((n0 + N : Nat) : Int) + 1 + 1, 4, _⟩ n0 _ rfl d3 p6 hn0]
    show sfenLoop N f ⟨bl2, wh2, wrap64 ((((n0 + N : Nat) : Int) + 1 + 1) + (n0 : Nat)), 4, _⟩ = _
    rw [w2]
    exact sfenLoop_stop N f _ (by show ¬ ((N : Int) * N < (N : Int) * N); omega)
  · rw [bb2, bb1, bitAt_mkBitMap]
    simp
  · rw [bw2, bw1, bitAt_mkBitMap]
    simp

/-- The parsing loop of `NewBoardSFEN` on the initial SFEN. -/
theorem initial_loop (N : Nat) (hN : 4 ≤ N) (hev : N % 2 = 0) (h63 : N * N < 2 ^ 63)
    (sz : Nat) (hsz : N * N ≤ 64 * sz) :
    ∃ bl wh, sfenLoop N (MakeInitialSFEN N).data.length
        { black := mkBitMap sz, white := mkBitMap sz, pos := 0, disc_count := 0,
          rest := (MakeInitialSFEN N).data } =
        some { black := bl, white := wh, pos := (N : Int) * N, disc_count := 4,
               rest := [' ', 'b'] } ∧
      Valid sz bl ∧ Valid sz wh ∧
      (∀ q, bitAt bl q = (decide (q = (N / 2 - 1) * N + (N / 2 - 1) + 1) ||
        decide (q = (N / 2 - 1) * N + (N / 2 - 1) + N))) ∧
      (∀ q, bitAt wh q = (decide (q = (N / 2 - 1) * N + (N / 2 - 1)) ||
        decide (q = (N / 2 - 1) * N + (N / 2 - 1) + N + 1))) := by
  obtain ⟨k, hk, h1, h2, h3, h4⟩ := init_arith N hN hev
  have hk1 : N / 2 - 1 = k + 1 := by omega
  rw [MakeInitialSFEN_data N hN hev h63, hk1]
  exact initial_loop_aux N ((k + 1) * N + (k + 1)) (N * N) sz hN (by omega) h4 h63 hsz
    (by push_cast; rfl)

end Reversi


namespace Reversi

/-! ## The initial board -/

/-- The board `NewBoardSFEN N (MakeInitialSFEN N)`, bit by bit. -/
theorem initial_board_spec (N : Nat) (hN : 4 ≤ N) (hev : N % 2 = 0) (h63 : N * N < 2 ^ 63) :
    ∃ b, NewBoardSFEN N (MakeInitialSFEN N) = some b ∧ b.WF N ∧ b.Turn = 0 ∧ b.discs = 4 ∧
      (∀ q, bitAt b.black q = (decide (q = (N / 2 - 1) * N + (N / 2 - 1) + 1) ||
        decide (q = (N / 2 - 1) * N + (N / 2 - 1) + N))) ∧
      (∀ q, bitAt b.white q = (decide (q = (N / 2 - 1) * N + (N / 2 - 1)) ||
        decide (q = (N / 2 - 1) * N + (N / 2 - 1) + N + 1))) := by
  obtain ⟨b0, h0, hs, hT, hD, hB, hW, _⟩ := NewBoard_spec N (by omega)
  obtain ⟨g1, g2, g3, g4⟩ := hs.sq_le (by omega)
  obtain ⟨bl, wh, hloop, vb, vw, bb, bw⟩ := initial_loop N hN hev h63 b0.bitmapsz g1
  obtain ⟨k, hk, h1, h2, h3, h4⟩ := init_arith N hN hev
  have hk1 : N / 2 - 1 = k + 1 := by omega
  have hI : b0.IsBoard N := NewBoard_isBoard (by omega) h0
  refine ⟨{ b0 with black := bl, white := wh, Turn := 0, discs := 4 }, ?_, ⟨hI, ⟨vb, ?_⟩, ⟨vw, ?_⟩, ?_⟩,
    rfl, rfl, bb, bw⟩
  · unfold NewBoardSFEN
    simp only [h0, hB, hW, hloop, if_true]
    rfl
  · intro p hp
    show bitAt bl p = false
    rw [bb, hk1]
    have a1 : ¬ (p = (k + 1) * N + (k + 1) + 1) := by omega
    have a2 : ¬ (p = (k + 1) * N + (k + 1) + N) := by omega
    simp [a1, a2]
  · intro p hp
    show bitAt wh p = false
    rw [bw, hk1]
    have a1 : ¬ (p = (k + 1) * N + (k + 1)) := by omega
    have a2 : ¬ (p = (k + 1) * N + (k + 1) + N + 1) := by omega
    simp [a1, a2]
  · intro p
    show ¬ (bitAt bl p = true ∧ bitAt wh p = true)
    rw [bb, bw]
    simp only [Bool.or_eq_true, decide_eq_true_eq]
    omega

theorem countP_range_two (a c n : Nat) (ha : a < n) (hc : c < n) (hac : a ≠ c) :
    ((List.range n).countP fun q => decide (q = a) || decide (q = c)) = 2 := by
  have h := countP_balance (fun q => decide (q = a)) (fun _ => false)
    (fun q => decide (q = a) || decide (q = c)) (fun _ => false) (fun q => decide (q = c))
    (List.range n) (by
      intro p _
      by_cases h1 : p = a
      · subst h1
        simp [hac]
      · simp [h1])
  rw [countP_range_eq a n ha, countP_range_eq c n hc] at h
  have hz : ((List.range n).countP fun _ => false) = 0 := by
    rw [List.countP_eq_zero]
    intro _ _
    simp
  omega

/-- The initial board has two black and two white discs. -/
theorem initial_counts (N : Nat) (hN : 4 ≤ N) (hev : N % 2 = 0) (b : Board) (hW : b.WF N)
    (bb : ∀ q, bitAt b.black q = (decide (q = (N / 2 - 1) * N + (N / 2 - 1) + 1) ||
        decide (q = (N / 2 - 1) * N + (N / 2 - 1) + N)))
    (bw : ∀ q, bitAt b.white q = (decide (q = (N / 2 - 1) * N + (N / 2 - 1)) ||
        decide (q = (N / 2 - 1) * N + (N / 2 - 1) + N + 1))) :
    b.CountBlack = 2 ∧ b.CountWhite = 2 := by
  obtain ⟨hs, _⟩ := hW.1.facts (by omega)
  obtain ⟨g1, g2, g3, g4⟩ := hs.sq_le (by omega)
  obtain ⟨k, hk, h1, h2, h3, h4⟩ := init_arith N hN hev
  have hk1 : N / 2 - 1 = k + 1 := by omega
  rw [hk1] at bb bw
  unfold Board.CountBlack Board.CountWhite
  rw [count_bits_eq b _ hW.2.1.1.mem_lt, count_bits_eq b _ hW.2.2.1.1.mem_lt,
    countBits_range hW.2.1.1, countBits_range hW.2.2.1.1]
  constructor
  · rw [← countP_range_two ((k + 1) * N + (k + 1) + 1) ((k + 1) * N + (k + 1) + N)
      (64 * b.bitmapsz) (by omega) (by omega) (by omega)]
    exact List.countP_congr fun q _ => by rw [bb]
  · rw [← countP_range_two ((k + 1) * N + (k + 1)) ((k + 1) * N + (k + 1) + N + 1)
      (64 * b.bitmapsz) (by omega) (by omega) (by omega)]
    exact List.countP_congr fun q _ => by rw [bw]

end Reversi


namespace Reversi

/-! ## The legal moves of the initial position -/

/-- On the initial position, the cells from which a run of white discs is bracketed by a black
disc are the four cells next to a white disc and opposite a black one. -/
theorem init_brackets (N k : Nat) (my op : BitMap)
    (hW : ∀ r c : Int, cellOn N op r c = true ↔
      (r = k + 1 ∧ c = k + 1) ∨ (r = k + 2 ∧ c = k + 2))
    (hB : ∀ r c : Int, cellOn N my r c = true ↔
      (r = k + 1 ∧ c = k + 2) ∨ (r = k + 2 ∧ c = k + 1)) (r c : Int) :
    (∃ d ∈ dirs8, ∃ j, 1 ≤ j ∧ Brackets N my op r c d.1 d.2 j) ↔
      (r = k ∧ c = k + 1) ∨ (r = k + 1 ∧ c = k) ∨ (r = k + 2 ∧ c = k + 3) ∨
        (r = k + 3 ∧ c = k + 2) := by
  constructor
  · rintro ⟨⟨dr, dc⟩, hd, j, hj, hbr⟩
    have c1 := (hW _ _).1 (hbr.1 1 (le_refl 1) hj)
    have hcases : j = 1 ∨ (2 ≤ j ∧ (j = 2 ∨ 3 ≤ j)) := by omega
    simp only [dirs8, List.mem_cons, Prod.mk.injEq, List.mem_singleton, List.mem_nil_iff,
      or_false] at hd
    rcases hcases with h1 | ⟨h2, h3⟩
    · subst h1
      have c2 := (hB _ _).1 hbr.2
      push_cast at c1 c2
      rcases hd with ⟨rfl, rfl⟩ | ⟨rfl, rfl⟩ | ⟨rfl, rfl⟩ | ⟨rfl, rfl⟩ | ⟨rfl, rfl⟩ | ⟨rfl, rfl⟩ |
        ⟨rfl, rfl⟩ | ⟨rfl, rfl⟩ <;> omega
    · have c2 := (hW _ _).1 (hbr.1 2 (by omega) h2)
      rcases h3 with h3 | h3
      · subst h3
        have c3 := (hB _ _).1 hbr.2
        push_cast at c1 c2 c3
        rcases hd with ⟨rfl, rfl⟩ | ⟨rfl, rfl⟩ | ⟨rfl, rfl⟩ | ⟨rfl, rfl⟩ | ⟨rfl, rfl⟩ |
          ⟨rfl, rfl⟩ | ⟨rfl, rfl⟩ | ⟨rfl, rfl⟩ <;> omega
      · have c3 := (hW _ _).1 (hbr.1 3 (by omega) h3)
        push_cast at c1 c2 c3
        rcases hd with ⟨rfl, rfl⟩ | ⟨rfl, rfl⟩ | ⟨rfl, rfl⟩ | ⟨rfl, rfl⟩ | ⟨rfl, rfl⟩ |
          ⟨rfl, rfl⟩ | ⟨rfl, rfl⟩ | ⟨rfl, rfl⟩ <;> omega
  · have key : ∀ dr dc : Int, (dr, dc) ∈ dirs8 →
        ((r + dr = k + 1 ∧ c + dc = k + 1) ∨ (r + dr = k + 2 ∧ c + dc = k + 2)) →
        ((r + 2 * dr = k + 1 ∧ c + 2 * dc = k + 2) ∨ (r + 2 * dr = k + 2 ∧ c + 2 * dc = k + 1)) →
        ∃ d ∈ dirs8, ∃ j, 1 ≤ j ∧ Brackets N my op r c d.1 d.2 j := by
      intro dr dc hd h1 h2
      refine ⟨(dr, dc), hd, 1, le_refl 1, fun i hi1 hi2 => ?_, ?_⟩
      · have : i = 1 := by omega
        subst this
        rw [hW]
        push_cast
        simpa using h1
      · rw [hB]
        push_cast
        exact h2
    rintro (⟨rfl, rfl⟩ | ⟨rfl, rfl⟩ | ⟨rfl, rfl⟩ | ⟨rfl, rfl⟩)
    · exact key 1 0 (by decide) (by omega) (by omega)
    · exact key 0 1 (by decide) (by omega) (by omega)
    · exact key 0 (-1) (by decide) (by omega) (by omega)
    · exact key (-1) 0 (by decide) (by omega) (by omega)

/-- A strictly increasing list is the list of the numbers below `n` that satisfy `f`, as soon as
it has the same elements. -/
theorem filter_range_eq (f : Nat → Bool) (n : Nat) (L : List Nat)
    (hs : L.Sorted (fun a b => a < b)) (hm : ∀ p, p ∈ L ↔ (p < n ∧ f p = true)) :
    (List.range n).filter f = L := by
  have h1 : ((List.range n).filter f).Sorted (fun a b => a < b) :=
    List.Pairwise.filter _ (List.pairwise_lt_range n)
  refine List.eq_of_perm_of_sorted ?_ h1 hs
  rw [List.perm_ext_iff_of_nodup ((List.nodup_range n).filter _) hs.nodup]
  intro p
  rw [List.mem_filter, List.mem_range, hm]

/-- The cells of a bitmap that holds exactly the two cells `(R1, C1)` and `(R2, C2)`. -/
theorem cell_of_two (N : Nat) (a : BitMap) (R1 C1 R2 C2 : Nat)
    (h1 : R1 < N ∧ C1 < N) (h2 : R2 < N ∧ C2 < N)
    (h : ∀ q, bitAt a q = (decide (q = R1 * N + C1) || decide (q = R2 * N + C2)))
    (r c : Int) :
    cellOn N a r c = true ↔ (r = R1 ∧ c = C1) ∨ (r = R2 ∧ c = C2) := by
  rw [cellOn_eq_cellZ, cellZ_iff]
  constructor
  · rintro ⟨⟨g1, g2, g3, g4⟩, hb⟩
    obtain ⟨r', rfl⟩ := Int.eq_ofNat_of_zero_le g1
    obtain ⟨c', rfl⟩ := Int.eq_ofNat_of_zero_le g3
    have e : ((r' : Int) * N + c') = ((r' * N + c' : Nat) : Int) := by push_cast; rfl
    rw [e, bitZ_natCast, h] at hb
    simp only [Bool.or_eq_true, decide_eq_true_eq] at hb
    rcases hb with hb | hb
    · obtain ⟨e1, e2⟩ := coord_unique N r' c' R1 C1 (by omega) h1.2 hb
      exact Or.inl ⟨by rw [e1], by rw [e2]⟩
    · obtain ⟨e1, e2⟩ := coord_unique N r' c' R2 C2 (by omega) h2.2 hb
      exact Or.inr ⟨by rw [e1], by rw [e2]⟩
  · rintro (⟨rfl, rfl⟩ | ⟨rfl, rfl⟩)
    · have e : ((R1 : Int) * N + C1) = ((R1 * N + C1 : Nat) : Int) := by push_cast; rfl
      refine ⟨⟨by omega, by omega, by omega, by omega⟩, ?_⟩
      rw [e, bitZ_natCast, h]
      simp
    · have e : ((R2 : Int) * N + C2) = ((R2 * N + C2 : Nat) : Int) := by push_cast; rfl
      refine ⟨⟨by omega, by omega, by omega, by omega⟩, ?_⟩
      rw [e, bitZ_natCast, h]
      simp

/-- Row and column of a position of the board. -/
theorem pos_coord_iff (N p : Nat) (hp : p < N * N) (R C : Nat) (hC : C < N) :
    ((p : Int) / N = R ∧ (p : Int) % N = C) ↔ p = R * N + C := by
  obtain ⟨hon, e⟩ := pos_coords N (p : Int) (by omega) (by exact_mod_cast hp)
  constructor
  · rintro ⟨h1, h2⟩
    rw [h1, h2] at e
    exact_mod_cast e.symm
  · intro h
    have e2 : (p : Int) / N * N + (p : Int) % N = (R : Int) * N + C := by
      rw [e, h]; push_cast; rfl
    exact int_coord_unique N _ _ _ _ ⟨hon.2.2.1, hon.2.2.2⟩ ⟨by omega, by omega⟩ e2

/-- The legal moves of black on the initial position, in ascending order. -/
theorem initial_legal_moves (N : Nat) (hN : 4 ≤ N) (hev : N % 2 = 0) (b : Board) (hW : b.WF N)
    (hT : b.Turn = 0)
    (bb : ∀ q, bitAt b.black q = (decide (q = (N / 2 - 1) * N + (N / 2 - 1) + 1) ||
        decide (q = (N / 2 - 1) * N + (N / 2 - 1) + N)))
    (bw : ∀ q, bitAt b.white q = (decide (q = (N / 2 - 1) * N + (N / 2 - 1)) ||
        decide (q = (N / 2 - 1) * N + (N / 2 - 1) + N + 1))) :
    b.LegalMoves = some [(((N / 2 - 2) * N + (N / 2 - 1) : Nat) : Int),
      (((N / 2 - 1) * N + (N / 2 - 2) : Nat) : Int), (((N / 2) * N + (N / 2 + 1) : Nat) : Int),
      (((N / 2 + 1) * N + (N / 2) : Nat) : Int)] := by
  obtain ⟨k, hk, a1, a2, a3, a4⟩ := init_arith N hN hev
  have hk1 : N / 2 - 1 = k + 1 := by omega
  have hk2 : N / 2 - 2 = k := by omega
  rw [hk1] at bb bw
  rw [hk1, hk2, a1]
  have x1 : (k + 1) * N = k * N + N := by ring
  have x2 : (k + 2) * N = k * N + 2 * N := by ring
  have x3 : (k + 2 + 1) * N = k * N + 3 * N := by ring
  have x4 : N * N = 2 * (k * N) + 4 * N := by
    have := congrArg (fun t => t * N) hk
    simp only at this
    rw [this]
    ring
  have bb2 : ∀ q, bitAt b.black q = (decide (q = (k + 1) * N + (k + 2)) ||
      decide (q = (k + 2) * N + (k + 1))) := by
    intro q
    rw [bb]
    have e1 : (k + 1) * N + (k + 1) + 1 = (k + 1) * N + (k + 2) := by ring
    have e2 : (k + 1) * N + (k + 1) + N = (k + 2) * N + (k + 1) := by ring
    rw [e1, e2]
  have bw2 : ∀ q, bitAt b.white q = (decide (q = (k + 1) * N + (k + 1)) ||
      decide (q = (k + 2) * N + (k + 2))) := by
    intro q
    rw [bw]
    have e2 : (k + 1) * N + (k + 1) + N + 1 = (k + 2) * N + (k + 2) := by ring
    rw [e2]
  have hmover : b.mover = b.black := by unfold Board.mover; rw [hT]; rfl
  have hopp : b.opponent = b.white := by unfold Board.opponent; rw [hT]; rfl
  have cW := cell_of_two N b.white (k + 1) (k + 1) (k + 2) (k + 2) ⟨by omega, by omega⟩
    ⟨by omega, by omega⟩ bw2
  have cB := cell_of_two N b.black (k + 1) (k + 2) (k + 2) (k + 1) ⟨by omega, by omega⟩
    ⟨by omega, by omega⟩ bb2
  obtain ⟨hs, _⟩ := hW.1.facts (by omega)
  obtain ⟨g1, g2, g3, g4⟩ := hs.sq_le (by omega)
  obtain ⟨legals, hl, hc, hiff⟩ := moverLegals_spec b N hW hN hev
  rw [LegalMoves_spec b hl hc.1]
  rw [hmover, hopp] at hiff
  have hbr := init_brackets N k b.black b.white
    (fun r c => by have := cW r c; push_cast at this; exact this)
    (fun r c => by have := cB r c; push_cast at this; exact this)
  have hfil : ((List.range (64 * b.bitmapsz)).filter fun p => bitAt legals p) =
      [k * N + (k + 1), (k + 1) * N + k, (k + 2) * N + (k + 2 + 1), (k + 2 + 1) * N + (k + 2)] := by
    apply filter_range_eq
    · simp only [List.Sorted, List.pairwise_cons, List.mem_cons, List.mem_singleton,
        List.not_mem_nil, List.Pairwise.nil, and_true, or_false, false_implies, implies_true]
      refine ⟨?_, ?_, ?_⟩
      · intro q hq; rcases hq with rfl | rfl | rfl <;> omega
      · intro q hq; rcases hq with rfl | rfl <;> omega
      · intro q hq; subst hq; omega
    · intro p
      simp only [List.mem_cons, List.mem_singleton, List.not_mem_nil, or_false]
      have hz := hiff (p : Int)
      rw [bitZ_natCast, bitZ_natCast, bitZ_natCast, hbr] at hz
      rw [hz]
      by_cases hp : p < N * N
      · have r1 := pos_coord_iff N p hp k (k + 1) (by omega)
        have r2 := pos_coord_iff N p hp (k + 1) k (by omega)
        have r3 := pos_coord_iff N p hp (k + 2) (k + 3) (by omega)
        have r4 := pos_coord_iff N p hp (k + 3) (k + 2) (by omega)
        push_cast at r1 r2 r3 r4
        rw [r1, r2, r3, r4, bb2, bw2]
        have hpi : (0 : Int) ≤ (p : Int) ∧ (p : Int) < (N : Int) * N :=
          ⟨by omega, by exact_mod_cast hp⟩
        simp only [Bool.or_eq_false_iff, decide_eq_false_iff_not]
        constructor
        · intro h
          refine ⟨by omega, ⟨hpi, ⟨⟨?_, ?_⟩, ⟨?_, ?_⟩⟩, ?_⟩⟩
          · rcases h with rfl | rfl | rfl | rfl <;> omega
          · rcases h with rfl | rfl | rfl | rfl <;> omega
          · rcases h with rfl | rfl | rfl | rfl <;> omega
          · rcases h with rfl | rfl | rfl | rfl <;> omega
          · rcases h with rfl | rfl | rfl | rfl
            · exact Or.inl rfl
            · exact Or.inr (Or.inl rfl)
            · exact Or.inr (Or.inr (Or.inl rfl))
            · exact Or.inr (Or.inr (Or.inr rfl))
        · rintro ⟨_, _, _, h⟩
          rcases h with rfl | rfl | rfl | rfl
          · exact Or.inl rfl
          · exact Or.inr (Or.inl rfl)
          · exact Or.inr (Or.inr (Or.inl rfl))
          · exact Or.inr (Or.inr (Or.inr rfl))
      · constructor
        · intro h
          exfalso
          rcases h with rfl | rfl | rfl | rfl <;> omega
        · rintro ⟨_, ⟨_, h⟩, _⟩
          exact absurd (by exact_mod_cast h) hp
  rw [hfil]
  rfl

end Reversi


namespace Reversi

/-! ## SFEN round trip -/

/-- Two bitmaps of `sz` words with the same bits are equal. -/
theorem bitmap_ext {sz : Nat} {a c : BitMap} (ha : Valid sz a) (hc : Valid sz c)
    (h : ∀ q, bitAt a q = bitAt c q) : a = c := by
  apply List.ext_getElem (by rw [ha.1, hc.1])
  intro i h1 h2
  have wa := ha.2 i
  have wc := hc.2 i
  rw [List.getD_eq_getElem _ _ h1] at wa
  rw [List.getD_eq_getElem _ _ h2] at wc
  apply Nat.eq_of_testBit_eq
  intro j
  by_cases hj : j < 64
  · have := h (64 * i + (63 - j))
    unfold bitAt at this
    have e1 : (64 * i + (63 - j)) / 64 = i := by omega
    have e2 : 63 - (64 * i + (63 - j)) % 64 = j := by omega
    rw [e1, e2, List.getD_eq_getElem _ _ h1, List.getD_eq_getElem _ _ h2] at this
    exact this
  · have p : 2 ^ 64 ≤ 2 ^ j := Nat.pow_le_pow_right (by decide) (by omega)
    rw [Nat.testBit_lt_two_pow (lt_of_lt_of_le wa p),
      Nat.testBit_lt_two_pow (lt_of_lt_of_le wc p)]

/-- The loop of `ToSFEN` writes the characters of `encFrom`. -/
theorem toSFEN_loop (b : Board) (tail : List Char) : ∀ (k p : Nat) (acc : List Char) (sc : Nat),
    p + k ≤ 64 * b.black.length → p + k ≤ 64 * b.white.length →
    ∃ acc' sc', Board.forM k p b.toSFENStep (acc, sc) = some (acc', sc') ∧
      (if sc' ≠ 0 then acc' ++ ItoaChars sc' else acc') ++ tail =
        acc ++ encFrom b.black b.white tail k p sc := by
  intro k
  induction k with
  | zero =>
    intro p acc sc _ _
    refine ⟨acc, sc, rfl, ?_⟩
    unfold encFrom
    rw [ItoaChars_natCast]
    by_cases h : sc = 0
    · simp [h]
    · simp [h]
  | succ k ih =>
    intro p acc sc h1 h2
    have eb : is_bit_on b.black (p : Int) = some (bitAt b.black p) := by
      rw [is_bit_on_natCast, if_pos (by omega)]
    have ew : is_bit_on b.white (p : Int) = some (bitAt b.white p) := by
      rw [is_bit_on_natCast, if_pos (by omega)]
    unfold Board.forM encFrom
    by_cases hb : bitAt b.black p = true
    · have hstep : b.toSFENStep p (acc, sc) =
          some ((if sc ≠ 0 then acc ++ ItoaChars sc else acc) ++ ['b'], 0) := by
        unfold Board.toSFENStep
        rw [eb, hb]
      obtain ⟨acc', sc', e1, e2⟩ := ih (p + 1)
        ((if sc ≠ 0 then acc ++ ItoaChars sc else acc) ++ ['b']) 0 (by omega) (by omega)
      refine ⟨acc', sc', ?_, ?_⟩
      · rw [hstep]; exact e1
      · rw [e2, ItoaChars_natCast]
        by_cases h : sc = 0
        · simp [h, hb]
        · simp [h, hb]
    · have hb' : bitAt b.black p = false := by simpa using hb
      by_cases hw : bitAt b.white p = true
      · have hstep : b.toSFENStep p (acc, sc) =
            some ((if sc ≠ 0 then acc ++ ItoaChars sc else acc) ++ ['w'], 0) := by
          unfold Board.toSFENStep
          rw [eb, hb', ew, hw]
        obtain ⟨acc', sc', e1, e2⟩ := ih (p + 1)
          ((if sc ≠ 0 then acc ++ ItoaChars sc else acc) ++ ['w']) 0 (by omega) (by omega)
        refine ⟨acc', sc', ?_, ?_⟩
        · rw [hstep]; exact e1
        · rw [e2, ItoaChars_natCast]
          by_cases h : sc = 0
          · simp [h, hb', hw]
          · simp [h, hb', hw]
      · have hw' : bitAt b.white p = false := by simpa using hw
        have hstep : b.toSFENStep p (acc, sc) = some (acc, sc + 1) := by
          unfold Board.toSFENStep
          rw [eb, hb', ew, hw']
        obtain ⟨acc', sc', e1, e2⟩ := ih (p + 1) acc (sc + 1) (by omega) (by omega)
        refine ⟨acc', sc', ?_, ?_⟩
        · rw [hstep]; exact e1
        · rw [e2]
          simp [hb', hw']

theorem countP_range_shift (F : Nat → Bool) (p k : Nat) :
    ((List.range (k + 1)).countP fun i => F (p + i)) =
      (if F p then 1 else 0) + (List.range k).countP fun i => F (p + 1 + i) := by
  rw [Nat.add_comm k 1, countP_range_add]
  have h1 : ((List.range 1).countP fun i => F (p + i)) = if F p then 1 else 0 := by
    simp [List.range_succ, List.countP_cons]
  have h2 : ((List.range k).countP fun j => F (p + (1 + j))) =
      (List.range k).countP fun i => F (p + 1 + i) := by
    apply List.countP_congr
    intro j _
    rw [Nat.add_assoc]
  rw [h1, h2]

/-- The parsing loop reads a pending count of empty cells, if there is one. -/
theorem sfenLoop_flush (N M : Nat) (hM : (M : Int) = (N : Int) * N) (h63 : M < 2 ^ 63)
    (fuel : Nat) (B W : BitMap) (p sc dc : Nat) (r : List Char)
    (hr : ∀ c ∈ r.head?, IsDigit c = false) (hp : p ≤ M) (hsc : sc ≤ p)
    (hfuel : ((if sc ≠ 0 then natDigits sc else []) ++ r).length ≤ fuel) :
    ∃ fuel', r.length ≤ fuel' ∧
      sfenLoop N fuel ⟨B, W, (p : Int) - (sc : Nat), dc,
        (if sc ≠ 0 then natDigits sc else []) ++ r⟩ = sfenLoop N fuel' ⟨B, W, (p : Int), dc, r⟩ := by
  by_cases h : sc = 0
  · subst h
    refine ⟨fuel, by simpa using hfuel, ?_⟩
    simp
  · have l0 := List.length_pos.2 (natDigits_ne_nil sc)
    simp only [h, ne_eq, not_false_eq_true, if_true, List.length_append] at hfuel ⊢
    obtain ⟨f, rfl⟩ : ∃ f, fuel = f + 1 := ⟨fuel - 1, by omega⟩
    refine ⟨f, by omega, ?_⟩
    have hr2 : -(2 ^ 63 : Int) ≤ (p : Int) - (sc : Nat) + (sc : Nat) ∧
        (p : Int) - (sc : Nat) + (sc : Nat) < 2 ^ 63 := ⟨by omega, by omega⟩
    have w : wrap64 ((p : Int) - (sc : Nat) + (sc : Nat)) = (p : Int) := by
      rw [wrap64_of_range _ hr2.1 hr2.2]
      omega
    rw [sfenLoop_digits N f ⟨B, W, (p : Int) - (sc : Nat), dc, _⟩ sc r rfl hr
      (by show (p : Int) - (sc : Nat) < (N : Int) * N; omega) (by omega)]
    show sfenLoop N f ⟨B, W, wrap64 ((p : Int) - (sc : Nat) + (sc : Nat)), dc, r⟩ = _
    rw [w]

/-- The parsing loop of `NewBoardSFEN` reads back the characters of `encFrom`. -/
theorem parse_enc (N M sz : Nat) (hM : (M : Int) = (N : Int) * N) (h63 : M < 2 ^ 63)
    (hsz : M ≤ 64 * sz) (bl wh : BitMap) (tail : List Char)
    (ht : ∀ c ∈ tail.head?, IsDigit c = false) :
    ∀ (k p sc fuel : Nat) (B W : BitMap) (dc : Nat), p + k = M → sc ≤ p →
      Valid sz B → Valid sz W → (encFrom bl wh tail k p sc).length ≤ fuel →
      ∃ B' W', sfenLoop N fuel ⟨B, W, (p : Int) - (sc : Nat), dc, encFrom bl wh tail k p sc⟩ =
          some ⟨B', W', (N : Int) * N,
            dc + ((List.range k).countP fun i => bitAt bl (p + i) || bitAt wh (p + i)), tail⟩ ∧
        Valid sz B' ∧ Valid sz W' ∧
        (∀ q, bitAt B' q = (bitAt B q || (decide (p ≤ q ∧ q < M) && bitAt bl q))) ∧
        (∀ q, bitAt W' q =
          (bitAt W q || (decide (p ≤ q ∧ q < M) && (!bitAt bl q && bitAt wh q)))) := by
  intro k
  induction k with
  | zero =>
    intro p sc fuel B W dc hp hsc vB vW hfuel
    unfold encFrom at hfuel ⊢
    obtain ⟨fuel', _, e⟩ := sfenLoop_flush N M hM h63 fuel B W p sc dc tail ht (by omega) hsc hfuel
    refine ⟨B, W, ?_, vB, vW, fun q => ?_, fun q => ?_⟩
    · rw [e, sfenLoop_stop N fuel' _ (by show ¬ ((p : Int) < (N : Int) * N); omega)]
      have : (p : Int) = (N : Int) * N := by omega
      rw [this]
      rfl
    · have : ¬ (p ≤ q ∧ q < M) := by omega
      simp [this]
    · have : ¬ (p ≤ q ∧ q < M) := by omega
      simp [this]
  | succ k ih =>
    intro p sc fuel B W dc hp hsc vB vW hfuel
    have hcast : ((p : Int) + 1) = ((p + 1 : Nat) : Int) - ((0 : Nat) : Int) := by
      push_cast; ring
    rw [countP_range_shift (fun i => bitAt bl i || bitAt wh i) p k]
    unfold encFrom at hfuel ⊢
    by_cases hb : bitAt bl p = true
    · simp only [hb, if_true] at hfuel ⊢
      obtain ⟨fuel', hf', e⟩ := sfenLoop_flush N M hM h63 fuel B W p sc dc
        ('b' :: encFrom bl wh tail k (p + 1) 0) (by simp [isDigit_b]) (by omega) hsc hfuel
      obtain ⟨f, rfl⟩ : ∃ f, fuel' = f + 1 := ⟨fuel' - 1, by
        simp only [List.length_cons] at hf'; omega⟩
      obtain ⟨B1, eB1, vB1, bB1⟩ := set_bit_natCast vB p (by omega)
      obtain ⟨B', W', e2, vB', vW', bB', bW'⟩ := ih (p + 1) 0 f B1 W (dc + 1) (by omega)
        (by omega) vB1 vW (by simp only [List.length_cons] at hf'; omega)
      refine ⟨B', W', ?_, vB', vW', fun q => ?_, fun q => ?_⟩
      · rw [e, sfenLoop_black N f ⟨B, W, (p : Int), dc, _⟩ _ B1 rfl
          (by show (p : Int) < (N : Int) * N; omega) eB1]
        show sfenLoop N f ⟨B1, W, (p : Int) + 1, dc + 1, _⟩ = _
        rw [hcast, e2]
        simp only [Bool.true_or, if_true]
        congr 2
        omega
      · rw [bB', bB1]
        by_cases hq : q = p
        · subst hq
          have : q < M := by omega
          simp [hb, this]
        · have : (p + 1 ≤ q ∧ q < M) ↔ (p ≤ q ∧ q < M) := by omega
          simp [hq, this]
      · rw [bW']
        by_cases hq : q = p
        · subst hq
          simp [hb]
        · have : (p + 1 ≤ q ∧ q < M) ↔ (p ≤ q ∧ q < M) := by omega
          simp [this]
    · have hb' : bitAt bl p = false := by simpa using hb
      by_cases hw : bitAt wh p = true
      · simp only [hb', hw, if_true, Bool.false_eq_true, if_false] at hfuel ⊢
        obtain ⟨fuel', hf', e⟩ := sfenLoop_flush N M hM h63 fuel B W p sc dc
          ('w' :: encFrom bl wh tail k (p + 1) 0) (by simp [isDigit_b]) (by omega) hsc hfuel
        obtain ⟨f, rfl⟩ : ∃ f, fuel' = f + 1 := ⟨fuel' - 1, by
          simp only [List.length_cons] at hf'; omega⟩
        obtain ⟨W1, eW1, vW1, bW1⟩ := set_bit_natCast vW p (by omega)
        obtain ⟨B', W', e2, vB', vW', bB', bW'⟩ := ih (p + 1) 0 f B W1 (dc + 1) (by omega)
          (by omega) vB vW1 (by simp only [List.length_cons] at hf'; omega)
        refine ⟨B', W', ?_, vB', vW', fun q => ?_, fun q => ?_⟩
        · rw [e, sfenLoop_white N f ⟨B, W, (p : Int), dc, _⟩ _ W1 rfl
            (by show (p : Int) < (N : Int) * N; omega) eW1]
          show sfenLoop N f ⟨B, W1, (p : Int) + 1, dc + 1, _⟩ = _
          rw [hcast, e2]
          simp only [Bool.false_or, if_true]
          congr 2
          omega
        · rw [bB']
          by_cases hq : q = p
          · subst hq
            simp [hb']
          · have : (p + 1 ≤ q ∧ q < M) ↔ (p ≤ q ∧ q < M) := by omega
            simp [this]
        · rw [bW', bW1]
          by_cases hq : q = p
          · subst hq
            have : q < M := by omega
            simp [hb', hw, this]
          · have : (p + 1 ≤ q ∧ q < M) ↔ (p ≤ q ∧ q < M) := by omega
            simp [hq, this]
      · have hw' : bitAt wh p = false := by simpa using hw
        simp only [hb', hw', Bool.false_eq_true, if_false] at hfuel ⊢
        have hcast2 : (p : Int) - (sc : Nat) = ((p + 1 : Nat) : Int) - ((sc + 1 : Nat) : Int) := by
          push_cast; ring
        obtain ⟨B', W', e2, vB', vW', bB', bW'⟩ := ih (p + 1) (sc + 1) fuel B W dc (by omega)
          (by omega) vB vW hfuel
        refine ⟨B', W', ?_, vB', vW', fun q => ?_, fun q => ?_⟩
        · rw [hcast2, e2]
          simp
        · rw [bB']
          by_cases hq : q = p
          · subst hq
            simp [hb']
          · have : (p + 1 ≤ q ∧ q < M) ↔ (p ≤ q ∧ q < M) := by omega
            simp [this]
        · rw [bW']
          by_cases hq : q = p
          · subst hq
            simp [hw']
          · have : (p + 1 ≤ q ∧ q < M) ↔ (p ≤ q ∧ q < M) := by omega
            simp [this]

end Reversi


namespace Reversi

theorem countP_range_clean (f : Nat → Bool) (M n : Nat) (h : M ≤ n)
    (hf : ∀ p, M ≤ p → f p = false) :
    (List.range n).countP f = (List.range M).countP f := by
  obtain ⟨d, rfl⟩ : ∃ d, n = M + d := ⟨n - M, by omega⟩
  rw [countP_range_add]
  have : ((List.range d).countP fun j => f (M + j)) = 0 := by
    rw [List.countP_eq_zero]
    intro j _
    simp [hf (M + j) (by omega)]
  omega

/-- The number of discs of a well-formed position, counted cell by cell. -/
theorem wf_count (b : Board) (N : Nat) (hN : 1 ≤ N) (hW : b.WF N) :
    ((List.range (N * N)).countP fun i => bitAt b.black (0 + i) || bitAt b.white (0 + i)) =
      countBits b.black + countBits b.white := by
  obtain ⟨hs, _⟩ := hW.1.facts hN
  obtain ⟨g1, g2, g3, g4⟩ := hs.sq_le hN
  rw [countBits_range hW.2.1.1, countBits_range hW.2.2.1.1,
    countP_range_clean _ (N * N) _ g1 hW.2.1.2, countP_range_clean _ (N * N) _ g1 hW.2.2.1.2]
  have h := countP_balance (bitAt b.black) (bitAt b.white)
    (fun i => bitAt b.black (0 + i) || bitAt b.white (0 + i)) (fun _ => false) (fun _ => false)
    (List.range (N * N)) (by
      intro p _
      have hd := hW.2.2.2 p
      beta_reduce
      rw [Nat.zero_add]
      cases h1 : bitAt b.black p <;> cases h2 : bitAt b.white p <;> simp
      exact hd ⟨h1, h2⟩)
  have hz : ((List.range (N * N)).countP fun _ => false) = 0 := by
    rw [List.countP_eq_zero]
    intro _ _
    simp
  omega

/-- SFEN round trip: `ToSFEN` returns a string from which `NewBoardSFEN` rebuilds the board, with
`Turn` equal to `0` for black to move and `1` otherwise. -/
theorem sfen_round_trip (N : Nat) (hN : 1 ≤ N) (h63 : N * N < 2 ^ 63) (b : Board) (hW : b.WF N)
    (hd : b.discs = countBits b.black + countBits b.white) :
    ∃ s, b.ToSFEN = some s ∧
      NewBoardSFEN N s = some { b with Turn := if b.IsBlackTurn then 0 else 1 } := by
  obtain ⟨hs, _⟩ := hW.1.facts hN
  obtain ⟨g1, g2, g3, g4⟩ := hs.sq_le hN
  obtain ⟨vb, cb⟩ := hW.2.1
  obtain ⟨vw, cw⟩ := hW.2.2.1
  have hlen : b.Boardlen = N := hs.1
  obtain ⟨tail, htail⟩ : ∃ tail, tail = if b.IsBlackTurn then [' ', 'b'] else [' ', 'w'] :=
    ⟨_, rfl⟩
  have ht : ∀ c ∈ tail.head?, IsDigit c = false := by
    rw [htail]
    cases b.IsBlackTurn <;> simp [isDigit_b]
  have hturn : sfenTurn tail 0 = if b.IsBlackTurn then 0 else 1 := by
    rw [htail]
    cases b.IsBlackTurn <;> decide
  obtain ⟨acc', sc', e1, e2⟩ := toSFEN_loop b tail (N * N) 0 [] 0
    (by rw [vb.1]; omega) (by rw [vw.1]; omega)
  rw [List.nil_append] at e2
  have hsfen : b.ToSFEN = some (String.mk (encFrom b.black b.white tail (N * N) 0 0)) := by
    unfold Board.ToSFEN
    rw [hlen, e1]
    simp only
    rw [← htail, e2]
  obtain ⟨B', W', e3, vB', vW', bB', bW'⟩ := parse_enc N (N * N) b.bitmapsz (by push_cast; rfl)
    h63 g1 b.black b.white tail ht (N * N) 0 0
    (encFrom b.black b.white tail (N * N) 0 0).length (mkBitMap b.bitmapsz)
    (mkBitMap b.bitmapsz) 0 (by omega) (le_refl 0) (valid_mkBitMap _) (valid_mkBitMap _)
    (le_refl _)
  have hB : B' = b.black := by
    apply bitmap_ext vB' vb
    intro q
    rw [bB', bitAt_mkBitMap]
    by_cases hq : q < N * N
    · simp [hq]
    · rw [cb q (by omega)]
      simp
  have hWh : W' = b.white := by
    apply bitmap_ext vW' vw
    intro q
    rw [bW', bitAt_mkBitMap]
    by_cases hq : q < N * N
    · have hdj := hW.2.2.2 q
      cases h1 : bitAt b.black q <;> cases h2 : bitAt b.white q <;> simp [hq]
      exact hdj ⟨h1, h2⟩
    · rw [cw q (by omega)]
      simp
  have hcount := wf_count b N hN hW
  have h0 : NewBoard N = some { b with
      Turn := 0, discs := 0, black := mkBitMap b.bitmapsz, white := mkBitMap b.bitmapsz } := hW.1
  have e3' : sfenLoop N (encFrom b.black b.white tail (N * N) 0 0).length
      ⟨mkBitMap b.bitmapsz, mkBitMap b.bitmapsz, 0, 0, encFrom b.black b.white tail (N * N) 0 0⟩ =
      some ⟨b.black, b.white, (N : Int) * N, b.discs, tail⟩ := by
    have e : ((0 : Nat) : Int) - ((0 : Nat) : Int) = 0 := by simp
    rw [e, hB, hWh, hcount, Nat.zero_add, ← hd] at e3
    exact e3
  refine ⟨_, hsfen, ?_⟩
  unfold NewBoardSFEN
  simp only [h0, e3', if_true, hturn]

end Reversi


namespace Reversi

/-! ## Trimming and lower-casing (`strings.TrimSpace`, `strings.ToLower`) -/

theorem TrimSpace_eq (l : List Char) :
    TrimSpace l = List.rdropWhile isSpace (l.dropWhile isSpace) := rfl

theorem dropWhile_prefix_self {p : Char → Bool} {t m : List Char} (h : t <+: m)
    (hm : m.dropWhile p = m) : t.dropWhile p = t := by
  rw [List.dropWhile_eq_self_iff] at hm ⊢
  intro hl
  obtain ⟨r, rfl⟩ := h
  have := hm (by rw [List.length_append]; omega)
  cases t with
  | nil => simp at hl
  | cons a t => simpa using this

/-- Trimming twice is trimming once. -/
theorem TrimSpace_idem (l : List Char) : TrimSpace (TrimSpace l) = TrimSpace l := by
  rw [TrimSpace_eq (TrimSpace l), TrimSpace_eq l]
  rw [dropWhile_prefix_self (List.rdropWhile_prefix isSpace (l.dropWhile isSpace))
    (List.dropWhile_idempotent isSpace l), List.rdropWhile_idempotent]

theorem char_cap_iff (c : Char) : ('A' ≤ c ∧ c ≤ 'Z') ↔ (65 ≤ c.toNat ∧ c.toNat ≤ 90) := by
  simp only [Char.le_def, UInt32.le_def, Char.toNat]
  rfl

theorem ofNat_lower : ∀ n, 65 ≤ n → n ≤ 90 →
    (Char.ofNat (n + 32)).toNat = n + 32 := by
  intro n h1 h2
  interval_cases n <;> rfl

theorem isSpace_iff (c : Char) : isSpace c = true ↔
    ((9 ≤ c.toNat ∧ c.toNat ≤ 13) ∨ c.toNat = 0x20 ∨ c.toNat = 0x85 ∨ c.toNat = 0xA0 ∨
      c.toNat = 0x1680 ∨ (0x2000 ≤ c.toNat ∧ c.toNat ≤ 0x200A) ∨ c.toNat = 0x2028 ∨
      c.toNat = 0x2029 ∨ c.toNat = 0x202F ∨ c.toNat = 0x205F ∨ c.toNat = 0x3000) := by
  simp only [isSpace, Bool.or_eq_true, Bool.and_eq_true, decide_eq_true_eq, beq_iff_eq]
  omega

theorem char_eq_of_toNat {a b : Char} (h : a.toNat = b.toNat) : a = b := by
  rw [← Char.ofNat_toNat a, ← Char.ofNat_toNat b, h]

/-! ## Lower-casing (`unicode.ToLower`) -/

/-- The ranges of the table are in ascending order and apart. -/
theorem CaseRanges_sorted : CaseRanges.Pairwise (fun a b => a.Hi < b.Lo) := by
  decide!

set_option maxRecDepth 100000 in
/-- What the table is checked for, entry by entry. A range lies above ASCII and holds no space.
A range of alternating cases has an even number of code points and holds no surrogate. The image
of a range with a plain delta holds no capital ASCII letter, no surrogate, no space and no code
point of any range of the table. -/
theorem CaseRanges_checked : ∀ cr ∈ CaseRanges,
    0x7F < cr.Lo ∧ cr.Lo ≤ cr.Hi ∧
    (∀ sp ∈ [((9 : Int), (13 : Int)), (0x20, 0x20), (0x85, 0x85), (0xA0, 0xA0), (0x1680, 0x1680),
        (0x2000, 0x200A), (0x2028, 0x2029), (0x202F, 0x202F), (0x205F, 0x205F),
        (0x3000, 0x3000)],
      (cr.Hi : Int) < sp.1 ∨ sp.2 < (cr.Lo : Int)) ∧
    if cr.Delta > MaxRune then
      (cr.Hi - cr.Lo) % 2 = 1 ∧ (cr.Hi < 0xD800 ∨ (0xDFFF < cr.Lo ∧ cr.Hi < 0x110000))
    else
      0 ≤ cr.Lo + cr.Delta ∧ (cr.Hi + cr.Delta < 65 ∨ 90 < cr.Lo + cr.Delta) ∧
      (cr.Hi + cr.Delta < 0xD800 ∨ (0xDFFF < cr.Lo + cr.Delta ∧ cr.Hi + cr.Delta < 0x110000)) ∧
      (∀ sp ∈ [((9 : Int), (13 : Int)), (0x20, 0x20), (0x85, 0x85), (0xA0, 0xA0),
          (0x1680, 0x1680), (0x2000, 0x200A), (0x2028, 0x2029), (0x202F, 0x202F),
          (0x205F, 0x205F), (0x3000, 0x3000)],
        cr.Hi + cr.Delta < sp.1 ∨ sp.2 < cr.Lo + cr.Delta) ∧
      ∀ e ∈ CaseRanges, cr.Hi + cr.Delta < e.Lo ∨ (e.Hi : Int) < cr.Lo + cr.Delta := by
  decide!

theorem toNat_ofNat_valid (m : Nat) (h : m.isValidChar) : (Char.ofNat m).toNat = m := by
  unfold Char.ofNat
  rw [dif_pos h]
  rfl

theorem lor_one (q : Nat) : q / 2 * 2 ||| 1 = q / 2 * 2 + 1 := by
  have h := Nat.mul_add_lt_is_or (show 1 < 2 ^ 1 by decide) (q / 2)
  rw [pow_one, Nat.mul_comm] at h
  exact h.symm

/-- A character between two bounds that no space lies between is no space. -/
theorem isSpace_false_of (c : Char) (lo hi : Int) (h1 : lo ≤ c.toNat) (h2 : (c.toNat : Int) ≤ hi)
    (h : ∀ sp ∈ [((9 : Int), (13 : Int)), (0x20, 0x20), (0x85, 0x85), (0xA0, 0xA0),
        (0x1680, 0x1680), (0x2000, 0x200A), (0x2028, 0x2029), (0x202F, 0x202F),
        (0x205F, 0x205F), (0x3000, 0x3000)], hi < sp.1 ∨ sp.2 < lo) :
    isSpace c = false := by
  simp only [List.mem_cons, List.mem_singleton, forall_eq_or_imp, forall_eq,
    List.not_mem_nil, IsEmpty.forall_iff, implies_true, and_true] at h
  obtain ⟨a1, a2, a3, a4, a5, a6, a7, a8, a9, a10⟩ := h
  rw [← Bool.not_eq_true, isSpace_iff]
  rintro (b | b | b | b | b | b | b | b | b | b | b)
  · omega
  · omega
  · omega
  · omega
  · omega
  · omega
  · omega
  · omega
  · omega
  · omega
  · omega

theorem unicodeToLower_ascii (m : Nat) (h : m ≤ 0x7F) :
    unicodeToLower m = if 65 ≤ m ∧ m ≤ 90 then m + 32 else m := by
  unfold unicodeToLower
  rw [if_pos h]

theorem unicodeToLower_table (m : Nat) (h : 0x7F < m) :
    unicodeToLower m = unicodeTo m CaseRanges := by
  unfold unicodeToLower
  rw [if_neg (Nat.not_le.2 h)]

/-- A code point in no range of the table is returned as it is. -/
theorem unicodeTo_not_mem (r : Nat) (tbl : List CaseRange)
    (h : ∀ cr ∈ tbl, ¬ (cr.Lo ≤ r ∧ r ≤ cr.Hi)) : unicodeTo r tbl = r := by
  induction tbl with
  | nil => rfl
  | cons a t ih =>
    unfold unicodeTo
    rw [if_neg (h a (List.mem_cons_self a t))]
    exact ih fun cr hcr => h cr (List.mem_cons_of_mem a hcr)

/-- In a table in ascending order, the range that holds the code point gives the result. -/
theorem unicodeTo_mem (r : Nat) (tbl : List CaseRange)
    (hs : tbl.Pairwise (fun a b => a.Hi < b.Lo)) (cr : CaseRange) (hcr : cr ∈ tbl)
    (h1 : cr.Lo ≤ r) (h2 : r ≤ cr.Hi) :
    unicodeTo r tbl =
      if cr.Delta > MaxRune then cr.Lo + ((r - cr.Lo) / 2 * 2 ||| 1)
      else (r + cr.Delta).toNat := by
  induction tbl with
  | nil => exact absurd hcr (List.not_mem_nil cr)
  | cons a t ih =>
    rw [List.pairwise_cons] at hs
    unfold unicodeTo
    rcases List.mem_cons.1 hcr with rfl | hmem
    · rw [if_pos ⟨h1, h2⟩]
    · have := hs.1 cr hmem
      have hn : ¬ (a.Lo ≤ r ∧ r ≤ a.Hi) := by omega
      rw [if_neg hn]
      exact ih hs.2 hmem

/-- A code point of a range of alternating cases: the result is the lower-case code point of its
pair, which lies in the range. -/
theorem unicodeToLower_alternating (cr : CaseRange) (hcr : cr ∈ CaseRanges)
    (hd : cr.Delta > MaxRune) (n : Nat) (h1 : cr.Lo ≤ n) (h2 : n ≤ cr.Hi) :
    unicodeToLower n = cr.Lo + ((n - cr.Lo) / 2 * 2 + 1) ∧ unicodeToLower n ≤ cr.Hi := by
  obtain ⟨c1, _, _, c4⟩ := CaseRanges_checked cr hcr
  rw [if_pos hd] at c4
  rw [unicodeToLower_table n (by omega), unicodeTo_mem n CaseRanges CaseRanges_sorted cr hcr h1 h2,
    if_pos hd, lor_one]
  omega

/-- A code point of a range with a plain delta: the result is the code point plus the delta. -/
theorem unicodeToLower_plain (cr : CaseRange) (hcr : cr ∈ CaseRanges)
    (hd : ¬ cr.Delta > MaxRune) (n : Nat) (h1 : cr.Lo ≤ n) (h2 : n ≤ cr.Hi) :
    ((unicodeToLower n : Nat) : Int) = n + cr.Delta := by
  obtain ⟨c1, _, _, c4⟩ := CaseRanges_checked cr hcr
  rw [if_neg hd] at c4
  rw [unicodeToLower_table n (by omega), unicodeTo_mem n CaseRanges CaseRanges_sorted cr hcr h1 h2,
    if_neg hd]
  exact Int.toNat_of_nonneg (by omega)

/-- The image of `unicode.ToLower`: a result is not changed by lower-casing it again, it is a
valid code point if the argument is, and it is a space exactly if the argument is. -/
theorem unicodeToLower_image (n : Nat) :
    unicodeToLower (unicodeToLower n) = unicodeToLower n ∧
    (n.isValidChar → (unicodeToLower n).isValidChar) ∧
    ∀ c d : Char, c.toNat = n → d.toNat = unicodeToLower n → isSpace d = isSpace c := by
  by_cases ha : n ≤ 0x7F
  · have hm := unicodeToLower_ascii n ha
    by_cases hb : 65 ≤ n ∧ n ≤ 90
    · rw [if_pos hb] at hm
      rw [hm]
      refine ⟨?_, fun _ => ?_, fun c d hc hd => ?_⟩
      · rw [unicodeToLower_ascii (n + 32) (by omega), if_neg (by omega)]
      · unfold Nat.isValidChar
        omega
      · rw [isSpace_false_of c 65 90 (by omega) (by omega) (by decide),
          isSpace_false_of d 97 122 (by omega) (by omega) (by decide)]
    · rw [if_neg hb] at hm
      rw [hm]
      refine ⟨hm, fun h => h, fun c d hc hd => ?_⟩
      rw [char_eq_of_toNat (hd.trans hc.symm)]
  · by_cases hr : ∃ cr ∈ CaseRanges, cr.Lo ≤ n ∧ n ≤ cr.Hi
    · obtain ⟨cr, hcr, h1, h2⟩ := hr
      obtain ⟨c1, c2, c3, c4⟩ := CaseRanges_checked cr hcr
      by_cases hd : cr.Delta > MaxRune
      · rw [if_pos hd] at c4
        obtain ⟨hm, hle⟩ := unicodeToLower_alternating cr hcr hd n h1 h2
        have hlo : cr.Lo ≤ unicodeToLower n := by omega
        refine ⟨?_, fun _ => ?_, fun c d hc hd => ?_⟩
        · rw [(unicodeToLower_alternating cr hcr hd _ hlo hle).1]
          omega
        · unfold Nat.isValidChar
          omega
        · rw [isSpace_false_of c cr.Lo cr.Hi (by omega) (by omega) c3,
            isSpace_false_of d cr.Lo cr.Hi (by omega) (by omega) c3]
      · rw [if_neg hd] at c4
        obtain ⟨d1, d2, d3, d4, d5⟩ := c4
        have hm := unicodeToLower_plain cr hcr hd n h1 h2
        refine ⟨?_, fun _ => ?_, fun c d hc hd => ?_⟩
        · by_cases hs : unicodeToLower n ≤ 0x7F
          · rw [unicodeToLower_ascii _ hs, if_neg (by omega)]
          · rw [unicodeToLower_table _ (by omega)]
            apply unicodeTo_not_mem
            intro e he
            have := d5 e he
            omega
        · unfold Nat.isValidChar
          omega
        · rw [isSpace_false_of c cr.Lo cr.Hi (by omega) (by omega) c3,
            isSpace_false_of d (cr.Lo + cr.Delta) (cr.Hi + cr.Delta) (by omega) (by omega) d4]
    · have hm : unicodeToLower n = n := by
        rw [unicodeToLower_table n (by omega)]
        exact unicodeTo_not_mem n CaseRanges fun cr hcr h => hr ⟨cr, hcr, h⟩
      rw [hm]
      refine ⟨hm, fun h => h, fun c d hc hd => ?_⟩
      rw [char_eq_of_toNat (hd.trans hc.symm)]

/-- What `toLowerChar` returns, by the code of the character. -/
theorem toLowerChar_toNat (c : Char) : (toLowerChar c).toNat = unicodeToLower c.toNat :=
  toNat_ofNat_valid _ ((unicodeToLower_image c.toNat).2.1 c.valid)

theorem toLowerChar_idem (c : Char) : toLowerChar (toLowerChar c) = toLowerChar c := by
  apply char_eq_of_toNat
  rw [toLowerChar_toNat, toLowerChar_toNat]
  exact (unicodeToLower_image c.toNat).1

theorem isSpace_toLowerChar (c : Char) : isSpace (toLowerChar c) = isSpace c :=
  (unicodeToLower_image c.toNat).2.2 c (toLowerChar c) rfl (toLowerChar_toNat c)

theorem ToLower_idem (l : List Char) : ToLower (ToLower l) = ToLower l := by
  unfold ToLower
  rw [List.map_map]
  apply List.map_congr_left
  intro c _
  exact toLowerChar_idem c

theorem isSpace_comp : isSpace ∘ toLowerChar = isSpace := by
  funext c
  exact isSpace_toLowerChar c

theorem TrimSpace_ToLower (l : List Char) : TrimSpace (ToLower l) = ToLower (TrimSpace l) := by
  unfold TrimSpace ToLower
  rw [List.dropWhile_map, isSpace_comp, ← List.map_reverse, List.dropWhile_map, isSpace_comp,
    ← List.map_reverse]

/-- The normal form of a message is not changed by trimming and lower-casing it again. -/
theorem norm_idem (l : List Char) :
    ToLower (TrimSpace (ToLower (TrimSpace l))) = ToLower (TrimSpace l) := by
  rw [TrimSpace_ToLower, TrimSpace_idem, ToLower_idem]

end Reversi


namespace Reversi

/-! ## `str2move` -/

/-- The result of `str2move` depends on the message only through its trimmed, lower-cased form. -/
theorem str2move_congr (N : Nat) (s t : String)
    (h : ToLower (TrimSpace s.data) = ToLower (TrimSpace t.data)) :
    str2move N s = str2move N t := by
  unfold str2move
  rw [h]

theorem isLetter_iff (c : Char) : IsLetter c = true ↔ (97 ≤ c.toNat ∧ c.toNat ≤ 122) := by
  simp only [IsLetter, Bool.and_eq_true, decide_eq_true_eq, Char.le_def, UInt32.le_def, Char.toNat]
  rfl

theorem isDigit_iff (c : Char) : IsDigit c = true ↔ (48 ≤ c.toNat ∧ c.toNat ≤ 57) := by
  simp only [IsDigit, Bool.and_eq_true, decide_eq_true_eq, Char.le_def, UInt32.le_def, Char.toNat]
  rfl

theorem toLowerChar_fix (c : Char) (h : 48 ≤ c.toNat ∧ c.toNat ≤ 57 ∨ 97 ≤ c.toNat ∧ c.toNat ≤ 122) :
    toLowerChar c = c := by
  apply char_eq_of_toNat
  rw [toLowerChar_toNat, unicodeToLower_ascii _ (by omega), if_neg (by omega)]

theorem not_isSpace_of (c : Char)
    (h : 48 ≤ c.toNat ∧ c.toNat ≤ 57 ∨ 97 ≤ c.toNat ∧ c.toNat ≤ 122) : isSpace c = false := by
  rw [← Bool.not_eq_true, isSpace_iff]
  omega

theorem letter2int_eq (c : Char) (h : IsLetter c = true) :
    letter2int c = (c.toNat : Int) - 97 ∧ 0 ≤ letter2int c ∧ letter2int c ≤ 25 := by
  rw [isLetter_iff] at h
  unfold letter2int
  omega

/-- A word of ASCII digits and small letters is its own trimmed, lower-cased form. -/
theorem norm_fix (l : List Char)
    (hall : ∀ x ∈ l, 48 ≤ x.toNat ∧ x.toNat ≤ 57 ∨ 97 ≤ x.toNat ∧ x.toNat ≤ 122) :
    ToLower (TrimSpace l) = l := by
  have h1 : l.dropWhile isSpace = l := by
    rw [List.dropWhile_eq_self_iff]
    intro hl
    rw [not_isSpace_of _ (hall _ (List.get_mem _ _ _))]
    exact Bool.false_ne_true
  have h2 : TrimSpace l = l := by
    rw [TrimSpace_eq, h1, List.rdropWhile_eq_self_iff]
    intro hl
    rw [not_isSpace_of _ (hall _ (List.getLast_mem hl))]
    exact Bool.false_ne_true
  rw [h2]
  unfold ToLower
  conv_rhs => rw [← List.map_id l]
  apply List.map_congr_left
  intro x hx
  exact toLowerChar_fix x (hall x hx)

/-- A letter followed by a numeral is its own trimmed, lower-cased form. -/
theorem norm_cell (c : Char) (hc : IsLetter c = true) (ds : List Char)
    (hd : ∀ d ∈ ds, IsDigit d = true) : ToLower (TrimSpace (c :: ds)) = c :: ds := by
  apply norm_fix
  intro x hx
  rcases List.mem_cons.1 hx with rfl | hx
  · exact Or.inr ((isLetter_iff _).1 hc)
  · exact Or.inl ((isDigit_iff _).1 (hd x hx))

theorem utf8ByteSize_two_le (a b : Char) (l : List Char) :
    2 ≤ (String.mk (a :: b :: l)).utf8ByteSize := by
  have ha := Char.utf8Size_pos a
  have hb := Char.utf8Size_pos b
  simp only [String.utf8ByteSize, String.utf8ByteSize.go]
  omega

/-- A cell name with a one-letter column: `str2move` returns `(row - 1) * N + (letter - 'a')`,
wrapped to an `int`. -/
theorem str2move_cell (N : Nat) (c : Char) (hc : IsLetter c = true) (row : Nat)
    (hrow : row < 2 ^ 63) :
    str2move N (String.mk (c :: natDigits row)) =
      (wrap64 (((row : Int) - 1) * N + ((c.toNat : Int) - 97)), String.mk (c :: natDigits row),
        none) := by
  have hne := natDigits_ne_nil row
  have hdig := natDigits_digits row
  have hat := AtoiChars_natDigits row hrow
  have hnorm := norm_cell c hc (natDigits row) hdig
  generalize natDigits row = ds at hne hdig hat hnorm
  cases ds with
  | nil => exact absurd rfl hne
  | cons d ds =>
    have hd := hdig d (List.mem_cons_self _ _)
    have hdl : IsLetter d = false := by
      rw [← Bool.not_eq_true, isLetter_iff]
      have := (isDigit_iff d).1 hd
      omega
    have hpass : ¬ (String.mk (c :: d :: ds) = "pass") := by
      intro h
      have h2 : (c :: d :: ds) = ['p', 'a', 's', 's'] := congrArg String.data h
      have h3 : d = 'a' := by
        injection h2 with _ h2
        injection h2
      rw [h3] at hd
      exact absurd hd (by decide)
    have hlen : ¬ ((String.mk (c :: d :: ds)).utf8ByteSize < 2) := by
      have := utf8ByteSize_two_le c d ds
      omega
    unfold str2move
    simp only [hnorm, hlen, hpass, if_false, hc, hdl, hat, Bool.not_true, Bool.false_eq_true,
      (letter2int_eq c hc).1]

/-- A cell name with a two-letter column: `str2move` takes `digit0 * 26 + digit1` for the column,
with `digit0 = c0 - 'a'` and `digit1 = c1 - 'a'`. -/
theorem str2move_cell2 (N : Nat) (c0 c1 : Char) (h0 : IsLetter c0 = true)
    (h1 : IsLetter c1 = true) (row : Nat) (hrow : row < 2 ^ 63) :
    str2move N (String.mk (c0 :: c1 :: natDigits row)) =
      (wrap64 (((row : Int) - 1) * N + (((c0.toNat : Int) - 97) * 26 + ((c1.toNat : Int) - 97))),
        String.mk (c0 :: c1 :: natDigits row), none) := by
  have hne := natDigits_ne_nil row
  have hdig := natDigits_digits row
  have hat := AtoiChars_natDigits row hrow
  have hnorm : ToLower (TrimSpace (c0 :: c1 :: natDigits row)) = c0 :: c1 :: natDigits row := by
    apply norm_fix
    intro x hx
    rcases List.mem_cons.1 hx with rfl | hx
    · exact Or.inr ((isLetter_iff _).1 h0)
    · rcases List.mem_cons.1 hx with rfl | hx
      · exact Or.inr ((isLetter_iff _).1 h1)
      · exact Or.inl ((isDigit_iff _).1 (hdig x hx))
  generalize natDigits row = ds at hne hdig hat hnorm
  cases ds with
  | nil => exact absurd rfl hne
  | cons d ds =>
    have hd := hdig d (List.mem_cons_self _ _)
    have hpass : ¬ (String.mk (c0 :: c1 :: d :: ds) = "pass") := by
      intro h
      have h2 : (c0 :: c1 :: d :: ds) = ['p', 'a', 's', 's'] := congrArg String.data h
      have h3 : d = 's' := by
        injection h2 with _ h2
        injection h2 with _ h2
        injection h2
      rw [h3] at hd
      exact absurd hd (by decide)
    have hlen : ¬ ((String.mk (c0 :: c1 :: d :: ds)).utf8ByteSize < 2) := by
      have := utf8ByteSize_two_le c0 c1 (d :: ds)
      omega
    unfold str2move
    simp only [hnorm, hlen, hpass, if_false, h0, h1, hat, Bool.not_true, Bool.false_eq_true,
      if_true, (letter2int_eq c0 h0).1, (letter2int_eq c1 h1).1]

end Reversi


namespace Reversi

/-! ## The arbiter step -/

/-- A legal move (pass included) is applied without failure and leaves a well-formed position. -/
theorem legal_move_wf (b : Board) (N : Nat) (hW : b.WF N) (hN : 4 ≤ N) (hev : N % 2 = 0)
    (m : Int) (hl : b.IsLegalMove m = some true) :
    ∃ b', b.MoveUpdate m = some b' ∧ b'.WF N := by
  rcases legal_cases b N hW hN hev m hl with h | ⟨hm, hopen⟩
  · subst h
    exact ⟨_, MoveUpdate_pass b, hW.1, hW.2.1, hW.2.2.1, hW.2.2.2⟩
  · obtain ⟨b', h1, h2, _⟩ := move_invariant b N hW hN hev m hm hopen
    exact ⟨b', h1, h2⟩

/-- On a well-formed position `IsGameOver` returns, and the two counts are the numbers of set
bits. -/
theorem wf_over_counts (b : Board) (N : Nat) (hW : b.WF N) (hN : 4 ≤ N) (hev : N % 2 = 0) :
    (∃ over, b.IsGameOver = some over) ∧ b.CountBlack = countBits b.black ∧
      b.CountWhite = countBits b.white := by
  obtain ⟨l0, l1, _, _, _, _, h⟩ := IsGameOver_spec b N hW hN hev
  refine ⟨⟨_, h⟩, ?_, ?_⟩
  · unfold Board.CountBlack
    exact count_bits_eq b _ hW.2.1.1.mem_lt
  · unfold Board.CountWhite
    exact count_bits_eq b _ hW.2.2.1.1.mem_lt

/-- The arbiter step on a reply that parses to a legal move. -/
theorem step_legal (g : Game) (msg : String) (pos : Int) (mv : String) (b' : Board) (over : Bool)
    (hs : str2move g.Board.Boardlen msg = (pos, mv, none))
    (hl : g.Board.IsLegalMove pos = some true) (hm : g.Board.MoveUpdate pos = some b')
    (ho : b'.IsGameOver = some over) :
    g.send_req_get_resp (some msg) =
      some { Moves := g.Moves ++ [mv], Board := b',
             State := if over then
                 { s := if b'.CountBlack > b'.CountWhite then GameStateCode.BlackWin
                        else if b'.CountBlack = b'.CountWhite then GameStateCode.Draw
                        else GameStateCode.WhiteWin,
                   m := Itoa b'.CountBlack ++ "/" ++ Itoa b'.CountWhite }
               else g.State } := by
  unfold Game.send_req_get_resp
  simp only [hs]
  unfold Game.check_and_move
  simp only [hl, hm, if_true]
  cases over with
  | false => simp only [ho, Bool.false_eq_true, if_false]
  | true => simp only [ho, if_true]

end Reversi


namespace Reversi

/-- The call `check_and_move` changes the board at most. -/
theorem check_and_move_state (g : Game) (pos : Int) (g1 : Game) (e : Bool)
    (h : g.check_and_move pos = some (g1, e)) :
    g1.State = g.State ∧ g1.Moves = g.Moves ∧ (e = true → g1 = g) := by
  unfold Game.check_and_move at h
  cases hl : g.Board.IsLegalMove pos with
  | none => rw [hl] at h; exact Option.noConfusion h
  | some legal =>
    cases legal with
    | false =>
      rw [hl] at h
      cases h
      exact ⟨rfl, rfl, fun _ => rfl⟩
    | true =>
      rw [hl] at h
      cases hm : g.Board.MoveUpdate pos with
      | none => rw [hm] at h; exact Option.noConfusion h
      | some b =>
        rw [hm] at h
        cases h
        exact ⟨rfl, rfl, fun hc => Bool.noConfusion hc⟩

theorem mem_codes_of_turn (t : Bool) (a b : GameStateCode)
    (ha : a ∈ [GameStateCode.BlackTimeout, GameStateCode.WhiteTimeout,
        GameStateCode.BlackIllegalMove, GameStateCode.WhiteIllegalMove,
        GameStateCode.BlackWin, GameStateCode.WhiteWin, GameStateCode.Draw])
    (hb : b ∈ [GameStateCode.BlackTimeout, GameStateCode.WhiteTimeout,
        GameStateCode.BlackIllegalMove, GameStateCode.WhiteIllegalMove,
        GameStateCode.BlackWin, GameStateCode.WhiteWin, GameStateCode.Draw]) :
    (if t = true then a else b) ∈ [GameStateCode.BlackTimeout, GameStateCode.WhiteTimeout,
        GameStateCode.BlackIllegalMove, GameStateCode.WhiteIllegalMove,
        GameStateCode.BlackWin, GameStateCode.WhiteWin, GameStateCode.Draw] := by
  cases t
  · exact hb
  · exact ha

/-- The state codes that the arbiter step can assign. -/
theorem step_codes (g : Game) (reply : Option String) (g' : Game)
    (h : g.send_req_get_resp reply = some g') :
    g'.State.s = g.State.s ∨
      g'.State.s ∈ [GameStateCode.BlackTimeout, GameStateCode.WhiteTimeout,
        GameStateCode.BlackIllegalMove, GameStateCode.WhiteIllegalMove,
        GameStateCode.BlackWin, GameStateCode.WhiteWin, GameStateCode.Draw] := by
  cases reply with
  | none =>
    cases h
    exact Or.inr (mem_codes_of_turn _ _ _ (by simp) (by simp))
  | some msg =>
    unfold Game.send_req_get_resp at h
    simp only at h
    obtain ⟨pos, mv, err, hs⟩ : ∃ pos mv err, str2move g.Board.Boardlen msg = (pos, mv, err) :=
      ⟨_, _, _, rfl⟩
    rw [hs] at h
    cases err with
    | some e =>
      cases h
      exact Or.inr (mem_codes_of_turn _ _ _ (by simp) (by simp))
    | none =>
      simp only at h
      cases hcm : ({ g with Moves := g.Moves ++ [mv] } : Game).check_and_move pos with
      | none => rw [hcm] at h; exact Option.noConfusion h
      | some res =>
        obtain ⟨g1, e⟩ := res
        rw [hcm] at h
        obtain ⟨hst, _, _⟩ := check_and_move_state _ pos g1 e hcm
        cases e with
        | true =>
          cases h
          exact Or.inr (mem_codes_of_turn _ _ _ (by simp) (by simp))
        | false =>
          simp only at h
          cases ho : g1.Board.IsGameOver with
          | none => rw [ho] at h; exact Option.noConfusion h
          | some over =>
            rw [ho] at h
            cases over with
            | false =>
              cases h
              exact Or.inl (congrArg GameState.s hst)
            | true =>
              cases h
              right
              show (if g1.Board.CountBlack > g1.Board.CountWhite then GameStateCode.BlackWin
                else if g1.Board.CountBlack = g1.Board.CountWhite then GameStateCode.Draw
                else GameStateCode.WhiteWin) ∈ _
              split
              · simp
              · split <;> simp

theorem step_read_codes (g : Game) (r : ReadResult) (g' : Game)
    (h : g.send_req_get_resp_read r = some g') :
    g'.State.s = g.State.s ∨
      g'.State.s ∈ [GameStateCode.BlackTimeout, GameStateCode.WhiteTimeout,
        GameStateCode.BlackIllegalMove, GameStateCode.WhiteIllegalMove,
        GameStateCode.BlackWin, GameStateCode.WhiteWin, GameStateCode.Draw] := by
  cases r with
  | timeout => exact step_codes g none g' h
  | ioError => exact step_codes g none g' h
  | line raw u => exact step_codes g (some (json2msg u).Message) g' h

/-- The loop of `do_game` never leads to a state code outside those of the step. -/
theorem loop_codes : ∀ (plays : List ReadResult) (g g' : Game),
    do_game_loop plays g = some g' →
    g'.State.s = g.State.s ∨
      g'.State.s ∈ [GameStateCode.BlackTimeout, GameStateCode.WhiteTimeout,
        GameStateCode.BlackIllegalMove, GameStateCode.WhiteIllegalMove,
        GameStateCode.BlackWin, GameStateCode.WhiteWin, GameStateCode.Draw] := by
  intro plays
  induction plays with
  | nil =>
    intro g g' h
    cases h
    exact Or.inl rfl
  | cons r rs ih =>
    intro g g' h
    unfold do_game_loop at h
    split at h
    · exact Option.noConfusion h
    · rename_i g1 h1
      have c1 := step_read_codes g r g1 h1
      split at h
      · cases h
        exact c1
      · rcases ih g1 g' h with c2 | c2
        · rw [c2]; exact c1
        · exact Or.inr c2

/-- A read failure: the state code becomes the timeout of the side to move, nothing else
changes. -/
theorem step_read_failure (g : Game) (r : ReadResult)
    (h : r = ReadResult.timeout ∨ r = ReadResult.ioError) :
    g.send_req_get_resp_read r =
      some { g with State := { g.State with
        s := if g.Board.IsBlackTurn then GameStateCode.BlackTimeout
             else GameStateCode.WhiteTimeout } } := by
  rcases h with rfl | rfl <;> rfl

/-- A reply whose message `str2move` rejects: illegal move of the side to move, with the decoded
message as detail; moves and board are unchanged. -/
theorem step_unparsed (g : Game) (msg : String)
    (h : (str2move g.Board.Boardlen msg).2.2 ≠ none) :
    g.send_req_get_resp (some msg) =
      some { g with State :=
        { s := if g.Board.IsBlackTurn then GameStateCode.BlackIllegalMove
               else GameStateCode.WhiteIllegalMove,
          m := msg } } := by
  unfold Game.send_req_get_resp
  simp only
  split
  · rfl
  · rename_i heq
    rw [heq] at h
    exact absurd rfl h

theorem str2move_empty (N : Nat) : str2move N "" = (0, "", some "empty move") := by
  unfold str2move
  rfl

end Reversi


namespace Reversi

/-! ## The result phase -/

/-- The outcome of `send_result` where the session returns to the lobby. -/
theorem loop_ok (u : User) (l : Lobby) (reads : Nat → ReadResult) (fuel i n : Nat)
    (h : (reads i).kind = ReplyKind.ok) :
    send_result_loop u l reads (fuel + 1) i n =
      some ({ u with State := UserState.login }, l.store { u with State := UserState.login }) := by
  unfold send_result_loop
  unfold ReadResult.kind at h
  cases hr : reads i with
  | timeout => rw [hr] at h; exact ReplyKind.noConfusion h
  | ioError => rw [hr] at h; exact ReplyKind.noConfusion h
  | line raw um =>
    rw [hr] at h
    simp only at h ⊢
    by_cases he : um.err = true
    · rw [if_pos he] at h; exact ReplyKind.noConfusion h
    · rw [if_neg he] at h
      rw [if_neg he]
      by_cases hk : String.mk (ToUpper um.value.Message.data) = "RESULTOK"
      · rw [if_pos hk]
      · rw [if_neg hk] at h; exact ReplyKind.noConfusion h

theorem loop_fail (u : User) (l : Lobby) (reads : Nat → ReadResult) (fuel i n : Nat)
    (h : (reads i).kind = ReplyKind.fail) :
    send_result_loop u l reads (fuel + 1) i n = some (u.Logout l) := by
  unfold send_result_loop
  unfold ReadResult.kind at h
  cases hr : reads i with
  | timeout => rfl
  | ioError => rfl
  | line raw um =>
    rw [hr] at h
    simp only at h ⊢
    by_cases he : um.err = true
    · rw [if_pos he]
    · rw [if_neg he] at h
      by_cases hk : String.mk (ToUpper um.value.Message.data) = "RESULTOK"
      · rw [if_pos hk] at h; exact ReplyKind.noConfusion h
      · rw [if_neg hk] at h; exact ReplyKind.noConfusion h

theorem loop_other (u : User) (l : Lobby) (reads : Nat → ReadResult) (fuel i n : Nat)
    (h : (reads i).kind = ReplyKind.other) :
    send_result_loop u l reads (fuel + 1) i n =
      if n = 0 then send_result_loop u l reads fuel (i + 1) (n + 1) else some (u.Logout l) := by
  conv_lhs => unfold send_result_loop
  unfold ReadResult.kind at h
  cases hr : reads i with
  | timeout => rw [hr] at h; exact ReplyKind.noConfusion h
  | ioError => rw [hr] at h; exact ReplyKind.noConfusion h
  | line raw um =>
    rw [hr] at h
    simp only at h ⊢
    by_cases he : um.err = true
    · rw [if_pos he] at h; exact ReplyKind.noConfusion h
    · rw [if_neg he] at h
      rw [if_neg he]
      by_cases hk : String.mk (ToUpper um.value.Message.data) = "RESULTOK"
      · rw [if_pos hk] at h; exact ReplyKind.noConfusion h
      · rw [if_neg hk]

/-- The loop of `send_result` from its start, for every bound of at least two iterations. -/
theorem loop_spec (u : User) (l : Lobby) (reads : Nat → ReadResult) (fuel : Nat) :
    send_result_loop u l reads (fuel + 2) 0 0 =
      some (if (reads 0).kind = ReplyKind.ok ∨
          ((reads 0).kind = ReplyKind.other ∧ (reads 1).kind = ReplyKind.ok) then
        ({ u with State := UserState.login }, l.store { u with State := UserState.login })
      else u.Logout l) := by
  cases h0 : (reads 0).kind with
  | ok =>
    rw [loop_ok u l reads (fuel + 1) 0 0 h0]
    simp
  | fail =>
    rw [loop_fail u l reads (fuel + 1) 0 0 h0]
    simp
  | other =>
    rw [loop_other u l reads (fuel + 1) 0 0 h0, if_pos rfl]
    cases h1 : (reads 1).kind with
    | ok =>
      rw [loop_ok u l reads fuel 1 1 h1]
      simp
    | fail =>
      rw [loop_fail u l reads fuel 1 1 h1]
      simp
    | other =>
      rw [loop_other u l reads fuel 1 1 h1]
      simp

/-- The function `send_result`, by the kinds of the first two reads. -/
theorem send_result_spec (u : User) (g : Game) (l : Lobby) (reads : Nat → ReadResult) :
    send_result u g l reads =
      some (if (reads 0).kind = ReplyKind.ok ∨
          ((reads 0).kind = ReplyKind.other ∧ (reads 1).kind = ReplyKind.ok) then
        ({ u with State := UserState.login }, l.store { u with State := UserState.login })
      else u.Logout l) :=
  loop_spec u l reads 0

theorem store_ids (l : Lobby) (v : User) :
    (l.store v).map (fun w => w.Userid) = l.map fun w => w.Userid := by
  unfold Lobby.store
  rw [List.map_map]
  apply List.map_congr_left
  intro w _
  show (if w.Userid = v.Userid then v else w).Userid = w.Userid
  split
  · rename_i hw
    exact hw.symm
  · rfl

theorem delete_ids (l : Lobby) (id : String) :
    id ∉ (l.delete id).map (fun w => w.Userid) ∧
      ∀ x, x ∈ (l.delete id).map (fun w => w.Userid) → x ∈ l.map fun w => w.Userid := by
  unfold Lobby.delete
  constructor
  · intro h
    obtain ⟨w, hw, e⟩ := List.mem_map.1 h
    have := (List.mem_filter.1 hw).2
    simp only [ne_eq, decide_not, Bool.not_eq_true', decide_eq_false_iff_not] at this
    exact this e
  · intro x h
    obtain ⟨w, hw, e⟩ := List.mem_map.1 h
    exact List.mem_map.2 ⟨w, (List.mem_filter.1 hw).1, e⟩

/-- After `send_result`, the session is in the lobby only if it was there and returned to
`login`. -/
theorem send_result_lobby (u : User) (g : Game) (l : Lobby) (reads : Nat → ReadResult)
    (u' : User) (l' : Lobby) (h : send_result u g l reads = some (u', l')) :
    u'.Userid = u.Userid ∧
    (∀ x, x ∈ l'.map (fun w => w.Userid) → x ∈ l.map fun w => w.Userid) ∧
    (u'.State = UserState.logout → u.Userid ∉ l'.map fun w => w.Userid) ∧
    (u'.State = UserState.login → l'.map (fun w => w.Userid) = l.map fun w => w.Userid) ∧
    (u'.State = UserState.login ∨ u'.State = UserState.logout) := by
  rw [send_result_spec] at h
  split at h
  · cases h
    refine ⟨rfl, fun x hx => ?_, fun hc => UserState.noConfusion hc,
      fun _ => store_ids l _, Or.inl rfl⟩
    rw [store_ids l _] at hx
    exact hx
  · cases h
    exact ⟨rfl, (delete_ids l u.Userid).2, fun _ => (delete_ids l u.Userid).1,
      fun hc => UserState.noConfusion hc, Or.inr rfl⟩

/-- The two result phases of `do_game`. -/
theorem do_game_results (u0 u1 : User) (l : Lobby) (N : Nat) (plays : List ReadResult)
    (res0 res1 : Nat → ReadResult) (g : Game) (u0' u1' : User) (l' : Lobby)
    (h : do_game u0 u1 l N plays res0 res1 = some (g, u0', u1', l')) :
    g.is_gameover = true ∧
    ∃ b l1, NewBoardSFEN N (MakeInitialSFEN N) = some b ∧
      do_game_loop plays (mk_game b) = some g ∧
      send_result u0 g l res0 = some (u0', l1) ∧ send_result u1 g l1 res1 = some (u1', l') := by
  unfold do_game at h
  cases hb : NewBoardSFEN N (MakeInitialSFEN N) with
  | none => simp [hb] at h
  | some b =>
    cases hg : do_game_loop plays (mk_game b) with
    | none => simp [hb, hg] at h
    | some g1 =>
      cases ho : g1.is_gameover with
      | false => simp [hb, hg, ho] at h
      | true =>
        cases h0 : send_result u0 g1 l res0 with
        | none => simp [hb, hg, ho, h0] at h
        | some r0 =>
          obtain ⟨a0, l1⟩ := r0
          cases h1 : send_result u1 g1 l1 res1 with
          | none => simp [hb, hg, ho, h0, h1] at h
          | some r1 =>
            obtain ⟨a1, l2⟩ := r1
            simp [hb, hg, ho, h0, h1] at h
            obtain ⟨rfl, rfl, rfl, rfl⟩ := h
            exact ⟨ho, b, l1, rfl, hg, h0, h1⟩

end Reversi


namespace Reversi

/-! ## The pairing loop -/

/-- The games started from a list of even length hold each session of the list once, in state
`playing`. -/
theorem start_games_players : ∀ (m : Nat) (L : List User), L.length = 2 * m →
    game_players (start_games L) = L.map fun u => { u with State := UserState.playing } := by
  intro m
  induction m with
  | zero =>
    intro L hL
    have : L = [] := List.length_eq_zero.1 (by omega)
    subst this
    rfl
  | succ m ih =>
    intro L hL
    match L, hL with
    | a :: b :: rest, hL =>
      have hr : rest.length = 2 * m := by
        simp only [List.length_cons] at hL
        omega
      have := ih rest hr
      unfold game_players at this ⊢
      simp only [start_games, List.flatMap_cons, List.map_cons, this, List.cons_append,
        List.nil_append]
    | [], hL => simp at hL
    | [a], hL => simp at hL; omega

theorem insertByTime_perm (u : User) : ∀ L : List User, (insertByTime u L).Perm (u :: L) := by
  intro L
  induction L with
  | nil => exact List.Perm.refl _
  | cons v vs ih =>
    unfold insertByTime
    split
    · exact List.Perm.refl _
    · exact (List.Perm.cons v ih).trans (List.Perm.swap u v vs)

theorem insertByTime_sorted (u : User) : ∀ L : List User,
    L.Pairwise (fun a b => a.Chaperone_time ≤ b.Chaperone_time) →
    (insertByTime u L).Pairwise (fun a b => a.Chaperone_time ≤ b.Chaperone_time) := by
  intro L
  induction L with
  | nil =>
    intro _
    exact List.pairwise_singleton _ u
  | cons v vs ih =>
    intro h
    obtain ⟨h1, h2⟩ := List.pairwise_cons.1 h
    unfold insertByTime
    split
    · rename_i hlt
      refine List.pairwise_cons.2 ⟨fun x hx => ?_, h⟩
      rcases List.mem_cons.1 hx with rfl | hx
      · exact le_of_lt hlt
      · exact le_trans (le_of_lt hlt) (h1 x hx)
    · rename_i hge
      refine List.pairwise_cons.2 ⟨fun x hx => ?_, ih h2⟩
      rcases List.mem_cons.1 ((insertByTime_perm u vs).mem_iff.1 hx) with rfl | hx
      · exact not_lt.1 hge
      · exact h1 x hx

/-- The sort `sortByTime` returns a permutation of its argument in ascending order of
`Chaperone_time`. -/
theorem sortByTime_spec : ∀ L : List User, (sortByTime L).Perm L ∧
    (sortByTime L).Pairwise (fun a b => a.Chaperone_time ≤ b.Chaperone_time) := by
  intro L
  induction L with
  | nil => exact ⟨List.Perm.refl _, List.Pairwise.nil⟩
  | cons u us ih =>
    unfold sortByTime
    exact ⟨(insertByTime_perm u _).trans (List.Perm.cons u ih.1), insertByTime_sorted u _ ih.2⟩

/-- The lobby after the scan: a session in state `login` goes to `chaperone`. -/
theorem tick_small (sort shuffle : List User → List User) (l : Lobby)
    (h : (l.filter fun u => u.State = UserState.ready).length ≤ 1) :
    pairing_tick sort shuffle l =
      (l.map fun u =>
          if u.State = UserState.login then { u with State := UserState.chaperone } else u,
        (l.filter fun u => u.State = UserState.login).map
          fun u => { u with State := UserState.chaperone }, []) := by
  unfold pairing_tick
  simp only
  rw [if_neg (by omega)]

theorem tick_even (sort shuffle : List User → List User)
    (hshuf : ∀ rs, (shuffle rs).Perm rs) (l : Lobby)
    (h1 : 2 ≤ (l.filter fun u => u.State = UserState.ready).length)
    (h2 : (l.filter fun u => u.State = UserState.ready).length % 2 = 0) :
    pairing_tick sort shuffle l =
      ((l.map fun u =>
          if u.State = UserState.login then { u with State := UserState.chaperone } else u).map
        (fun u => if u.Userid ∈ (shuffle (l.filter fun u => u.State = UserState.ready)).map
            (fun u => u.Userid)
          then { u with State := UserState.playing } else u),
        (l.filter fun u => u.State = UserState.login).map
          fun u => { u with State := UserState.chaperone },
        start_games (shuffle (l.filter fun u => u.State = UserState.ready))) := by
  unfold pairing_tick
  simp only
  have hodd : ¬ ((l.filter fun u => u.State = UserState.ready).length % 2 = 1) := by omega
  rw [if_pos (by omega), if_neg hodd, if_neg hodd]
  generalize (l.filter fun u => u.State = UserState.ready) = R at *
  have hlen : (shuffle R).length = R.length := (hshuf R).length_eq
  rw [List.take_length, List.drop_length, List.append_nil, ← hlen, List.take_length]

theorem tick_odd (sort shuffle : List User → List User)
    (hsort : ∀ rs, (sort rs).Perm rs) (hshuf : ∀ rs, (shuffle rs).Perm rs) (l : Lobby)
    (h1 : 2 ≤ (l.filter fun u => u.State = UserState.ready).length)
    (h2 : (l.filter fun u => u.State = UserState.ready).length % 2 = 1) :
    pairing_tick sort shuffle l =
      ((l.map fun u =>
          if u.State = UserState.login then { u with State := UserState.chaperone } else u).map
        (fun u => if u.Userid ∈ (shuffle ((sort (l.filter fun u => u.State = UserState.ready)).take
            ((l.filter fun u => u.State = UserState.ready).length - 1))).map (fun u => u.Userid)
          then { u with State := UserState.playing } else u),
        (l.filter fun u => u.State = UserState.login).map
          fun u => { u with State := UserState.chaperone },
        start_games (shuffle ((sort (l.filter fun u => u.State = UserState.ready)).take
            ((l.filter fun u => u.State = UserState.ready).length - 1)))) := by
  unfold pairing_tick
  simp only
  rw [if_pos (by omega), if_pos h2, if_pos h2]
  generalize (l.filter fun u => u.State = UserState.ready) = R at *
  have hS : (sort R).length = R.length := (hsort R).length_eq
  have hlen : (shuffle ((sort R).take (R.length - 1))).length = R.length - 1 := by
    rw [(hshuf _).length_eq, List.length_take, hS]
    omega
  have e : (shuffle ((sort R).take (R.length - 1)) ++ (sort R).drop (R.length - 1)).take
      (R.length - 1) = shuffle ((sort R).take (R.length - 1)) := by
    rw [List.take_append_of_le_length (by omega)]
    exact List.take_of_length_le (by omega)
  rw [e]

theorem mark_ready_in (l : Lobby) (P : List String) (u : User) (hu : u ∈ l)
    (hr : u.State = UserState.ready) (hp : u.Userid ∈ P) :
    { u with State := UserState.playing } ∈
      (l.map fun u =>
        if u.State = UserState.login then { u with State := UserState.chaperone } else u).map
      (fun u => if u.Userid ∈ P then { u with State := UserState.playing } else u) := by
  refine List.mem_map.2 ⟨u, List.mem_map.2 ⟨u, hu, ?_⟩, ?_⟩
  · rw [if_neg]
    rw [hr]
    exact fun h => UserState.noConfusion h
  · rw [if_pos hp]

theorem mark_ready_out (l : Lobby) (P : List String) (u : User) (hu : u ∈ l)
    (hr : u.State = UserState.ready) (hp : u.Userid ∉ P) :
    u ∈ (l.map fun u =>
        if u.State = UserState.login then { u with State := UserState.chaperone } else u).map
      (fun u => if u.Userid ∈ P then { u with State := UserState.playing } else u) := by
  refine List.mem_map.2 ⟨u, List.mem_map.2 ⟨u, hu, ?_⟩, ?_⟩
  · rw [if_neg]
    rw [hr]
    exact fun h => UserState.noConfusion h
  · rw [if_neg hp]

theorem mark_ready_inv (l : Lobby) (P : List String) (w : User)
    (hw : w ∈ (l.map fun u =>
        if u.State = UserState.login then { u with State := UserState.chaperone } else u).map
      (fun u => if u.Userid ∈ P then { u with State := UserState.playing } else u))
    (hr : w.State = UserState.ready) : w ∈ l ∧ w.Userid ∉ P := by
  obtain ⟨x, hx, rfl⟩ := List.mem_map.1 hw
  obtain ⟨u, hu, rfl⟩ := List.mem_map.1 hx
  by_cases h1 : u.State = UserState.login
  · rw [if_pos h1] at hr ⊢
    by_cases h2 : ({ u with State := UserState.chaperone } : User).Userid ∈ P
    · rw [if_pos h2] at hr
      exact UserState.noConfusion hr
    · rw [if_neg h2] at hr
      exact UserState.noConfusion hr
  · rw [if_neg h1] at hr ⊢
    by_cases h2 : u.Userid ∈ P
    · rw [if_pos h2] at hr
      exact UserState.noConfusion hr
    · rw [if_neg h2]
      exact ⟨hu, h2⟩

/-- The userids in the games started from a list of even length are those of the list. -/
theorem players_ids (L : List User) (m : Nat) (hL : L.length = 2 * m) :
    (game_players (start_games L)).map (fun u => u.Userid) = L.map (fun u => u.Userid) ∧
      ∀ p ∈ game_players (start_games L), p.State = UserState.playing := by
  rw [start_games_players m L hL]
  constructor
  · rw [List.map_map]
    rfl
  · intro p hp
    obtain ⟨u, _, rfl⟩ := List.mem_map.1 hp
    rfl

theorem ready_ids_nodup (l : Lobby) (hnd : (l.map fun u => u.Userid).Nodup) :
    ((l.filter fun u => u.State = UserState.ready).map fun u => u.Userid).Nodup :=
  hnd.sublist ((List.filter_sublist l).map _)

/-- The pairing of an even number of ready sessions. -/
theorem tick_even_spec (sort shuffle : List User → List User)
    (hshuf : ∀ rs, (shuffle rs).Perm rs) (l : Lobby) (hnd : (l.map fun u => u.Userid).Nodup)
    (h1 : 2 ≤ (l.filter fun u => u.State = UserState.ready).length)
    (h2 : (l.filter fun u => u.State = UserState.ready).length % 2 = 0) :
    (∀ p ∈ game_players (pairing_tick sort shuffle l).2.2, p.State = UserState.playing) ∧
    ∀ u ∈ l.filter fun u => u.State = UserState.ready,
      { u with State := UserState.playing } ∈ (pairing_tick sort shuffle l).1 ∧
      ((game_players (pairing_tick sort shuffle l).2.2).map fun u => u.Userid).count u.Userid
        = 1 := by
  rw [tick_even sort shuffle hshuf l h1 h2]
  have hR := ready_ids_nodup l hnd
  generalize hRdef : (l.filter fun u => u.State = UserState.ready) = R at *
  have hperm := hshuf R
  obtain ⟨m, hm⟩ : ∃ m, (shuffle R).length = 2 * m := ⟨R.length / 2, by
    rw [hperm.length_eq]; omega⟩
  obtain ⟨hids, hplay⟩ := players_ids (shuffle R) m hm
  refine ⟨hplay, fun u hu => ?_⟩
  have hul : u ∈ l ∧ u.State = UserState.ready := by
    rw [← hRdef] at hu
    have := List.mem_filter.1 hu
    exact ⟨this.1, by simpa using this.2⟩
  have hidperm : ((shuffle R).map fun u => u.Userid).Perm (R.map fun u => u.Userid) :=
    hperm.map _
  have hmem : u.Userid ∈ (shuffle R).map fun u => u.Userid :=
    hidperm.mem_iff.2 (List.mem_map.2 ⟨u, hu, rfl⟩)
  refine ⟨mark_ready_in l _ u hul.1 hul.2 hmem, ?_⟩
  show ((game_players (start_games (shuffle R))).map fun u => u.Userid).count u.Userid = 1
  rw [hids, hidperm.count_eq]
  exact List.count_eq_one_of_mem hR (List.mem_map.2 ⟨u, hu, rfl⟩)

/-- The pairing of an odd number of ready sessions: the session left over is the last one of
the sorted list. -/
theorem tick_odd_spec (sort shuffle : List User → List User)
    (hsort : ∀ rs, (sort rs).Perm rs ∧
      (sort rs).Pairwise (fun a b => a.Chaperone_time ≤ b.Chaperone_time))
    (hshuf : ∀ rs, (shuffle rs).Perm rs) (l : Lobby) (hnd : (l.map fun u => u.Userid).Nodup)
    (h1 : 3 ≤ (l.filter fun u => u.State = UserState.ready).length)
    (h2 : (l.filter fun u => u.State = UserState.ready).length % 2 = 1) :
    (∀ p ∈ game_players (pairing_tick sort shuffle l).2.2, p.State = UserState.playing) ∧
    ∃ v ∈ l.filter fun u => u.State = UserState.ready,
      (∀ u ∈ l.filter fun u => u.State = UserState.ready,
        u.Chaperone_time ≤ v.Chaperone_time) ∧
      v ∈ (pairing_tick sort shuffle l).1 ∧
      (∀ w ∈ (pairing_tick sort shuffle l).1, w.State = UserState.ready → w = v) ∧
      ((game_players (pairing_tick sort shuffle l).2.2).map fun u => u.Userid).count v.Userid
        = 0 ∧
      ∀ u ∈ l.filter fun u => u.State = UserState.ready, u ≠ v →
        { u with State := UserState.playing } ∈ (pairing_tick sort shuffle l).1 ∧
        ((game_players (pairing_tick sort shuffle l).2.2).map fun u => u.Userid).count u.Userid
          = 1 := by
  rw [tick_odd sort shuffle (fun rs => (hsort rs).1) hshuf l (by omega) h2]
  have hR := ready_ids_nodup l hnd
  have hRl : ∀ u ∈ l.filter fun u => u.State = UserState.ready,
      u ∈ l ∧ u.State = UserState.ready := by
    intro u hu
    have := List.mem_filter.1 hu
    exact ⟨this.1, by simpa using this.2⟩
  have hlR : ∀ u ∈ l, u.State = UserState.ready →
      u ∈ l.filter fun u => u.State = UserState.ready := by
    intro u hu hs
    exact List.mem_filter.2 ⟨hu, by simpa using hs⟩
  generalize (l.filter fun u => u.State = UserState.ready) = R at *
  obtain ⟨hSp, hSs⟩ := hsort R
  have hSlen : (sort R).length = R.length := hSp.length_eq
  -- the sorted list is the sessions paired, then the one left over
  obtain ⟨v, hv⟩ : ∃ v, (sort R).drop (R.length - 1) = [v] := by
    apply List.length_eq_one.1
    rw [List.length_drop, hSlen]
    omega
  have hS : sort R = (sort R).take (R.length - 1) ++ [v] := by
    rw [← hv, List.take_append_drop]
  generalize hT : (sort R).take (R.length - 1) = T at hS
  have hTlen : T.length = R.length - 1 := by
    rw [← hT, List.length_take, hSlen]
    omega
  have hmemS : ∀ u, u ∈ R ↔ (u ∈ T ∨ u = v) := by
    intro u
    rw [← hSp.mem_iff, hS, List.mem_append, List.mem_singleton]
  have hvR : v ∈ R := (hmemS v).2 (Or.inr rfl)
  have hidS : (T.map (fun u => u.Userid) ++ [v.Userid]).Nodup := by
    have : ((sort R).map fun u => u.Userid).Nodup := (hSp.map _).nodup_iff.2 hR
    rw [hS, List.map_append] at this
    exact this
  have hvT : v.Userid ∉ T.map fun u => u.Userid := by
    intro hc
    have := (List.nodup_append.1 hidS).2.2
    exact this hc (List.mem_singleton_self _) 
  have hTnd : (T.map fun u => u.Userid).Nodup := (List.nodup_append.1 hidS).1
  have hmax : ∀ u ∈ R, u.Chaperone_time ≤ v.Chaperone_time := by
    intro u hu
    rw [hS] at hSs
    rcases (hmemS u).1 hu with hu | rfl
    · exact (List.pairwise_append.1 hSs).2.2 u hu v (List.mem_singleton_self _)
    · exact le_refl _
  have hperm := hshuf T
  obtain ⟨m, hm⟩ : ∃ m, (shuffle T).length = 2 * m := ⟨T.length / 2, by
    rw [hperm.length_eq]; omega⟩
  obtain ⟨hids, hplay⟩ := players_ids (shuffle T) m hm
  have hidperm : ((shuffle T).map fun u => u.Userid).Perm (T.map fun u => u.Userid) :=
    hperm.map _
  refine ⟨hplay, v, hvR, hmax, ?_, ?_, ?_, ?_⟩
  · exact mark_ready_out l _ v (hRl v hvR).1 (hRl v hvR).2
      (fun hc => hvT (hidperm.mem_iff.1 hc))
  · intro w hw hws
    obtain ⟨hwl, hwP⟩ := mark_ready_inv l _ w hw hws
    rcases (hmemS w).1 (hlR w hwl hws) with hwT | rfl
    · exact absurd (hidperm.mem_iff.2 (List.mem_map.2 ⟨w, hwT, rfl⟩)) hwP
    · rfl
  · show ((game_players (start_games (shuffle T))).map fun u => u.Userid).count v.Userid = 0
    rw [hids, hidperm.count_eq]
    exact List.count_eq_zero_of_not_mem hvT
  · intro u hu hne
    have huT : u ∈ T := by
      rcases (hmemS u).1 hu with h | h
      · exact h
      · exact absurd h hne
    have hmem : u.Userid ∈ T.map fun u => u.Userid := List.mem_map.2 ⟨u, huT, rfl⟩
    refine ⟨mark_ready_in l _ u (hRl u hu).1 (hRl u hu).2 (hidperm.mem_iff.2 hmem), ?_⟩
    show ((game_players (start_games (shuffle T))).map fun u => u.Userid).count u.Userid = 1
    rw [hids, hidperm.count_eq]
    exact List.count_eq_one_of_mem hTnd hmem

end Reversi


namespace Reversi

/-- `SHR` on the positions of the board, for every shift amount: bit `p` of the result is bit
`p - n` of the argument when `n ≤ p`, and `0` otherwise. -/
theorem SHR_on_board (b : Board) {a : BitMap} (ha : Valid b.bitmapsz a) (n : Nat)
    (hn0 : 0 < n) (hn : n / 64 ≤ b.bitmapsz) (hsz : 0 < b.bitmapsz) (hu : b.unused_bits < 64) :
    ∃ r, b.SHR a n = some r ∧ Valid b.bitmapsz r ∧
      ∀ p, p < 64 * b.bitmapsz - b.unused_bits →
        bitAt r p = (decide (n ≤ p) && bitAt a (p - n)) := by
  by_cases hmul : n % 64 ≠ 0 ∨ b.unused_bits = 0
  · obtain ⟨r, h1, h2, h3⟩ := SHR_spec b ha n hn0 hn hsz hu hmul
    refine ⟨r, h1, h2, fun p hp => ?_⟩
    rw [h3]
    by_cases h : n ≤ p
    · simp [h, hp]
    · simp [h]
  · have hbit : n % 64 = 0 := by
      by_contra h
      exact hmul (Or.inl h)
    have h64 : 64 ≤ n := by omega
    have hlen : a.length = b.bitmapsz := ha.1
    obtain ⟨hv, hb⟩ := shr_words_spec ha (n / 64) hn
    refine ⟨_, ?_, hv, fun p hp => ?_⟩
    · unfold Board.SHR
      rw [copyInto_eq ha]
      simp only [if_pos h64, if_neg (show ¬ a.length < n / 64 by omega)]
      rw [if_pos hbit]
    · rw [hb]
      have e : 64 * (n / 64) = n := by omega
      rw [e]
      have hp2 : p < 64 * b.bitmapsz := by omega
      by_cases h : n ≤ p
      · simp [h, hp2]
      · simp [h]

/-- The dimensions of a board of size `N` with at least two cells. -/
theorem sized_facts (b : Board) (N : Nat) (hS : b.Sized N) (h2 : 2 ≤ N * N) :
    0 < b.bitmapsz ∧ b.unused_bits < 64 ∧ 64 * b.bitmapsz - b.unused_bits = N * N ∧
      N * N ≤ 64 * b.bitmapsz := by
  obtain ⟨_, s2, s3⟩ := hS
  generalize N * N = M at *
  omega

/-- The state string is defined for every game. -/
theorem gamestate2str_isSome (g : Game) : ∃ st, gamestate2str g = some st := by
  unfold gamestate2str
  cases hs : g.State.s <;> simp [msg_list, GameStateCode.toNat]

/-- The method `ToSFEN` returns on a well-formed board. -/
theorem ToSFEN_returns (b : Board) (N : Nat) (hN : 1 ≤ N) (hW : b.WF N) :
    ∃ s, b.ToSFEN = some s := by
  obtain ⟨hI, hb, hw, _⟩ := hW
  obtain ⟨⟨s1, s2, s3⟩, _⟩ := hI.facts hN
  have hle : b.Boardlen * b.Boardlen ≤ 64 * b.bitmapsz := by
    rw [s1, s2]
    generalize N * N = M
    omega
  obtain ⟨acc, sc, h, _⟩ := toSFEN_loop b [] (b.Boardlen * b.Boardlen) 0 [] 0
    (by rw [hb.1.1]; omega) (by rw [hw.1.1]; omega)
  unfold Board.ToSFEN
  rw [h]
  exact ⟨_, rfl⟩

/-- The name of the side to move, for a board whose `Turn` is `0` or `1`. -/
theorem turn_name_eq (b : Board) (hT : b.Turn = 0 ∨ b.Turn = 1) :
    turn_name b = some (if b.IsBlackTurn then "black" else "white") := by
  unfold turn_name Board.IsBlackTurn
  rcases hT with h | h <;> rw [h] <;> rfl

/-- The moves sent with `PLAY`: the last recorded move, if any. -/
theorem play_moves (ms : List String) :
    (if ms.length ≠ 0 then (ms.get? (ms.length - 1)).toList else []) = ms.getLast?.toList := by
  cases ms with
  | nil => rfl
  | cons m tl =>
    rw [if_pos (by simp), List.getLast?_eq_getElem?, List.get?_eq_getElem?]

/-- The views `game2play` and `game2result`, given the parts they are built from. -/
theorem views_eq (g : Game) (sfen st : String) (hT : g.Board.Turn = 0 ∨ g.Board.Turn = 1)
    (hs : g.Board.ToSFEN = some sfen) (hst : gamestate2str g = some st) :
    game2play g = some (GameMessage.mk "PLAY" (if g.Board.IsBlackTurn then "black" else "white")
        sfen g.Moves.getLast?.toList g.Board.Boardlen st) ∧
    game2result g = some (GameMessage.mk "RESULT"
        (if g.Board.IsBlackTurn then "black" else "white") sfen g.Moves g.Board.Boardlen st) := by
  unfold game2play game2result
  simp only [turn_name_eq g.Board hT, hs, hst, play_moves]
  exact ⟨trivial, trivial⟩

/-- A string of no bytes is the empty string. -/
theorem utf8ByteSize_eq_zero (s : String) : s.utf8ByteSize = 0 ↔ s = "" := by
  obtain ⟨l⟩ := s
  cases l with
  | nil => exact ⟨fun _ => rfl, fun _ => rfl⟩
  | cons c cs =>
    have hc := Char.utf8Size_pos c
    constructor
    · intro h
      simp only [String.utf8ByteSize, String.utf8ByteSize.go] at h
      omega
    · intro h
      exact absurd (congrArg String.data h) (by simp)

/-- Deleting a userid that is not in the lobby changes nothing. -/
theorem delete_absent (l : Lobby) (id : String) (h : l.lookup id = none) : l.delete id = l := by
  unfold Lobby.delete
  unfold Lobby.lookup at h
  rw [List.filter_eq_self]
  intro v hv
  have := List.find?_eq_none.1 h v hv
  simpa using this

/-- Lookup in a lobby with one more session at the end. -/
theorem lookup_append (l : Lobby) (u : User) (id : String) :
    Lobby.lookup (l ++ [u]) id =
      match l.lookup id with
      | some v => some v
      | none => if u.Userid = id then some u else none := by
  unfold Lobby.lookup
  rw [List.find?_append]
  cases h : List.find? (fun v => decide (v.Userid = id)) l with
  | some v => rfl
  | none =>
    by_cases hu : u.Userid = id
    · simp [hu]
    · simp [hu]

/-- The function `do_login_add_to_lobby` on a line that decodes without error to a `LOGIN` with
a userid and a password. -/
theorem login_accepted_form (raw : String) (l : Login) (lb : Lobby) (hm : l.Message = "LOGIN")
    (hu : l.Userid ≠ "") (hp : l.Password ≠ "") :
    do_login_add_to_lobby (LoginRead.line raw (LoginUnmarshal.ok l)) lb =
      if (lb.lookup l.Userid).isSome then
        ({ Userid := l.Userid, Chaperone_time := 0, State := UserState.logout },
          some "duplicate login", lb)
      else
        ({ Userid := l.Userid, Chaperone_time := 0, State := UserState.login }, none,
          lb.assign { Userid := l.Userid, Chaperone_time := 0, State := UserState.login }) := by
  have h1 : ¬ l.Userid.utf8ByteSize = 0 := fun h => hu ((utf8ByteSize_eq_zero _).1 h)
  have h2 : ¬ l.Password.utf8ByteSize = 0 := fun h => hp ((utf8ByteSize_eq_zero _).1 h)
  simp [do_login_add_to_lobby, LoginUnmarshal.err, LoginUnmarshal.value, hm, h1, h2,
    create_user]

/-- The function `do_login_add_to_lobby` on a line that decodes without error to a message
that is not a `LOGIN` or lacks a userid or a password. -/
theorem login_rejected_form (raw : String) (l : Login) (lb : Lobby)
    (h : l.Message ≠ "LOGIN" ∨ l.Userid = "" ∨ l.Password = "") :
    do_login_add_to_lobby (LoginRead.line raw (LoginUnmarshal.ok l)) lb =
      (create_user "", some "failed login attempt", lb) := by
  have h3 : l.Message ≠ "LOGIN" ∨ l.Userid.utf8ByteSize = 0 ∨ l.Password.utf8ByteSize = 0 := by
    rcases h with h | h | h
    · exact Or.inl h
    · exact Or.inr (Or.inl ((utf8ByteSize_eq_zero _).2 h))
    · exact Or.inr (Or.inr ((utf8ByteSize_eq_zero _).2 h))
  simp only [do_login_add_to_lobby, LoginUnmarshal.err, LoginUnmarshal.value]
  rw [if_neg (by decide), if_pos h3]

end Reversi


namespace Reversi

/-- The character with code `97 + k`, for `k < 26`, is a small letter. -/
theorem letter_ofNat (k : Nat) (hk : k < 26) :
    (Char.ofNat (97 + k)).toNat = 97 + k ∧ IsLetter (Char.ofNat (97 + k)) = true := by
  have e : 97 + k = (65 + k) + 32 := by omega
  have h := ofNat_lower (65 + k) (by omega) (by omega)
  rw [← e] at h
  refine ⟨h, (isLetter_iff _).2 ?_⟩
  rw [h]
  omega

/-- What `Position2Str` prints for a position on a board with at most 26 columns: the letter of
the column and the numeral of the row. -/
theorem Position2Str_small (b : Board) (N p : Nat) (hN1 : 1 ≤ N) (hN : N ≤ 26)
    (hb : b.Boardlen = N) :
    b.Position2Str (p : Int) =
      some (String.mk (Char.ofNat (97 + p % N) :: natDigits (p / N + 1))) := by
  have hlt : p % N < 26 := lt_of_lt_of_le (Nat.mod_lt _ (by omega)) hN
  have t1 : Int.tdiv (p : Int) (N : Int) = ((p / N : Nat) : Int) := rfl
  have t2 : Int.tmod (p : Int) (N : Int) = ((p % N : Nat) : Int) := rfl
  have t3 : Int.tdiv ((p % N : Nat) : Int) 26 = 0 := by
    have : Int.tdiv ((p % N : Nat) : Int) 26 = (((p % N) / 26 : Nat) : Int) := rfl
    rw [this, Nat.div_eq_of_lt hlt]
    rfl
  have t4 : Int.tmod ((p % N : Nat) : Int) 26 = ((p % N : Nat) : Int) := by
    have : Int.tmod ((p % N : Nat) : Int) 26 = (((p % N) % 26 : Nat) : Int) := rfl
    rw [this, Nat.mod_eq_of_lt hlt]
  have t5 : ((97 + ((p % N : Nat) : Int)) % 256).toNat = 97 + p % N := by
    omega
  have t6 : Itoa (((p / N : Nat) : Int) + 1) = String.mk (natDigits (p / N + 1)) := by
    have : ((p / N : Nat) : Int) + 1 = ((p / N + 1 : Nat) : Int) := by push_cast; rfl
    rw [this, Itoa, ItoaChars_natCast]
  unfold Board.Position2Str
  rw [hb, if_neg (by omega)]
  simp only [t1, t2, t3, t4, t5, t6, ne_eq, not_true_eq_false, if_false]
  rfl

/-- The round trip of a cell name on a board with at most 26 columns. -/
theorem position_round_trip_small (b : Board) (N p : Nat) (hN1 : 1 ≤ N) (hN : N ≤ 26)
    (hb : b.Boardlen = N) (hp : p < N * N) :
    ∃ s, b.Position2Str (p : Int) = some s ∧ str2move N s = ((p : Int), s, none) := by
  have hlt : p % N < 26 := lt_of_lt_of_le (Nat.mod_lt _ (by omega)) hN
  obtain ⟨c1, c2⟩ := letter_ofNat (p % N) hlt
  have hNN : N * N ≤ 26 * 26 := Nat.mul_le_mul hN hN
  have hrow : p / N + 1 < 2 ^ 63 := by
    have : p / N ≤ p := Nat.div_le_self _ _
    omega
  refine ⟨_, Position2Str_small b N p hN1 hN hb, ?_⟩
  rw [str2move_cell N _ c2 _ hrow, c1]
  have hpos : (((p / N + 1 : Nat) : Int) - 1) * N + (((97 + p % N : Nat) : Int) - 97) =
      (p : Int) := by
    have := Nat.div_add_mod p N
    push_cast
    have e : ((p / N : Nat) : Int) * N + ((p % N : Nat) : Int) = (p : Int) := by
      rw [mul_comm]
      exact_mod_cast this
    push_cast at e
    linarith
  rw [hpos, wrap64_natCast p (by omega)]

end Reversi


namespace Reversi

/-- A cell is empty for the two players exactly when it holds no black and no white disc. -/
theorem empty_mover_iff (b : Board) (p : Int) :
    (bitZ b.mover p = false ∧ bitZ b.opponent p = false) ↔
      (bitZ b.black p = false ∧ bitZ b.white p = false) := by
  unfold Board.mover Board.opponent
  by_cases h : (b.Turn == 0) = true
  · rw [if_pos h, if_pos h]
  · rw [if_neg h, if_neg h]
    exact And.comm

/-- The flip set of a position is not empty exactly when some direction brackets a run. -/
theorem flips_nonzero_iff (b : Board) (N : Nat) (hW : b.WF N) (hN : 4 ≤ N) (hev : N % 2 = 0)
    (p : Int) (hp : 0 ≤ p ∧ p < N * N) :
    ∃ flips, b.flip p = some flips ∧ Clean (N * N) b.bitmapsz flips ∧
      (b.is_zero flips = false ↔
        ∃ d ∈ dirs8, ∃ k, 1 ≤ k ∧ Brackets N b.mover b.opponent (p / N) (p % N) d.1 d.2 k) := by
  obtain ⟨flips, hf, hc, hq, _⟩ := flip_pos b N hW hN hev p hp
  refine ⟨flips, hf, hc, ?_⟩
  have hz := is_zero_false_iff b hc.1
  constructor
  · intro h
    obtain ⟨x, hx⟩ := hz.1 (by rw [h]; rfl)
    obtain ⟨d, hd, k, hk, hB, _⟩ := (hq x).1 hx
    exact ⟨d, hd, k, hk, hB⟩
  · rintro ⟨d, hd, k, hk, hB⟩
    have : ∃ x, bitZ flips x = true :=
      ⟨_, (hq _).2 ⟨d, hd, k, hk, hB, 1, le_refl 1, hk, rfl⟩⟩
    have h2 := hz.2 this
    simpa using h2

/-- The two scans agree on an empty cell of the board. -/
theorem legal_iff_flips (b : Board) (N : Nat) (hW : b.WF N) (hN : 4 ≤ N) (hev : N % 2 = 0)
    (p : Int) (hp : 0 ≤ p ∧ p < N * N)
    (he : bitZ b.black p = false ∧ bitZ b.white p = false) :
    ∃ legals flips, b.LegalMovesBits b.mover b.opponent = some legals ∧
      b.flip p = some flips ∧ (bitZ legals p = true ↔ b.is_zero flips = false) := by
  obtain ⟨legals, hl, _, hlb⟩ := moverLegals_spec b N hW hN hev
  obtain ⟨flips, hf, _, hfb⟩ := flips_nonzero_iff b N hW hN hev p hp
  refine ⟨legals, flips, hl, hf, ?_⟩
  rw [hlb, hfb]
  exact ⟨fun h => h.2.2, fun h => ⟨hp, (empty_mover_iff b p).2 he, h⟩⟩

/-- A legal move that is not a pass flips at least one disc. -/
theorem legal_move_flips (b : Board) (N : Nat) (hW : b.WF N) (hN : 4 ≤ N) (hev : N % 2 = 0)
    (p : Int) (hne : p ≠ -1) (hl : b.IsLegalMove p = some true) :
    ∃ flips, b.flip p = some flips ∧ b.is_zero flips = false := by
  rcases legal_cases b N hW hN hev p hl with h | ⟨hp, he⟩
  · exact absurd h hne
  · obtain ⟨legals, flips, h1, h2, h3⟩ :=
      legal_iff_flips b N hW hN hev p hp ((empty_mover_iff b p).1 he)
    obtain ⟨_, h4⟩ := IsLegalMove_spec b N hW hN hev h1
    rw [h4 p hp.1 hp.2] at hl
    exact ⟨flips, h2, h3.1 (Option.some.inj hl)⟩

end Reversi


namespace Reversi

/-- The method `MoveUpdate` hands the turn to the other side. -/
theorem MoveUpdate_turn (b : Board) (pos : Int) (b2 : Board)
    (h : b.MoveUpdate pos = some b2) : b2.Turn = 1 - b.Turn := by
  unfold Board.MoveUpdate at h
  by_cases hpos : pos ≠ -1
  · rw [if_pos hpos] at h
    cases h1 : b.move2BitMap pos with
    | none => simp [h1] at h
    | some mv =>
      cases h2 : b.flip pos with
      | none => simp [h1, h2] at h
      | some fl =>
        cases h3 : b.NOT fl with
        | none => simp [h1, h2, h3] at h
        | some keep =>
          simp only [h1, h2, h3] at h
          by_cases ht : b.IsBlackTurn = true
          · rw [if_pos ht] at h
            cases h4 : b.AND b.white keep with
            | none => simp [h4] at h
            | some w =>
              cases h5 : b.OR b.black fl with
              | none => simp [h4, h5] at h
              | some bl =>
                cases h6 : b.OR bl mv with
                | none => simp [h4, h5, h6] at h
                | some bl2 =>
                  simp only [h4, h5, h6] at h
                  cases h
                  rfl
          · rw [if_neg ht] at h
            cases h4 : b.AND b.black keep with
            | none => simp [h4] at h
            | some bl =>
              cases h5 : b.OR b.white fl with
              | none => simp [h4, h5] at h
              | some w =>
                cases h6 : b.OR w mv with
                | none => simp [h4, h5, h6] at h
                | some w2 =>
                  simp only [h4, h5, h6] at h
                  cases h
                  rfl
  · rw [if_neg hpos] at h
    cases h
    rfl

/-- The two outcomes of `check_and_move`. -/
theorem check_and_move_cases (g : Game) (pos : Int) (g1 : Game) (e : Bool)
    (h : g.check_and_move pos = some (g1, e)) :
    (e = true ∧ g1 = g) ∨
      (e = false ∧ g.Board.IsLegalMove pos = some true ∧
        ∃ b, g.Board.MoveUpdate pos = some b ∧ g1 = { g with Board := b }) := by
  unfold Game.check_and_move at h
  cases hl : g.Board.IsLegalMove pos with
  | none => rw [hl] at h; exact Option.noConfusion h
  | some legal =>
    cases legal with
    | false =>
      rw [hl] at h
      cases h
      exact Or.inl ⟨rfl, rfl⟩
    | true =>
      rw [hl] at h
      cases hm : g.Board.MoveUpdate pos with
      | none => rw [hm] at h; exact Option.noConfusion h
      | some b =>
        rw [hm] at h
        cases h
        exact Or.inr ⟨rfl, rfl, b, rfl, rfl⟩

/-- The outcomes of the arbiter step: either the game ends by a timeout or an illegal move of
the side to move, on the same board, or the reply is a legal move, which is applied and
recorded, and the game ends if the new board is game over. -/
theorem step_cases (g : Game) (reply : Option String) (g' : Game)
    (h : g.send_req_get_resp reply = some g') :
    (g'.Board = g.Board ∧ (g'.Moves = g.Moves ∨ ∃ mv, g'.Moves = g.Moves ++ [mv]) ∧
      (g'.State.s = (if g.Board.IsBlackTurn then GameStateCode.BlackTimeout
          else GameStateCode.WhiteTimeout) ∨
        g'.State.s = (if g.Board.IsBlackTurn then GameStateCode.BlackIllegalMove
          else GameStateCode.WhiteIllegalMove))) ∨
    (∃ pos mv b2 over,
      (∃ msg, reply = some msg ∧ str2move g.Board.Boardlen msg = (pos, mv, none)) ∧
      g.Board.IsLegalMove pos = some true ∧ g.Board.MoveUpdate pos = some b2 ∧
      b2.IsGameOver = some over ∧ g'.Board = b2 ∧ g'.Moves = g.Moves ++ [mv] ∧
      (over = false → g'.State = g.State) ∧
      (over = true → g'.State.s ∈
        [GameStateCode.BlackWin, GameStateCode.WhiteWin, GameStateCode.Draw])) := by
  cases reply with
  | none =>
    cases h
    exact Or.inl ⟨rfl, Or.inl rfl, Or.inl rfl⟩
  | some msg =>
    unfold Game.send_req_get_resp at h
    simp only at h
    obtain ⟨pos, mv, err, hs⟩ : ∃ pos mv err, str2move g.Board.Boardlen msg = (pos, mv, err) :=
      ⟨_, _, _, rfl⟩
    rw [hs] at h
    cases err with
    | some e =>
      cases h
      exact Or.inl ⟨rfl, Or.inl rfl, Or.inr rfl⟩
    | none =>
      simp only at h
      cases hcm : ({ g with Moves := g.Moves ++ [mv] } : Game).check_and_move pos with
      | none => rw [hcm] at h; exact Option.noConfusion h
      | some res =>
        obtain ⟨g1, e⟩ := res
        rw [hcm] at h
        rcases check_and_move_cases _ pos g1 e hcm with ⟨he, hg⟩ | ⟨he, hl, b2, hm, hg⟩
        · subst he
          subst hg
          cases h
          exact Or.inl ⟨rfl, Or.inr ⟨mv, rfl⟩, Or.inr rfl⟩
        · subst he
          subst hg
          simp only at h
          cases ho : b2.IsGameOver with
          | none => rw [ho] at h; exact Option.noConfusion h
          | some over =>
            rw [ho] at h
            right
            refine ⟨pos, mv, b2, over, ⟨msg, rfl, hs⟩, hl, hm, ho, ?_⟩
            cases over with
            | false =>
              cases h
              exact ⟨rfl, rfl, fun _ => rfl, fun hc => Bool.noConfusion hc⟩
            | true =>
              cases h
              refine ⟨rfl, rfl, fun hc => Bool.noConfusion hc, fun _ => ?_⟩
              show (if b2.CountBlack > b2.CountWhite then GameStateCode.BlackWin
                else if b2.CountBlack = b2.CountWhite then GameStateCode.Draw
                else GameStateCode.WhiteWin) ∈ _
              split
              · simp
              · split <;> simp

theorem step_read_eq (g : Game) (r : ReadResult) :
    g.send_req_get_resp_read r = g.send_req_get_resp r.reply := by
  cases r <;> rfl

/-- A step after which the game goes on: the reply was a legal move, the turn has changed and
the move was recorded. -/
theorem step_goes_on (g : Game) (r : ReadResult) (g' : Game)
    (h : g.send_req_get_resp_read r = some g') (hg : g'.is_gameover = false) :
    g'.State.s = GameStateCode.Playing ∧ g'.Board.Turn = 1 - g.Board.Turn ∧
      (∃ mv, g'.Moves = g.Moves ++ [mv]) ∧
      ∃ pos, g.Board.IsLegalMove pos = some true ∧ g.Board.MoveUpdate pos = some g'.Board ∧
        g'.Board.IsGameOver = some false := by
  have hs : g'.State.s = GameStateCode.Playing := by
    unfold Game.is_gameover at hg
    simpa using hg
  rw [step_read_eq] at h
  rcases step_cases g _ g' h with ⟨_, _, h3⟩ | ⟨pos, mv, b2, over, _, hl, hm, ho, hb, hmv, h1, h2⟩
  · rw [hs] at h3
    rcases h3 with h3 | h3 <;> split at h3 <;> exact GameStateCode.noConfusion h3
  · cases over with
    | true =>
      have := h2 rfl
      rw [hs] at this
      simp at this
    | false =>
      refine ⟨hs, ?_, ⟨mv, hmv⟩, pos, hl, hb ▸ hm, hb ▸ ho⟩
      rw [hb]
      exact MoveUpdate_turn g.Board pos b2 hm

end Reversi


namespace Reversi

/-- What one arbiter step does to a game that is being played. -/
theorem step_summary (g : Game) (r : ReadResult) (g1 : Game)
    (h : g.send_req_get_resp_read r = some g1) (hp : g.State.s = GameStateCode.Playing) :
    g.Moves <+: g1.Moves ∧
    (g1.is_gameover = false →
      g1.State.s = GameStateCode.Playing ∧ g1.Board.Turn = 1 - g.Board.Turn) ∧
    (g1.State.s ∈ [GameStateCode.BlackTimeout, GameStateCode.BlackIllegalMove] →
      g.Board.IsBlackTurn = true) ∧
    (g1.State.s ∈ [GameStateCode.WhiteTimeout, GameStateCode.WhiteIllegalMove] →
      g.Board.IsBlackTurn = false) := by
  refine ⟨?_, fun hg => ?_, ?_, ?_⟩
  · rw [step_read_eq] at h
    rcases step_cases g _ g1 h with ⟨_, h2, _⟩ | ⟨_, mv, _, _, _, _, _, _, _, hmv, _, _⟩
    · rcases h2 with h2 | ⟨mv, h2⟩
      · rw [h2]
      · rw [h2]
        exact List.prefix_append _ _
    · rw [hmv]
      exact List.prefix_append _ _
  · obtain ⟨a, b, _⟩ := step_goes_on g r g1 h hg
    exact ⟨a, b⟩
  · intro hc
    rw [step_read_eq] at h
    rcases step_cases g _ g1 h with ⟨_, _, h3⟩ | ⟨_, _, _, over, _, _, _, _, _, _, h1, h2⟩
    · cases ht : g.Board.IsBlackTurn with
      | true => rfl
      | false =>
        rw [ht] at h3
        rcases h3 with h3 | h3 <;> rw [h3] at hc <;> simp at hc
    · cases over with
      | false =>
        rw [h1 rfl, hp] at hc
        simp at hc
      | true =>
        have := h2 rfl
        simp only [List.mem_cons, List.mem_singleton, List.not_mem_nil, or_false] at this hc
        rcases this with e | e | e <;> rw [e] at hc <;> simp at hc
  · intro hc
    rw [step_read_eq] at h
    rcases step_cases g _ g1 h with ⟨_, _, h3⟩ | ⟨_, _, _, over, _, _, _, _, _, _, h1, h2⟩
    · cases ht : g.Board.IsBlackTurn with
      | false => rfl
      | true =>
        rw [ht] at h3
        rcases h3 with h3 | h3 <;> rw [h3] at hc <;> simp at hc
    · cases over with
      | false =>
        rw [h1 rfl, hp] at hc
        simp at hc
      | true =>
        have := h2 rfl
        simp only [List.mem_cons, List.mem_singleton, List.not_mem_nil, or_false] at this hc
        rcases this with e | e | e <;> rw [e] at hc <;> simp at hc

/-- On a board whose turn is `0` black is to move; on one whose turn is `1`, white. -/
theorem isBlackTurn_of_turn (b : Board) :
    (b.Turn = 0 → b.IsBlackTurn = true) ∧ (b.Turn = 1 → b.IsBlackTurn = false) := by
  unfold Board.IsBlackTurn
  exact ⟨fun h => by rw [h]; rfl, fun h => by rw [h]; rfl⟩

/-- No request, the game as it is. -/
theorem requests_ok_nil (u0 u1 : User) (g : Game) (hp : g.State.s = GameStateCode.Playing) :
    RequestsOK u0 u1 g ([], some g) := by
  refine ⟨fun i u gi h => by simp at h, fun e he => by simp at he, List.Pairwise.nil,
    fun g2 h => ?_⟩
  cases h
  refine ⟨List.prefix_refl _, fun e he => by simp at he, fun hc => ?_, fun hc => ?_⟩
  · rw [hp] at hc
    simp at hc
  · rw [hp] at hc
    simp at hc

/-- One request, to `u0`. -/
theorem requests_ok_one (u0 u1 : User) (g : Game) (r0 : ReadResult) (fin : Option Game)
    (hp : g.State.s = GameStateCode.Playing) (ht : g.Board.Turn = 0)
    (hfin : ∀ g2, fin = some g2 → g.send_req_get_resp_read r0 = some g2) :
    RequestsOK u0 u1 g ([(u0, g)], fin) := by
  refine ⟨fun i u gi h => ?_, fun e he => ?_, List.pairwise_singleton _ _, fun g2 h => ?_⟩
  · cases i with
    | zero =>
      simp only [List.get?_cons_zero, Option.some.injEq, Prod.mk.injEq] at h
      obtain ⟨rfl, rfl⟩ := h
      exact ⟨rfl, ht, hp⟩
    | succ k => simp at h
  · simp only [List.mem_singleton] at he
    rw [he]
  · obtain ⟨s1, _, s3, s4⟩ := step_summary g r0 g2 (hfin g2 h) hp
    refine ⟨s1, fun e he => ?_, fun _ => rfl, fun hc => ?_⟩
    · simp only [List.mem_singleton] at he
      rw [he]
      exact s1
    · have := s4 hc
      rw [(isBlackTurn_of_turn g.Board).1 ht] at this
      exact Bool.noConfusion this

/-- Two requests, to `u0` and then to `u1`. -/
theorem requests_ok_two (u0 u1 : User) (g g1 : Game) (r0 r1 : ReadResult) (fin : Option Game)
    (hp : g.State.s = GameStateCode.Playing) (ht : g.Board.Turn = 0)
    (h0 : g.send_req_get_resp_read r0 = some g1) (ho : g1.is_gameover = false)
    (hfin : ∀ g2, fin = some g2 → g1.send_req_get_resp_read r1 = some g2) :
    RequestsOK u0 u1 g ([(u0, g), (u1, g1)], fin) := by
  obtain ⟨s1, s2, _, _⟩ := step_summary g r0 g1 h0 hp
  obtain ⟨hp1, ht1⟩ := s2 ho
  rw [ht] at ht1
  refine ⟨fun i u gi h => ?_, fun e he => ?_, ?_, fun g2 h => ?_⟩
  · cases i with
    | zero =>
      simp only [List.get?_cons_zero, Option.some.injEq, Prod.mk.injEq] at h
      obtain ⟨rfl, rfl⟩ := h
      exact ⟨rfl, ht, hp⟩
    | succ k =>
      cases k with
      | zero =>
        simp only [List.get?_cons_succ, List.get?_cons_zero, Option.some.injEq,
          Prod.mk.injEq] at h
        obtain ⟨rfl, rfl⟩ := h
        exact ⟨rfl, ht1, hp1⟩
      | succ k => simp at h
  · simp only [List.mem_cons, List.mem_singleton, List.not_mem_nil, or_false] at he
    rcases he with rfl | rfl
    · exact List.prefix_refl _
    · exact s1
  · refine List.pairwise_cons.2 ⟨fun e he => ?_, List.pairwise_singleton _ _⟩
    simp only [List.mem_singleton] at he
    rw [he]
    exact s1
  · obtain ⟨t1, _, t3, _⟩ := step_summary g1 r1 g2 (hfin g2 h) hp1
    refine ⟨s1.trans t1, fun e he => ?_, fun hc => ?_, fun _ => ⟨by simp, by simp⟩⟩
    · simp only [List.mem_cons, List.mem_singleton, List.not_mem_nil, or_false] at he
      rcases he with rfl | rfl
      · exact s1.trans t1
      · exact t1
    · have := t3 hc
      rw [(isBlackTurn_of_turn g1.Board).2 ht1] at this
      exact Bool.noConfusion this

/-- Two requests after which the game goes on, followed by the requests of the rest of the
loop. -/
theorem requests_ok_cons (u0 u1 : User) (g g1 g2 : Game) (r0 r1 : ReadResult)
    (rest : List (User × Game) × Option Game)
    (hp : g.State.s = GameStateCode.Playing) (ht : g.Board.Turn = 0)
    (h0 : g.send_req_get_resp_read r0 = some g1) (ho : g1.is_gameover = false)
    (h1 : g1.send_req_get_resp_read r1 = some g2)
    (hr : RequestsOK u0 u1 g2 rest) :
    RequestsOK u0 u1 g ((u0, g) :: (u1, g1) :: rest.1, rest.2) := by
  obtain ⟨s1, s2, _, _⟩ := step_summary g r0 g1 h0 hp
  obtain ⟨hp1, ht1⟩ := s2 ho
  rw [ht] at ht1
  obtain ⟨t1, _, _, _⟩ := step_summary g1 r1 g2 h1 hp1
  obtain ⟨rA, rB, rC, rD⟩ := hr
  refine ⟨fun i u gi h => ?_, fun e he => ?_, ?_, fun gf h => ?_⟩
  · cases i with
    | zero =>
      simp only [List.get?_cons_zero, Option.some.injEq, Prod.mk.injEq] at h
      obtain ⟨rfl, rfl⟩ := h
      exact ⟨rfl, ht, hp⟩
    | succ k =>
      cases k with
      | zero =>
        simp only [List.get?_cons_succ, List.get?_cons_zero, Option.some.injEq,
          Prod.mk.injEq] at h
        obtain ⟨rfl, rfl⟩ := h
        exact ⟨rfl, ht1, hp1⟩
      | succ k =>
        simp only [List.get?_cons_succ] at h
        have := rA k u gi h
        rw [show (k + 1 + 1) % 2 = k % 2 by omega]
        exact this
  · simp only [List.mem_cons] at he
    rcases he with rfl | rfl | he
    · exact List.prefix_refl _
    · exact s1
    · exact (s1.trans t1).trans (rB e he)
  · refine List.pairwise_cons.2 ⟨fun e he => ?_, List.pairwise_cons.2 ⟨fun e he => ?_, rC⟩⟩
    · simp only [List.mem_cons] at he
      rcases he with rfl | he
      · exact s1
      · exact (s1.trans t1).trans (rB e he)
    · exact t1.trans (rB e he)
  · obtain ⟨d1, d2, d3, d4⟩ := rD gf h
    refine ⟨(s1.trans t1).trans d1, fun e he => ?_, fun hc => ?_, fun hc => ⟨?_, by simp⟩⟩
    · simp only [List.mem_cons] at he
      rcases he with rfl | rfl | he
      · exact (s1.trans t1).trans d1
      · exact t1.trans d1
      · exact d2 e he
    · have := d3 hc
      simp only [List.length_cons]
      omega
    · have := (d4 hc).1
      simp only [List.length_cons]
      omega

/-- The requests of the loop of `do_game`, entered with black to move. -/
theorem requests_ok (u0 u1 : User) : ∀ (n : Nat) (plays : List ReadResult) (g : Game),
    plays.length ≤ n → g.State.s = GameStateCode.Playing → g.Board.Turn = 0 →
    RequestsOK u0 u1 g (do_game_requests u0 u1 plays g) := by
  intro n
  induction n using Nat.strong_induction_on with
  | _ n ih =>
    intro plays g hl hp ht
    match plays, hl with
    | [], _ => exact requests_ok_nil u0 u1 g hp
    | [r0], _ => exact requests_ok_one u0 u1 g r0 _ hp ht (fun g2 h => h)
    | r0 :: r1 :: rs, hl =>
      unfold do_game_requests
      cases h0 : g.send_req_get_resp_read r0 with
      | none =>
        exact requests_ok_one u0 u1 g r0 none hp ht (fun g2 h => Option.noConfusion h)
      | some g1 =>
        simp only
        by_cases ho : g1.is_gameover = true
        · rw [if_pos ho]
          exact requests_ok_one u0 u1 g r0 (some g1) hp ht (fun g2 h => by rw [h0, h])
        · rw [if_neg ho]
          have ho1 : g1.is_gameover = false := by simpa using ho
          cases h1 : g1.send_req_get_resp_read r1 with
          | none =>
            exact requests_ok_two u0 u1 g g1 r0 r1 none hp ht h0 ho1
              (fun g2 h => Option.noConfusion h)
          | some g2 =>
            simp only
            by_cases ho2 : g2.is_gameover = true
            · rw [if_pos ho2]
              exact requests_ok_two u0 u1 g g1 r0 r1 (some g2) hp ht h0 ho1
                (fun g3 h => by rw [h1, h])
            · rw [if_neg ho2]
              have ho3 : g2.is_gameover = false := by simpa using ho2
              obtain ⟨_, s2, _, _⟩ := step_summary g r0 g1 h0 hp
              obtain ⟨hp1, ht1⟩ := s2 ho1
              obtain ⟨_, t2, _, _⟩ := step_summary g1 r1 g2 h1 hp1
              obtain ⟨hp2, ht2⟩ := t2 ho3
              rw [ht1, ht] at ht2
              simp only [List.length_cons] at hl
              exact requests_ok_cons u0 u1 g g1 g2 r0 r1 _ hp ht h0 ho1 h1
                (ih (n - 2) (by omega) rs g2 (by omega) hp2 ht2)

/-- The last request of a list of requests that is not empty. -/
theorem requests_last (tr : List (User × Game)) (hn : tr ≠ []) :
    ∃ e, tr.getLast? = some e ∧ tr.get? (tr.length - 1) = some e := by
  have hl : tr.length - 1 < tr.length := by
    have := List.length_pos.2 hn
    omega
  refine ⟨tr.get ⟨tr.length - 1, hl⟩, ?_, List.get?_eq_get hl⟩
  rw [List.getLast?_eq_getElem?, ← List.get?_eq_getElem?]
  exact List.get?_eq_get hl

/-- The game that `do_game_requests` ends with is the one of `do_game_loop`. -/
theorem requests_final (u0 u1 : User) : ∀ (n : Nat) (plays : List ReadResult) (g : Game),
    plays.length ≤ n → (do_game_requests u0 u1 plays g).2 = do_game_loop plays g := by
  intro n
  induction n using Nat.strong_induction_on with
  | _ n ih =>
    intro plays g hl
    match plays, hl with
    | [], _ => rfl
    | [r0], _ =>
      unfold do_game_requests do_game_loop
      cases h0 : g.send_req_get_resp_read r0 with
      | none => rfl
      | some g1 =>
        simp only
        by_cases ho : g1.is_gameover = true
        · rw [if_pos ho]
        · rw [if_neg ho]
          rfl
    | r0 :: r1 :: rs, hl =>
      unfold do_game_requests
      conv_rhs => unfold do_game_loop
      cases h0 : g.send_req_get_resp_read r0 with
      | none => rfl
      | some g1 =>
        simp only
        by_cases ho : g1.is_gameover = true
        · rw [if_pos ho, if_pos ho]
        · rw [if_neg ho, if_neg ho]
          conv_rhs => unfold do_game_loop
          cases h1 : g1.send_req_get_resp_read r1 with
          | none => rfl
          | some g2 =>
            simp only
            by_cases ho2 : g2.is_gameover = true
            · rw [if_pos ho2, if_pos ho2]
            · rw [if_neg ho2, if_neg ho2]
              simp only [List.length_cons] at hl
              exact ih (n - 2) (by omega) rs g2 (by omega)

end Reversi


namespace Reversi

/-- The number of discs of a well-formed position is at most the number of cells. -/
theorem wf_count_le (b : Board) (N : Nat) (hN : 1 ≤ N) (hW : b.WF N) :
    countBits b.black + countBits b.white ≤ N * N := by
  rw [← wf_count b N hN hW]
  have := List.countP_le_length (fun i => bitAt b.black (0 + i) || bitAt b.white (0 + i))
    (l := List.range (N * N))
  rwa [List.length_range] at this

/-- With an empty cell on the board, the number of discs is below the number of cells. -/
theorem wf_count_lt (b : Board) (N : Nat) (hN : 1 ≤ N) (hW : b.WF N) (p : Nat) (hp : p < N * N)
    (hb : bitAt b.black p = false) (hw : bitAt b.white p = false) :
    countBits b.black + countBits b.white < N * N := by
  have hle := wf_count_le b N hN hW
  rcases Nat.lt_or_ge (countBits b.black + countBits b.white) (N * N) with h | h
  · exact h
  · exfalso
    have heq : countBits b.black + countBits b.white = N * N := le_antisymm hle h
    rw [← wf_count b N hN hW] at heq
    have hall := (List.countP_eq_length
      (p := fun i => bitAt b.black (0 + i) || bitAt b.white (0 + i))
      (l := List.range (N * N))).1 (by rw [heq, List.length_range])
    have := hall p (List.mem_range.2 hp)
    simp only [Nat.zero_add, hb, hw, Bool.or_self] at this
    exact Bool.noConfusion this

/-- Well-formedness does not depend on the turn. -/
theorem wf_turn (b : Board) (N : Nat) (t : Int) (hW : b.WF N) :
    ({ b with Turn := t } : Board).WF N := hW

/-- The legal-move bitmaps of the two colours, and what `IsGameOver` and `IsLegalMove` return
in terms of them, on a well-formed position whose turn is `0` or `1`. -/
theorem turn_cases (b : Board) (N : Nat) (hW : b.WF N) (hN : 4 ≤ N) (hev : N % 2 = 0)
    (hT : b.Turn = 0 ∨ b.Turn = 1) :
    ∃ l0 l1, Clean (N * N) b.bitmapsz l0 ∧ Clean (N * N) b.bitmapsz l1 ∧
      b.IsGameOver = some (b.is_zero l0 && b.is_zero l1) ∧
      b.IsLegalMove (-1) = some (b.is_zero (if b.Turn = 0 then l0 else l1)) ∧
      (∀ m : Int, 0 ≤ m → m < N * N →
        b.IsLegalMove m = some (bitZ (if b.Turn = 0 then l0 else l1) m)) ∧
      ({ b with Turn := 1 - b.Turn } : Board).IsLegalMove (-1) =
        some (b.is_zero (if b.Turn = 0 then l1 else l0)) ∧
      (∀ m : Int, 0 ≤ m → m < N * N →
        ({ b with Turn := 1 - b.Turn } : Board).IsLegalMove m =
          some (bitZ (if b.Turn = 0 then l1 else l0) m)) := by
  obtain ⟨l0, l1, h0, h1, c0, c1, ho⟩ := IsGameOver_spec b N hW hN hev
  refine ⟨l0, l1, c0, c1, ho, ?_⟩
  rcases hT with ht | ht
  · have hm : b.LegalMovesBits b.mover b.opponent = some l0 := by
      unfold Board.mover Board.opponent
      rw [ht]
      exact h0
    have hm2 : ({ b with Turn := 1 - b.Turn } : Board).LegalMovesBits
        ({ b with Turn := 1 - b.Turn } : Board).mover
        ({ b with Turn := 1 - b.Turn } : Board).opponent = some l1 := by
      unfold Board.mover Board.opponent
      rw [ht]
      exact h1
    obtain ⟨a1, a2⟩ := IsLegalMove_spec b N hW hN hev hm
    obtain ⟨a3, a4⟩ := IsLegalMove_spec _ N (wf_turn b N (1 - b.Turn) hW) hN hev hm2
    rw [if_pos ht, if_pos ht]
    exact ⟨a1, a2, a3, a4⟩
  · have hne : ¬ b.Turn = 0 := by omega
    have hm : b.LegalMovesBits b.mover b.opponent = some l1 := by
      unfold Board.mover Board.opponent
      rw [ht]
      exact h1
    have hm2 : ({ b with Turn := 1 - b.Turn } : Board).LegalMovesBits
        ({ b with Turn := 1 - b.Turn } : Board).mover
        ({ b with Turn := 1 - b.Turn } : Board).opponent = some l0 := by
      unfold Board.mover Board.opponent
      rw [ht]
      exact h0
    obtain ⟨a1, a2⟩ := IsLegalMove_spec b N hW hN hev hm
    obtain ⟨a3, a4⟩ := IsLegalMove_spec _ N (wf_turn b N (1 - b.Turn) hW) hN hev hm2
    rw [if_neg hne, if_neg hne]
    exact ⟨a1, a2, a3, a4⟩

/-- On a position that is not game over where the side to move can only pass, the other side
has a move after the pass, and the position is still not game over. -/
theorem pass_then_move (b : Board) (N : Nat) (hW : b.WF N) (hN : 4 ≤ N) (hev : N % 2 = 0)
    (hT : b.Turn = 0 ∨ b.Turn = 1) (ho : b.IsGameOver = some false)
    (hp : b.IsLegalMove (-1) = some true) :
    b.MoveUpdate (-1) = some { b with Turn := 1 - b.Turn } ∧
    ({ b with Turn := 1 - b.Turn } : Board).IsGameOver = some false ∧
    ({ b with Turn := 1 - b.Turn } : Board).IsLegalMove (-1) = some false ∧
    ∃ p : Int, 0 ≤ p ∧ p < N * N ∧
      ({ b with Turn := 1 - b.Turn } : Board).IsLegalMove p = some true := by
  obtain ⟨l0, l1, c0, c1, e1, e2, _, e4, e5⟩ := turn_cases b N hW hN hev hT
  rw [e1] at ho
  rw [e2] at hp
  have ho2 : (b.is_zero l0 && b.is_zero l1) = false := Option.some.inj ho
  have hp2 := Option.some.inj hp
  have hz : b.is_zero (if b.Turn = 0 then l1 else l0) = false := by
    by_cases ht : b.Turn = 0
    · rw [if_pos ht] at hp2 ⊢
      rw [hp2] at ho2
      simpa using ho2
    · rw [if_neg ht] at hp2 ⊢
      rw [hp2] at ho2
      simpa using ho2
  have hc : Clean (N * N) b.bitmapsz (if b.Turn = 0 then l1 else l0) := by
    by_cases ht : b.Turn = 0
    · rw [if_pos ht]; exact c1
    · rw [if_neg ht]; exact c0
  refine ⟨MoveUpdate_pass b, ?_, by rw [e4, hz], ?_⟩
  · rw [IsGameOver_turn, e1, ho2]
  · obtain ⟨x, hx⟩ := (is_zero_false_iff b hc.1).1 (by rw [hz]; rfl)
    obtain ⟨x0, x1⟩ := hc.bitZ_lt x hx
    exact ⟨x, x0, x1, by rw [e5 x x0 x1, hx]⟩

/-- A position that is not game over has an empty cell, so fewer discs than cells. -/
theorem not_over_count_lt (b : Board) (N : Nat) (hW : b.WF N) (hN : 4 ≤ N) (hev : N % 2 = 0)
    (hT : b.Turn = 0 ∨ b.Turn = 1) (ho : b.IsGameOver = some false) :
    countBits b.black + countBits b.white < N * N := by
  obtain ⟨l0, l1, c0, c1, e1, e2, e3, e4, e5⟩ := turn_cases b N hW hN hev hT
  rw [e1] at ho
  have ho2 : (b.is_zero l0 && b.is_zero l1) = false := Option.some.inj ho
  -- one of the two sides has a legal move `x`, on the board `bt` that differs by the turn only
  obtain ⟨t, x, hx0, hl⟩ : ∃ (t : Int) (x : Int), 0 ≤ x ∧
      ({ b with Turn := t } : Board).IsLegalMove x = some true := by
    have key : ∀ l, Clean (N * N) b.bitmapsz l → b.is_zero l = false →
        ∃ x : Int, 0 ≤ x ∧ x < N * N ∧ bitZ l x = true := by
      intro l hc hz
      obtain ⟨x, hx⟩ := (is_zero_false_iff b hc.1).1 (by rw [hz]; rfl)
      obtain ⟨x0, x1⟩ := hc.bitZ_lt x hx
      exact ⟨x, x0, x1, hx⟩
    have hsome : b.is_zero (if b.Turn = 0 then l0 else l1) = false ∨
        b.is_zero (if b.Turn = 0 then l1 else l0) = false := by
      by_cases ht : b.Turn = 0
      · rw [if_pos ht, if_pos ht]
        cases h0 : b.is_zero l0 with
        | false => exact Or.inl rfl
        | true =>
          rw [h0] at ho2
          exact Or.inr (by simpa using ho2)
      · rw [if_neg ht, if_neg ht]
        cases h1 : b.is_zero l1 with
        | false => exact Or.inl rfl
        | true =>
          rw [h1] at ho2
          exact Or.inr (by simpa using ho2)
    have hcl : ∀ c : Prop, ∀ _ : Decidable c,
        Clean (N * N) b.bitmapsz (if c then l0 else l1) ∧
        Clean (N * N) b.bitmapsz (if c then l1 else l0) := by
      intro c _
      by_cases h : c
      · rw [if_pos h, if_pos h]; exact ⟨c0, c1⟩
      · rw [if_neg h, if_neg h]; exact ⟨c1, c0⟩
    rcases hsome with hz | hz
    · obtain ⟨x, x0, x1, hx⟩ := key _ (hcl (b.Turn = 0) inferInstance).1 hz
      exact ⟨b.Turn, x, x0, by rw [e3 x x0 x1, hx]⟩
    · obtain ⟨x, x0, x1, hx⟩ := key _ (hcl (b.Turn = 0) inferInstance).2 hz
      exact ⟨1 - b.Turn, x, x0, by rw [e5 x x0 x1, hx]⟩
  rcases legal_cases _ N (wf_turn b N t hW) hN hev x hl with h | ⟨⟨_, hx1⟩, he⟩
  · omega
  · obtain ⟨hb, hw⟩ := (empty_mover_iff _ x).1 he
    have hxn : x = ((x.toNat : Nat) : Int) := (Int.toNat_of_nonneg hx0).symm
    rw [hxn, bitZ_natCast] at hb hw
    refine wf_count_lt b N (by omega) hW x.toNat ?_ hb hw
    omega

/-- A position that is not game over has potential at least two. -/
theorem potential_ge_two (b : Board) (N : Nat) (hW : b.WF N) (hN : 4 ≤ N) (hev : N % 2 = 0)
    (hT : b.Turn = 0 ∨ b.Turn = 1) (ho : b.IsGameOver = some false) :
    2 ≤ potential N b := by
  have := not_over_count_lt b N hW hN hev hT ho
  unfold potential
  omega

/-- A legal reply on a position that is not game over lowers the potential. -/
theorem potential_step (b : Board) (N : Nat) (hW : b.WF N) (hN : 4 ≤ N) (hev : N % 2 = 0)
    (hT : b.Turn = 0 ∨ b.Turn = 1) (ho : b.IsGameOver = some false)
    (m : Int) (hl : b.IsLegalMove m = some true) (b2 : Board)
    (hm : b.MoveUpdate m = some b2) :
    b2.WF N ∧ (b2.Turn = 0 ∨ b2.Turn = 1) ∧ potential N b2 + 1 ≤ potential N b := by
  have hturn : b2.Turn = 0 ∨ b2.Turn = 1 := by
    rw [MoveUpdate_turn b m b2 hm]
    omega
  rcases legal_cases b N hW hN hev m hl with h | ⟨hr, he⟩
  · subst h
    obtain ⟨p1, _, p3, _⟩ := pass_then_move b N hW hN hev hT ho hl
    rw [p1] at hm
    cases hm
    refine ⟨wf_turn b N _ hW, hturn, ?_⟩
    unfold potential
    rw [p3, hl]
    simp
  · obtain ⟨b3, h1, h2, _, _, h5⟩ := move_invariant b N hW hN hev m hr he
    rw [h1] at hm
    cases hm
    refine ⟨h2, hturn, ?_⟩
    have hle := wf_count_le b2 N (by omega) h2
    unfold potential
    have s1 : (if b2.IsLegalMove (-1) = some true then 1 else 0) ≤ 1 := by split <;> omega
    have s2 : 0 ≤ (if b.IsLegalMove (-1) = some true then 1 else 0) := Nat.zero_le _
    generalize (if b2.IsLegalMove (-1) = some true then 1 else 0) = e2 at s1
    generalize (if b.IsLegalMove (-1) = some true then 1 else 0) = e1 at s2
    generalize countBits b2.black + countBits b2.white = c2 at h5 hle
    generalize countBits b.black + countBits b.white = c1 at h5
    generalize N * N = M at hle
    omega

/-- Boards reached by legal replies from a well-formed position whose turn is `0` or `1` are
well formed, and their turn is `0` or `1`. -/
theorem reachable_wf (b0 b : Board) (N : Nat) (hN : 4 ≤ N) (hev : N % 2 = 0)
    (hW : b0.WF N) (hT : b0.Turn = 0 ∨ b0.Turn = 1) (hr : Reachable b0 b) :
    b.WF N ∧ (b.Turn = 0 ∨ b.Turn = 1) := by
  unfold Reachable at hr
  induction hr with
  | refl => exact ⟨hW, hT⟩
  | tail _ hstep ih =>
    obtain ⟨pos, hl, hm⟩ := hstep
    obtain ⟨b3, h1, h2⟩ := legal_move_wf _ N ih.1 hN hev pos hl
    rw [h1] at hm
    cases hm
    refine ⟨h2, ?_⟩
    rw [MoveUpdate_turn _ pos _ h1]
    have := ih.2
    omega

/-- The initial position is not game over, holds four discs, and black is to move. -/
theorem initial_not_over (N : Nat) (hN : 4 ≤ N) (hev : N % 2 = 0) (h63 : N * N < 2 ^ 63) :
    ∃ b0, NewBoardSFEN N (MakeInitialSFEN N) = some b0 ∧ b0.WF N ∧ b0.Turn = 0 ∧
      b0.IsGameOver = some false ∧ countBits b0.black + countBits b0.white = 4 := by
  obtain ⟨b0, h1, hW, hT, _, bb, bw⟩ := initial_board_spec N hN hev h63
  obtain ⟨c1, c2⟩ := initial_counts N hN hev b0 hW bb bw
  obtain ⟨_, d1, d2⟩ := wf_over_counts b0 N hW hN hev
  have hlm := initial_legal_moves N hN hev b0 hW hT bb bw
  obtain ⟨l0, l1, c0, _, e1, _⟩ := turn_cases b0 N hW hN hev (Or.inl hT)
  obtain ⟨l0', l1', h0, _, _, _, e1'⟩ := IsGameOver_spec b0 N hW hN hev
  have hm : b0.LegalMovesBits b0.mover b0.opponent = some l0' := by
    unfold Board.mover Board.opponent
    rw [hT]
    exact h0
  obtain ⟨lg, hlg, hcl, _⟩ := moverLegals_spec b0 N hW hN hev
  rw [hm] at hlg
  cases hlg
  have hz : b0.is_zero l0' = false := by
    cases hz : b0.is_zero l0' with
    | false => rfl
    | true =>
      have hs := LegalMoves_spec b0 hm hcl.1
      rw [filter_bitAt_nil b0 hcl.1 hz] at hs
      rw [hs] at hlm
      simp at hlm
  refine ⟨b0, h1, hW, hT, ?_, ?_⟩
  · rw [e1', hz]
    rfl
  · rw [← d1, ← d2, c1, c2]

/-- The loop of `do_game` on legal replies: it returns, and if the game still goes on when the
reads are used up, there were fewer reads than the potential of the first position allows. -/
theorem loop_on_legal_replies (N : Nat) (hN : 4 ≤ N) (hev : N % 2 = 0) :
    ∀ (plays : List ReadResult) (g : Game), g.Board.WF N →
      (g.Board.Turn = 0 ∨ g.Board.Turn = 1) → g.State.s = GameStateCode.Playing →
      g.Board.IsGameOver = some false → LegalReplies plays g →
      ∃ g2, do_game_loop plays g = some g2 ∧
        (g2.is_gameover = false → plays.length + 2 ≤ potential N g.Board) ∧
        (g2.is_gameover = true → g2.State.s ∈
          [GameStateCode.BlackWin, GameStateCode.WhiteWin, GameStateCode.Draw]) := by
  intro plays
  induction plays with
  | nil =>
    intro g hW hT hp ho _
    refine ⟨g, rfl, fun _ => ?_, fun h => ?_⟩
    · have := potential_ge_two g.Board N hW hN hev hT ho
      simpa using this
    · unfold Game.is_gameover at h
      rw [hp] at h
      simp at h
  | cons r rs ih =>
    intro g hW hT hp ho hL
    obtain ⟨⟨raw, msg, hr, herr, hl⟩, hnext⟩ := hL
    obtain ⟨pos, mv, err, hs⟩ : ∃ pos mv err, str2move g.Board.Boardlen msg = (pos, mv, err) :=
      ⟨_, _, _, rfl⟩
    rw [hs] at herr hl
    simp only at herr hl
    subst herr
    obtain ⟨b2, hm, hW2⟩ := legal_move_wf g.Board N hW hN hev pos hl
    obtain ⟨hW2', hT2, hpot⟩ := potential_step g.Board N hW hN hev hT ho pos hl b2 hm
    obtain ⟨⟨over, hov⟩, _, _⟩ := wf_over_counts b2 N hW2 hN hev
    have hstep := step_legal g msg pos mv b2 over hs hl hm hov
    have hread : g.send_req_get_resp_read r = g.send_req_get_resp (some msg) := by
      rw [hr]
      rfl
    unfold do_game_loop
    rw [hread]
    cases over with
    | true =>
      obtain ⟨g1, hg1, hcode⟩ : ∃ g1, g.send_req_get_resp (some msg) = some g1 ∧
          g1.State.s ∈ [GameStateCode.BlackWin, GameStateCode.WhiteWin, GameStateCode.Draw] := by
        refine ⟨_, hstep, ?_⟩
        simp only [if_true]
        split
        · simp
        · split <;> simp
      have hgo : g1.is_gameover = true := by
        unfold Game.is_gameover
        simp only [List.mem_cons, List.mem_singleton, List.not_mem_nil, or_false] at hcode
        rcases hcode with e | e | e <;> rw [e] <;> rfl
      rw [hg1]
      simp only
      rw [if_pos hgo]
      refine ⟨g1, rfl, fun h => ?_, fun _ => hcode⟩
      rw [hgo] at h
      exact Bool.noConfusion h
    | false =>
      obtain ⟨g1, hg1, hst, hbd⟩ : ∃ g1, g.send_req_get_resp (some msg) = some g1 ∧
          g1.State = g.State ∧ g1.Board = b2 := ⟨_, hstep, rfl, rfl⟩
      have hgo : g1.is_gameover = false := by
        unfold Game.is_gameover
        rw [hst, hp]
        rfl
      rw [hg1]
      simp only
      rw [if_neg (by rw [hgo]; exact Bool.false_ne_true)]
      have hL2 : LegalReplies rs g1 := hnext g1 (by rw [hread, hg1]) hgo
      obtain ⟨g3, h3, h4, h5⟩ := ih g1 (by rw [hbd]; exact hW2) (by rw [hbd]; exact hT2)
        (by rw [hst]; exact hp) (by rw [hbd]; exact hov) hL2
      refine ⟨g3, h3, fun h => ?_, h5⟩
      have := h4 h
      rw [hbd] at this
      simp only [List.length_cons]
      omega

end Reversi


namespace Reversi

/-- `IndexByte` finds nothing exactly when the byte does not occur. -/
theorem IndexByte_none (s : List Nat) (d : Nat) : IndexByte s d = none ↔ d ∉ s := by
  induction s with
  | nil => simp [IndexByte]
  | cons a s ih =>
    unfold IndexByte
    by_cases h : a = d
    · rw [if_pos h]
      simp [h]
    · rw [if_neg h]
      simp only [Option.map_eq_none', ih, List.mem_cons, not_or]
      exact ⟨fun h2 => ⟨fun e => h e.symm, h2⟩, fun h2 => h2.2⟩

/-- `IndexByte` returns the index of the first occurrence. -/
theorem IndexByte_append (a r : List Nat) (d : Nat) (h : d ∉ a) :
    IndexByte (a ++ d :: r) d = some a.length := by
  induction a with
  | nil => simp [IndexByte]
  | cons x a ih =>
    have hx : x ≠ d := fun e => h (by rw [e]; exact List.mem_cons_self _ _)
    have ha : d ∉ a := fun e => h (List.mem_cons_of_mem _ e)
    have e : IndexByte (x :: (a ++ d :: r)) d =
        (IndexByte (a ++ d :: r) d).map fun i => i + 1 := by
      conv_lhs => unfold IndexByte
      rw [if_neg hx]
    rw [List.cons_append, e, ih ha]
    rfl

/-- A copy of a source that fits: the source, then the rest of the destination. -/
theorem copyBytes_fits (dst src : List Nat) (h : src.length ≤ dst.length) :
    copyBytes dst src = src ++ dst.drop src.length := by
  unfold copyBytes
  rw [List.take_of_length_le h]

/-- The buffer is as long as `bufsize` says, which is at least one, and `off` lies within. -/
theorem wfb_grow (bt : BufferTO) (hlen : bt.buf.length = bt.bufsize) (hoff : bt.off ≤ bt.bufsize)
    (h1 : 1 ≤ bt.bufsize) (hb : 2 * bt.off < 2 ^ 63) :
    ∃ bt1, bt.grow = some bt1 ∧ bt1.buf.length = bt1.bufsize ∧ bt1.off = bt.off ∧
      bt1.off < bt1.bufsize ∧ bt1.buf.take bt1.off = bt.buf.take bt.off ∧
      bt.bufsize ≤ bt1.bufsize := by
  unfold BufferTO.grow
  by_cases h : bt.off = bt.bufsize
  · rw [if_pos h, if_neg (by omega)]
    refine ⟨_, rfl, ?_, rfl, ?_, ?_, ?_⟩
    · simp only
      rw [copyBytes_fits _ _ (by rw [List.length_replicate]; omega)]
      simp only [List.length_append, List.length_drop, List.length_replicate]
      omega
    · simp only
      omega
    · simp only
      rw [copyBytes_fits _ _ (by rw [List.length_replicate]; omega)]
      rw [List.take_append_of_le_length (by omega)]
    · simp only
      omega
  · rw [if_neg h]
    exact ⟨bt, rfl, hlen, rfl, by omega, rfl, le_refl _⟩

/-- A call of `Read` with room, while bytes are still to come, delivers at least one byte. -/
theorem read_some (c : Conn) (room : Nat) (hr : 1 ≤ room) (hd : c.data ≠ []) :
    ∃ cnt, 1 ≤ cnt ∧ cnt ≤ room ∧ cnt ≤ c.data.length ∧
      c.Read room = some (c.data.take cnt, { data := c.data.drop cnt, sizes := c.sizes.tail }) := by
  have hl : 1 ≤ c.data.length := List.length_pos.2 hd
  refine ⟨max 1 (min (c.sizes.headD 1) (min room c.data.length)), ?_, ?_, ?_, ?_⟩
  · omega
  · omega
  · omega
  · unfold Conn.Read
    rw [if_neg (by omega), if_neg hd]

/-- Where the first delimiter of the pending bytes lies: in the buffer or in the bytes still to
come. -/
theorem split_pending (A D rec rest : List Nat) (d : Nat) (h : A ++ D = rec ++ d :: rest)
    (hd : d ∉ rec) :
    (d ∈ A → ∃ r1, A = rec ++ d :: r1 ∧ rest = r1 ++ D) ∧
    (d ∉ A → ∃ c1, rec = A ++ c1 ∧ D = c1 ++ d :: rest) := by
  rcases List.append_eq_append_iff.1 h with ⟨a1, h1, h2⟩ | ⟨c1, h1, h2⟩
  · have hA : d ∉ A := fun e => hd (by rw [h1]; exact List.mem_append_left _ e)
    exact ⟨fun e => absurd e hA, fun _ => ⟨a1, h1, h2⟩⟩
  · cases c1 with
    | nil =>
      rw [List.append_nil] at h1
      rw [List.nil_append] at h2
      refine ⟨fun e => absurd (h1 ▸ e) hd, fun _ => ⟨[], by rw [h1, List.append_nil], ?_⟩⟩
      rw [← h2]
      rfl
    | cons x c2 =>
      rw [List.cons_append] at h2
      obtain ⟨hx, h3⟩ := List.cons.inj h2
      subst hx
      refine ⟨fun _ => ⟨c2, h1, h3⟩, fun e => ?_⟩
      exact absurd (by rw [h1]; exact List.mem_append_right _ (List.mem_cons_self _ _)) e

/-- The buffer after a line has been cut off its head. -/
theorem cut_line (bt : BufferTO) (hok : bt.OK) (rec r1 : List Nat) (d : Nat)
    (hA : bt.buf.take bt.off = rec ++ d :: r1) :
    copyBytes (List.replicate (rec.length + 1) 0) (bt.buf.take (rec.length + 1)) = rec ++ [d] ∧
    BufferTO.OK { bt with buf := copyBytes bt.buf ((bt.buf.take bt.off).drop (rec.length + 1)),
                          off := bt.off - rec.length - 1 } ∧
    BufferTO.buffered { bt with
        buf := copyBytes bt.buf ((bt.buf.take bt.off).drop (rec.length + 1)),
        off := bt.off - rec.length - 1 } = r1 := by
  obtain ⟨hlen, hoff, h1⟩ := hok
  have hl : (bt.buf.take bt.off).length = bt.off := by
    rw [List.length_take]
    omega
  have hoffA : bt.off = rec.length + 1 + r1.length := by
    rw [← hl, hA]
    simp only [List.length_append, List.length_cons]
    omega
  have htake : bt.buf.take (rec.length + 1) = rec ++ [d] := by
    have e : bt.buf.take (rec.length + 1) = (bt.buf.take bt.off).take (rec.length + 1) := by
      rw [List.take_take, Nat.min_eq_left (by omega)]
    rw [e, hA, List.take_append_eq_append_take, List.take_of_length_le (le_of_lt (Nat.lt_succ_self _))]
    simp
  have hdrop : (bt.buf.take bt.off).drop (rec.length + 1) = r1 := by
    rw [hA, List.drop_append_eq_append_drop, List.drop_of_length_le (by omega)]
    simp
  refine ⟨?_, ?_, ?_⟩
  · rw [htake]
    unfold copyBytes
    simp
  · rw [hdrop, copyBytes_fits _ _ (by omega)]
    refine ⟨?_, ?_, h1⟩
    · simp only [List.length_append, List.length_drop]
      omega
    · simp only
      omega
  · unfold BufferTO.buffered
    simp only
    rw [hdrop, copyBytes_fits _ _ (by omega)]
    have e : bt.off - rec.length - 1 = r1.length := by omega
    rw [e, List.take_left']
    rfl

/-- The buffer after the bytes of a `Read` have been stored behind `off`. -/
theorem store_chunk (bt : BufferTO) (bytes : List Nat) (hlen : bt.buf.length = bt.bufsize)
    (h1 : 1 ≤ bt.bufsize) (hk : bt.off + bytes.length ≤ bt.bufsize) :
    BufferTO.OK { bt with buf := bt.buf.take bt.off ++ copyBytes (bt.buf.drop bt.off) bytes,
                          off := bt.off + bytes.length } ∧
    BufferTO.buffered { bt with
        buf := bt.buf.take bt.off ++ copyBytes (bt.buf.drop bt.off) bytes,
        off := bt.off + bytes.length } = bt.buf.take bt.off ++ bytes := by
  have hfit : bytes.length ≤ (bt.buf.drop bt.off).length := by
    rw [List.length_drop]
    omega
  have hl : (bt.buf.take bt.off).length = bt.off := by
    rw [List.length_take]
    omega
  refine ⟨⟨?_, hk, h1⟩, ?_⟩
  · simp only
    rw [copyBytes_fits _ _ hfit]
    simp only [List.length_append, List.length_drop, hl]
    omega
  · unfold BufferTO.buffered
    simp only
    rw [copyBytes_fits _ _ hfit, ← List.append_assoc]
    have e : bt.off + bytes.length = (bt.buf.take bt.off ++ bytes).length := by
      rw [List.length_append, hl]
    rw [e, List.take_left']
    rfl

/-- One call of `ReadBytesTO`: when the pending bytes (those buffered, then those still to
come) begin with a record and its delimiter, the call returns the record with its delimiter
and leaves the bytes after it pending, whatever the sizes of the reads. -/
theorem ReadBytesTO_spec (delim : Nat) : ∀ (fuel : Nat) (bt : BufferTO) (c : Conn)
    (rec rest : List Nat), bt.OK → 2 * (bt.off + c.data.length) < 2 ^ 63 →
    bt.buffered ++ c.data = rec ++ delim :: rest → delim ∉ rec → c.data.length < fuel →
    ∃ bt2 c2, ReadBytesTO delim fuel bt c = some (some (rec ++ [delim]), bt2, c2) ∧ bt2.OK ∧
      bt2.buffered ++ c2.data = rest ∧ bt.bufsize ≤ bt2.bufsize ∧
      c2.data.length ≤ c.data.length ∧ 2 * (bt2.off + c2.data.length) < 2 ^ 63 := by
  intro fuel
  induction fuel with
  | zero =>
    intro bt c rec rest _ _ _ _ hf
    omega
  | succ fuel ih =>
    intro bt c rec rest hok hb hpend hd hfuel
    have hok' := hok
    obtain ⟨hlen, hoff, h1⟩ := hok
    rw [ReadBytesTO, if_neg (by omega)]
    by_cases hin : delim ∈ bt.buf.take bt.off
    · obtain ⟨r1, hA, hrest⟩ := (split_pending _ _ rec rest delim hpend hd).1 hin
      have hA : bt.buf.take bt.off = rec ++ delim :: r1 := hA
      obtain ⟨k1, k2, k3⟩ := cut_line bt hok' rec r1 delim hA
      have hidx : IndexByte (bt.buf.take bt.off) delim = some rec.length := by
        rw [hA]
        exact IndexByte_append _ _ _ hd
      rw [hidx]
      simp only
      rw [k1]
      refine ⟨_, c, rfl, k2, by rw [k3, hrest], le_refl _, le_refl _, ?_⟩
      simp only
      omega
    · obtain ⟨c1, hrec, hD⟩ := (split_pending _ _ rec rest delim hpend hd).2 hin
      have hidx : IndexByte (bt.buf.take bt.off) delim = none := (IndexByte_none _ _).2 hin
      rw [hidx]
      simp only
      obtain ⟨bt1, hg, g1, g2, g3, g4, g5⟩ := wfb_grow bt hlen hoff h1 (by omega)
      rw [hg]
      simp only
      have hne : c.data ≠ [] := by
        rw [hD]
        simp
      obtain ⟨cnt, n1, n2, n3, hread⟩ := read_some c (bt1.buf.length - bt1.off) (by omega) hne
      rw [hread]
      simp only
      have hbl : (c.data.take cnt).length = cnt := by
        rw [List.length_take]
        omega
      obtain ⟨s1, s2⟩ := store_chunk bt1 (c.data.take cnt) g1 (by omega) (by rw [hbl]; omega)
      have hp2 : BufferTO.buffered { bt1 with
            buf := bt1.buf.take bt1.off ++ copyBytes (bt1.buf.drop bt1.off) (c.data.take cnt),
            off := bt1.off + (c.data.take cnt).length } ++
          (c.data.drop cnt) = rec ++ delim :: rest := by
        rw [s2, g4, List.append_assoc, List.take_append_drop]
        exact hpend
      have hdl : (c.data.drop cnt).length = c.data.length - cnt := List.length_drop _ _
      obtain ⟨bt3, c3, r1, r2, r3, r4, r5, r6⟩ := ih _
        { data := c.data.drop cnt, sizes := c.sizes.tail } rec rest s1
        (by simp only; rw [hbl, hdl, g2]; omega) hp2 hd (by simp only; rw [hdl]; omega)
      refine ⟨bt3, c3, r1, r2, r3, le_trans g5 r4, ?_, r6⟩
      simp only at r5
      rw [hdl] at r5
      omega

/-- Successive calls of `ReadBytesTO` return the successive records of the pending bytes, each
with its delimiter, and leave what follows them pending. -/
theorem read_lines_spec (delim fuel : Nat) : ∀ (recs : List (List Nat)) (bt : BufferTO)
    (c : Conn) (rest : List Nat), bt.OK → 2 * (bt.off + c.data.length) < 2 ^ 63 →
    (∀ r ∈ recs, delim ∉ r) →
    bt.buffered ++ c.data = (recs.flatMap fun r => r ++ [delim]) ++ rest →
    c.data.length < fuel →
    ∃ bt2 c2, read_lines delim fuel recs.length bt c =
        some (recs.map (fun r => r ++ [delim]), bt2, c2) ∧
      bt2.OK ∧ bt2.buffered ++ c2.data = rest ∧ bt.bufsize ≤ bt2.bufsize := by
  intro recs
  induction recs with
  | nil =>
    intro bt c rest hok _ _ hp _
    exact ⟨bt, c, rfl, hok, by simpa using hp, le_refl _⟩
  | cons r recs ih =>
    intro bt c rest hok hb hr hp hf
    have hp2 : bt.buffered ++ c.data =
        r ++ delim :: ((recs.flatMap fun r => r ++ [delim]) ++ rest) := by
      rw [hp]
      simp [List.flatMap_cons]
    obtain ⟨bt1, c1, a1, a2, a3, a4, a5, a6⟩ := ReadBytesTO_spec delim fuel bt c r _ hok hb hp2
      (hr r (List.mem_cons_self _ _)) hf
    obtain ⟨bt2, c2, b1, b2, b3, b4⟩ := ih bt1 c1 rest a2 a6
      (fun x hx => hr x (List.mem_cons_of_mem _ hx)) a3 (by omega)
    refine ⟨bt2, c2, ?_, b2, b3, le_trans a4 b4⟩
    simp only [List.length_cons, read_lines, a1, b1, List.map_cons]

end Reversi


namespace Reversi

/-- `SHL` leaves no bit at a position beyond the board. -/
theorem SHL_clean (b : Board) (N : Nat) (hS : b.Sized N) (a : BitMap)
    (ha : Clean (N * N) b.bitmapsz a) (n : Nat) (hn1 : 1 ≤ n) (hn : n < N * N) :
    ∃ l, b.SHL a n = some l ∧ Clean (N * N) b.bitmapsz l := by
  obtain ⟨hsz, hu, hM, hle⟩ := sized_facts b N hS (by omega)
  have hn64 : n / 64 ≤ b.bitmapsz := by omega
  obtain ⟨l, hl, hv, hlb⟩ := SHL_spec b ha.1 n hn1 hn64 hsz hu (fun q hq => ha.2 q (by omega))
  refine ⟨l, hl, hv, fun p hp => ?_⟩
  rw [hlb]
  exact ha.2 _ (by omega)

/-- `SHR` leaves no bit at a position beyond the board when the shift is not a whole number of
words, or when the last word has no unused bit. -/
theorem SHR_clean (b : Board) (N : Nat) (hS : b.Sized N) (a : BitMap)
    (ha : Clean (N * N) b.bitmapsz a) (n : Nat) (hn1 : 1 ≤ n) (hn : n < N * N)
    (hmul : n % 64 ≠ 0 ∨ b.unused_bits = 0) :
    ∃ r, b.SHR a n = some r ∧ Clean (N * N) b.bitmapsz r := by
  obtain ⟨hsz, hu, hM, hle⟩ := sized_facts b N hS (by omega)
  have hn64 : n / 64 ≤ b.bitmapsz := by omega
  obtain ⟨r, hr, hv, hrb⟩ := SHR_spec b ha.1 n hn1 hn64 hsz hu hmul
  refine ⟨r, hr, hv, fun p hp => ?_⟩
  rw [hrb]
  have : ¬ (n ≤ p ∧ p < 64 * b.bitmapsz - b.unused_bits) := by omega
  simp [this]

/-- `SHR` by a whole number of words moves the words and nothing else: every bit of the result,
those of the tail included, is the bit `n` positions before it. -/
theorem SHR_whole_words (b : Board) (N : Nat) (hS : b.Sized N) (a : BitMap)
    (ha : Clean (N * N) b.bitmapsz a) (n : Nat) (hn1 : 1 ≤ n) (hn : n < N * N)
    (hmul : n % 64 = 0) :
    ∃ r, b.SHR a n = some r ∧
      ∀ p, bitAt r p = (decide (n ≤ p ∧ p < 64 * b.bitmapsz) && bitAt a (p - n)) := by
  obtain ⟨hsz, hu, hM, hle⟩ := sized_facts b N hS (by omega)
  have hn64 : n / 64 ≤ b.bitmapsz := by omega
  have h64 : 64 ≤ n := by omega
  have hlen : a.length = b.bitmapsz := ha.1.1
  obtain ⟨_, hb⟩ := shr_words_spec ha.1 (n / 64) hn64
  refine ⟨List.replicate (n / 64) 0 ++
    (a.take (n / 64) ++ a.take (a.length - n / 64)).drop (n / 64), ?_, fun p => ?_⟩
  · unfold Board.SHR
    rw [copyInto_eq ha.1]
    simp only [if_pos h64, if_neg (show ¬ a.length < n / 64 by omega)]
    rw [if_pos hmul]
  · rw [hb]
    have e : 64 * (n / 64) = n := by omega
    rw [e]

/-- A position at which `set_bit` succeeds is not negative. -/
theorem set_bit_nonneg (a : BitMap) (pos : Int) (r : BitMap) (h : set_bit a pos = some r) :
    0 ≤ pos := by
  by_contra hc
  rw [set_bit_out_of_range a pos (Or.inr (by omega))] at h
  exact Option.noConfusion h

/-- Setting a bit of the board keeps a bitmap clean. -/
theorem set_bit_clean {n sz : Nat} {a : BitMap} (ha : Clean n sz a) (hsz : n ≤ 64 * sz)
    (pos : Int) (hpos : pos < n) (r : BitMap) (h : set_bit a pos = some r) : Clean n sz r := by
  have h0 := set_bit_nonneg a pos r h
  obtain ⟨p, rfl⟩ : ∃ p : Nat, pos = (p : Int) := ⟨pos.toNat, (Int.toNat_of_nonneg h0).symm⟩
  have hp : p < n := by omega
  obtain ⟨r2, h2, hv, hb⟩ := set_bit_natCast ha.1 p (by omega)
  rw [h] at h2
  cases h2
  refine ⟨hv, fun q hq => ?_⟩
  rw [hb, ha.2 q hq]
  have : ¬ q = p := by omega
  simp [this]

/-- The loop of `NewBoardSFEN` keeps the two bitmaps clean: it sets bits below `N*N` only. -/
theorem sfenLoop_clean (N sz : Nat) (hsz : N * N ≤ 64 * sz) : ∀ (fuel : Nat)
    (st st2 : SfenState), sfenLoop N fuel st = some st2 →
    Clean (N * N) sz st.black → Clean (N * N) sz st.white →
    Clean (N * N) sz st2.black ∧ Clean (N * N) sz st2.white := by
  intro fuel
  induction fuel with
  | zero =>
    intro st st2 h hb hw
    cases h
    exact ⟨hb, hw⟩
  | succ fuel ih =>
    intro st st2 h hb hw
    unfold sfenLoop at h
    cases hr : st.rest with
    | nil =>
      rw [hr] at h
      cases h
      exact ⟨hb, hw⟩
    | cons c tl =>
      rw [hr] at h
      simp only at h
      by_cases hp : st.pos < (N : Int) * N
      · rw [if_pos hp] at h
        have hp2 : st.pos < ((N * N : Nat) : Int) := by
          push_cast
          exact hp
        by_cases h1 : IsDigit c = true
        · rw [if_pos h1] at h
          exact ih _ _ h hb hw
        · rw [if_neg h1] at h
          by_cases h2 : c = '/'
          · rw [if_pos h2] at h
            exact ih _ _ h hb hw
          · rw [if_neg h2] at h
            by_cases h3 : c = 'b'
            · rw [if_pos h3] at h
              cases hs : set_bit st.black st.pos with
              | none =>
                rw [hs] at h
                exact Option.noConfusion h
              | some bl =>
                rw [hs] at h
                exact ih _ _ h (set_bit_clean hb hsz st.pos hp2 bl hs) hw
            · rw [if_neg h3] at h
              by_cases h4 : c = 'w'
              · rw [if_pos h4] at h
                cases hs : set_bit st.white st.pos with
                | none =>
                  rw [hs] at h
                  exact Option.noConfusion h
                | some wh =>
                  rw [hs] at h
                  exact ih _ _ h hb (set_bit_clean hw hsz st.pos hp2 wh hs)
              · rw [if_neg h4] at h
                exact ih _ _ h hb hw
      · rw [if_neg hp] at h
        cases h
        exact ⟨hb, hw⟩

/-- The three sentinels as the builders leave them: every bit of the last word beyond the board
is set, and the sides sentinel is the bitwise AND of the other two. -/
theorem sentinels_full (b : Board) (hN : 1 ≤ b.Boardlen)
    (hsz : b.Boardlen * b.Boardlen ≤ 64 * b.bitmapsz) :
    ∃ h v s, b.mk_horizontal_sentinel = some h ∧ b.mk_vertical_sentinel = some v ∧
      b.mk_sides_sentinel = some s ∧
      (∀ q, b.Boardlen * b.Boardlen ≤ q → q < 64 * b.bitmapsz →
        bitAt h q = true ∧ bitAt v q = true ∧ bitAt s q = true) ∧
      ∀ q, bitAt s q = (bitAt h q && bitAt v q) := by
  have side0 : ∀ y, 0 ≤ y → y < 0 + b.Boardlen →
      (fun y : Nat => ((y * b.Boardlen + 0 : Nat) : Int)) y =
        (((fun y : Nat => y * b.Boardlen + 0) y : Nat) : Int) ∧
      (fun y : Nat => y * b.Boardlen + 0) y < 64 * b.bitmapsz ∧
      (fun y : Nat => ((y * b.Boardlen + b.Boardlen : Nat) - 1 : Int)) y =
        (((fun y : Nat => y * b.Boardlen + b.Boardlen - 1) y : Nat) : Int) ∧
      (fun y : Nat => y * b.Boardlen + b.Boardlen - 1) y < 64 * b.bitmapsz := by
    intro y _ hy
    have := row_ends_bound b.Boardlen y (by omega)
    have h1 : 1 ≤ y * b.Boardlen + b.Boardlen := by omega
    refine ⟨rfl, ?_, ?_, ?_⟩
    · show y * b.Boardlen + 0 < 64 * b.bitmapsz
      omega
    · show ((y * b.Boardlen + b.Boardlen : Nat) : Int) - 1 =
        ((y * b.Boardlen + b.Boardlen - 1 : Nat) : Int)
      omega
    · show y * b.Boardlen + b.Boardlen - 1 < 64 * b.bitmapsz
      omega
  have side1 : ∀ y, 0 ≤ y → y < 0 + b.Boardlen →
      (fun y : Nat => ((0 * b.Boardlen + y : Nat) : Int)) y =
        (((fun y : Nat => 0 * b.Boardlen + y) y : Nat) : Int) ∧
      (fun y : Nat => 0 * b.Boardlen + y) y < 64 * b.bitmapsz ∧
      (fun y : Nat => (((b.Boardlen : Int) - 1) * b.Boardlen + y)) y =
        (((fun y : Nat => (b.Boardlen - 1) * b.Boardlen + y) y : Nat) : Int) ∧
      (fun y : Nat => (b.Boardlen - 1) * b.Boardlen + y) y < 64 * b.bitmapsz := by
    intro y _ hy
    have := row_ends_bound b.Boardlen y (by omega)
    refine ⟨rfl, ?_, ?_, ?_⟩
    · show 0 * b.Boardlen + y < 64 * b.bitmapsz
      omega
    · show ((b.Boardlen : Int) - 1) * b.Boardlen + y =
        (((b.Boardlen - 1) * b.Boardlen + y : Nat) : Int)
      push_cast [Nat.cast_sub hN]
      ring
    · show (b.Boardlen - 1) * b.Boardlen + y < 64 * b.bitmapsz
      omega
  obtain ⟨h, eh, vh, bh⟩ := forM_clear_spec b.bitmapsz _ _ _ _
    b.Boardlen 0 _ (valid_ones b.bitmapsz) side0
  obtain ⟨v, ev, _, bv⟩ := forM_clear_spec b.bitmapsz _ _ _ _
    b.Boardlen 0 _ (valid_ones b.bitmapsz) side1
  obtain ⟨s, es, _, bs⟩ := forM_clear_spec b.bitmapsz _ _ _ _ b.Boardlen 0 h vh side1
  have hs : b.mk_sides_sentinel = some s := by
    unfold Board.mk_sides_sentinel
    simp only [eh, Option.bind_some, Option.some_bind]
    exact es
  refine ⟨h, v, s, eh, ev, hs, fun q hq hq2 => ?_, fun q => ?_⟩
  · have hones : bitAt (List.replicate b.bitmapsz (not64 0)) q = true := by
      rw [bitAt_ones]
      simpa using hq2
    have c0 : ∀ y, 0 ≤ y → y < 0 + b.Boardlen →
        q ≠ y * b.Boardlen + 0 ∧ q ≠ y * b.Boardlen + b.Boardlen - 1 := by
      intro y _ hy
      have := row_ends_bound b.Boardlen y (by omega)
      omega
    have c1 : ∀ y, 0 ≤ y → y < 0 + b.Boardlen →
        q ≠ 0 * b.Boardlen + y ∧ q ≠ (b.Boardlen - 1) * b.Boardlen + y := by
      intro y _ hy
      have := row_ends_bound b.Boardlen y (by omega)
      omega
    have hh : bitAt h q = true := (bh q).2 ⟨hones, c0⟩
    exact ⟨hh, (bv q).2 ⟨hones, c1⟩, (bs q).2 ⟨hh, c1⟩⟩
  · rw [Bool.eq_iff_iff, Bool.and_eq_true, bs, bv, bh]
    constructor
    · rintro ⟨⟨a1, a2⟩, a3⟩
      exact ⟨⟨a1, a2⟩, a1, a3⟩
    · rintro ⟨⟨a1, a2⟩, _, a3⟩
      exact ⟨⟨a1, a2⟩, a3⟩

/-- The sentinels of the board that `NewBoard N` returns are the ones its builders return. -/
theorem NewBoard_sentinels (N : Nat) (b : Board) (hb : NewBoard N = some b) :
    b.mk_horizontal_sentinel = some b.h_sentinel ∧ b.mk_vertical_sentinel = some b.v_sentinel ∧
      b.mk_sides_sentinel = some b.s_sentinel := by
  unfold NewBoard at hb
  simp only [Option.bind_eq_some] at hb
  obtain ⟨h, eh, v, ev, s, es, hb⟩ := hb
  cases hb
  exact ⟨eh, ev, es⟩

/-- The board that `NewBoard N` returns. -/
theorem NewBoard_built (N : Nat) (hN : 1 ≤ N) : ∃ b, NewBoard N = some b ∧ b.Built N := by
  obtain ⟨b, hb, hS, _, _, hB, hW, vh, vv, vs, hrc⟩ := NewBoard_spec N hN
  obtain ⟨g1, _, _, _⟩ := hS.sq_le hN
  obtain ⟨e1, e2, e3⟩ := NewBoard_sentinels N b hb
  have hlen : b.Boardlen = N := hS.1
  obtain ⟨h, v, s, f1, f2, f3, ftail, fand⟩ := sentinels_full b (by rw [hlen]; exact hN)
    (by rw [hlen]; exact g1)
  rw [e1] at f1
  rw [e2] at f2
  rw [e3] at f3
  cases f1
  cases f2
  cases f3
  rw [hlen] at ftail
  refine ⟨b, hb, hS, ?_, ?_, vh, vv, vs, ftail, fun p hp => ?_, fand⟩
  · rw [hB]
    exact ⟨valid_mkBitMap _, fun p _ => bitAt_mkBitMap _ _⟩
  · rw [hW]
    exact ⟨valid_mkBitMap _, fun p _ => bitAt_mkBitMap _ _⟩
  · have hpos : 0 < N := hN
    have hr : p / N < N := Nat.div_lt_of_lt_mul hp
    have hc : p % N < N := Nat.mod_lt _ hpos
    obtain ⟨a1, a2, _⟩ := hrc (p / N) (p % N) hr hc
    have e : p / N * N + p % N = p := by
      rw [Nat.mul_comm]
      exact Nat.div_add_mod p N
    rw [e] at a1 a2
    exact ⟨a1, a2⟩

/-- Every board that `NewBoardSFEN N s` returns. -/
theorem NewBoardSFEN_built (N : Nat) (hN : 1 ≤ N) (s : String) (b : Board)
    (h : NewBoardSFEN N s = some b) : b.Built N := by
  obtain ⟨b0, h0, hS, hbl, hwh, vh, vv, vs, ftail, fpos, fand⟩ := NewBoard_built N hN
  obtain ⟨g1, _, _, _⟩ := hS.sq_le hN
  unfold NewBoardSFEN at h
  simp only [h0] at h
  cases hl : sfenLoop N s.data.length
      { black := b0.black, white := b0.white, pos := 0, disc_count := 0, rest := s.data } with
  | none =>
    rw [hl] at h
    exact Option.noConfusion h
  | some st =>
    rw [hl] at h
    simp only at h
    obtain ⟨c1, c2⟩ := sfenLoop_clean N b0.bitmapsz g1 _ _ _ hl hbl hwh
    cases h
    exact ⟨hS, c1, c2, vh, vv, vs, ftail, fpos, fand⟩

end Reversi


namespace Reversi

/-! ## Main theorems -/

/-- C1. On the board built by `NewBoard N` (`N` even, `N ≥ 4`), for bitmaps `my`, `op` of that
board without a bit at a position `≥ N*N`, `LegalMovesBits my op` returns a bitmap whose bit `p`
is set exactly when `0 ≤ p < N*N`, cell `p` is in neither `my` nor `op`, and in one of the eight
directions the `k ≥ 1` cells after `(p / N, p % N)` are on the board and in `op` and the cell
after them is on the board and in `my`. Every cell of such a run is on the board, so no selected
cell relies on a run that crosses a row or column edge. -/
theorem legalMovesBits_selects_bracketing_cells (N : Nat) (hN : 4 ≤ N) (hev : N % 2 = 0)
    (b : Board) (hb : NewBoard N = some b) (my op : BitMap)
    (hmy : Clean (N * N) b.bitmapsz my) (hop : Clean (N * N) b.bitmapsz op) :
    ∃ legals, b.LegalMovesBits my op = some legals ∧
      ∀ p : Int, (is_bit_on legals p = some true ↔
        (0 ≤ p ∧ p < N * N) ∧ (is_bit_on my p ≠ some true ∧ is_bit_on op p ≠ some true) ∧
          ∃ d ∈ dirs8, ∃ k, 1 ≤ k ∧ Brackets N my op (p / N) (p % N) d.1 d.2 k) := by
  obtain ⟨legals, h1, h2, h3⟩ := LegalMovesBits_cells b N (NewBoard_isBoard (by omega) hb) hN hev
    my op hmy hop
  refine ⟨legals, h1, fun p => ?_⟩
  rw [is_bit_on_eq_bitZ, is_bit_on_ne_iff, is_bit_on_ne_iff]
  by_cases hp : 0 ≤ p ∧ p < N * N
  · obtain ⟨hon, e⟩ := pos_coords N p hp.1 hp.2
    have := h3 _ _ hon
    rw [e] at this
    rw [this]
    simp [hp]
  · constructor
    · intro h
      have := h2.bitZ_lt p h
      exact absurd ⟨this.1, by exact_mod_cast this.2⟩ hp
    · intro h
      exact absurd h.1 hp

theorem legalMovesBits_selects_bracketing_cells_witness :
    (4 ≤ 8 ∧ 8 % 2 = 0 ∧ NewBoard 8 = some emptyBoard8 ∧
      Clean (8 * 8) emptyBoard8.bitmapsz initialBoard8.black ∧
      Clean (8 * 8) emptyBoard8.bitmapsz initialBoard8.white) ∧
    ∃ legals, emptyBoard8.LegalMovesBits initialBoard8.black initialBoard8.white = some legals ∧
      ∀ p : Int, (is_bit_on legals p = some true ↔
        (0 ≤ p ∧ p < (8 : Nat) * (8 : Nat)) ∧
          (is_bit_on initialBoard8.black p ≠ some true ∧
            is_bit_on initialBoard8.white p ≠ some true) ∧
          ∃ d ∈ dirs8, ∃ k, 1 ≤ k ∧
            Brackets 8 initialBoard8.black initialBoard8.white (p / (8 : Nat)) (p % (8 : Nat))
              d.1 d.2 k) :=
  ⟨⟨by decide, by decide, by decide,
      clean_of_check (by decide) (by decide) (by decide),
      clean_of_check (by decide) (by decide) (by decide)⟩,
    legalMovesBits_selects_bracketing_cells 8 (by decide) (by decide) emptyBoard8 (by decide)
      initialBoard8.black initialBoard8.white
      (clean_of_check (by decide) (by decide) (by decide))
      (clean_of_check (by decide) (by decide) (by decide))⟩

/-- C2. On a well-formed position of a board of even size `N ≥ 4`, for every position `m` with
`0 ≤ m < N*N`, `flip m` returns a bitmap whose bit `q` is set exactly when, for one of the eight
directions, `q` is one of `k ≥ 1` consecutive on-board cells of the opponent that start at the
neighbour of `m` and are followed, on the board, by a cell of the side to move. Every set bit is
a position below `N*N` that holds an opponent disc and no disc of the side to move. -/
theorem flip_is_union_of_bracketed_runs (N : Nat) (hN : 4 ≤ N) (hev : N % 2 = 0)
    (b : Board) (hW : b.WF N) (m : Int) (hm : 0 ≤ m ∧ m < N * N) :
    ∃ flips, b.flip m = some flips ∧
      (∀ q : Int, is_bit_on flips q = some true ↔
        ∃ d ∈ dirs8, ∃ k, 1 ≤ k ∧ Brackets N b.mover b.opponent (m / N) (m % N) d.1 d.2 k ∧
          ∃ j : Nat, 1 ≤ j ∧ j ≤ k ∧ q = (m / N + j * d.1) * N + (m % N + j * d.2)) ∧
      (∀ q : Int, is_bit_on flips q = some true →
        (0 ≤ q ∧ q < N * N) ∧ is_bit_on b.opponent q = some true ∧
          is_bit_on b.mover q ≠ some true) := by
  obtain ⟨flips, h1, h2, h3, h4⟩ := flip_pos b N hW hN hev m hm
  obtain ⟨_, _, hdisj⟩ := hW.mover_clean
  refine ⟨flips, h1, fun q => by rw [is_bit_on_eq_bitZ]; exact h3 q, fun q hq => ?_⟩
  rw [is_bit_on_eq_bitZ] at hq
  have hop := h4 q hq
  obtain ⟨q0, q1⟩ := h2.bitZ_lt q hq
  refine ⟨⟨q0, by exact_mod_cast q1⟩, by rw [is_bit_on_eq_bitZ]; exact hop, ?_⟩
  rw [is_bit_on_ne_iff]
  by_contra hne
  exact hdisj q ⟨by simpa using hne, hop⟩

theorem flip_is_union_of_bracketed_runs_witness :
    (4 ≤ 8 ∧ 8 % 2 = 0 ∧ initialBoard8.WF 8 ∧ (0 : Int) ≤ 37 ∧ (37 : Int) < (8 : Nat) * (8 : Nat)) ∧
    ∃ flips, initialBoard8.flip 37 = some flips ∧
      (∀ q : Int, is_bit_on flips q = some true ↔
        ∃ d ∈ dirs8, ∃ k, 1 ≤ k ∧
          Brackets 8 initialBoard8.mover initialBoard8.opponent (37 / (8 : Nat)) (37 % (8 : Nat))
            d.1 d.2 k ∧
          ∃ j : Nat, 1 ≤ j ∧ j ≤ k ∧
            q = (37 / (8 : Nat) + j * d.1) * (8 : Nat) + (37 % (8 : Nat) + j * d.2)) ∧
      (∀ q : Int, is_bit_on flips q = some true →
        (0 ≤ q ∧ q < (8 : Nat) * (8 : Nat)) ∧ is_bit_on initialBoard8.opponent q = some true ∧
          is_bit_on initialBoard8.mover q ≠ some true) :=
  ⟨⟨by decide, by decide, wf_of_check (by decide) (by decide) (by decide) (by decide),
      by decide, by decide⟩,
    flip_is_union_of_bracketed_runs 8 (by decide) (by decide) initialBoard8
      (wf_of_check (by decide) (by decide) (by decide) (by decide)) 37 ⟨by decide, by decide⟩⟩

/-- C3. On a well-formed position of a board of even size `N ≥ 4`, for `-1 ≤ m < N*N`,
`IsLegalMove m` returns (no run-time failure), and it is true iff either `m ≠ -1` and bit `m` of
the legal-move bitmap of the side to move is set, or `m = -1` and that bitmap has no bit set.
So pass is legal exactly when no position of the board is a legal move. -/
theorem isLegalMove_iff_bit_or_pass (N : Nat) (hN : 4 ≤ N) (hev : N % 2 = 0)
    (b : Board) (hW : b.WF N) (m : Int) (hm : -1 ≤ m ∧ m < N * N) :
    ∃ legals, b.LegalMovesBits b.mover b.opponent = some legals ∧
      (b.IsLegalMove m = some true ∨ b.IsLegalMove m = some false) ∧
      (b.IsLegalMove m = some true ↔
        (m ≠ -1 ∧ is_bit_on legals m = some true) ∨
          (m = -1 ∧ ∀ p : Int, is_bit_on legals p ≠ some true)) ∧
      (b.IsLegalMove (-1) = some true ↔
        ∀ p : Int, 0 ≤ p → p < N * N → b.IsLegalMove p = some false) := by
  obtain ⟨legals, h1, h2, _⟩ := moverLegals_spec b N hW hN hev
  obtain ⟨hpass, hpos⟩ := IsLegalMove_spec b N hW hN hev h1
  have hz : b.is_zero legals = true ↔ ∀ p : Int, is_bit_on legals p ≠ some true := by
    rw [is_zero_iff b h2.1]
    exact forall_congr' fun p => (is_bit_on_ne_iff legals p).symm
  refine ⟨legals, h1, ?_, ?_, ?_⟩
  · by_cases hm1 : m = -1
    · subst hm1
      rw [hpass]
      cases b.is_zero legals <;> simp
    · rw [hpos m (by omega) hm.2]
      cases bitZ legals m <;> simp
  · by_cases hm1 : m = -1
    · subst hm1
      rw [hpass, Option.some.injEq, hz]
      simp
    · rw [hpos m (by omega) hm.2, Option.some.injEq, is_bit_on_eq_bitZ]
      simp [hm1]
  · rw [hpass, Option.some.injEq, is_zero_iff b h2.1]
    constructor
    · intro h p hp0 hp1
      rw [hpos p hp0 hp1, h p]
    · intro h p
      by_cases hp : 0 ≤ p ∧ p < N * N
      · have := h p hp.1 hp.2
        rw [hpos p hp.1 hp.2, Option.some.injEq] at this
        exact this
      · by_contra hne
        have := h2.bitZ_lt p (by simpa using hne)
        exact hp ⟨this.1, by exact_mod_cast this.2⟩

theorem isLegalMove_iff_bit_or_pass_witness :
    (4 ≤ 8 ∧ 8 % 2 = 0 ∧ initialBoard8.WF 8 ∧ (-1 : Int) ≤ 19 ∧ (19 : Int) < (8 : Nat) * (8 : Nat)) ∧
    ∃ legals, initialBoard8.LegalMovesBits initialBoard8.mover initialBoard8.opponent =
        some legals ∧
      (initialBoard8.IsLegalMove 19 = some true ∨ initialBoard8.IsLegalMove 19 = some false) ∧
      (initialBoard8.IsLegalMove 19 = some true ↔
        ((19 : Int) ≠ -1 ∧ is_bit_on legals 19 = some true) ∨
          ((19 : Int) = -1 ∧ ∀ p : Int, is_bit_on legals p ≠ some true)) ∧
      (initialBoard8.IsLegalMove (-1) = some true ↔
        ∀ p : Int, 0 ≤ p → p < (8 : Nat) * (8 : Nat) → initialBoard8.IsLegalMove p = some false) :=
  ⟨⟨by decide, by decide, wf_of_check (by decide) (by decide) (by decide) (by decide),
      by decide, by decide⟩,
    isLegalMove_iff_bit_or_pass 8 (by decide) (by decide) initialBoard8
      (wf_of_check (by decide) (by decide) (by decide) (by decide)) 19 ⟨by decide, by decide⟩⟩

/-- C4. `MoveUpdate` implements the apply-move rule. For pass (`-1`) only `Turn` is toggled.
For a position `m` of the board (well-formed position, even `N ≥ 4`), with `F = flip m` computed
before the move: the mover's bitmap becomes mover OR `F` OR bit `m`, the opponent's becomes
opponent AND NOT `F`, the disc count grows by one and `Turn` is toggled. On the 8×8 initial
position, black playing 37 (f5) turns 36 (e5) black: 4 black discs, 1 white, white to move. -/
theorem moveUpdate_applies_move (N : Nat) (hN : 4 ≤ N) (hev : N % 2 = 0)
    (b : Board) (hW : b.WF N) (m : Int) (hm : 0 ≤ m ∧ m < N * N) :
    b.MoveUpdate (-1) = some { b with Turn := 1 - b.Turn } ∧
    (∃ F b', b.flip m = some F ∧ b.MoveUpdate m = some b' ∧
      b'.Turn = 1 - b.Turn ∧ b'.DiscNum = b.DiscNum + 1 ∧
      ∀ q : Int,
        (is_bit_on (b'.side b.IsBlackTurn) q = some true ↔
          is_bit_on (b.side b.IsBlackTurn) q = some true ∨ is_bit_on F q = some true ∨ q = m) ∧
        (is_bit_on (b'.side (!b.IsBlackTurn)) q = some true ↔
          is_bit_on (b.side (!b.IsBlackTurn)) q = some true ∧ is_bit_on F q ≠ some true)) ∧
    (∃ b', initialBoard8.MoveUpdate 37 = some b' ∧
      is_bit_on initialBoard8.white 36 = some true ∧ is_bit_on b'.black 36 = some true ∧
      is_bit_on b'.white 36 = some false ∧
      b'.CountBlack = 4 ∧ b'.CountWhite = 1 ∧ b'.DiscNum = 5 ∧ b'.Turn = 1) := by
  refine ⟨MoveUpdate_pass b, ?_, ?_⟩
  · obtain ⟨F, b', h1, h2, h3, h4, _, _, _, _, h5⟩ := MoveUpdate_spec b N hW hN hev m hm
    have e1 : b.side b.IsBlackTurn = b.mover := rfl
    have e2 : b.side (!b.IsBlackTurn) = b.opponent := by
      unfold Board.side Board.opponent Board.IsBlackTurn
      cases (b.Turn == 0) <;> rfl
    refine ⟨F, b', h1, h2, h3, h4, fun q => ⟨?_, ?_⟩⟩
    · rw [is_bit_on_eq_bitZ, is_bit_on_eq_bitZ, is_bit_on_eq_bitZ, (h5 q).1, e1]
      simp [or_assoc]
    · rw [is_bit_on_eq_bitZ, is_bit_on_eq_bitZ, is_bit_on_ne_iff, (h5 q).2, e2]
      simp
  · exact ⟨{ initialBoard8 with
        Turn := 1, discs := 5, black := [0x000000081c000000], white := [0x0000001000000000] },
      by decide, by decide, by decide, by decide, by decide, by decide, by decide, by decide⟩

theorem moveUpdate_applies_move_witness :
    (4 ≤ 8 ∧ 8 % 2 = 0 ∧ initialBoard8.WF 8 ∧ (0 : Int) ≤ 37 ∧ (37 : Int) < (8 : Nat) * (8 : Nat)) ∧
    ∃ F b', initialBoard8.flip 37 = some F ∧ initialBoard8.MoveUpdate 37 = some b' ∧
      b'.Turn = 1 - initialBoard8.Turn ∧ b'.DiscNum = initialBoard8.DiscNum + 1 ∧
      ∀ q : Int,
        (is_bit_on (b'.side initialBoard8.IsBlackTurn) q = some true ↔
          is_bit_on (initialBoard8.side initialBoard8.IsBlackTurn) q = some true ∨
            is_bit_on F q = some true ∨ q = 37) ∧
        (is_bit_on (b'.side (!initialBoard8.IsBlackTurn)) q = some true ↔
          is_bit_on (initialBoard8.side (!initialBoard8.IsBlackTurn)) q = some true ∧
            is_bit_on F q ≠ some true) :=
  ⟨⟨by decide, by decide, wf_of_check (by decide) (by decide) (by decide) (by decide),
      by decide, by decide⟩,
    (moveUpdate_applies_move 8 (by decide) (by decide) initialBoard8
      (wf_of_check (by decide) (by decide) (by decide) (by decide)) 37
      ⟨by decide, by decide⟩).2.1⟩

/-- C5. The board invariant is preserved by every legal move. On a board of even size `N ≥ 4`,
if black and white share no cell, have no bit at a position `≥ N*N` (`WF`), and `DiscNum` is the
number of set bits of black plus that of white, and `IsLegalMove m` is true, then `MoveUpdate m`
and `Move m` both return the same board, which satisfies the same three conditions; its
`DiscNum` is also `CountBlack + CountWhite`. -/
theorem legal_move_preserves_invariant (N : Nat) (hN : 4 ≤ N) (hev : N % 2 = 0)
    (b : Board) (hW : b.WF N) (hd : b.DiscNum = countBits b.black + countBits b.white)
    (m : Int) (hl : b.IsLegalMove m = some true) :
    ∃ b', b.MoveUpdate m = some b' ∧ b.Move m = some b' ∧ b'.WF N ∧
      b'.DiscNum = countBits b'.black + countBits b'.white ∧
      b'.DiscNum = b'.CountBlack + b'.CountWhite := by
  obtain ⟨b', h1, h2, h3, h4⟩ := legal_move_invariant b N hW hN hev hd m hl
  refine ⟨b', h1, h2, h3, h4, ?_⟩
  unfold Board.CountBlack Board.CountWhite
  rw [count_bits_eq b' _ h3.2.1.1.mem_lt, count_bits_eq b' _ h3.2.2.1.1.mem_lt]
  exact h4

theorem legal_move_preserves_invariant_witness :
    (4 ≤ 8 ∧ 8 % 2 = 0 ∧ initialBoard8.WF 8 ∧
      initialBoard8.DiscNum = countBits initialBoard8.black + countBits initialBoard8.white ∧
      initialBoard8.IsLegalMove 37 = some true) ∧
    ∃ b', initialBoard8.MoveUpdate 37 = some b' ∧ initialBoard8.Move 37 = some b' ∧ b'.WF 8 ∧
      b'.DiscNum = countBits b'.black + countBits b'.white ∧
      b'.DiscNum = b'.CountBlack + b'.CountWhite :=
  ⟨⟨by decide, by decide, wf_of_check (by decide) (by decide) (by decide) (by decide),
      by decide, by decide⟩,
    legal_move_preserves_invariant 8 (by decide) (by decide) initialBoard8
      (wf_of_check (by decide) (by decide) (by decide) (by decide)) (by decide) 37 (by decide)⟩

/-- C6. SFEN round trip. For every board of size `N ≥ 1` (with `N*N` in the range of an `int`)
whose black and white bitmaps are disjoint, have no bit at a position `≥ N*N` (`WF`) and whose
disc count is the number of set bits, `ToSFEN` returns a string `s` and `NewBoardSFEN N s`
returns a board with the same black bitmap, the same white bitmap, the same `DiscNum` and the
same side to move: its `Turn` is `0` when black is to move and `1` otherwise, so it is the
`Turn` of `b` whenever that is `0` or `1`, and then the whole board is rebuilt. -/
theorem sfen_round_trip_preserves_board (N : Nat) (hN : 1 ≤ N) (h63 : N * N < 2 ^ 63)
    (b : Board) (hW : b.WF N) (hd : b.DiscNum = countBits b.black + countBits b.white) :
    ∃ s b', b.ToSFEN = some s ∧ NewBoardSFEN N s = some b' ∧
      b'.black = b.black ∧ b'.white = b.white ∧ b'.DiscNum = b.DiscNum ∧
      b'.IsBlackTurn = b.IsBlackTurn ∧ b'.Turn = (if b.IsBlackTurn then 0 else 1) ∧
      ((b.Turn = 0 ∨ b.Turn = 1) → b'.Turn = b.Turn ∧ b' = b) := by
  obtain ⟨s, h1, h2⟩ := sfen_round_trip N hN h63 b hW hd
  have hT : (b.Turn = 0 ∨ b.Turn = 1) → (if b.IsBlackTurn then (0 : Int) else 1) = b.Turn := by
    unfold Board.IsBlackTurn
    rintro (h | h) <;> rw [h] <;> rfl
  refine ⟨s, _, h1, h2, rfl, rfl, rfl, ?_, rfl, fun h => ⟨hT h, ?_⟩⟩
  · unfold Board.IsBlackTurn
    show ((if (b.Turn == 0) = true then (0 : Int) else 1) == 0) = (b.Turn == 0)
    cases (b.Turn == 0) <;> rfl
  · rw [hT h]

theorem sfen_round_trip_preserves_board_witness :
    (1 ≤ 8 ∧ 8 * 8 < 2 ^ 63 ∧ initialBoard8.WF 8 ∧
      initialBoard8.DiscNum = countBits initialBoard8.black + countBits initialBoard8.white) ∧
    ∃ s b', initialBoard8.ToSFEN = some s ∧ NewBoardSFEN 8 s = some b' ∧
      b'.black = initialBoard8.black ∧ b'.white = initialBoard8.white ∧
      b'.DiscNum = initialBoard8.DiscNum ∧
      b'.IsBlackTurn = initialBoard8.IsBlackTurn ∧
      b'.Turn = (if initialBoard8.IsBlackTurn then 0 else 1) ∧
      ((initialBoard8.Turn = 0 ∨ initialBoard8.Turn = 1) →
        b'.Turn = initialBoard8.Turn ∧ b' = initialBoard8) :=
  ⟨⟨by decide, by decide, wf_of_check (by decide) (by decide) (by decide) (by decide),
      by decide⟩,
    sfen_round_trip_preserves_board 8 (by decide) (by decide) initialBoard8
      (wf_of_check (by decide) (by decide) (by decide) (by decide)) (by decide)⟩

/-- C7. For every even `N ≥ 4` (with `N*N` in the range of an `int`), the board
`NewBoardSFEN N (MakeInitialSFEN N)` is built without failure and is well formed; among the cells
`(r, c)` of the board (position `r*N + c`) the white discs are exactly `(N/2-1, N/2-1)` and
`(N/2, N/2)` and the black discs exactly `(N/2-1, N/2)` and `(N/2, N/2-1)`; `CountBlack = 2`,
`CountWhite = 2`, `DiscNum = 4` and black is to move. The string is three numerals around `wb`
and `bw`, followed by ` b`, and the numbers of cells it encodes sum to `N*N`. -/
theorem initial_board_has_four_centre_discs (N : Nat) (hN : 4 ≤ N) (hev : N % 2 = 0)
    (h63 : N * N < 2 ^ 63) :
    ∃ b, NewBoardSFEN N (MakeInitialSFEN N) = some b ∧ b.WF N ∧
      (∀ r c : Nat, r < N → c < N →
        (is_bit_on b.white ((r * N + c : Nat) : Int) = some true ↔
          (r = N / 2 - 1 ∧ c = N / 2 - 1) ∨ (r = N / 2 ∧ c = N / 2)) ∧
        (is_bit_on b.black ((r * N + c : Nat) : Int) = some true ↔
          (r = N / 2 - 1 ∧ c = N / 2) ∨ (r = N / 2 ∧ c = N / 2 - 1))) ∧
      b.CountBlack = 2 ∧ b.CountWhite = 2 ∧ b.DiscNum = 4 ∧ b.Turn = 0 ∧ b.IsBlackTurn = true ∧
      ∃ e0 e1 e2, (MakeInitialSFEN N).data =
          natDigits e0 ++ ('w' :: 'b' :: (natDigits e1 ++ ('b' :: 'w' ::
            (natDigits e2 ++ [' ', 'b'])))) ∧
        e0 + 2 + e1 + 2 + e2 = N * N := by
  obtain ⟨b, h1, h2, h3, h4, bb, bw⟩ := initial_board_spec N hN hev h63
  obtain ⟨c1, c2⟩ := initial_counts N hN hev b h2 bb bw
  obtain ⟨k, hk, a1, a2, a3, a4⟩ := init_arith N hN hev
  have hk1 : N / 2 - 1 = k + 1 := by omega
  refine ⟨b, h1, h2, fun r c hr hc => ⟨?_, ?_⟩, c1, c2, h4, h3, ?_,
    ⟨_, _, _, MakeInitialSFEN_data N hN hev h63, by rw [hk1]; exact a4⟩⟩
  · rw [is_bit_on_eq_bitZ, bitZ_natCast, bw, hk1, a1]
    have e : (k + 1) * N + (k + 1) + N + 1 = (k + 2) * N + (k + 2) := by ring
    rw [e]
    simp only [Bool.or_eq_true, decide_eq_true_eq]
    constructor
    · rintro (h | h)
      · exact Or.inl (coord_unique N r c (k + 1) (k + 1) hc (by omega) h)
      · exact Or.inr (coord_unique N r c (k + 2) (k + 2) hc (by omega) h)
    · rintro (⟨rfl, rfl⟩ | ⟨rfl, rfl⟩)
      · exact Or.inl rfl
      · exact Or.inr rfl
  · rw [is_bit_on_eq_bitZ, bitZ_natCast, bb, hk1, a1]
    have e : (k + 1) * N + (k + 1) + N = (k + 2) * N + (k + 1) := by ring
    rw [e]
    simp only [Bool.or_eq_true, decide_eq_true_eq]
    constructor
    · rintro (h | h)
      · exact Or.inl (coord_unique N r c (k + 1) (k + 2) hc (by omega) h)
      · exact Or.inr (coord_unique N r c (k + 2) (k + 1) hc (by omega) h)
    · rintro (⟨rfl, rfl⟩ | ⟨rfl, rfl⟩)
      · exact Or.inl rfl
      · exact Or.inr rfl
  · unfold Board.IsBlackTurn
    rw [h3]
    rfl

theorem initial_board_has_four_centre_discs_witness :
    (4 ≤ 8 ∧ 8 % 2 = 0 ∧ 8 * 8 < 2 ^ 63) ∧
    ∃ b, NewBoardSFEN 8 (MakeInitialSFEN 8) = some b ∧ b.WF 8 ∧
      (∀ r c : Nat, r < 8 → c < 8 →
        (is_bit_on b.white ((r * 8 + c : Nat) : Int) = some true ↔
          (r = 8 / 2 - 1 ∧ c = 8 / 2 - 1) ∨ (r = 8 / 2 ∧ c = 8 / 2)) ∧
        (is_bit_on b.black ((r * 8 + c : Nat) : Int) = some true ↔
          (r = 8 / 2 - 1 ∧ c = 8 / 2) ∨ (r = 8 / 2 ∧ c = 8 / 2 - 1))) ∧
      b.CountBlack = 2 ∧ b.CountWhite = 2 ∧ b.DiscNum = 4 ∧ b.Turn = 0 ∧ b.IsBlackTurn = true ∧
      ∃ e0 e1 e2, (MakeInitialSFEN 8).data =
          natDigits e0 ++ ('w' :: 'b' :: (natDigits e1 ++ ('b' :: 'w' ::
            (natDigits e2 ++ [' ', 'b'])))) ∧
        e0 + 2 + e1 + 2 + e2 = 8 * 8 :=
  ⟨⟨by decide, by decide, by decide⟩,
    initial_board_has_four_centre_discs 8 (by decide) (by decide) (by decide)⟩

/-- C8. For every even `N ≥ 4` (with `N*N` in the range of an `int`), `LegalMoves` on the
initial board `NewBoardSFEN N (MakeInitialSFEN N)` returns exactly the four positions
`(N/2-2)*N + (N/2-1)`, `(N/2-1)*N + (N/2-2)`, `(N/2)*N + (N/2+1)`, `(N/2+1)*N + (N/2)`, in that
order. For `N = 8`, `MakeInitialSFEN 8` is `27wb6bw27 b` and the legal moves are
`[19, 26, 37, 44]`, which `Position2Str` writes `d3`, `c4`, `f5`, `e6`. -/
theorem initial_legal_moves_are_four (N : Nat) (hN : 4 ≤ N) (hev : N % 2 = 0)
    (h63 : N * N < 2 ^ 63) :
    (∃ b, NewBoardSFEN N (MakeInitialSFEN N) = some b ∧
      b.LegalMoves = some [(((N / 2 - 2) * N + (N / 2 - 1) : Nat) : Int),
        (((N / 2 - 1) * N + (N / 2 - 2) : Nat) : Int), (((N / 2) * N + (N / 2 + 1) : Nat) : Int),
        (((N / 2 + 1) * N + (N / 2) : Nat) : Int)]) ∧
    MakeInitialSFEN 8 = "27wb6bw27 b" ∧
    (∃ b, NewBoardSFEN 8 (MakeInitialSFEN 8) = some b ∧
      b.LegalMoves = some [19, 26, 37, 44] ∧
      b.Position2Str 19 = some "d3" ∧ b.Position2Str 26 = some "c4" ∧
      b.Position2Str 37 = some "f5" ∧ b.Position2Str 44 = some "e6") := by
  obtain ⟨b, h1, h2, h3, _, bb, bw⟩ := initial_board_spec N hN hev h63
  exact ⟨⟨b, h1, initial_legal_moves N hN hev b h2 h3 bb bw⟩, by decide,
    ⟨initialBoard8, by decide, by decide, by decide, by decide, by decide, by decide⟩⟩

theorem initial_legal_moves_are_four_witness :
    (4 ≤ 6 ∧ 6 % 2 = 0 ∧ 6 * 6 < 2 ^ 63) ∧
    ∃ b, NewBoardSFEN 6 (MakeInitialSFEN 6) = some b ∧
      b.LegalMoves = some [(((6 / 2 - 2) * 6 + (6 / 2 - 1) : Nat) : Int),
        (((6 / 2 - 1) * 6 + (6 / 2 - 2) : Nat) : Int), (((6 / 2) * 6 + (6 / 2 + 1) : Nat) : Int),
        (((6 / 2 + 1) * 6 + (6 / 2) : Nat) : Int)] :=
  ⟨⟨by decide, by decide, by decide⟩,
    (initial_legal_moves_are_four 6 (by decide) (by decide) (by decide)).1⟩

/-- C9. On a well-formed position of a board of even size `N ≥ 4`, `IsGameOver` returns, and it
is true iff the legal-move bitmap of black against white and that of white against black are
both empty; the answer does not depend on `Turn`. When it is true, `LegalMoves` returns the
empty list for the board as it is and for the same board with `Turn` toggled. -/
theorem isGameOver_iff_no_legal_move (N : Nat) (hN : 4 ≤ N) (hev : N % 2 = 0)
    (b : Board) (hW : b.WF N) :
    ∃ l0 l1, b.LegalMovesBits b.black b.white = some l0 ∧
      b.LegalMovesBits b.white b.black = some l1 ∧
      (b.IsGameOver = some true ∨ b.IsGameOver = some false) ∧
      (b.IsGameOver = some true ↔
        (∀ p : Int, is_bit_on l0 p ≠ some true) ∧ (∀ p : Int, is_bit_on l1 p ≠ some true)) ∧
      (∀ t : Int, ({ b with Turn := t } : Board).IsGameOver = b.IsGameOver) ∧
      (b.IsGameOver = some true →
        b.LegalMoves = some [] ∧ ({ b with Turn := 1 - b.Turn } : Board).LegalMoves = some []) := by
  obtain ⟨l0, l1, h0, h1, c0, c1, hg⟩ := IsGameOver_spec b N hW hN hev
  have hz : ∀ l : BitMap, Valid b.bitmapsz l →
      (b.is_zero l = true ↔ ∀ p : Int, is_bit_on l p ≠ some true) := by
    intro l hl
    rw [is_zero_iff b hl]
    exact forall_congr' fun p => (is_bit_on_ne_iff l p).symm
  -- the legal moves of whichever side is to move
  have hmoves : ∀ b2 : Board, b2.black = b.black → b2.white = b.white →
      b2.LegalMovesBits = b.LegalMovesBits → b2.bitmapsz = b.bitmapsz →
      b.is_zero l0 = true → b.is_zero l1 = true → b2.LegalMoves = some [] := by
    intro b2 e1 e2 e3 e4 z0 z1
    by_cases ht : (b2.Turn == 0) = true
    · have hl : b2.LegalMovesBits b2.mover b2.opponent = some l0 := by
        simp only [Board.mover, Board.opponent, ht, if_true, e1, e2, e3]
        exact h0
      rw [LegalMoves_spec b2 hl (by rw [e4]; exact c0.1), filter_bitAt_nil b c0.1 z0]
      rfl
    · have hl : b2.LegalMovesBits b2.mover b2.opponent = some l1 := by
        simp only [Board.mover, Board.opponent, ht, e1, e2, e3]
        exact h1
      rw [LegalMoves_spec b2 hl (by rw [e4]; exact c1.1), filter_bitAt_nil b c1.1 z1]
      rfl
  refine ⟨l0, l1, h0, h1, ?_, ?_, fun t => IsGameOver_turn b t, ?_⟩
  · rw [hg]
    cases (b.is_zero l0 && b.is_zero l1) <;> simp
  · rw [hg, Option.some.injEq, Bool.and_eq_true, hz l0 c0.1, hz l1 c1.1]
  · rw [hg, Option.some.injEq, Bool.and_eq_true]
    rintro ⟨z0, z1⟩
    exact ⟨hmoves b rfl rfl rfl rfl z0 z1, hmoves _ rfl rfl rfl rfl z0 z1⟩

theorem isGameOver_iff_no_legal_move_witness :
    (4 ≤ 8 ∧ 8 % 2 = 0 ∧ initialBoard8.WF 8) ∧
    ∃ l0 l1, initialBoard8.LegalMovesBits initialBoard8.black initialBoard8.white = some l0 ∧
      initialBoard8.LegalMovesBits initialBoard8.white initialBoard8.black = some l1 ∧
      (initialBoard8.IsGameOver = some true ∨ initialBoard8.IsGameOver = some false) ∧
      (initialBoard8.IsGameOver = some true ↔
        (∀ p : Int, is_bit_on l0 p ≠ some true) ∧ (∀ p : Int, is_bit_on l1 p ≠ some true)) ∧
      (∀ t : Int, ({ initialBoard8 with Turn := t } : Board).IsGameOver =
        initialBoard8.IsGameOver) ∧
      (initialBoard8.IsGameOver = some true →
        initialBoard8.LegalMoves = some [] ∧
          ({ initialBoard8 with Turn := 1 - initialBoard8.Turn } : Board).LegalMoves = some []) :=
  ⟨⟨by decide, by decide, wf_of_check (by decide) (by decide) (by decide) (by decide)⟩,
    isGameOver_iff_no_legal_move 8 (by decide) (by decide) initialBoard8
      (wf_of_check (by decide) (by decide) (by decide) (by decide))⟩

/-- C10 (the code fails here). A reply that parses to a position outside the words of the
bitmap, or to a negative position other than pass, makes `IsLegalMove` fail at run time in
`set_bit`, on every board; so does the arbiter step. On the 8×8 initial position the reply
`"z9"` parses to position 89 without error, `IsLegalMove 89`, `check_and_move 89` and the whole
step fail, while the older `check_and_move_old 89` reports an illegal move and leaves the game
unchanged. -/
theorem isLegalMove_fails_out_of_range :
    (∀ (b : Board) (pos : Int), (64 * (b.bitmapsz : Int) ≤ pos ∨ pos < -1) →
      b.IsLegalMove pos = none) ∧
    str2move 8 "z9" = (89, "z9", none) ∧
    initialBoard8.IsLegalMove 89 = none ∧
    initialGame8.check_and_move 89 = none ∧
    initialGame8.send_req_get_resp (some "z9") = none ∧
    initialGame8.check_and_move_old 89 = some (initialGame8, true) := by
  exact ⟨fun b pos h => IsLegalMove_out_of_range b pos h,
    by decide, by decide, by decide, by decide, by decide⟩

end Reversi


namespace Reversi

/-! ## Main theorems: the move parser and the arbiter -/

/-- C11. `str2move` is insensitive to letter case and to surrounding whitespace: it returns the
same position, move string and error for a message, for the message trimmed, for the message
lower-cased (every letter, as `strings.ToLower` does), and for the message trimmed and
lower-cased. For a one-letter column and a row numeral the position is
`(row - 1) * N + (letter - 'a')` (1-based row), as long as that number is in the range of an
`int`. On an 8-board `F5`, ` f5\n` and `f5` yield 37 and `PASS` yields -1; a message with a
letter outside ASCII is rejected with its lower-cased form as move string, the same for both
cases of the letter. -/
theorem str2move_ignores_case_and_spaces (N : Nat) (s : String) :
    str2move N s = str2move N (String.mk (ToLower (TrimSpace s.data))) ∧
    str2move N s = str2move N (String.mk (TrimSpace s.data)) ∧
    str2move N s = str2move N (String.mk (ToLower s.data)) ∧
    (∀ (c : Char) (row : Nat), IsLetter c = true → 1 ≤ row → row < 2 ^ 63 →
      ((row : Int) - 1) * N + 25 < 2 ^ 63 →
      str2move N (String.mk (c :: natDigits row)) =
        (((row : Int) - 1) * N + ((c.toNat : Int) - 97), String.mk (c :: natDigits row), none)) ∧
    str2move 8 "F5" = (37, "f5", none) ∧ str2move 8 " f5\n" = (37, "f5", none) ∧
    str2move 8 "f5" = (37, "f5", none) ∧ str2move 8 "PASS" = (-1, "pass", none) ∧
    str2move 8 "É5" = (0, "é5", some "wrong format move") ∧
    str2move 8 "é5" = (0, "é5", some "wrong format move") ∧
    str2move 8 " Ω1 " = str2move 8 "ω1" := by
  refine ⟨?_, ?_, ?_, ?_, by decide, by decide, by decide, by decide, by decide, by decide,
    by decide⟩
  · exact str2move_congr N _ _ (norm_idem s.data).symm
  · apply str2move_congr
    show _ = ToLower (TrimSpace (TrimSpace s.data))
    rw [TrimSpace_idem]
  · apply str2move_congr
    show _ = ToLower (TrimSpace (ToLower s.data))
    rw [TrimSpace_ToLower, ToLower_idem]
  · intro c row hc h1 h2 h3
    rw [str2move_cell N c hc row h2]
    have hl := (isLetter_iff c).1 hc
    have hnn : (0 : Int) ≤ ((row : Int) - 1) * N :=
      Int.mul_nonneg (by omega) (by omega)
    rw [wrap64_of_range _ (by omega) (by omega)]

/-- C12 (the code fails here). For a two-letter column `c0 c1`, `str2move` takes the column
`digit0 * 26 + digit1` with `digit0 = c0 - 'a'`, without the `+ 1` that the claim states and that
`Position2Str` assumes when it writes a column `≥ 26`: `aa` is read as column 0 and `ab` as
column 1. On a board of side 27, `aa10` is read as position 243, not 269, which is also what
`a10` gives; `Position2Str` writes 269 as `aa10` and 243 as `a10`. -/
theorem str2move_two_letter_column_lacks_offset :
    (∀ (N : Nat) (c0 c1 : Char) (row : Nat), IsLetter c0 = true → IsLetter c1 = true →
      row < 2 ^ 63 →
      str2move N (String.mk (c0 :: c1 :: natDigits row)) =
        (wrap64 (((row : Int) - 1) * N +
            (((c0.toNat : Int) - 97) * 26 + ((c1.toNat : Int) - 97))),
          String.mk (c0 :: c1 :: natDigits row), none)) ∧
    str2move 27 "aa10" = (243, "aa10", none) ∧ str2move 27 "ab10" = (244, "ab10", none) ∧
    str2move 27 "a10" = (243, "a10", none) ∧
    (∀ b : Board, b.Boardlen = 27 →
      b.Position2Str 269 = some "aa10" ∧ b.Position2Str 243 = some "a10") := by
  refine ⟨fun N c0 c1 row h0 h1 hrow => str2move_cell2 N c0 c1 h0 h1 row hrow,
    by decide, by decide, by decide, fun b hb => ?_⟩
  unfold Board.Position2Str
  rw [hb]
  exact ⟨by decide, by decide⟩

/-- C13 (the code fails here). `str2move` returns position -1 without error for messages other
than `pass`: the cell name made of the last column and row 0. On an 8-board `h0` gives -1, and
for every `N` from 1 to 26 so does the `N`-th letter followed by `0`. The arbiter then takes the
reply for a pass: on a position where black has no move, the reply `h0` is accepted, recorded as
the move `h0`, and the turn goes to white, exactly as for `pass`. -/
theorem str2move_cell_name_yields_pass :
    str2move 8 "h0" = (-1, "h0", none) ∧
    (∀ N : Nat, 1 ≤ N → N ≤ 26 →
      str2move N (String.mk [Char.ofNat (96 + N), '0']) =
        (-1, String.mk [Char.ofNat (96 + N), '0'], none)) ∧
    passGame8.send_req_get_resp (some "h0") =
      some { passGame8 with Moves := ["h0"], Board := { passBoard8 with Turn := 1 } } ∧
    passGame8.send_req_get_resp (some "pass") =
      some { passGame8 with Moves := ["pass"], Board := { passBoard8 with Turn := 1 } } := by
  refine ⟨by decide, fun N h1 h2 => ?_, by decide, by decide⟩
  have hc : IsLetter (Char.ofNat (96 + N)) = true ∧ (Char.ofNat (96 + N)).toNat = 96 + N := by
    interval_cases N <;> exact ⟨by decide, by decide⟩
  have h := str2move_cell N (Char.ofNat (96 + N)) hc.1 0 (by norm_num)
  have hd : natDigits 0 = ['0'] := by decide
  rw [hd, hc.2] at h
  rw [h]
  have e : ((0 : Nat) : Int) - 1 = -1 := by norm_num
  have e2 : (-1 : Int) * N + (((96 + N : Nat) : Int) - 97) = -1 := by push_cast; ring
  rw [e, e2]
  rfl

/-- C14. When the reply parses to a legal move on a well-formed position (board of even size
`N ≥ 4`), the move is applied and recorded; if the resulting board is game over the state
becomes `BlackWin`, `WhiteWin` or `Draw` as the number of set bits of black is greater than,
smaller than or equal to that of white, and the detail is the two counts in decimal with `/`
between them (`CountBlack` and `CountWhite` are these numbers of set bits); if the board is not
game over the state is left as it was, so it stays `Playing`. -/
theorem arbiter_scores_finished_game (N : Nat) (hN : 4 ≤ N) (hev : N % 2 = 0) (g : Game)
    (hW : g.Board.WF N) (msg : String) (pos : Int) (mv : String)
    (hs : str2move g.Board.Boardlen msg = (pos, mv, none))
    (hl : g.Board.IsLegalMove pos = some true) :
    ∃ b' over, g.Board.MoveUpdate pos = some b' ∧ b'.IsGameOver = some over ∧
      b'.CountBlack = countBits b'.black ∧ b'.CountWhite = countBits b'.white ∧
      g.send_req_get_resp (some msg) =
        some { Moves := g.Moves ++ [mv], Board := b',
               State := if over then
                   { s := if countBits b'.black > countBits b'.white then GameStateCode.BlackWin
                          else if countBits b'.black = countBits b'.white then GameStateCode.Draw
                          else GameStateCode.WhiteWin,
                     m := Itoa (countBits b'.black) ++ "/" ++ Itoa (countBits b'.white) }
                 else g.State } ∧
      (over = false → g.State.s = GameStateCode.Playing →
        ∃ g', g.send_req_get_resp (some msg) = some g' ∧ g'.State.s = GameStateCode.Playing) := by
  obtain ⟨b', hm, hW'⟩ := legal_move_wf g.Board N hW hN hev pos hl
  obtain ⟨⟨over, ho⟩, cb, cw⟩ := wf_over_counts b' N hW' hN hev
  have hstep := step_legal g msg pos mv b' over hs hl hm ho
  rw [cb, cw] at hstep
  refine ⟨b', over, hm, ho, cb, cw, hstep, fun h1 h2 => ⟨_, hstep, ?_⟩⟩
  rw [h1]
  exact h2

theorem arbiter_scores_finished_game_witness :
    (4 ≤ 8 ∧ 8 % 2 = 0 ∧ endGame8.Board.WF 8 ∧
      str2move endGame8.Board.Boardlen "c1" = (2, "c1", none) ∧
      endGame8.Board.IsLegalMove 2 = some true) ∧
    ∃ b' over, endGame8.Board.MoveUpdate 2 = some b' ∧ b'.IsGameOver = some over ∧
      b'.CountBlack = countBits b'.black ∧ b'.CountWhite = countBits b'.white ∧
      endGame8.send_req_get_resp (some "c1") =
        some { Moves := endGame8.Moves ++ ["c1"], Board := b',
               State := if over then
                   { s := if countBits b'.black > countBits b'.white then GameStateCode.BlackWin
                          else if countBits b'.black = countBits b'.white then GameStateCode.Draw
                          else GameStateCode.WhiteWin,
                     m := Itoa (countBits b'.black) ++ "/" ++ Itoa (countBits b'.white) }
                 else endGame8.State } ∧
      (over = false → endGame8.State.s = GameStateCode.Playing →
        ∃ g', endGame8.send_req_get_resp (some "c1") = some g' ∧
          g'.State.s = GameStateCode.Playing) :=
  ⟨⟨by decide, by decide, wf_of_check (by decide) (by decide) (by decide) (by decide),
      by decide, by decide⟩,
    arbiter_scores_finished_game 8 (by decide) (by decide) endGame8
      (wf_of_check (by decide) (by decide) (by decide) (by decide)) "c1" 2 "c1"
      (by decide) (by decide)⟩

/-- C15. `gamestate2str` returns, for each of the ten state codes: `playing`; the state name, one
space and the detail for `BlackWin`, `WhiteWin`, `Draw`; the state name, one space and the detail
in double quotes for the two illegal-move codes; the bare state name for the timeout and
disconnected codes. The table lookup never fails, and distinct codes have distinct names. -/
theorem gamestate2str_encodes_state (g : Game) :
    gamestate2str g = some (match g.State.s with
      | GameStateCode.Playing => "playing"
      | GameStateCode.BlackWin => "black win" ++ " " ++ g.State.m
      | GameStateCode.WhiteWin => "white win" ++ " " ++ g.State.m
      | GameStateCode.Draw => "draw" ++ " " ++ g.State.m
      | GameStateCode.BlackIllegalMove => "black illegal move" ++ " \"" ++ g.State.m ++ "\""
      | GameStateCode.WhiteIllegalMove => "white illegal move" ++ " \"" ++ g.State.m ++ "\""
      | GameStateCode.BlackTimeout => "black timeout"
      | GameStateCode.WhiteTimeout => "white timeout"
      | GameStateCode.BlackDisconnected => "black disconnected"
      | GameStateCode.WhiteDisconnected => "white disconnected") ∧
    (∀ c1 c2 : GameStateCode, msg_list.get? c1.toNat = msg_list.get? c2.toNat → c1 = c2) ∧
    (∀ c : GameStateCode, ∃ name, msg_list.get? c.toNat = some name) := by
  refine ⟨?_, ?_, ?_⟩
  · unfold gamestate2str
    cases hs : g.State.s <;> simp [msg_list, GameStateCode.toNat]
  · intro c1 c2
    cases c1 <;> cases c2 <;> simp [msg_list, GameStateCode.toNat]
  · intro c
    cases c <;> simp [msg_list, GameStateCode.toNat]

/-- C16. On a read failure, whether the deadline passed or the connection failed otherwise, the
arbiter step sets the state code to `BlackTimeout` when black is to move and `WhiteTimeout` when
white is; detail, board and moves are unchanged. No step assigns a disconnected code: the state
code after a step is the one before it or one of the timeout, illegal-move, win and draw codes,
so a game started by `mk_game` never reaches `BlackDisconnected` or `WhiteDisconnected`. -/
theorem read_failure_sets_timeout :
    (∀ (g : Game) (r : ReadResult), r = ReadResult.timeout ∨ r = ReadResult.ioError →
      g.send_req_get_resp_read r =
        some { Moves := g.Moves, Board := g.Board,
               State := { s := if g.Board.IsBlackTurn then GameStateCode.BlackTimeout
                               else GameStateCode.WhiteTimeout,
                          m := g.State.m } }) ∧
    (∀ (g : Game) (r : ReadResult) (g' : Game), g.send_req_get_resp_read r = some g' →
      g'.State.s = g.State.s ∨
        g'.State.s ∈ [GameStateCode.BlackTimeout, GameStateCode.WhiteTimeout,
          GameStateCode.BlackIllegalMove, GameStateCode.WhiteIllegalMove,
          GameStateCode.BlackWin, GameStateCode.WhiteWin, GameStateCode.Draw]) ∧
    (∀ (b : Board) (plays : List ReadResult) (g' : Game),
      do_game_loop plays (mk_game b) = some g' →
      g'.State.s ≠ GameStateCode.BlackDisconnected ∧
        g'.State.s ≠ GameStateCode.WhiteDisconnected) ∧
    initialGame8.send_req_get_resp_read ReadResult.timeout =
      some { initialGame8 with State := { s := GameStateCode.BlackTimeout, m := "" } } ∧
    ({ initialGame8 with Board := { initialBoard8 with Turn := 1 } } : Game).send_req_get_resp_read
        ReadResult.ioError =
      some { initialGame8 with Board := { initialBoard8 with Turn := 1 },
                               State := { s := GameStateCode.WhiteTimeout, m := "" } } := by
  refine ⟨fun g r h => step_read_failure g r h, fun g r g' h => step_read_codes g r g' h,
    fun b plays g' h => ?_, by decide, by decide⟩
  have hc := loop_codes plays (mk_game b) g' h
  have h0 : (mk_game b).State.s = GameStateCode.Playing := rfl
  rw [h0] at hc
  rcases hc with hc | hc
  · rw [hc]
    exact ⟨by decide, by decide⟩
  · simp only [List.mem_cons, List.mem_singleton, List.not_mem_nil, or_false] at hc
    rcases hc with hc | hc | hc | hc | hc | hc | hc <;> rw [hc] <;> exact ⟨by decide, by decide⟩

/-- C17, the part that fails. The reply line `e4` (with its newline) is not valid JSON, so
`json.Unmarshal` stores nothing; the game ends in `BlackIllegalMove` and the detail is the empty
string, not the raw line. -/
theorem malformed_reply_detail_is_not_raw_line :
    ∃ g', initialGame8.send_req_get_resp_read (ReadResult.line "e4\n" Unmarshal.syntaxError) =
        some g' ∧
      g'.State = { s := GameStateCode.BlackIllegalMove, m := "" } ∧ g'.State.m ≠ "e4\n" :=
  ⟨_, rfl, rfl, by decide⟩

/-- C17 as amended. When the reply read during play is not valid JSON, or its decoded `Message`
is not a move that `str2move` parses, the game ends in `BlackIllegalMove` or `WhiteIllegalMove`
according to the side to move, the detail is the decoded `Message` (the empty string when the
line is not valid JSON), nothing is appended to the moves and the board is unchanged. -/
theorem malformed_reply_ends_in_illegal_move (g : Game) (raw : String) (u : Unmarshal)
    (h : u = Unmarshal.syntaxError ∨
      (str2move g.Board.Boardlen (json2msg u).Message).2.2 ≠ none) :
    g.send_req_get_resp_read (ReadResult.line raw u) =
      some { Moves := g.Moves, Board := g.Board,
             State := { s := if g.Board.IsBlackTurn then GameStateCode.BlackIllegalMove
                             else GameStateCode.WhiteIllegalMove,
                        m := (json2msg u).Message } } ∧
    (u = Unmarshal.syntaxError → (json2msg u).Message = "") := by
  refine ⟨?_, fun hu => by rw [hu]; rfl⟩
  have h2 : (str2move g.Board.Boardlen (json2msg u).Message).2.2 ≠ none := by
    rcases h with rfl | h
    · show (str2move g.Board.Boardlen "").2.2 ≠ none
      rw [str2move_empty]
      exact fun hc => Option.noConfusion hc
    · exact h
  exact step_unparsed g _ h2

theorem malformed_reply_ends_in_illegal_move_witness :
    (Unmarshal.ok { Message := "zz" } = Unmarshal.syntaxError ∨
      (str2move initialGame8.Board.Boardlen
        (json2msg (Unmarshal.ok { Message := "zz" })).Message).2.2 ≠ none) ∧
    initialGame8.send_req_get_resp_read
        (ReadResult.line "zz" (Unmarshal.ok { Message := "zz" })) =
      some { Moves := initialGame8.Moves, Board := initialGame8.Board,
             State := { s := if initialGame8.Board.IsBlackTurn then GameStateCode.BlackIllegalMove
                             else GameStateCode.WhiteIllegalMove,
                        m := (json2msg (Unmarshal.ok { Message := "zz" })).Message } } ∧
    (Unmarshal.ok { Message := "zz" } = Unmarshal.syntaxError →
      (json2msg (Unmarshal.ok { Message := "zz" })).Message = "") :=
  ⟨Or.inr (by decide),
    malformed_reply_ends_in_illegal_move initialGame8 "zz" (Unmarshal.ok { Message := "zz" })
      (Or.inr (by decide))⟩

/-- C18, the part that fails. When the first reply after `RESULT` is a line that is not valid
JSON and the second reply is `RESULTOK`, the session does not end in `login`: `json.Unmarshal`
returns an error on the first line and `send_result` logs the session out at once and removes it
from the lobby; the second reply is never read. -/
theorem send_result_logs_out_on_invalid_json :
    replyBare = ReadResult.line "e4\n" Unmarshal.syntaxError ∧
    replyResultOK.kind = ReplyKind.ok ∧
    send_result userA endGame8 [userA, userB]
        (fun i => if i = 0 then replyBare else replyResultOK) =
      some ({ userA with State := UserState.logout }, [userB]) :=
  ⟨rfl, by decide, by decide⟩

/-- C18 as amended. The result phase as a function of the reads made after `RESULT` is sent: if
the first read is `RESULTOK` (in any letter case), or the first read decodes without error to
another message and the second read is `RESULTOK`, the session ends in `login` and the lobby
keeps the same userids; in every other case (a read fails, a line makes `json.Unmarshal` return
an error, among them lines that are not valid JSON, or the first two reads both decode to other
messages) the session ends in `logout` and its userid is removed from the lobby. The loop never
needs a third read. -/
theorem send_result_by_reply_kinds (u : User) (g : Game) (l : Lobby)
    (reads : Nat → ReadResult) :
    send_result u g l reads =
      some (if (reads 0).kind = ReplyKind.ok ∨
          ((reads 0).kind = ReplyKind.other ∧ (reads 1).kind = ReplyKind.ok) then
        ({ u with State := UserState.login }, l.store { u with State := UserState.login })
      else ({ u with State := UserState.logout }, l.delete u.Userid)) ∧
    (∀ fuel, send_result_loop u l reads (fuel + 2) 0 0 = send_result u g l reads) ∧
    (l.store { u with State := UserState.login }).map (fun w => w.Userid) =
      l.map (fun w => w.Userid) ∧
    u.Userid ∉ (l.delete u.Userid).map (fun w => w.Userid) ∧
    (∀ v ∈ l.store { u with State := UserState.login },
      v.Userid = u.Userid → v.State = UserState.login) ∧
    (ReadResult.line "" (Unmarshal.ok { Message := "resultok" })).kind = ReplyKind.ok ∧
    (ReadResult.line "" (Unmarshal.ok { Message := "ResultOK" })).kind = ReplyKind.ok ∧
    (ReadResult.line "" (Unmarshal.ok { Message := "e4" })).kind = ReplyKind.other ∧
    (ReadResult.line "" Unmarshal.syntaxError).kind = ReplyKind.fail ∧
    (ReadResult.line "" (Unmarshal.typeError { Message := "RESULTOK" })).kind = ReplyKind.fail ∧
    ReadResult.timeout.kind = ReplyKind.fail ∧ ReadResult.ioError.kind = ReplyKind.fail := by
  refine ⟨send_result_spec u g l reads, fun fuel => ?_, store_ids l _, (delete_ids l _).1, ?_,
    by decide, by decide, by decide, by decide, by decide, by decide, by decide⟩
  · rw [send_result_spec, loop_spec]
  · intro v hv hid
    unfold Lobby.store at hv
    obtain ⟨w, _, rfl⟩ := List.mem_map.1 hv
    by_cases hw : w.Userid = u.Userid
    · have : (if w.Userid = ({ u with State := UserState.login } : User).Userid
          then ({ u with State := UserState.login } : User) else w) =
          { u with State := UserState.login } := if_pos hw
      rw [this]
    · have e : (if w.Userid = ({ u with State := UserState.login } : User).Userid
          then ({ u with State := UserState.login } : User) else w) = w := if_neg hw
      rw [e] at hid
      exact absurd hid hw

/-- C19, where it fails. Black lets its first read time out, so the game ends in `BlackTimeout`;
in the result phase black answers `RESULTOK` and its session returns to `login` and stays in the
lobby. -/
theorem offender_returns_to_login :
    ∃ g u0 u1 l, do_game userA userB [userA, userB] 8 [ReadResult.timeout]
        (fun _ => replyResultOK) (fun _ => replyResultOK) = some (g, u0, u1, l) ∧
      g.State.s = GameStateCode.BlackTimeout ∧ u0.Userid = userA.Userid ∧
      u0.State = UserState.login ∧ u0.Userid ∈ l.map (fun w => w.Userid) :=
  ⟨{ initialGame8 with State := { s := GameStateCode.BlackTimeout, m := "" } },
    { userA with State := UserState.login }, { userB with State := UserState.login },
    [{ userA with State := UserState.login }, { userB with State := UserState.login }],
    by decide, rfl, rfl, rfl, by decide⟩

/-- C19 as amended. Whatever state ends the game, in particular a timeout or an illegal move of
the player itself, each player goes through the same result phase: its session ends in `login`
if its first read is `RESULTOK`, or decodes to another message and the second read is
`RESULTOK`, and in `logout` otherwise; a session that ends in `logout` is not in the lobby any
more, and one that ends in `login`, black or white, is still there if it was and the other
player has another userid. -/
theorem players_end_by_result_phase (u0 u1 : User) (l : Lobby) (N : Nat)
    (plays : List ReadResult) (res0 res1 : Nat → ReadResult) (g : Game) (u0' u1' : User)
    (l' : Lobby) (h : do_game u0 u1 l N plays res0 res1 = some (g, u0', u1', l')) :
    u0'.State = (if (res0 0).kind = ReplyKind.ok ∨
        ((res0 0).kind = ReplyKind.other ∧ (res0 1).kind = ReplyKind.ok)
      then UserState.login else UserState.logout) ∧
    u1'.State = (if (res1 0).kind = ReplyKind.ok ∨
        ((res1 0).kind = ReplyKind.other ∧ (res1 1).kind = ReplyKind.ok)
      then UserState.login else UserState.logout) ∧
    (u0'.State = UserState.logout → u0.Userid ∉ l'.map (fun w => w.Userid)) ∧
    (u1'.State = UserState.logout → u1.Userid ∉ l'.map (fun w => w.Userid)) ∧
    (u0'.State = UserState.login → u0.Userid ≠ u1.Userid →
      u0.Userid ∈ l.map (fun w => w.Userid) → u0.Userid ∈ l'.map (fun w => w.Userid)) ∧
    (u1'.State = UserState.login → u0.Userid ≠ u1.Userid →
      u1.Userid ∈ l.map (fun w => w.Userid) → u1.Userid ∈ l'.map (fun w => w.Userid)) := by
  obtain ⟨_, b, l1, _, _, h0, h1⟩ := do_game_results u0 u1 l N plays res0 res1 g u0' u1' l' h
  obtain ⟨_, a2, a3, a4, _⟩ := send_result_lobby u0 g l res0 u0' l1 h0
  obtain ⟨_, b2, b3, b4, _⟩ := send_result_lobby u1 g l1 res1 u1' l' h1
  have s0 := send_result_spec u0 g l res0
  have s1 := send_result_spec u1 g l1 res1
  rw [h0] at s0
  rw [h1] at s1
  refine ⟨?_, ?_, fun hs hc => a3 hs (b2 _ hc), b3, fun hs hne hin => ?_, fun hs hne hin => ?_⟩
  · split at s0
    · cases s0
      rw [if_pos (by assumption)]
    · cases s0
      rw [if_neg (by assumption)]
  · split at s1
    · cases s1
      rw [if_pos (by assumption)]
    · cases s1
      rw [if_neg (by assumption)]
  · rw [← a4 hs] at hin
    split at s1
    · cases s1
      rw [store_ids]
      exact hin
    · cases s1
      show u0.Userid ∈ (l1.delete u1.Userid).map fun w => w.Userid
      unfold Lobby.delete
      obtain ⟨w, hw, e⟩ := List.mem_map.1 hin
      refine List.mem_map.2 ⟨w, List.mem_filter.2 ⟨hw, ?_⟩, e⟩
      simp only [ne_eq, decide_not, Bool.not_eq_true', decide_eq_false_iff_not]
      rw [e]
      exact hne
  · rw [b4 hs]
    split at s0
    · cases s0
      rw [store_ids]
      exact hin
    · cases s0
      show u1.Userid ∈ (l.delete u0.Userid).map fun w => w.Userid
      unfold Lobby.delete
      obtain ⟨w, hw, e⟩ := List.mem_map.1 hin
      refine List.mem_map.2 ⟨w, List.mem_filter.2 ⟨hw, ?_⟩, e⟩
      simp only [ne_eq, decide_not, Bool.not_eq_true', decide_eq_false_iff_not]
      rw [e]
      exact fun h => hne h.symm

theorem players_end_by_result_phase_witness :
    do_game userA userB [userA, userB] 8
        [ReadResult.line "" (Unmarshal.ok { Message := "f5" }), ReadResult.timeout]
        (fun _ => replyBare) (fun _ => replyResultOK) =
      some ({ gameAfterF5 with State := { s := GameStateCode.WhiteTimeout, m := "" } },
        { userA with State := UserState.logout }, { userB with State := UserState.login },
        [{ userB with State := UserState.login }]) ∧
    ({ userA with State := UserState.logout } : User).State =
      (if replyBare.kind = ReplyKind.ok ∨
          (replyBare.kind = ReplyKind.other ∧ replyBare.kind = ReplyKind.ok)
        then UserState.login else UserState.logout) ∧
    ({ userB with State := UserState.login } : User).State =
      (if replyResultOK.kind = ReplyKind.ok ∨
          (replyResultOK.kind = ReplyKind.other ∧ replyResultOK.kind = ReplyKind.ok)
        then UserState.login else UserState.logout) ∧
    (({ userA with State := UserState.logout } : User).State = UserState.logout →
      userA.Userid ∉ [({ userB with State := UserState.login } : User)].map
        (fun w => w.Userid)) ∧
    (({ userB with State := UserState.login } : User).State = UserState.logout →
      userB.Userid ∉ [({ userB with State := UserState.login } : User)].map
        (fun w => w.Userid)) ∧
    (({ userA with State := UserState.logout } : User).State = UserState.login →
      userA.Userid ≠ userB.Userid →
      userA.Userid ∈ [userA, userB].map (fun w => w.Userid) →
      userA.Userid ∈ [({ userB with State := UserState.login } : User)].map
        (fun w => w.Userid)) ∧
    (({ userB with State := UserState.login } : User).State = UserState.login →
      userA.Userid ≠ userB.Userid →
      userB.Userid ∈ [userA, userB].map (fun w => w.Userid) →
      userB.Userid ∈ [({ userB with State := UserState.login } : User)].map
        (fun w => w.Userid)) :=
  ⟨by decide,
    players_end_by_result_phase userA userB [userA, userB] 8
      [ReadResult.line "" (Unmarshal.ok { Message := "f5" }), ReadResult.timeout]
      (fun _ => replyBare) (fun _ => replyResultOK)
      { gameAfterF5 with State := { s := GameStateCode.WhiteTimeout, m := "" } }
      { userA with State := UserState.logout } { userB with State := UserState.login }
      [{ userB with State := UserState.login }] (by decide)⟩

/-- C20. One turn of the pairing loop on a lobby whose sessions have distinct userids, with `k`
sessions in state `ready`, for every outcome of the sort (a permutation in ascending order of
`Chaperone_time`) and of the shuffle (a permutation). If `k ≤ 1` no game is started and the only
change is the scan's (`login` goes to `chaperone`), so no ready session changes state. If
`k ≥ 2` is even, every ready session is set to `playing` and occurs exactly once among the
players of the games started. If `k ≥ 3` is odd, one ready session `v` stays `ready`; it has
the largest `Chaperone_time` of the `k`, it is the only session left in state `ready`, it plays
in no game, and each of the others is set to `playing` and occurs exactly once among the
players; so a ready session with a ready time smaller than another one's is always paired. -/
theorem pairing_tick_pairs_ready_sessions (sort shuffle : List User → List User)
    (hsort : ∀ rs, (sort rs).Perm rs ∧
      (sort rs).Pairwise (fun a b => a.Chaperone_time ≤ b.Chaperone_time))
    (hshuf : ∀ rs, (shuffle rs).Perm rs) (l : Lobby)
    (hnd : (l.map fun u => u.Userid).Nodup) :
    ((l.filter fun u => u.State = UserState.ready).length ≤ 1 →
      (pairing_tick sort shuffle l).2.2 = [] ∧
      (pairing_tick sort shuffle l).1 = (l.map fun u =>
        if u.State = UserState.login then { u with State := UserState.chaperone } else u) ∧
      ∀ u ∈ l, u.State = UserState.ready → u ∈ (pairing_tick sort shuffle l).1) ∧
    (2 ≤ (l.filter fun u => u.State = UserState.ready).length →
      (l.filter fun u => u.State = UserState.ready).length % 2 = 0 →
      (∀ p ∈ game_players (pairing_tick sort shuffle l).2.2, p.State = UserState.playing) ∧
      ∀ u ∈ l.filter fun u => u.State = UserState.ready,
        { u with State := UserState.playing } ∈ (pairing_tick sort shuffle l).1 ∧
        ((game_players (pairing_tick sort shuffle l).2.2).map fun u => u.Userid).count u.Userid
          = 1) ∧
    (3 ≤ (l.filter fun u => u.State = UserState.ready).length →
      (l.filter fun u => u.State = UserState.ready).length % 2 = 1 →
      (∀ p ∈ game_players (pairing_tick sort shuffle l).2.2, p.State = UserState.playing) ∧
      ∃ v ∈ l.filter fun u => u.State = UserState.ready,
        (∀ u ∈ l.filter fun u => u.State = UserState.ready,
          u.Chaperone_time ≤ v.Chaperone_time) ∧
        v ∈ (pairing_tick sort shuffle l).1 ∧
        (∀ w ∈ (pairing_tick sort shuffle l).1, w.State = UserState.ready → w = v) ∧
        ((game_players (pairing_tick sort shuffle l).2.2).map fun u => u.Userid).count v.Userid
          = 0 ∧
        (∀ u ∈ l.filter fun u => u.State = UserState.ready, u ≠ v →
          { u with State := UserState.playing } ∈ (pairing_tick sort shuffle l).1 ∧
          ((game_players (pairing_tick sort shuffle l).2.2).map fun u => u.Userid).count
            u.Userid = 1) ∧
        ∀ u ∈ l.filter fun u => u.State = UserState.ready,
          (∃ w ∈ l.filter fun u => u.State = UserState.ready,
            u.Chaperone_time < w.Chaperone_time) →
          { u with State := UserState.playing } ∈ (pairing_tick sort shuffle l).1 ∧
          ((game_players (pairing_tick sort shuffle l).2.2).map fun u => u.Userid).count
            u.Userid = 1) := by
  refine ⟨fun hk => ?_, fun h1 h2 => tick_even_spec sort shuffle hshuf l hnd h1 h2,
    fun h1 h2 => ?_⟩
  · rw [tick_small sort shuffle l hk]
    refine ⟨rfl, rfl, fun u hu hs => List.mem_map.2 ⟨u, hu, ?_⟩⟩
    rw [if_neg]
    rw [hs]
    exact fun h => UserState.noConfusion h
  · obtain ⟨hp, v, hv, hmax, hin, honly, hc0, hrest⟩ :=
      tick_odd_spec sort shuffle hsort hshuf l hnd h1 h2
    refine ⟨hp, v, hv, hmax, hin, honly, hc0, hrest, fun u hu hw => hrest u hu ?_⟩
    rintro rfl
    obtain ⟨w, hw1, hw2⟩ := hw
    exact absurd (hmax w hw1) (not_le.2 hw2)

theorem pairing_tick_pairs_ready_sessions_witness :
    ((∀ rs, (sortByTime rs).Perm rs ∧
        (sortByTime rs).Pairwise (fun a b => a.Chaperone_time ≤ b.Chaperone_time)) ∧
      (∀ rs : List User, rs.reverse.Perm rs) ∧ (lobby4.map fun u => u.Userid).Nodup) ∧
    (3 ≤ (lobby4.filter fun u => u.State = UserState.ready).length →
      (lobby4.filter fun u => u.State = UserState.ready).length % 2 = 1 →
      (∀ p ∈ game_players (pairing_tick sortByTime List.reverse lobby4).2.2,
        p.State = UserState.playing) ∧
      ∃ v ∈ lobby4.filter fun u => u.State = UserState.ready,
        (∀ u ∈ lobby4.filter fun u => u.State = UserState.ready,
          u.Chaperone_time ≤ v.Chaperone_time) ∧
        v ∈ (pairing_tick sortByTime List.reverse lobby4).1 ∧
        (∀ w ∈ (pairing_tick sortByTime List.reverse lobby4).1,
          w.State = UserState.ready → w = v) ∧
        ((game_players (pairing_tick sortByTime List.reverse lobby4).2.2).map
          fun u => u.Userid).count v.Userid = 0 ∧
        (∀ u ∈ lobby4.filter fun u => u.State = UserState.ready, u ≠ v →
          { u with State := UserState.playing } ∈
            (pairing_tick sortByTime List.reverse lobby4).1 ∧
          ((game_players (pairing_tick sortByTime List.reverse lobby4).2.2).map
            fun u => u.Userid).count u.Userid = 1) ∧
        ∀ u ∈ lobby4.filter fun u => u.State = UserState.ready,
          (∃ w ∈ lobby4.filter fun u => u.State = UserState.ready,
            u.Chaperone_time < w.Chaperone_time) →
          { u with State := UserState.playing } ∈
            (pairing_tick sortByTime List.reverse lobby4).1 ∧
          ((game_players (pairing_tick sortByTime List.reverse lobby4).2.2).map
            fun u => u.Userid).count u.Userid = 1) ∧
    pairing_tick sortByTime List.reverse lobby4 =
      ([userC, { userA with State := UserState.playing },
        { userB with State := UserState.playing },
        { Userid := "dave", Chaperone_time := 0, State := UserState.chaperone }],
       [{ Userid := "dave", Chaperone_time := 0, State := UserState.chaperone }],
       [({ userB with State := UserState.playing }, { userA with State := UserState.playing })]) :=
  ⟨⟨sortByTime_spec, fun rs => List.reverse_perm rs, by decide⟩,
    (pairing_tick_pairs_ready_sessions sortByTime List.reverse sortByTime_spec
      (fun rs => List.reverse_perm rs) lobby4 (by decide)).2.2,
    by decide⟩

end Reversi


namespace Reversi

/-! ## Main theorems: login, views, ratings, line reader, termination, shifts -/

/-- C25, the part that fails. On the 8-board `MakeInitialSFEN` returns `27wb6bw27 b`: the last
numeral is `27 = 8*(8/2-1) + (8/2-1)`, not `36 = 8*(8/2) + 8/2`. -/
theorem makeInitialSFEN_last_run_is_not_half_board :
    MakeInitialSFEN 8 = "27wb6bw27 b" ∧
    MakeInitialSFEN 8 ≠
      Itoa ((8 * (8 / 2 - 1) + (8 / 2 - 1) : Nat) : Int) ++ "wb" ++ Itoa ((8 - 2 : Nat) : Int) ++
        "bw" ++ Itoa ((8 * (8 / 2) + 8 / 2 : Nat) : Int) ++ " b" := by
  decide

/-- C25 as amended. For every even `N ≥ 4` (with `N*N` in the range of an `int`), the string
`MakeInitialSFEN N` is the decimal numeral of `N*(N/2-1) + (N/2-1)`, then `wb`, then the
decimal numeral of `N-2`, then `bw`, then again the decimal numeral of `N*(N/2-1) + (N/2-1)`,
then ` b`; the cells that the string describes are `N*N` in number. -/
theorem makeInitialSFEN_is_three_runs (N : Nat) (hN : 4 ≤ N) (hev : N % 2 = 0)
    (h63 : N * N < 2 ^ 63) :
    MakeInitialSFEN N =
      Itoa ((N * (N / 2 - 1) + (N / 2 - 1) : Nat) : Int) ++ "wb" ++ Itoa ((N - 2 : Nat) : Int) ++
        "bw" ++ Itoa ((N * (N / 2 - 1) + (N / 2 - 1) : Nat) : Int) ++ " b" ∧
    (N * (N / 2 - 1) + (N / 2 - 1)) + 2 + (N - 2) + 2 + (N * (N / 2 - 1) + (N / 2 - 1)) =
      N * N := by
  obtain ⟨k, _, h1, _, h3, h4⟩ := init_arith N hN hev
  refine ⟨?_, by rw [h3]; exact h4⟩
  apply String.ext
  rw [MakeInitialSFEN_data N hN hev h63]
  simp only [Itoa, ItoaChars_natCast, String.data_append, Nat.mul_comm N (N / 2 - 1)]
  simp

theorem makeInitialSFEN_is_three_runs_witness :
    (4 ≤ 8 ∧ 8 % 2 = 0 ∧ 8 * 8 < 2 ^ 63) ∧
    MakeInitialSFEN 8 =
      Itoa ((8 * (8 / 2 - 1) + (8 / 2 - 1) : Nat) : Int) ++ "wb" ++ Itoa ((8 - 2 : Nat) : Int) ++
        "bw" ++ Itoa ((8 * (8 / 2 - 1) + (8 / 2 - 1) : Nat) : Int) ++ " b" ∧
    (8 * (8 / 2 - 1) + (8 / 2 - 1)) + 2 + (8 - 2) + 2 + (8 * (8 / 2 - 1) + (8 / 2 - 1)) =
      8 * 8 :=
  ⟨⟨by decide, by decide, by decide⟩,
    makeInitialSFEN_is_three_runs 8 (by decide) (by decide) (by decide)⟩

/-- A board with the dimensions of `NewBoard 10`: 100 cells in two words, 28 unused bits. -/
theorem board10_sized :
    ({ emptyBoard8 with Boardlen := 10, bitmapsz := 2, unused_bits := 28 } : Board).Sized 10 :=
  ⟨rfl, rfl, rfl⟩

/-- C30. `SHL` and `SHR` are logical shifts of the `N*N`-bit vector whose bit `p` is bit
`63 - p % 64` of word `p / 64`: on a board with the dimensions of size `N`, for a bitmap `a`
with no bit at a position `≥ N*N` and `1 ≤ n < N*N`, both calls return, and for every `p < N*N`
bit `p` of `SHL(a, n)` is bit `p + n` of `a` when `p + n < N*N` and `0` otherwise, and bit `p` of
`SHR(a, n)` is bit `p - n` of `a` when `n ≤ p` and `0` otherwise. -/
theorem shifts_are_logical (b : Board) (N : Nat) (hS : b.Sized N) (a : BitMap)
    (ha : Clean (N * N) b.bitmapsz a) (n : Nat) (hn1 : 1 ≤ n) (hn : n < N * N) :
    ∃ l r, b.SHL a n = some l ∧ b.SHR a n = some r ∧
      ∀ p, p < N * N →
        bitAt l p = (if p + n < N * N then bitAt a (p + n) else false) ∧
        bitAt r p = (if n ≤ p then bitAt a (p - n) else false) := by
  obtain ⟨hsz, hu, hM, hle⟩ := sized_facts b N hS (by omega)
  have hn64 : n / 64 ≤ b.bitmapsz := by omega
  obtain ⟨l, hl, _, hlb⟩ := SHL_spec b ha.1 n hn1 hn64 hsz hu (fun q hq => ha.2 q (by omega))
  obtain ⟨r, hr, _, hrb⟩ := SHR_on_board b ha.1 n hn1 hn64 hsz hu
  refine ⟨l, r, hl, hr, fun p hp => ⟨?_, ?_⟩⟩
  · rw [hlb]
    by_cases h : p + n < N * N
    · rw [if_pos h]
    · rw [if_neg h]
      exact ha.2 _ (by omega)
  · rw [hrb p (by omega)]
    by_cases h : n ≤ p
    · simp [h]
    · simp [h]

theorem shifts_are_logical_witness :
    (({ emptyBoard8 with Boardlen := 10, bitmapsz := 2, unused_bits := 28 } : Board).Sized 10 ∧
      Clean (10 * 10) 2 [1, 0x8000000000000000] ∧ 1 ≤ 1 ∧ 1 < 10 * 10) ∧
    ∃ l r, ({ emptyBoard8 with Boardlen := 10, bitmapsz := 2, unused_bits := 28 } : Board).SHL
          [1, 0x8000000000000000] 1 = some l ∧
      ({ emptyBoard8 with Boardlen := 10, bitmapsz := 2, unused_bits := 28 } : Board).SHR
          [1, 0x8000000000000000] 1 = some r ∧
      ∀ p, p < 10 * 10 →
        bitAt l p = (if p + 1 < 10 * 10 then bitAt [1, 0x8000000000000000] (p + 1) else false) ∧
        bitAt r p = (if 1 ≤ p then bitAt [1, 0x8000000000000000] (p - 1) else false) :=
  ⟨⟨board10_sized, clean_of_check rfl (by decide) (by decide), by decide, by decide⟩,
    shifts_are_logical _ 10 board10_sized [1, 0x8000000000000000]
      (clean_of_check rfl (by decide) (by decide)) 1 (by decide) (by decide)⟩

/-- C22. For every game on a well-formed board whose `Turn` is `0` or `1`, both views are
built without failure: the `Moves` of the `PLAY` view are the last recorded move, if there is
one (the empty list when no move is recorded), the `Moves` of the `RESULT` view are the whole
recorded list in order, and both views carry `Position = ToSFEN()`, `Turn` equal to `black`
exactly when the board's turn is black (`white` otherwise) and `State = gamestate2str`. -/
theorem play_view_has_last_move_result_view_all (g : Game) (N : Nat) (hN : 1 ≤ N)
    (hW : g.Board.WF N) (hT : g.Board.Turn = 0 ∨ g.Board.Turn = 1) :
    ∃ sfen st play result, g.Board.ToSFEN = some sfen ∧ gamestate2str g = some st ∧
      game2play g = some play ∧ game2result g = some result ∧
      play.Moves = g.Moves.getLast?.toList ∧
      (g.Moves = [] → play.Moves = []) ∧
      (∀ init last, g.Moves = init ++ [last] → play.Moves = [last]) ∧
      result.Moves = g.Moves ∧
      play.Position = sfen ∧ result.Position = sfen ∧
      play.State = st ∧ result.State = st ∧
      play.Turn = (if g.Board.IsBlackTurn then "black" else "white") ∧
      result.Turn = (if g.Board.IsBlackTurn then "black" else "white") ∧
      (play.Turn = "black" ↔ g.Board.IsBlackTurn = true) ∧
      (result.Turn = "black" ↔ g.Board.IsBlackTurn = true) ∧
      play.Message = "PLAY" ∧ result.Message = "RESULT" := by
  obtain ⟨sfen, hs⟩ := ToSFEN_returns g.Board N hN hW
  obtain ⟨st, hst⟩ := gamestate2str_isSome g
  obtain ⟨hp, hr⟩ := views_eq g sfen st hT hs hst
  have ht : (if g.Board.IsBlackTurn then "black" else "white") = "black" ↔
      g.Board.IsBlackTurn = true := by
    cases g.Board.IsBlackTurn
    · exact ⟨fun h => absurd h (by decide), fun h => absurd h (by decide)⟩
    · exact ⟨fun _ => rfl, fun _ => rfl⟩
  refine ⟨sfen, st, _, _, hs, hst, hp, hr, rfl, fun h => ?_, fun init last h => ?_, rfl, rfl,
    rfl, rfl, rfl, rfl, rfl, ht, ht, rfl, rfl⟩
  · show g.Moves.getLast?.toList = []
    rw [h]
    rfl
  · show g.Moves.getLast?.toList = [last]
    rw [h, List.getLast?_append]
    rfl

theorem play_view_has_last_move_result_view_all_witness :
    (1 ≤ 8 ∧ gameAfterF5.Board.WF 8 ∧ (gameAfterF5.Board.Turn = 0 ∨ gameAfterF5.Board.Turn = 1)) ∧
    initialBoard8.MoveUpdate 37 = some gameAfterF5.Board ∧
    game2play gameAfterF5 = some (GameMessage.mk "PLAY" "white" "27wb6bbb26 w" ["f5"] 8
      "playing") ∧
    ∃ sfen st play result, gameAfterF5.Board.ToSFEN = some sfen ∧
      gamestate2str gameAfterF5 = some st ∧
      game2play gameAfterF5 = some play ∧ game2result gameAfterF5 = some result ∧
      play.Moves = gameAfterF5.Moves.getLast?.toList ∧
      (gameAfterF5.Moves = [] → play.Moves = []) ∧
      (∀ init last, gameAfterF5.Moves = init ++ [last] → play.Moves = [last]) ∧
      result.Moves = gameAfterF5.Moves ∧
      play.Position = sfen ∧ result.Position = sfen ∧
      play.State = st ∧ result.State = st ∧
      play.Turn = (if gameAfterF5.Board.IsBlackTurn then "black" else "white") ∧
      result.Turn = (if gameAfterF5.Board.IsBlackTurn then "black" else "white") ∧
      (play.Turn = "black" ↔ gameAfterF5.Board.IsBlackTurn = true) ∧
      (result.Turn = "black" ↔ gameAfterF5.Board.IsBlackTurn = true) ∧
      play.Message = "PLAY" ∧ result.Message = "RESULT" :=
  ⟨⟨by decide, wf_of_check (by decide) (by decide) (by decide) (by decide), Or.inr rfl⟩,
    by decide, by decide,
    play_view_has_last_move_result_view_all gameAfterF5 8 (by decide)
      (wf_of_check (by decide) (by decide) (by decide) (by decide)) (Or.inr rfl)⟩

/-- C21. The function `do_login_add_to_lobby` on a line that decodes without error to `l`.
If `l.Message` is `LOGIN` and userid and password are not empty: when the userid is a key of the
lobby, the error `duplicate login` is returned and the lobby is unchanged (so the session
registered under the userid is still the one registered); when it is not, no error is
returned, the lobby is the old one with the new session added, the lobby maps the userid to the
new session, which is in state `login`, and every other userid to what it mapped to before.
If the message is not `LOGIN`, or the userid or the password is empty, the error
`failed login attempt` is returned and the lobby is unchanged. A read error or a line that does
not decode leaves the lobby unchanged as well. -/
theorem login_is_atomic_on_duplicates (raw : String) (l : Login) (lb : Lobby) :
    (l.Message = "LOGIN" → l.Userid ≠ "" → l.Password ≠ "" →
      (∀ v, lb.lookup l.Userid = some v →
        do_login_add_to_lobby (LoginRead.line raw (LoginUnmarshal.ok l)) lb =
          ({ Userid := l.Userid, Chaperone_time := 0, State := UserState.logout },
            some "duplicate login", lb)) ∧
      (lb.lookup l.Userid = none →
        do_login_add_to_lobby (LoginRead.line raw (LoginUnmarshal.ok l)) lb =
          ({ Userid := l.Userid, Chaperone_time := 0, State := UserState.login }, none,
            lb ++ [{ Userid := l.Userid, Chaperone_time := 0, State := UserState.login }]) ∧
        Lobby.lookup
            (lb ++ [{ Userid := l.Userid, Chaperone_time := 0, State := UserState.login }])
            l.Userid =
          some { Userid := l.Userid, Chaperone_time := 0, State := UserState.login } ∧
        ∀ userid, userid ≠ l.Userid →
          Lobby.lookup
              (lb ++ [{ Userid := l.Userid, Chaperone_time := 0, State := UserState.login }])
              userid = lb.lookup userid)) ∧
    ((l.Message ≠ "LOGIN" ∨ l.Userid = "" ∨ l.Password = "") →
      do_login_add_to_lobby (LoginRead.line raw (LoginUnmarshal.ok l)) lb =
        (create_user "", some "failed login attempt", lb)) ∧
    (∀ r, (do_login_add_to_lobby r lb).2.1 ≠ none → (do_login_add_to_lobby r lb).2.2 = lb) ∧
    do_login_add_to_lobby
        (LoginRead.line "" (LoginUnmarshal.ok
          { Message := "LOGIN", Userid := "alice", Password := "pw" })) [userA, userB] =
      ({ Userid := "alice", Chaperone_time := 0, State := UserState.logout },
        some "duplicate login", [userA, userB]) ∧
    do_login_add_to_lobby
        (LoginRead.line "" (LoginUnmarshal.ok
          { Message := "LOGIN", Userid := "carol", Password := "pw" })) [userA, userB] =
      ({ Userid := "carol", Chaperone_time := 0, State := UserState.login }, none,
        [userA, userB, { Userid := "carol", Chaperone_time := 0, State := UserState.login }]) ∧
    do_login_add_to_lobby
        (LoginRead.line "" (LoginUnmarshal.ok
          { Message := "login", Userid := "carol", Password := "pw" })) [userA, userB] =
      (create_user "", some "failed login attempt", [userA, userB]) := by
  refine ⟨fun hm hu hp => ⟨fun v hv => ?_, fun hn => ⟨?_, ?_, fun userid hne => ?_⟩⟩,
    login_rejected_form raw l lb, fun r hr => ?_, by decide, by decide, by decide⟩
  · rw [login_accepted_form raw l lb hm hu hp, hv]
    rfl
  · rw [login_accepted_form raw l lb hm hu hp, hn]
    unfold Lobby.assign
    rw [delete_absent lb _ hn]
    rfl
  · rw [lookup_append, hn]
    exact if_pos rfl
  · rw [lookup_append]
    cases h : lb.lookup userid with
    | some v => rfl
    | none => exact if_neg (fun e => hne e.symm)
  · unfold do_login_add_to_lobby at hr ⊢
    cases r with
    | timeout => rfl
    | ioError e => rfl
    | line raw2 um =>
      simp only at hr ⊢
      split
      · rfl
      · split
        · rfl
        · split
          · rfl
          · rename_i h1 h2 h3
            simp only [if_neg h1, if_neg h2, if_neg h3] at hr
            exact absurd rfl hr

/-- C26 (the code fails here). On a board with at most 26 columns `str2move` reads every cell
name that `Position2Str` prints back to the position it came from. With 27 columns it does
not: position 26 is printed `aa1` and read back as position 0, position 269 is printed `aa10`
and read back as position 243. -/
theorem cell_name_round_trip_fails_beyond_26_columns :
    (∀ (b : Board) (N p : Nat), 1 ≤ N → N ≤ 26 → b.Boardlen = N → p < N * N →
      ∃ s, b.Position2Str (p : Int) = some s ∧ str2move N s = ((p : Int), s, none)) ∧
    board27.Boardlen = 27 ∧
    board27.Position2Str 26 = some "aa1" ∧ str2move 27 "aa1" = (0, "aa1", none) ∧
    board27.Position2Str 269 = some "aa10" ∧ str2move 27 "aa10" = (243, "aa10", none) ∧
    board27.Position2Str 25 = some "z1" ∧ str2move 27 "z1" = (25, "z1", none) :=
  ⟨fun b N p h1 h2 hb hp => position_round_trip_small b N p h1 h2 hb hp, rfl, by decide,
    by decide, by decide, by decide, by decide, by decide⟩

/-- C23, the part that fails. Black (rating 1900) beats white (rating 1500): the exponent is
the winner's rating minus the loser's, so `W = 1/(10^1 + 1) = 1/11` and black's new rating is
`1900 + 32/11`; with the exponent `(R_l - R_w)/400` it would be `1900 + 32 * (10/11)`. -/
theorem rating_gain_uses_winner_minus_loser :
    (update_ratings (fun x y : ℝ => x ^ y) GameStateCode.BlackWin
        { rating := 1900, n_win := 0, n_loss := 0, n_draw := 0 }
        { rating := 1500, n_win := 0, n_loss := 0, n_draw := 0 }).1.rating =
      1900 + 32 * (1 / 11) ∧
    (1900 : ℝ) + 32 * (1 / 11) ≠
      1900 + 32 * (1 / ((10 : ℝ) ^ (((1500 : ℝ) - 1900) / 400) + 1)) := by
  constructor
  · have e : ((1900 : ℝ) - 1500) / 400 = 1 := by norm_num
    simp only [update_ratings, if_true, e, Real.rpow_one]
    norm_num
  · have e : ((1500 : ℝ) - 1900) / 400 = -1 := by norm_num
    rw [e, Real.rpow_neg_one]
    norm_num

/-- C23 as amended. Rating update on a decided game, over the real numbers, with `K = 32` and
`W = 1 / (10^((R_w - R_l)/400) + 1)`, where `R_w` is the winner's and `R_l` the loser's rating
before the update: the winner's rating becomes `R_w + K*W` and the loser's `R_l - K*W`, the
winner's win counter and the loser's loss counter increase by 1 (the counters being below the
largest `int`), the other counters are unchanged and the sum of the two ratings is unchanged.
In any other state nothing changes. -/
theorem rating_update_on_decided_game (u0 u1 : UserStatistics ℝ)
    (hc : ∀ n ∈ [u0.n_win, u0.n_loss, u1.n_win, u1.n_loss], -(2 ^ 63) ≤ n ∧ n < 2 ^ 63 - 1) :
    ((update_ratings (fun x y : ℝ => x ^ y) GameStateCode.BlackWin u0 u1).1.rating =
        u0.rating + 32 * (1 / ((10 : ℝ) ^ ((u0.rating - u1.rating) / 400) + 1)) ∧
      (update_ratings (fun x y : ℝ => x ^ y) GameStateCode.BlackWin u0 u1).2.rating =
        u1.rating - 32 * (1 / ((10 : ℝ) ^ ((u0.rating - u1.rating) / 400) + 1)) ∧
      (update_ratings (fun x y : ℝ => x ^ y) GameStateCode.BlackWin u0 u1).1.n_win =
        u0.n_win + 1 ∧
      (update_ratings (fun x y : ℝ => x ^ y) GameStateCode.BlackWin u0 u1).2.n_loss =
        u1.n_loss + 1 ∧
      (update_ratings (fun x y : ℝ => x ^ y) GameStateCode.BlackWin u0 u1).1.n_loss =
        u0.n_loss ∧
      (update_ratings (fun x y : ℝ => x ^ y) GameStateCode.BlackWin u0 u1).2.n_win =
        u1.n_win ∧
      (update_ratings (fun x y : ℝ => x ^ y) GameStateCode.BlackWin u0 u1).1.rating +
        (update_ratings (fun x y : ℝ => x ^ y) GameStateCode.BlackWin u0 u1).2.rating =
        u0.rating + u1.rating) ∧
    ((update_ratings (fun x y : ℝ => x ^ y) GameStateCode.WhiteWin u0 u1).2.rating =
        u1.rating + 32 * (1 / ((10 : ℝ) ^ ((u1.rating - u0.rating) / 400) + 1)) ∧
      (update_ratings (fun x y : ℝ => x ^ y) GameStateCode.WhiteWin u0 u1).1.rating =
        u0.rating - 32 * (1 / ((10 : ℝ) ^ ((u1.rating - u0.rating) / 400) + 1)) ∧
      (update_ratings (fun x y : ℝ => x ^ y) GameStateCode.WhiteWin u0 u1).2.n_win =
        u1.n_win + 1 ∧
      (update_ratings (fun x y : ℝ => x ^ y) GameStateCode.WhiteWin u0 u1).1.n_loss =
        u0.n_loss + 1 ∧
      (update_ratings (fun x y : ℝ => x ^ y) GameStateCode.WhiteWin u0 u1).2.n_loss =
        u1.n_loss ∧
      (update_ratings (fun x y : ℝ => x ^ y) GameStateCode.WhiteWin u0 u1).1.n_win =
        u0.n_win ∧
      (update_ratings (fun x y : ℝ => x ^ y) GameStateCode.WhiteWin u0 u1).1.rating +
        (update_ratings (fun x y : ℝ => x ^ y) GameStateCode.WhiteWin u0 u1).2.rating =
        u0.rating + u1.rating) ∧
    (∀ s, s ≠ GameStateCode.BlackWin → s ≠ GameStateCode.WhiteWin →
      update_ratings (fun x y : ℝ => x ^ y) s u0 u1 = (u0, u1)) := by
  have w : ∀ n ∈ [u0.n_win, u0.n_loss, u1.n_win, u1.n_loss], wrap64 (n + 1) = n + 1 := by
    intro n hn
    obtain ⟨h1, h2⟩ := hc n hn
    have a1 : -(2 ^ 63) ≤ n + 1 := by omega
    have a2 : n + 1 < 2 ^ 63 := by omega
    rw [wrap64_of_range _ a1 a2]
  have w1 := w u0.n_win (by simp)
  have w2 := w u0.n_loss (by simp)
  have w3 := w u1.n_win (by simp)
  have w4 := w u1.n_loss (by simp)
  refine ⟨⟨rfl, rfl, w1, w4, rfl, rfl, ?_⟩, ⟨rfl, rfl, w3, w2, rfl, rfl, ?_⟩,
    fun s h1 h2 => ?_⟩
  · show u0.rating + 32 * (1 / ((10 : ℝ) ^ ((u0.rating - u1.rating) / 400) + 1)) +
      (u1.rating - 32 * (1 / ((10 : ℝ) ^ ((u0.rating - u1.rating) / 400) + 1))) = _
    ring
  · show u0.rating - 32 * (1 / ((10 : ℝ) ^ ((u1.rating - u0.rating) / 400) + 1)) +
      (u1.rating + 32 * (1 / ((10 : ℝ) ^ ((u1.rating - u0.rating) / 400) + 1))) = _
    ring
  · unfold update_ratings
    rw [if_neg h1, if_neg h2]

theorem rating_update_on_decided_game_witness :
    (∀ n ∈ [(0 : Int), 0, 0, 0], -(2 ^ 63) ≤ n ∧ n < 2 ^ 63 - 1) ∧
    (update_ratings (fun x y : ℝ => x ^ y) GameStateCode.BlackWin
        { rating := 1900, n_win := 0, n_loss := 0, n_draw := 0 }
        { rating := 1500, n_win := 0, n_loss := 0, n_draw := 0 }).1.rating +
      (update_ratings (fun x y : ℝ => x ^ y) GameStateCode.BlackWin
        { rating := 1900, n_win := 0, n_loss := 0, n_draw := 0 }
        { rating := 1500, n_win := 0, n_loss := 0, n_draw := 0 }).2.rating =
      1900 + 1500 ∧
    (update_ratings (fun x y : ℝ => x ^ y) GameStateCode.BlackWin
        { rating := 1900, n_win := 0, n_loss := 0, n_draw := 0 }
        { rating := 1500, n_win := 0, n_loss := 0, n_draw := 0 }).1.n_win = 0 + 1 :=
  ⟨by decide,
    (rating_update_on_decided_game { rating := 1900, n_win := 0, n_loss := 0, n_draw := 0 }
      { rating := 1500, n_win := 0, n_loss := 0, n_draw := 0 } (by decide)).1.2.2.2.2.2.2,
    (rating_update_on_decided_game { rating := 1900, n_win := 0, n_loss := 0, n_draw := 0 }
      { rating := 1500, n_win := 0, n_loss := 0, n_draw := 0 } (by decide)).1.2.2.1⟩

/-- C27. The two directional scans agree. On a well-formed position of a board of even size
`N ≥ 4`, for every empty cell `p` of the board, `LegalMovesBits(mover, opponent)` and `flip(p)`
return, and bit `p` of the former is set exactly when the latter is not the all-zero bitmap.
Hence every legal move other than a pass flips at least one disc, and a position of the board
whose flip set is empty is never accepted as legal. -/
theorem legal_bit_iff_flip_set_nonempty (b : Board) (N : Nat) (hW : b.WF N) (hN : 4 ≤ N)
    (hev : N % 2 = 0) :
    (∀ p : Int, 0 ≤ p → p < N * N → bitZ b.black p = false → bitZ b.white p = false →
      ∃ legals flips, b.LegalMovesBits b.mover b.opponent = some legals ∧
        b.flip p = some flips ∧ (bitZ legals p = true ↔ b.is_zero flips = false)) ∧
    (∀ p : Int, p ≠ -1 → b.IsLegalMove p = some true →
      ∃ flips, b.flip p = some flips ∧ b.is_zero flips = false) ∧
    (∀ (p : Int) (flips : BitMap), 0 ≤ p → p < N * N → b.flip p = some flips →
      b.is_zero flips = true → b.IsLegalMove p = some false) := by
  refine ⟨fun p h0 h1 hb hw => legal_iff_flips b N hW hN hev p ⟨h0, h1⟩ ⟨hb, hw⟩,
    fun p hne hl => legal_move_flips b N hW hN hev p hne hl, fun p flips h0 h1 hf hz => ?_⟩
  obtain ⟨legals, hl, _, _⟩ := moverLegals_spec b N hW hN hev
  obtain ⟨_, h4⟩ := IsLegalMove_spec b N hW hN hev hl
  cases hv : bitZ legals p with
  | false => rw [h4 p h0 h1, hv]
  | true =>
    have hne : p ≠ -1 := by omega
    obtain ⟨fl, hf2, hz2⟩ := legal_move_flips b N hW hN hev p hne (by rw [h4 p h0 h1, hv])
    rw [hf] at hf2
    cases hf2
    rw [hz] at hz2
    exact Bool.noConfusion hz2

theorem legal_bit_iff_flip_set_nonempty_witness :
    (initialBoard8.WF 8 ∧ 4 ≤ 8 ∧ 8 % 2 = 0) ∧
    (∃ legals flips, initialBoard8.LegalMovesBits initialBoard8.mover initialBoard8.opponent =
        some legals ∧
      initialBoard8.flip 37 = some flips ∧
      (bitZ legals 37 = true ↔ initialBoard8.is_zero flips = false)) ∧
    initialBoard8.flip 37 = some [0x0000000008000000] ∧
    initialBoard8.flip 0 = some [0] ∧ initialBoard8.IsLegalMove 0 = some false :=
  ⟨⟨wf_of_check (by decide) (by decide) (by decide) (by decide), by decide, by decide⟩,
    (legal_bit_iff_flip_set_nonempty initialBoard8 8
      (wf_of_check (by decide) (by decide) (by decide) (by decide)) (by decide)
      (by decide)).1 37 (by decide) (by decide) (by decide) (by decide),
    by decide, by decide, by decide⟩

/-- C29. The requests of one game, for every sequence of reads, on a board on which black is to
move at the start (as on the initial board): request number `i` (from 0) goes to `u0` when `i`
is even and to `u1` when it is odd, the game is in state `Playing` when it is sent, and black
is to move exactly at the even requests. So when the game ends in `BlackTimeout` or
`BlackIllegalMove` the player asked last is `u0` (black), and when it ends in `WhiteTimeout`
or `WhiteIllegalMove` it is `u1` (white). The recorded moves only grow from one request to the
next and up to the end of the game, so they are in the order of the requests. The game at the
end is the one that the loop of `do_game` returns. -/
theorem requests_alternate_with_turn (u0 u1 : User) (plays : List ReadResult) (b : Board)
    (hT : b.Turn = 0) :
    (∀ i u gi, (do_game_requests u0 u1 plays (mk_game b)).1.get? i = some (u, gi) →
      u = (if i % 2 = 0 then u0 else u1) ∧ (gi.Board.IsBlackTurn = true ↔ i % 2 = 0) ∧
        gi.State.s = GameStateCode.Playing) ∧
    (do_game_requests u0 u1 plays (mk_game b)).1.Pairwise
      (fun a b => a.2.Moves <+: b.2.Moves) ∧
    (do_game_requests u0 u1 plays (mk_game b)).2 = do_game_loop plays (mk_game b) ∧
    ∀ g2, (do_game_requests u0 u1 plays (mk_game b)).2 = some g2 →
      (∀ e ∈ (do_game_requests u0 u1 plays (mk_game b)).1, e.2.Moves <+: g2.Moves) ∧
      (g2.State.s ∈ [GameStateCode.BlackTimeout, GameStateCode.BlackIllegalMove] →
        ∃ gl, (do_game_requests u0 u1 plays (mk_game b)).1.getLast? = some (u0, gl) ∧
          gl.Board.IsBlackTurn = true) ∧
      (g2.State.s ∈ [GameStateCode.WhiteTimeout, GameStateCode.WhiteIllegalMove] →
        ∃ gl, (do_game_requests u0 u1 plays (mk_game b)).1.getLast? = some (u1, gl) ∧
          gl.Board.IsBlackTurn = false) := by
  obtain ⟨hA, _, hC, hD⟩ := requests_ok u0 u1 plays.length plays (mk_game b) (le_refl _) rfl hT
  have hfin := requests_final u0 u1 plays.length plays (mk_game b) (le_refl _)
  generalize do_game_requests u0 u1 plays (mk_game b) = res at hA hC hD hfin
  refine ⟨fun i u gi h => ?_, hC, hfin, fun g2 h => ?_⟩
  · obtain ⟨a1, a2, a3⟩ := hA i u gi h
    refine ⟨a1, ?_, a3⟩
    by_cases hi : i % 2 = 0
    · rw [if_pos hi] at a2
      exact ⟨fun _ => hi, fun _ => (isBlackTurn_of_turn _).1 a2⟩
    · rw [if_neg hi] at a2
      refine ⟨fun hb => ?_, fun hc => absurd hc hi⟩
      rw [(isBlackTurn_of_turn _).2 a2] at hb
      exact Bool.noConfusion hb
  · obtain ⟨_, d2, d3, d4⟩ := hD g2 h
    refine ⟨d2, fun hc => ?_, fun hc => ?_⟩
    · have hl := d3 hc
      have hne : res.1 ≠ [] := by
        intro e
        rw [e] at hl
        simp at hl
      obtain ⟨⟨u, gl⟩, e1, e2⟩ := requests_last res.1 hne
      obtain ⟨a1, a2, _⟩ := hA _ u gl e2
      have hpar : (res.1.length - 1) % 2 = 0 := by omega
      rw [if_pos hpar] at a1 a2
      exact ⟨gl, by rw [e1, a1], (isBlackTurn_of_turn _).1 a2⟩
    · obtain ⟨hl, hne⟩ := d4 hc
      obtain ⟨⟨u, gl⟩, e1, e2⟩ := requests_last res.1 hne
      obtain ⟨a1, a2, _⟩ := hA _ u gl e2
      have hlen := List.length_pos.2 hne
      have hpar : ¬ (res.1.length - 1) % 2 = 0 := by omega
      rw [if_neg hpar] at a1 a2
      exact ⟨gl, by rw [e1, a1], (isBlackTurn_of_turn _).2 a2⟩

theorem requests_alternate_with_turn_witness :
    initialBoard8.Turn = 0 ∧
    do_game_requests userA userB
        [ReadResult.line "f5" (Unmarshal.ok { Message := "f5" }), ReadResult.timeout]
        (mk_game initialBoard8) =
      ([(userA, initialGame8), (userB, gameAfterF5)],
        some { gameAfterF5 with State := { s := GameStateCode.WhiteTimeout, m := "" } }) ∧
    (do_game_requests userA userB
        [ReadResult.line "f5" (Unmarshal.ok { Message := "f5" }), ReadResult.timeout]
        (mk_game initialBoard8)).2 =
      do_game_loop [ReadResult.line "f5" (Unmarshal.ok { Message := "f5" }), ReadResult.timeout]
        (mk_game initialBoard8) :=
  ⟨rfl, by decide,
    (requests_alternate_with_turn userA userB
      [ReadResult.line "f5" (Unmarshal.ok { Message := "f5" }), ReadResult.timeout]
      initialBoard8 rfl).2.2.1⟩

/-- C28. A game of legal replies always ends. For every even `N ≥ 4` (with `N*N` in the range
of an `int`) the initial board is built and is not game over. On every board reached from it
by legal replies that is not game over, if the pass is legal then after `MoveUpdate(-1)` the
board is still not game over, the pass is not legal for the new side to move, and that side
has a legal move on the board. For every sequence of reads that are legal replies, the loop of
`do_game` returns; if there are `2*(N*N - 4)` reads or more the game it returns is over, and a
game that is over after legal replies is in state `BlackWin`, `WhiteWin` or `Draw`. -/
theorem game_of_legal_replies_ends (N : Nat) (hN : 4 ≤ N) (hev : N % 2 = 0)
    (h63 : N * N < 2 ^ 63) :
    ∃ b0, NewBoardSFEN N (MakeInitialSFEN N) = some b0 ∧ b0.IsGameOver = some false ∧
      (∀ b, Reachable b0 b → b.IsGameOver = some false → b.IsLegalMove (-1) = some true →
        ∃ b2, b.MoveUpdate (-1) = some b2 ∧ b2.IsGameOver = some false ∧
          b2.IsLegalMove (-1) = some false ∧
          ∃ p : Int, 0 ≤ p ∧ p < N * N ∧ b2.IsLegalMove p = some true) ∧
      ∀ plays, LegalReplies plays (mk_game b0) →
        ∃ g2, do_game_loop plays (mk_game b0) = some g2 ∧
          (2 * (N * N - 4) ≤ plays.length → g2.is_gameover = true) ∧
          (g2.is_gameover = true → g2.State.s ∈
            [GameStateCode.BlackWin, GameStateCode.WhiteWin, GameStateCode.Draw]) := by
  obtain ⟨b0, h1, hW, hT, ho, hc⟩ := initial_not_over N hN hev h63
  refine ⟨b0, h1, ho, fun b hr hob hp => ?_, fun plays hL => ?_⟩
  · obtain ⟨hWb, hTb⟩ := reachable_wf b0 b N hN hev hW (Or.inl hT) hr
    obtain ⟨p1, p2, p3, p4⟩ := pass_then_move b N hWb hN hev hTb hob hp
    exact ⟨_, p1, p2, p3, p4⟩
  · obtain ⟨g2, h2, h3, h4⟩ :=
      loop_on_legal_replies N hN hev plays (mk_game b0) hW (Or.inl hT) rfl ho hL
    refine ⟨g2, h2, fun hlen => ?_, h4⟩
    cases hg : g2.is_gameover with
    | true => rfl
    | false =>
      exfalso
      have := h3 hg
      have hpot : potential N (mk_game b0).Board ≤ 2 * (N * N - 4) + 1 := by
        show potential N b0 ≤ _
        unfold potential
        rw [hc]
        split <;> omega
      omega

theorem game_of_legal_replies_ends_witness :
    (4 ≤ 8 ∧ 8 % 2 = 0 ∧ 8 * 8 < 2 ^ 63) ∧
    NewBoardSFEN 8 (MakeInitialSFEN 8) = some initialBoard8 ∧
    LegalReplies [ReadResult.line "f5" (Unmarshal.ok { Message := "f5" })]
      (mk_game initialBoard8) ∧
    ∃ b0, NewBoardSFEN 8 (MakeInitialSFEN 8) = some b0 ∧ b0.IsGameOver = some false ∧
      (∀ b, Reachable b0 b → b.IsGameOver = some false → b.IsLegalMove (-1) = some true →
        ∃ b2, b.MoveUpdate (-1) = some b2 ∧ b2.IsGameOver = some false ∧
          b2.IsLegalMove (-1) = some false ∧
          ∃ p : Int, 0 ≤ p ∧ p < 8 * 8 ∧ b2.IsLegalMove p = some true) ∧
      ∀ plays, LegalReplies plays (mk_game b0) →
        ∃ g2, do_game_loop plays (mk_game b0) = some g2 ∧
          (2 * (8 * 8 - 4) ≤ plays.length → g2.is_gameover = true) ∧
          (g2.is_gameover = true → g2.State.s ∈
            [GameStateCode.BlackWin, GameStateCode.WhiteWin, GameStateCode.Draw]) :=
  ⟨⟨by decide, by decide, by decide⟩, by decide,
    ⟨⟨"f5", "f5", rfl, by decide, by decide⟩, fun _ _ _ => trivial⟩,
    game_of_legal_replies_ends 8 (by decide) (by decide) (by decide)⟩

/-- C24. Line framing does not depend on how the connection delivers the bytes. Let the stream
be the records `recs`, each followed by the delimiter and holding no other delimiter, and then
the bytes `rest`; let the reads deliver it in pieces of any sizes (`sizes`), without error.
Starting from the empty buffer of any size `bufsz ≥ 1`, as many calls of `ReadBytesTO` as there
are records return, in order, exactly the records, each with its delimiter; the bytes after
the last record are still pending (buffered or still to come), the buffer is consistent and at
least as large as at the start. When the buffer is full (`off = bufsize`), `grow` doubles its
capacity and keeps the bytes; otherwise it leaves the buffer alone. (The stream is short
enough for the doubled size to be an `int`.) -/
theorem line_framing_ignores_chunking (delim bufsz : Nat) (hsz : 1 ≤ bufsz)
    (recs : List (List Nat)) (rest sizes : List Nat) (hrecs : ∀ r ∈ recs, delim ∉ r)
    (hb : 2 * ((recs.flatMap fun r => r ++ [delim]) ++ rest).length < 2 ^ 63) :
    (∃ bt2 c2,
      read_lines delim (((recs.flatMap fun r => r ++ [delim]) ++ rest).length + 1) recs.length
          (NewReaderTO bufsz)
          { data := (recs.flatMap fun r => r ++ [delim]) ++ rest, sizes := sizes } =
        some (recs.map (fun r => r ++ [delim]), bt2, c2) ∧
      bt2.OK ∧ bt2.buffered ++ c2.data = rest ∧ bufsz ≤ bt2.bufsize) ∧
    (∀ bt : BufferTO, bt.OK → bt.off = bt.bufsize → bt.bufsize * 2 < 2 ^ 63 →
      bt.grow = some { buf := bt.buf ++ List.replicate bt.bufsize 0, off := bt.off,
                       bufsize := bt.bufsize * 2 }) ∧
    (∀ bt : BufferTO, bt.off ≠ bt.bufsize → bt.grow = some bt) := by
  refine ⟨?_, fun bt hok hfull hlt => ?_, fun bt hne => ?_⟩
  · have hok : (NewReaderTO bufsz).OK := ⟨List.length_replicate _ _, Nat.zero_le _, hsz⟩
    exact read_lines_spec delim _ recs (NewReaderTO bufsz) _ rest hok
      (by simpa [NewReaderTO] using hb) hrecs rfl (Nat.lt_succ_self _)
  · obtain ⟨hlen, _, _⟩ := hok
    unfold BufferTO.grow
    rw [if_pos hfull, if_neg (by omega),
      copyBytes_fits _ _ (by rw [List.length_replicate]; omega)]
    simp only [List.drop_replicate, hlen]
    have e : bt.bufsize * 2 - bt.bufsize = bt.bufsize := by omega
    rw [e]
  · unfold BufferTO.grow
    rw [if_neg hne]

theorem line_framing_ignores_chunking_witness :
    (1 ≤ 2 ∧ (∀ r ∈ [[97, 98, 99], [100]], 10 ∉ r) ∧
      2 * (([[97, 98, 99], [100]].flatMap fun r => r ++ [10]) ++ [101]).length < 2 ^ 63) ∧
    read_lines 10 8 2 (NewReaderTO 2)
        { data := [97, 98, 99, 10, 100, 10, 101], sizes := [1, 5, 2] } =
      some ([[97, 98, 99, 10], [100, 10]], { buf := [100, 10, 99, 10], off := 0, bufsize := 4 },
        { data := [101], sizes := [] }) ∧
    read_lines 10 8 2 (NewReaderTO 1) { data := [97, 98, 99, 10, 100, 10, 101], sizes := [] } =
      some ([[97, 98, 99, 10], [100, 10]], { buf := [100, 10, 99, 10], off := 0, bufsize := 4 },
        { data := [101], sizes := [] }) ∧
    ∃ bt2 c2,
      read_lines 10 ((([[97, 98, 99], [100]].flatMap fun r => r ++ [10]) ++ [101]).length + 1)
          [[97, 98, 99], [100]].length (NewReaderTO 2)
          { data := ([[97, 98, 99], [100]].flatMap fun r => r ++ [10]) ++ [101],
            sizes := [1, 5, 2] } =
        some ([[97, 98, 99], [100]].map (fun r => r ++ [10]), bt2, c2) ∧
      bt2.OK ∧ bt2.buffered ++ c2.data = [101] ∧ 2 ≤ bt2.bufsize :=
  ⟨⟨by decide, by decide, by decide⟩, by decide, by decide,
    (line_framing_ignores_chunking 10 2 (by decide) [[97, 98, 99], [100]] [101] [1, 5, 2]
      (by decide) (by decide)).1⟩

end Reversi


namespace Reversi

/-! ## Main theorems: the tail of the last word -/

/-- C31 (the code fails here). On a board with the dimensions of size `N`, for a bitmap with no
bit at a position `≥ N*N` and `1 ≤ n < N*N`: `SHL(a, n)` has no bit at a position `≥ N*N`, and
neither has `SHR(a, n)` when `n` is not a multiple of 64 or the last word has no unused bit. But
when `n` is a multiple of 64, `SHR` returns right after moving the words, without masking the
last word: every bit of the result, in the tail too, is the bit `n` positions before it. On the
board of `NewBoard(10)` (100 cells, 28 unused bits), `SHR` of the bitmap with the single bit 63
by 64 has bit 127 set. -/
theorem shr_by_whole_words_leaves_tail_bits :
    (∀ (b : Board) (N : Nat) (a : BitMap) (n : Nat), b.Sized N → Clean (N * N) b.bitmapsz a →
      1 ≤ n → n < N * N → ∃ l, b.SHL a n = some l ∧ Clean (N * N) b.bitmapsz l) ∧
    (∀ (b : Board) (N : Nat) (a : BitMap) (n : Nat), b.Sized N → Clean (N * N) b.bitmapsz a →
      1 ≤ n → n < N * N → n % 64 ≠ 0 ∨ b.unused_bits = 0 →
      ∃ r, b.SHR a n = some r ∧ Clean (N * N) b.bitmapsz r) ∧
    (∀ (b : Board) (N : Nat) (a : BitMap) (n : Nat), b.Sized N → Clean (N * N) b.bitmapsz a →
      1 ≤ n → n < N * N → n % 64 = 0 →
      ∃ r, b.SHR a n = some r ∧
        ∀ p, bitAt r p = (decide (n ≤ p ∧ p < 64 * b.bitmapsz) && bitAt a (p - n))) ∧
    NewBoard 10 = some newBoard10 ∧ newBoard10.Sized 10 ∧ newBoard10.unused_bits = 28 ∧
    Clean (10 * 10) newBoard10.bitmapsz [1, 0] ∧ bitAt [1, 0] 63 = true ∧
    newBoard10.SHR [1, 0] 64 = some [0, 1] ∧ bitAt [0, 1] 127 = true ∧ 10 * 10 ≤ 127 ∧
    newBoard10.SHL [0, 1] 64 = some [1, 0] ∧
    newBoard10.SHR [1, 0] 1 = some [0, 0x8000000000000000] :=
  ⟨fun b N a n hS ha h1 h2 => SHL_clean b N hS a ha n h1 h2,
    fun b N a n hS ha h1 h2 hm => SHR_clean b N hS a ha n h1 h2 hm,
    fun b N a n hS ha h1 h2 hm => SHR_whole_words b N hS a ha n h1 h2 hm,
    by decide, ⟨rfl, rfl, rfl⟩, rfl, clean_of_check rfl (by decide) (by decide), by decide,
    by decide, by decide, by decide, by decide, by decide⟩

/-- C32, the part that fails. On the board of `NewBoard(10)`, and on the initial board that
`NewBoardSFEN` builds from it, position 100 is beyond the 100 cells and its bit is set in
`h_sentinel`, `v_sentinel` and `s_sentinel`: the builders start from words of ones and clear
the bits of the edge cells only. -/
theorem sentinel_tail_bits_are_set :
    NewBoard 10 = some newBoard10 ∧ 10 * 10 ≤ 100 ∧ 100 < 64 * newBoard10.bitmapsz ∧
    bitAt newBoard10.h_sentinel 100 = true ∧ bitAt newBoard10.v_sentinel 100 = true ∧
    bitAt newBoard10.s_sentinel 100 = true ∧
    NewBoardSFEN 10 (MakeInitialSFEN 10) =
      some { newBoard10 with discs := 4, black := [262656, 0], white := [524544, 0] } := by
  decide

/-- C32 as amended. For every `N ≥ 1`, `NewBoard(N)` returns a board, and that board and every
board that `NewBoardSFEN(N, s)` returns, for every string `s`, are built as `Board.Built` says:
`black` and `white` have every bit at a position `≥ N*N` equal to 0; `h_sentinel`,
`v_sentinel` and `s_sentinel` have every bit of the last word at a position `≥ N*N` equal to
1; for `p < N*N`, `h_sentinel` has bit `p` set exactly when the column of `p` is neither `0`
nor `N-1`, `v_sentinel` exactly when its row is neither `0` nor `N-1`; and `s_sentinel` is the
bitwise AND of the two. `NewBoardSFEN` returns on every string that `ToSFEN` writes for a
well-formed position (with `N*N` in the range of an `int`). -/
theorem built_boards_have_clean_discs_and_set_sentinel_tails (N : Nat) (hN : 1 ≤ N) :
    (∃ b, NewBoard N = some b ∧ b.Built N) ∧
    (∀ (s : String) (b : Board), NewBoardSFEN N s = some b → b.Built N) ∧
    (N * N < 2 ^ 63 → ∀ b1 : Board, b1.WF N →
      b1.discs = countBits b1.black + countBits b1.white →
      ∃ s b, b1.ToSFEN = some s ∧ NewBoardSFEN N s = some b ∧ b.Built N) := by
  refine ⟨NewBoard_built N hN, fun s b h => NewBoardSFEN_built N hN s b h,
    fun h63 b1 hW hd => ?_⟩
  obtain ⟨s, h1, h2⟩ := sfen_round_trip N hN h63 b1 hW hd
  exact ⟨s, _, h1, h2, NewBoardSFEN_built N hN s _ h2⟩

theorem built_boards_have_clean_discs_and_set_sentinel_tails_witness :
    1 ≤ 10 ∧ NewBoard 10 = some newBoard10 ∧
    NewBoardSFEN 10 "44wb8bw44 b" =
      some { newBoard10 with discs := 4, black := [262656, 0], white := [524544, 0] } ∧
    (∃ b, NewBoard 10 = some b ∧ b.Built 10) ∧
    (∀ (s : String) (b : Board), NewBoardSFEN 10 s = some b → b.Built 10) ∧
    (10 * 10 < 2 ^ 63 → ∀ b1 : Board, b1.WF 10 →
      b1.discs = countBits b1.black + countBits b1.white →
      ∃ s b, b1.ToSFEN = some s ∧ NewBoardSFEN 10 s = some b ∧ b.Built 10) :=
  ⟨by decide, by decide, by decide,
    built_boards_have_clean_discs_and_set_sentinel_tails 10 (by decide)⟩

end Reversi
